import Mathlib

/-!
# Binary integer automata and string relations of the ABC solver

A shallow embedding of `src/theory/BinaryIntAutomaton.cpp`: the carry-state
constructions `makeEquality` and `makeLessThan`, the boolean combinators, the
projection onto one variable, the trimming of leading zeros and the bridge
between semilinear sets and binary automata; and of
`src/solver/StringRelationGenerator.cpp`: the visitor that walks the terms of an
assertion, stores a `StringRelation` for the terms and registers the string
variables in the track maps of the components.

Conventions of the embedding.
* C++ `int` values are unbounded integers (`Int`); the inputs are assumed small
  enough that no machine overflow occurs.
* A transition label is a `Letter`, the list of the bits of the BDD indices
  `0, 1, ...`; a missing bit reads as `0`.
* A `std::map<int, T>` or a C array indexed by `int` is a total function from
  `Int` that is updated pointwise.
* The DFA kernel (MONA) is outside the repository.  It is modelled by
  automata over an arbitrary state type: the product has pairs as states, the
  projection has lists of states (subset construction).
* A term of the AST carries its identity (the address of the C++ object) as a
  number; the side tables of the extractor are keyed by it.
* A call that ends in `LOG(FATAL)`, or that dereferences a null pointer, has the
  result `none`.
-/

namespace Vlab
namespace Theory

/-! ## ArithmeticFormula -/

/-- The comparison kind of a formula, `ArithmeticFormula::Type`. -/
inductive FormulaType where
  | NONE | EQ | NOTEQ | GT | GE | LT | LE | INTERSECT | UNION
  deriving DecidableEq, Repr

/-- Modelled from the spec: `ArithmeticFormula` (its source file is missing) is
a comparison kind, an integer constant and an ordered mapping from variable
names to coefficients.  The formula stands for `Σ aᵢ·xᵢ + constant ⊙ 0`: the
constructions below start their carry at `constant`. -/
structure ArithmeticFormula where
  type : FormulaType
  constant : Int
  coeffs : List (String × Int)
  deriving DecidableEq, Repr

namespace ArithmeticFormula

/-- Modelled from the spec: the coefficients in the canonical variable order. -/
def getCoefficients (f : ArithmeticFormula) : List Int := f.coeffs.map Prod.snd

/-- Modelled from the spec: the variable names in the canonical order. -/
def getVariables (f : ArithmeticFormula) : List String := f.coeffs.map Prod.fst

/-- Modelled from the spec: the number of variables of the formula. -/
def getNumberOfVariables (f : ArithmeticFormula) : Nat := f.coeffs.length

/-- Modelled from the spec: the position of a variable in the canonical order. -/
def getVariableIndex (f : ArithmeticFormula) (name : String) : Nat :=
  f.getVariables.indexOf name

/-- Modelled from the spec: two formulas are variable-ordering compatible iff
their key sequences coincide. -/
def isVariableOrderingSame (f g : ArithmeticFormula) : Bool :=
  f.getVariables == g.getVariables

/-- The loop of `countOnes`: bit `i` of the mask selects coefficient `i`. -/
def countOnesAux : List Int → Nat → Int
  | [], _ => 0
  | c :: cs, n => (if n % 2 = 1 then c else 0) + countOnesAux cs (n / 2)

/-- Modelled from the spec: `count_ones(mask)` is `Σ coeffs[i] · bit_i(mask)`. -/
def countOnes (f : ArithmeticFormula) (n : Nat) : Int :=
  countOnesAux f.getCoefficients n

/-- The gcd of the constant and of all coefficients. -/
def gcdAll (f : ArithmeticFormula) : Nat :=
  f.getCoefficients.foldr (fun c g => Nat.gcd c.natAbs g) f.constant.natAbs

/-- The comparison of a kind, applied to the value of the left-hand side. -/
def holdsAt (t : FormulaType) (v : Int) : Bool :=
  match t with
  | .EQ => v == 0
  | .NOTEQ => v != 0
  | .GT => decide (0 < v)
  | .GE => decide (0 ≤ v)
  | .LT => decide (v < 0)
  | .LE => decide (v ≤ 0)
  | _ => true

/-- A formula without any non-zero coefficient whose constant fails the
comparison, such as `0 = c` with `c ≠ 0`. -/
def isInconsistent (f : ArithmeticFormula) : Bool :=
  f.getCoefficients.all (fun c => c == 0) && !(holdsAt f.type f.constant)

/-- Modelled from the spec: `simplify()` divides the constant and the
coefficients by their gcd and returns `false` when the result is inconsistent.
The C++ method changes the formula in place; here the changed formula is the
second component. -/
def simplify (f : ArithmeticFormula) : Bool × ArithmeticFormula :=
  let g : Int := (f.gcdAll : Int)
  let f1 : ArithmeticFormula :=
    if g = 0 then f
    else { f with constant := f.constant / g,
                  coeffs := f.coeffs.map (fun p => (p.1, p.2 / g)) }
  (!(isInconsistent f1), f1)

/-- Modelled from the spec: `negate()` produces the dual comparison kind
(EQ↔NOTEQ, LT↔GE, LE↔GT). -/
def negateOperation (f : ArithmeticFormula) : ArithmeticFormula :=
  { f with type :=
      match f.type with
      | .EQ => .NOTEQ
      | .NOTEQ => .EQ
      | .LT => .GE
      | .GE => .LT
      | .LE => .GT
      | .GT => .LE
      | t => t }

/-- Modelled from the spec: `multiply(k)` scales constant and coefficients and
flips the comparison direction when `k < 0`. -/
def multiply (f : ArithmeticFormula) (k : Int) : ArithmeticFormula :=
  { type :=
      if k < 0 then
        match f.type with
        | .LT => .GT
        | .GT => .LT
        | .LE => .GE
        | .GE => .LE
        | t => t
      else f.type
    constant := k * f.constant
    coeffs := f.coeffs.map (fun p => (p.1, k * p.2)) }

/-- Modelled from the spec: `resetCoefficients()` zeroes every coefficient. -/
def resetCoefficients (f : ArithmeticFormula) : ArithmeticFormula :=
  { f with coeffs := f.coeffs.map (fun p => (p.1, 0)) }

/-- The setter `setType`. -/
def setType (f : ArithmeticFormula) (t : FormulaType) : ArithmeticFormula :=
  { f with type := t }

/-- The setter `setConstant`. -/
def setConstant (f : ArithmeticFormula) (c : Int) : ArithmeticFormula :=
  { f with constant := c }

/-- The sum `Σ cᵢ·ρ(k + i)` over a list of coefficients. -/
def evalAux : List Int → Nat → (Nat → Int) → Int
  | [], _, _ => 0
  | c :: cs, k, rho => c * rho k + evalAux cs (k + 1) rho

/-- The value `Σ aᵢ·ρ(i) + constant` of the left-hand side under an assignment
of integers to the variable positions. -/
def evalAt (f : ArithmeticFormula) (rho : Nat → Int) : Int :=
  evalAux f.getCoefficients 0 rho + f.constant

/-- The assignment satisfies the formula. -/
def satisfiedBy (f : ArithmeticFormula) (rho : Nat → Int) : Prop :=
  holdsAt f.type (f.evalAt rho) = true

end ArithmeticFormula

/-! ## The DFA kernel -/

/-- A transition label: the bits of the BDD indices `0, 1, ...`. -/
abbrev Letter := List Bool

/-- The bit of BDD index `k` in a label. -/
def bitAt (a : Letter) (k : Nat) : Bool := a.getD k false

/-- A bit pattern of an exception: `some b` is the character `0` or `1`,
`none` is the character `X`. -/
abbrev Pattern := List (Option Bool)

/-- A label is covered by a bit pattern. -/
def matchesPattern (p : Pattern) (a : Letter) : Bool :=
  (List.range p.length).all fun k =>
    match p.getD k none with
    | none => true
    | some b => b == bitAt a k

/-- Modelled from the spec: the kernel's automaton.  `states` lists the `ns`
states in index order, `s` is the initial state, `f` the acceptance status and
`q` the transition function (the BDD rooted at `q[i]`). -/
structure DFA (σ : Type) where
  states : List σ
  s : σ
  f : σ → Bool
  q : σ → Letter → σ

namespace DFA

variable {σ τ : Type}

/-- The state reached from `p` after reading a word. -/
def run (a : DFA σ) (p : σ) (w : List Letter) : σ := w.foldl a.q p

/-- The automaton accepts the word. -/
def accepts (a : DFA σ) (w : List Letter) : Bool := a.f (a.run a.s w)

end DFA

/-- What `dfaAllocExceptions`, `dfaStoreException` and `dfaStoreState` record
for one state: the exceptions in the order stored, and the default target. -/
structure Row where
  exceptions : List (Int × Pattern)
  default : Int

/-- The successor a row prescribes for a label: the target of the first
exception that covers the label, else the default target. -/
def Row.next (r : Row) (a : Letter) : Int :=
  match r.exceptions.find? (fun e => matchesPattern e.2 a) with
  | some e => e.1
  | none => r.default

/-- Modelled from the spec: `dfaBuild(statuses)` turns the stored rows into an
automaton with initial state `0`; state `i` accepts iff `statuses[i]` is `+`
(here `true`). -/
def dfaBuild (rows : List Row) (statuses : Int → Bool) : DFA Int where
  states := (List.range rows.length).map Int.ofNat
  s := 0
  f := statuses
  q := fun i a =>
    if i < 0 then i
    else match rows.get? i.toNat with
      | some r => r.next a
      | none => i

/-- Modelled from the spec: `dfaNegation` swaps accepting and rejecting. -/
def dfaNegation {σ : Type} (a : DFA σ) : DFA σ :=
  { a with f := fun p => !(a.f p) }

/-- Modelled from the spec: `dfaProduct(a, b, combinator)`. -/
def dfaProduct {σ τ : Type} (a : DFA σ) (b : DFA τ) (op : Bool → Bool → Bool) :
    DFA (σ × τ) where
  states := a.states.product b.states
  s := (a.s, b.s)
  f := fun p => op (a.f p.1) (b.f p.2)
  q := fun p x => (a.q p.1 x, b.q p.2 x)

/-- The combinator `dfaAND`. -/
def dfaAND (x y : Bool) : Bool := x && y

/-- The combinator `dfaOR`. -/
def dfaOR (x y : Bool) : Bool := x || y

/-- A label with the bit of BDD index `i` replaced. -/
def setBit (a : Letter) (i : Nat) (b : Bool) : Letter :=
  (a ++ List.replicate (i + 1 - a.length) false).set i b

/-- Modelled from the spec: `dfaProject(a, i)` forgets the bit of BDD index `i`
(existential quantification) and determinizes by the subset construction. -/
def dfaProject {σ : Type} (a : DFA σ) (i : Nat) : DFA (List σ) where
  states := a.states.sublists
  s := [a.s]
  f := fun S => S.any a.f
  q := fun S x => S.flatMap fun p => [a.q p (setBit x i false), a.q p (setBit x i true)]

/-- Modelled from the spec: `dfaMinimize` returns an automaton with the same
language.  The embedding keeps the automaton as it is; every statement below is
about accepted words or about distinguishable states, which minimization
preserves. -/
def dfaMinimize {σ : Type} (a : DFA σ) : DFA σ := a

/-- Modelled from the spec: `dfaReplaceIndices(a, map)` renames BDD index `k` to
`map[k]`: the renamed automaton reads the old bit `k` at position `map[k]`. -/
def dfaReplaceIndices {σ : Type} (a : DFA σ) (map : List Nat) : DFA σ :=
  { a with q := fun p x => a.q p (map.map fun k => bitAt x k) }

/-- Modelled from the spec: `Automaton::getIndices(n)` is `[0, ..., n-1]`. -/
def getIndices (n : Nat) : List Nat := List.range n

/-- Modelled from the spec: `Automaton::binaryFormat(n, len)` writes the `len`
lowest bits of `n`, the lowest bit last (BDD indices are in the reverse order
of the coefficients). -/
def binaryFormat (n : Nat) (len : Nat) : Pattern :=
  (List.range len).map fun index => some (Nat.testBit n (len - 1 - index))

/-- Modelled from the spec: `Automaton::makePhi`, the one-state automaton that
accepts nothing. -/
def Automaton.makePhi : DFA Int := dfaBuild [⟨[], 0⟩] (fun _ => false)

/-! ## BinaryIntAutomaton -/

/-- The class `BinaryIntAutomaton`: a kernel automaton, the number of tracks
and the formula attached. -/
structure BinaryIntAutomaton (σ : Type) where
  dfa : DFA σ
  num_of_variables : Nat
  formula : ArithmeticFormula

namespace BinaryIntAutomaton

/-- The automaton accepts the word. -/
def accepts {σ : Type} (A : BinaryIntAutomaton σ) (w : List Letter) : Bool :=
  A.dfa.accepts w

/-- `BinaryIntAutomaton::makePhi`. -/
def makePhi (formula : ArithmeticFormula) : BinaryIntAutomaton Int :=
  { dfa := Automaton.makePhi
    num_of_variables := formula.getNumberOfVariables
    formula := formula }

/-- `struct StateIndices`: the state indices `i`, `ir` and the statuses `s`,
`sr` of the two flavours of a carry label (`r` marks the reflected one).
Status `0` is not seen yet, `1` is to be expanded, `2` is expanded. -/
structure StateIndices where
  s : Int
  sr : Int
  i : Int
  ir : Int
  deriving DecidableEq, Repr

/-- The `carry_map` of the constructions. -/
abbrev CarryMap := Int → StateIndices

/-- The variables that the loop over the masks of one state changes. -/
structure ExpandState where
  carry_map : CarryMap
  next_index : Int
  exceptions : List (Int × Pattern)

/-- The block both constructions run for a transition into the flavour
`current` (fields `s`, `i`) or reflected (fields `sr`, `ir`) of `target`: a
flavour with status `0` gets status `1` and the next index, then the exception
is stored. -/
def storeTransition (st : ExpandState) (target : Int) (current : Bool) (pat : Pattern) :
    ExpandState :=
  if current then
    let st1 : ExpandState :=
      if (st.carry_map target).s = 0 then
        { st with
          carry_map := Function.update st.carry_map target
            { st.carry_map target with s := 1, i := st.next_index + 1 }
          next_index := st.next_index + 1 }
      else st
    { st1 with exceptions := st1.exceptions ++ [((st1.carry_map target).i, pat)] }
  else
    let st1 : ExpandState :=
      if (st.carry_map target).sr = 0 then
        { st with
          carry_map := Function.update st.carry_map target
            { st.carry_map target with sr := 1, ir := st.next_index + 1 }
          next_index := st.next_index + 1 }
      else st
    { st1 with exceptions := st1.exceptions ++ [((st1.carry_map target).ir, pat)] }

/-- The variables of the outer `while` loop. -/
structure LoopState where
  carry_map : CarryMap
  next_index : Int
  next_label : Int
  count : Int
  rows : List Row

/-- The `for` loop that finds the next state to expand: the first label from
`l` on, up to `max`, one of whose indices is `count`; `max + 1` if none. -/
def findNext (cm : CarryMap) (max count : Int) : Nat → Int → Int
  | 0, l => l
  | n + 1, l =>
    if l ≤ max ∧ (cm l).i ≠ count ∧ (cm l).ir ≠ count then findNext cm max count n (l + 1)
    else l

/-- One round of the `while` loop: mark the flavour that has index `count` as
expanded, run `body` for every mask, store the state with its default target
and look for the next state to expand. -/
def expandOne (body : Int → ExpandState → Nat → ExpandState) (dflt : Int → Int)
    (transitions : Nat) (min max : Int) (st : LoopState) : LoopState :=
  let L := st.next_label
  let cm1 : CarryMap :=
    if (st.carry_map L).i = st.count then
      Function.update st.carry_map L { st.carry_map L with s := 2 }
    else
      Function.update st.carry_map L { st.carry_map L with sr := 2 }
  let e := (List.range transitions).foldl (body L) ⟨cm1, st.next_index, []⟩
  let count := st.count + 1
  { carry_map := e.carry_map
    next_index := e.next_index
    next_label := findNext e.carry_map max count (max + 1 - min).toNat min
    count := count
    rows := st.rows ++ [⟨e.exceptions, dflt st.count⟩] }

/-- The loop `while (next_label < max + 1)`, run for at most `fuel` rounds. -/
def expandLoop (body : Int → ExpandState → Nat → ExpandState) (dflt : Int → Int)
    (transitions : Nat) (min max : Int) : Nat → LoopState → LoopState
  | 0, st => st
  | fuel + 1, st =>
    if st.next_label < max + 1 then
      expandLoop body dflt transitions min max fuel
        (expandOne body dflt transitions min max st)
    else st

/-- The carry map after the initialisation of both constructions: every label
has status `0` and no index, the reflected flavour of `constant` has status `1`
and index `0`. -/
def initCarryMap (constant : Int) : CarryMap :=
  Function.update (fun _ => ⟨0, 0, -1, -1⟩) constant ⟨0, 1, -1, 0⟩

/-- The loop state before the first round. -/
def initLoopState (constant : Int) : LoopState :=
  { carry_map := initCarryMap constant
    next_index := 0
    next_label := constant
    count := 0
    rows := [] }

/-- The sum of the positive coefficients. -/
def sumPos (cs : List Int) : Int := cs.foldl (fun m c => if c > 0 then m + c else m) 0

/-- The sum of the other coefficients. -/
def sumNeg (cs : List Int) : Int := cs.foldl (fun m c => if c > 0 then m else m + c) 0

/-- The bound `max` after widening. -/
def maxLabel (f : ArithmeticFormula) : Int :=
  if sumPos f.getCoefficients < f.constant then f.constant else sumPos f.getCoefficients

/-- The bound `min` after widening. -/
def minLabel (f : ArithmeticFormula) : Int :=
  if sumPos f.getCoefficients < f.constant then sumNeg f.getCoefficients
  else if sumNeg f.getCoefficients > f.constant then f.constant
  else sumNeg f.getCoefficients

/-- The final loop over the labels that sets the statuses: state `k` accepts iff
it is the index `i` of a label in `[min, max]` whose status `s` is `2`. -/
def finalStatuses (cm : CarryMap) (min max : Int) : Int → Bool :=
  (List.range (max + 1 - min).toNat).foldl
    (fun (st : Int → Bool) (k : Nat) =>
      if (cm (min + (k : Int))).s = 2 then Function.update st (cm (min + (k : Int))).i true
      else st)
    (fun _ => false)

/-- The body of the loop over the masks in `makeEquality`: only an even
`result` has a transition; it leads to the flavour `current` of `result / 2`
when that is the label itself, else to the reflected flavour. -/
def equalityBody (formula : ArithmeticFormula) (num_of_variables : Nat) (next_label : Int)
    (st : ExpandState) (j : Nat) : ExpandState :=
  let result := next_label + formula.countOnes j
  if result % 2 = 0 then
    let target := result.tdiv 2
    if target = next_label then
      storeTransition st target true (binaryFormat j num_of_variables)
    else
      storeTransition st target false (binaryFormat j num_of_variables)
  else st

/-- The successor label of `makeLessThan` for a sum `result`. -/
def lessThanTarget (result : Int) : Int :=
  if result ≥ 0 then result.tdiv 2 else (result - 1).tdiv 2

/-- The loop `while (label1 != label2)` of `makeLessThan`, run for at most the
given number of rounds; the result is `(label1, label2, write1)`. -/
def renormalize (num_of_ones : Int) : Nat → Int × Int × Int → Int × Int × Int
  | 0, st => st
  | n + 1, (label1, label2, write1) =>
    if label1 ≠ label2 then
      let result := label2 + num_of_ones
      renormalize num_of_ones n (label2, lessThanTarget result, result % 2)
    else (label1, label2, write1)

/-- The value of `write1` after the re-normalization loop. -/
def lessThanWrite1 (next_label num_of_ones : Int) : Int :=
  let result := next_label + num_of_ones
  (renormalize num_of_ones ((next_label - num_of_ones).natAbs + 1)
    (next_label, lessThanTarget result, result % 2)).2.2

/-- The body of the loop over the masks in `makeLessThan`: every mask has a
transition to `target`, into the flavour `current` when `write1` is set. -/
def lessThanBody (formula : ArithmeticFormula) (num_of_variables : Nat) (next_label : Int)
    (st : ExpandState) (j : Nat) : ExpandState :=
  let num_of_ones := formula.countOnes j
  let result := next_label + num_of_ones
  let target := lessThanTarget result
  let write1 := lessThanWrite1 next_label num_of_ones
  if write1 ≠ 0 then
    storeTransition st target true (binaryFormat j num_of_variables)
  else
    storeTransition st target false (binaryFormat j num_of_variables)

/-- The rows `dfaAllocExceptions(0); dfaStoreState(d)` of the states that were
never expanded. -/
def paddingRows (dflt : Int → Int) (count : Int) (n : Nat) : List Row :=
  (List.range n).map fun (k : Nat) => ⟨[], dflt (count + (k : Int))⟩

/-- The part of `makeEquality` after the call of `simplify()`: the carry-state
construction, `dfaBuild` and `dfaMinimize`. -/
def equalityDfa (formula : ArithmeticFormula) : DFA Int :=
  let constant := formula.constant
  let num_of_variables := formula.getCoefficients.length
  let min := minLabel formula
  let max := maxLabel formula
  let num_of_states := 2 * max - 2 * min + 3
  let transitions := 2 ^ num_of_variables
  let dflt : Int → Int := fun _ => num_of_states - 1
  let fin := expandLoop (equalityBody formula num_of_variables) dflt transitions min max
    num_of_states.toNat (initLoopState constant)
  let rows := fin.rows ++ paddingRows dflt fin.count (num_of_states - fin.count).toNat
  dfaMinimize (dfaBuild rows (finalStatuses fin.carry_map min max))

/-- `BinaryIntAutomaton::makeEquality`. -/
def makeEquality (formula0 : ArithmeticFormula) : BinaryIntAutomaton Int :=
  let ok := formula0.simplify.1
  let formula := formula0.simplify.2
  if !ok then makePhi formula
  else
    { dfa := equalityDfa formula
      num_of_variables := formula.getCoefficients.length
      formula := formula }

/-- The part of `makeLessThan` after the call of `simplify()`.  The assignment
to `ns` drops the states that were never expanded. -/
def lessThanDfa (formula : ArithmeticFormula) : DFA Int :=
  let constant := formula.constant
  let num_of_variables := formula.getCoefficients.length
  let min := minLabel formula
  let max := maxLabel formula
  let num_of_states := 2 * (max - min + 1)
  let transitions := 2 ^ num_of_variables
  let dflt : Int → Int := fun k => k
  let fin := expandLoop (lessThanBody formula num_of_variables) dflt transitions min max
    num_of_states.toNat (initLoopState constant)
  let rows := fin.rows ++ paddingRows dflt fin.count (num_of_states - fin.count).toNat
  let tmp_dfa := dfaBuild rows (finalStatuses fin.carry_map min max)
  let tmp_dfa : DFA Int := { tmp_dfa with states := tmp_dfa.states.take fin.count.toNat }
  dfaMinimize tmp_dfa

/-- `BinaryIntAutomaton::makeLessThan`.  The result of `simplify()` is not
looked at. -/
def makeLessThan (formula0 : ArithmeticFormula) : BinaryIntAutomaton Int :=
  let formula := formula0.simplify.2
  { dfa := lessThanDfa formula
    num_of_variables := formula.getCoefficients.length
    formula := formula }

/-- `BinaryIntAutomaton::complement`. -/
def complement {σ : Type} (A : BinaryIntAutomaton σ) : BinaryIntAutomaton σ :=
  { dfa := dfaNegation A.dfa
    num_of_variables := A.num_of_variables
    formula := A.formula.negateOperation }

/-- `BinaryIntAutomaton::makeNotEquality`. -/
def makeNotEquality (formula : ArithmeticFormula) : BinaryIntAutomaton Int :=
  (makeEquality (formula.setType .EQ)).complement

/-- `BinaryIntAutomaton::makeLessThanOrEqual`. -/
def makeLessThanOrEqual (formula : ArithmeticFormula) : BinaryIntAutomaton Int :=
  let less_than_formula := (formula.setConstant (formula.constant - 1)).setType .LT
  { makeLessThan less_than_formula with formula := formula }

/-- `BinaryIntAutomaton::makeGreaterThan`. -/
def makeGreaterThan (formula : ArithmeticFormula) : BinaryIntAutomaton Int :=
  let less_than_formula := (formula.multiply (-1)).setType .LT
  { makeLessThan less_than_formula with formula := formula }

/-- `BinaryIntAutomaton::makeGreaterThanOrEqual`. -/
def makeGreaterThanOrEqual (formula : ArithmeticFormula) : BinaryIntAutomaton Int :=
  let less_than_formula := formula.multiply (-1)
  let less_than_formula :=
    (less_than_formula.setConstant (less_than_formula.constant - 1)).setType .LT
  { makeLessThan less_than_formula with formula := formula }

/-- `BinaryIntAutomaton::makeAutomaton(formula)`; `none` is the fatal error of
the default branch. -/
def makeAutomaton (formula : ArithmeticFormula) : Option (BinaryIntAutomaton Int) :=
  match formula.type with
  | .EQ => some (makeEquality formula)
  | .NOTEQ => some (makeNotEquality formula)
  | .GT => some (makeGreaterThan formula)
  | .GE => some (makeGreaterThanOrEqual formula)
  | .LT => some (makeLessThan formula)
  | .LE => some (makeLessThanOrEqual formula)
  | _ => none

/-- `BinaryIntAutomaton::intersect`; `none` is the fatal error raised for
different variable orderings. -/
def intersect {σ τ : Type} (A : BinaryIntAutomaton σ) (other_auto : BinaryIntAutomaton τ) :
    Option (BinaryIntAutomaton (σ × τ)) :=
  if !(A.formula.isVariableOrderingSame other_auto.formula) then none
  else
    some
      { dfa := dfaMinimize (dfaProduct A.dfa other_auto.dfa dfaAND)
        num_of_variables := A.num_of_variables
        formula := A.formula.resetCoefficients.setType .INTERSECT }

/-- `BinaryIntAutomaton::union_`; `none` is the fatal error raised for
different variable orderings. -/
def union_ {σ τ : Type} (A : BinaryIntAutomaton σ) (other_auto : BinaryIntAutomaton τ) :
    Option (BinaryIntAutomaton (σ × τ)) :=
  if !(A.formula.isVariableOrderingSame other_auto.formula) then none
  else
    some
      { dfa := dfaMinimize (dfaProduct A.dfa other_auto.dfa dfaOR)
        num_of_variables := A.num_of_variables
        formula := A.formula.resetCoefficients.setType .UNION }

/-- A kernel automaton together with its state type: the subset construction
of `dfaProject` changes the state type with every projection. -/
structure AnyDFA where
  σ : Type
  dfa : DFA σ

/-- A binary-integer automaton together with its state type. -/
structure AnyBinaryIntAutomaton where
  σ : Type
  automaton : BinaryIntAutomaton σ

/-- The loop of `getBinaryAutomatonFor` over the BDD indices in the order
given: every index but `bdd_var_index` is projected away, and the result is
minimized each time. -/
def projectAway {σ : Type} (d : DFA σ) (bdd_var_index : Nat) : List Nat → AnyDFA
  | [] => ⟨σ, d⟩
  | i :: rest =>
    if i ≠ bdd_var_index then
      projectAway (dfaMinimize (dfaProject d i)) bdd_var_index rest
    else projectAway d bdd_var_index rest

/-- `BinaryIntAutomaton::getBinaryAutomatonFor`, for a variable of the formula;
`none` is the failed check of the number of variables.  The indices run from
`num_of_variables - 1` down to `0`. -/
def getBinaryAutomatonFor {σ : Type} (A : BinaryIntAutomaton σ) (var_name : String) :
    Option AnyBinaryIntAutomaton :=
  if A.num_of_variables ≠ A.formula.getNumberOfVariables then none
  else
    let bdd_var_index := A.num_of_variables - A.formula.getVariableIndex var_name - 1
    let single_var := projectAway A.dfa bdd_var_index (List.range A.num_of_variables).reverse
    let indices_map := (getIndices A.num_of_variables).set bdd_var_index 0
    some
      { σ := single_var.σ
        automaton :=
          { dfa := dfaReplaceIndices single_var.dfa indices_map
            num_of_variables := 1
            formula := ⟨.INTERSECT, 0, [(var_name, 1)]⟩ } }

/-- The acceptance of the automaton depends only on the bits of the BDD
indices below `V`. -/
def ExtBelow {σ : Type} (V : Nat) (d : DFA σ) : Prop :=
  ∀ w w1 : List Letter,
    List.Forall₂ (fun a a1 => ∀ k, k < V → bitAt a k = bitAt a1 k) w w1 →
    d.accepts w = d.accepts w1

/-- The two's-complement bits of an integer, least-significant bit first, on
`N + 1` bits (the last one is the sign bit). -/
def encodeInt : Nat → Int → List Bool
  | 0, v => [decide (v % 2 = 1)]
  | N + 1, v => decide (v % 2 = 1) :: encodeInt N (v / 2)

/-- The word of `N + 1` letters over `V` tracks that spells the value `rho i`
on the track of the variable at position `i`. -/
def encodeWord (V N : Nat) (rho : Nat → Int) : List Letter :=
  (List.range (N + 1)).map fun t =>
    (List.range V).map fun k => (encodeInt N (rho (V - 1 - k))).getD t false

/-- Modelled from the spec: `Automaton::getNextState(state, exception)`, the
successor of a state on a label. -/
def getNextState {σ : Type} (A : BinaryIntAutomaton σ) (state : σ) (exception : Letter) : σ :=
  A.dfa.q state exception

/-- Modelled from the spec: `Automaton::isAcceptingState(state)`. -/
def isAcceptingState {σ : Type} (A : BinaryIntAutomaton σ) (state : σ) : Bool :=
  A.dfa.f state

/-- A status array, as a function of the state index. -/
def statusArray (l : List Bool) : Int → Bool :=
  fun i => decide (0 ≤ i) && l.getD i.toNat false

/-- The automaton of `BinaryIntAutomaton::makeTrimHelperAuto`: five states over
one track with the statuses `- + + - -`.  The caller attaches the formula. -/
def makeTrimHelperAuto : DFA Int :=
  dfaBuild
    [ ⟨[(1, [some false]), (2, [some true])], 0⟩,
      ⟨[(3, [some false]), (2, [some true])], 1⟩,
      ⟨[(4, [some false])], 2⟩,
      ⟨[(2, [some true])], 3⟩,
      ⟨[(2, [some true])], 4⟩ ]
    (statusArray [false, true, true, false, false])

/-- `BinaryIntAutomaton::trimLeadingZeros`; `none` is a failed check or fatal
error.  The loop over the states `0, ..., ns - 1` makes every state accepting
whose successor on the letter `0` accepts in the automaton itself. -/
def trimLeadingZeros {σ : Type} (A : BinaryIntAutomaton σ) :
    Option (BinaryIntAutomaton (σ × Int)) :=
  if A.num_of_variables ≠ 1 then none
  else
    let tmp_auto : BinaryIntAutomaton σ :=
      { A with
        dfa := { A.dfa with
          f := fun i =>
            if A.isAcceptingState (A.getNextState i [false]) then true else A.dfa.f i } }
    let trim_helper_auto : BinaryIntAutomaton Int :=
      { dfa := makeTrimHelperAuto, num_of_variables := 1, formula := tmp_auto.formula }
    tmp_auto.intersect trim_helper_auto

/-- The formula `x = 1`, written `x - 1 = 0`. -/
def formula_x_eq_1 : ArithmeticFormula := ⟨.EQ, -1, [("x", 1)]⟩

/-! ## Semilinear sets and binary states -/

/-- Modelled from the spec: `SemilinearSet` (its source file is missing), the
constants, the cycle head, the period and the periodic constants.  A new set is
empty with cycle head and period `0`. -/
structure SemilinearSet where
  constants : List Int := []
  cycle_head : Int := 0
  period : Int := 0
  periodic_constants : List Int := []
  deriving DecidableEq, Repr

/-- `BinaryState::Type`. -/
inductive BinaryStateType where
  | VAL | REMT | REMF
  deriving DecidableEq, Repr

/-- Modelled from the spec: `BinaryState`, the scratch datum `(kind, v, b, d0,
d1)`; a new state has no successors (`-1`). -/
structure BinaryState where
  type : BinaryStateType
  V : Int
  B : Int
  d0 : Int := -1
  d1 : Int := -1
  deriving DecidableEq, Repr

/-- Modelled from the spec: `BinaryState::isEqualTo`, equality of
`(kind, v, b)`. -/
def BinaryState.isEqualTo (s : BinaryState) (t : BinaryStateType) (v b : Int) : Bool :=
  s.type == t && s.V == v && s.B == b

/-- The assignment `binary_states[i]->setd0(d)`. -/
def setd0 (binary_states : List BinaryState) (i : Nat) (d : Int) : List BinaryState :=
  match binary_states.get? i with
  | some s => binary_states.set i { s with d0 := d }
  | none => binary_states

/-- The assignment `binary_states[i]->setd1(d)`. -/
def setd1 (binary_states : List BinaryState) (i : Nat) (d : Int) : List BinaryState :=
  match binary_states.get? i with
  | some s => binary_states.set i { s with d1 := d }
  | none => binary_states

/-- The variables of the `do ... while` loop of `add_binary_state(constants)`. -/
structure InsertState where
  binary_states : List BinaryState
  binary_state_map : Int × Int → Option Nat
  i : Nat
  rank : Nat
  mask : Nat
  state_value : Nat

/-- The body of the `do ... while` loop: the next bit of the value is added to
`state_value`, and the state `(state_value, rank)` is looked up or created. -/
def insertBody (st : InsertState) : InsertState :=
  let current_bit := st.mask % 2
  let state_value :=
    if current_bit ≠ 0 then st.state_value ||| (1 <<< (st.rank - 1)) else st.state_value
  let key : Int × Int := ((state_value : Int), (st.rank : Int))
  match st.binary_state_map key with
  | none =>
    let binary_states := st.binary_states ++ [⟨.VAL, (state_value : Int), (st.rank : Int), -1, -1⟩]
    let index : Nat := binary_states.length - 1
    let binary_states :=
      if current_bit ≠ 0 then setd1 binary_states st.i (index : Int)
      else setd0 binary_states st.i (index : Int)
    { binary_states := binary_states
      binary_state_map := Function.update st.binary_state_map key (some index)
      i := index
      rank := st.rank + 1
      mask := st.mask / 2
      state_value := state_value }
  | some index =>
    { st with
      i := index
      rank := st.rank + 1
      mask := st.mask / 2
      state_value := state_value }

/-- The `do ... while (state_value != value)` loop, run for at most `fuel + 1`
rounds; `none` when the rounds do not suffice. -/
def insertLoop (value : Nat) : Nat → InsertState → Option InsertState
  | 0, _ => none
  | fuel + 1, st =>
    let st1 := insertBody st
    if st1.state_value ≠ value then insertLoop value fuel st1 else some st1

/-- One round of the loop over the constants in
`add_binary_state(binary_states, constants)`: the path of `value` is added to
the states; `none` is the failed check of a negative constant. -/
def insertConstant (acc : Option (List BinaryState × (Int × Int → Option Nat))) (value : Int) :
    Option (List BinaryState × (Int × Int → Option Nat)) :=
  match acc with
  | none => none
  | some (binary_states, binary_state_map) =>
    if value < 0 then none
    else
      match insertLoop value.toNat (value.toNat + 1)
          ⟨binary_states, binary_state_map, 0, 1, value.toNat, 0⟩ with
      | none => none
      | some st => some (st.binary_states, st.binary_state_map)

/-- `add_binary_state(binary_states, constants)`: the states of the binary
trie of the constants. -/
def add_binary_state_constants (constants : List Int) :
    Option (List BinaryState) :=
  (constants.foldl insertConstant
    (some ([⟨.VAL, -1, 0, -1, -1⟩], Function.update (fun _ => none) (-1, 0) (some 0)))).map
    Prod.fst

/-- The triple `(kind, v, b)` that identifies a binary state. -/
abbrev BinaryKey : Type := BinaryStateType × Int × Int

/-- The triple of a binary state. -/
def BinaryState.key (s : BinaryState) : BinaryKey := (s.type, s.V, s.B)

/-- The triples of the successors on `1` and on `0` that the recursive
`add_binary_state` asks for when it has created the state `(t, v, b)`; `none`
when no branch applies.  The remainders are those of C++ (`Int.tmod`). -/
def successorKeys (C R : Int) (t : BinaryStateType) (v b : Int) :
    Option (BinaryKey × BinaryKey) :=
  if b < 0 then
    if C = 0 then
      some ((.REMT, Int.tmod 1 R, Int.tmod 1 R), (.REMT, 0, Int.tmod 1 R))
    else if C = 1 then
      some ((.REMT, Int.tmod 1 R, Int.tmod 1 R), (.REMF, 0, Int.tmod 1 R))
    else some ((.VAL, 1, 1), (.VAL, 0, 1))
  else if t = .VAL ∧ v + 2 * b ≥ C then
    some ((.REMT, Int.tmod (v + 2 * b) R, Int.tmod (2 * b) R),
          (.REMF, Int.tmod v R, Int.tmod (2 * b) R))
  else if t = .VAL ∧ v + 2 * b < C then
    some ((.VAL, v + 2 * b, 2 * b), (.VAL, v, 2 * b))
  else if t = .REMT then
    some ((.REMT, Int.tmod (v + 2 * b) R, Int.tmod (2 * b) R),
          (.REMT, Int.tmod v R, Int.tmod (2 * b) R))
  else if t = .REMF then
    some ((.REMT, Int.tmod (v + 2 * b) R, Int.tmod (2 * b) R),
          (.REMF, Int.tmod v R, Int.tmod (2 * b) R))
  else none

/-- The recursive `add_binary_state(binary_states, C, R, t, v, b)`, run to a
recursion depth of at most `fuel`: the index of the state `(t, v, b)`, which is
created together with its successors when it is new. -/
def add_binary_state (C R : Int) :
    Nat → List BinaryState → BinaryStateType → Int → Int → Option (List BinaryState × Int)
  | 0, _, _, _, _ => none
  | fuel + 1, binary_states, t, v, b =>
    match binary_states.findIdx? (fun s => s.isEqualTo t v b) with
    | some i => some (binary_states, (i : Int))
    | none =>
      let i := binary_states.length
      let binary_states := binary_states ++ [⟨t, v, b, -1, -1⟩]
      match successorKeys C R t v b with
      | none => some (setd1 (setd0 binary_states i (-1)) i (-1), (i : Int))
      | some ((t1, v1, b1), (t0, v0, b0)) =>
        match add_binary_state C R fuel binary_states t1 v1 b1 with
        | none => none
        | some (binary_states, d1) =>
          match add_binary_state C R fuel binary_states t0 v0 b0 with
          | none => none
          | some (binary_states, d0) =>
            some (setd1 (setd0 binary_states i d0) i d1, (i : Int))

/-- `compute_binary_states`; the recursion depth of the periodic case is bounded
by the number of triples `(kind, v, b)` that can occur. -/
def compute_binary_states (semilinear_set : SemilinearSet) : Option (List BinaryState) :=
  if semilinear_set.period = 0 then
    add_binary_state_constants semilinear_set.constants
  else
    (add_binary_state semilinear_set.cycle_head semilinear_set.period
      (3 * (semilinear_set.cycle_head.toNat + semilinear_set.period.toNat + 2) ^ 2 + 1)
      [] .VAL (-1) (-1)).map Prod.fst

/-- `is_accepting_binary_state`. -/
def is_accepting_binary_state (binary_state : BinaryState) (semilinear_set : SemilinearSet) :
    Bool :=
  if binary_state.type = .VAL then
    semilinear_set.constants.any fun i => i == binary_state.V
  else if binary_state.type = .REMT then
    semilinear_set.periodic_constants.any fun i =>
      Int.tmod (i + semilinear_set.cycle_head) semilinear_set.period == binary_state.V
  else false

/-- The bit pattern `bit_transition` with the character of `var_index` set. -/
def bitTransition (number_of_variables var_index : Nat) (b : Bool) : Pattern :=
  (List.replicate number_of_variables none).set var_index (some b)

/-- The row `makeAutomaton` stores for a binary state when no leading zeros are
added: an exception for every successor that exists, the sink as default. -/
def binaryStateRow (number_of_variables var_index : Nat) (sink_state : Int)
    (s : BinaryState) : Row :=
  if s.d0 ≥ 0 ∧ s.d1 ≥ 0 then
    ⟨[(s.d0, bitTransition number_of_variables var_index false),
      (s.d1, bitTransition number_of_variables var_index true)], sink_state⟩
  else if s.d0 ≥ 0 ∧ s.d1 < 0 then
    ⟨[(s.d0, bitTransition number_of_variables var_index false)], sink_state⟩
  else if s.d0 < 0 ∧ s.d1 ≥ 0 then
    ⟨[(s.d1, bitTransition number_of_variables var_index true)], sink_state⟩
  else ⟨[], sink_state⟩

/-- The value of `is_accepting_binary_state(binary_states[i], semilinear_set)`. -/
def acceptingAt (binary_states : List BinaryState) (semilinear_set : SemilinearSet) (i : Nat) :
    Bool :=
  match binary_states.get? i with
  | some s => is_accepting_binary_state s semilinear_set
  | none => false

/-- The array `statuses` of `makeAutomaton` when no leading zeros are added:
`+` for the accepting binary states, `-` for the others and for the sink, and
the final assignment at `zero_state`. -/
def semilinearStatuses (binary_states : List BinaryState) (semilinear_set : SemilinearSet) :
    Int → Bool :=
  let statuses : Int → Bool := fun i =>
    decide (0 ≤ i) && acceptingAt binary_states semilinear_set i.toNat
  let zero_state : Int :=
    match binary_states.head? with
    | some s => s.d0
    | none => -1
  if decide (zero_state > -1) && acceptingAt binary_states semilinear_set zero_state.toNat then
    Function.update statuses zero_state true
  else statuses

/-- `BinaryIntAutomaton::makeAutomaton(semilinear_set, var_name, formula,
add_leading_zeros)` for `add_leading_zeros = false`; `none` is a fatal error of
the state construction. -/
def makeAutomatonSemilinear (semilinear_set : SemilinearSet) (var_name : String)
    (formula : ArithmeticFormula) : Option (BinaryIntAutomaton Int) :=
  let var_index := formula.getNumberOfVariables - formula.getVariableIndex var_name - 1
  let number_of_variables := formula.getNumberOfVariables
  match compute_binary_states semilinear_set with
  | none => none
  | some binary_states =>
    let number_of_binary_states := binary_states.length
    let sink_state : Int := (number_of_binary_states : Int)
    let rows := binary_states.map (binaryStateRow number_of_variables var_index sink_state)
      ++ [⟨[], sink_state⟩]
    some
      { dfa := dfaMinimize (dfaBuild rows (semilinearStatuses binary_states semilinear_set))
        num_of_variables := number_of_variables
        formula := formula }

/-! ## From a binary automaton to a semilinear set -/

/-- Modelled from the spec: `Automaton::isSinkState` for a single-track
automaton, a rejecting state all of whose transitions lead to itself. -/
def isSinkState (A : BinaryIntAutomaton Int) (state_id : Int) : Bool :=
  !(A.dfa.f state_id) && A.dfa.q state_id [false] == state_id &&
    A.dfa.q state_id [true] == state_id

/-- Modelled from the spec: `Automaton::getSinkState`, the first sink state in
index order, `-1` when there is none. -/
def getSinkState (A : BinaryIntAutomaton Int) : Int :=
  match A.dfa.states.find? (fun i => A.isSinkState i) with
  | some i => i
  | none => -1

/-- The maps and the stack of `getCycleStatus`.  The head of `st` is the back
of the vector; the key `-2` of `cycle_status` tells whether there is a cycle at
all. -/
structure CycleState where
  disc : Int → Option Int
  low : Int → Int
  st : List Int
  is_stack_member : Int → Bool
  cycle_status : Int → Bool
  time : Int

/-- The loop `while (current_state != state)` at the head of a component: the
states above `state` are popped and marked as states of a cycle.  On a stack
that does not hold `state` (where `st.back()` is undefined in C++) the loop ends
with the empty stack. -/
def popComponent (state : Int) : List Int → CycleState → CycleState
  | [], T => { T with st := [] }
  | current_state :: rest, T =>
    if current_state ≠ state then
      popComponent state rest
        { T with
          st := rest
          is_stack_member := Function.update T.is_stack_member current_state false
          cycle_status :=
            Function.update (Function.update T.cycle_status current_state true) (-2) true }
    else { T with st := current_state :: rest }

/-- One round of the loop over the two successors in the recursive
`getCycleStatus`, given the result of the recursive call. -/
def visitSuccessor (recurse : Int → CycleState → Option CycleState) (state next_state : Int)
    (T : CycleState) : Option CycleState :=
  if (T.disc next_state).isNone then
    match recurse next_state T with
    | none => none
    | some T1 =>
      some { T1 with low := Function.update T1.low state (min (T1.low state) (T1.low next_state)) }
  else if T.is_stack_member next_state then
    some { T with
      low := Function.update T.low state
        (min (T.low state) ((T.disc next_state).getD 0)) }
  else some T

/-- The recursive `getCycleStatus(state, ...)`, run to a recursion depth of at
most `fuel`. -/
def getCycleStatusFrom (A : BinaryIntAutomaton Int) :
    Nat → Int → CycleState → Option CycleState
  | 0, _, _ => none
  | fuel + 1, state, T =>
    let T : CycleState :=
      { T with
        disc := Function.update T.disc state (some T.time)
        low := Function.update T.low state T.time
        time := T.time + 1
        st := state :: T.st
        is_stack_member := Function.update T.is_stack_member state true }
    let l := A.getNextState state [false]
    let r := A.getNextState state [true]
    match visitSuccessor (getCycleStatusFrom A fuel) state l T with
    | none => none
    | some T =>
      match visitSuccessor (getCycleStatusFrom A fuel) state r T with
      | none => none
      | some T =>
        if T.low state = (T.disc state).getD 0 then
          let T := popComponent state T.st T
          let current_state := T.st.headD state
          let T : CycleState :=
            { T with
              is_stack_member := Function.update T.is_stack_member current_state false
              st := T.st.tail }
          if current_state = l ∨ current_state = r then
            some { T with
              cycle_status :=
                Function.update (Function.update T.cycle_status current_state true) (-2) true }
          else some T
        else some T

/-- `getCycleStatus(cycle_status)`: whether the automaton is cyclic, and the
map `cycle_status`. -/
def getCycleStatus (A : BinaryIntAutomaton Int) : Option (Bool × (Int → Bool)) :=
  let sink_state := A.getSinkState
  let T : CycleState :=
    { disc := Function.update (fun _ => none) sink_state (some 0)
      low := fun _ => 0
      st := []
      is_stack_member := fun _ => false
      cycle_status := Function.update (fun _ => false) sink_state true
      time := 0 }
  match getCycleStatusFrom A (A.dfa.states.length + 1) A.dfa.s T with
  | none => none
  | some T => some (T.cycle_status (-2), T.cycle_status)

/-- The number a path spells: bit `i` of the path has the weight `2^i`. -/
def pathValue : List Bool → Int
  | [] => 0
  | b :: bs => (if b then 1 else 0) + 2 * pathValue bs

/-- One round of the loop over the two successors in the recursive
`getConstants`. -/
def collectSuccessor (A : BinaryIntAutomaton Int) (cycle_status : Int → Bool)
    (recurse : Int → List Bool → List Int → Option (List Int))
    (next_state : Int) (b : Bool) (path : List Bool) (constants : List Int) :
    Option (List Int) :=
  if !(A.isSinkState next_state) then
    let path := path ++ [b]
    let constants :=
      if A.isAcceptingState next_state then constants ++ [pathValue path] else constants
    if !(cycle_status next_state) then recurse next_state path constants
    else some constants
  else some constants

/-- The recursive `getConstants(state, cycle_status, path, constants)`, run to a
recursion depth of at most `fuel`. -/
def getConstantsFrom (A : BinaryIntAutomaton Int) (cycle_status : Int → Bool) :
    Nat → Int → List Bool → List Int → Option (List Int)
  | 0, _, _, _ => none
  | fuel + 1, state, path, constants =>
    let l := A.getNextState state [false]
    let r := A.getNextState state [true]
    match collectSuccessor A cycle_status (getConstantsFrom A cycle_status fuel) l false path
        constants with
    | none => none
    | some constants =>
      collectSuccessor A cycle_status (getConstantsFrom A cycle_status fuel) r true path
        constants

/-- `getConstants(cycle_status, constants)`. -/
def getConstants (A : BinaryIntAutomaton Int) (cycle_status : Int → Bool) :
    Option (List Int) :=
  if !(A.isSinkState A.dfa.s) && !(cycle_status A.dfa.s) then
    getConstantsFrom A cycle_status (A.dfa.states.length + 1) A.dfa.s [] []
  else some []

/-- Modelled from the spec: `Util::List::sort_and_remove_duplicate`, the
elements in increasing order, each once. -/
def sort_and_remove_duplicate (l : List Int) : List Int :=
  l.dedup.insertionSort (· ≤ ·)

/-- `BinaryIntAutomaton::getSemilinearSet`; `none` stands for an execution that
returns no set.  For a cyclic automaton no execution returns one: the set
created first has no constants, so the `else` branch is taken, and what follows
ends in the use of the unset `current_set` inside the loop or in the fatal
error that is logged after the loop. -/
def getSemilinearSet (A : BinaryIntAutomaton Int) : Option SemilinearSet :=
  match A.getCycleStatus with
  | none => none
  | some (is_cyclic, cycle_status) =>
    match A.getConstants cycle_status with
    | none => none
    | some constants =>
      let constants := sort_and_remove_duplicate constants
      if !is_cyclic then
        some { constants := constants }
      else none

/-- The shape of the automaton of a finite set: the states are `0 .. n`, the
state `n` is the rejecting sink, and every other transition leads to the sink or
to a state with a larger index. -/
structure Upward (A : BinaryIntAutomaton Int) (n : Nat) : Prop where
  states : A.dfa.states = (List.range (n + 1)).map Int.ofNat
  start : A.dfa.s = 0
  pos : 0 < n
  next : ∀ (i : Int) (b : Bool), 0 ≤ i → i < n →
    A.dfa.q i [b] = n ∨ (i < A.dfa.q i [b] ∧ A.dfa.q i [b] < n)
  sink_next : ∀ b : Bool, A.dfa.q n [b] = n
  sink_rej : A.dfa.f n = false

/-- What a call of the recursive `getCycleStatus` at `state` leaves behind when
no cycle is found: the stack and the marks are restored, and only the entries of
`state` and of larger states below the sink are written. -/
structure CyclePost (n : Nat) (state : Int) (T T1 : CycleState) : Prop where
  st : T1.st = T.st
  member : T1.is_stack_member = T.is_stack_member
  status : T1.cycle_status = T.cycle_status
  frame : ∀ x : Int, x < state ∨ (n : Int) ≤ x → T1.disc x = T.disc x ∧ T1.low x = T.low x
  time : T.time < T1.time
  low : ∃ d : Int, T1.disc state = some d ∧ T1.low state = d ∧ T.time ≤ d

/-- The successor of the binary state `i` on the bit `b`, `-1` when there is
none. -/
def trieStep (S : List BinaryState) (i : Int) (b : Bool) : Int :=
  if i < 0 then -1
  else
    match S.get? i.toNat with
    | some s => if b then s.d1 else s.d0
    | none => -1

/-- The binary state a path leads to, `-1` when the path leaves the states. -/
def trieWalk (S : List BinaryState) (i : Int) (w : List Bool) : Int :=
  w.foldl (trieStep S) i

/-- What holds of the binary states and of the map of `add_binary_state` for
constants between two rounds: the states form a trie in which the state with the
key `(v, b)` is reached by the `b` lowest bits of `v`. -/
structure TrieInv (S : List BinaryState) (m : Int × Int → Option Nat) : Prop where
  root : ∃ r, S.get? 0 = some r ∧ r.B = 0
  kind : ∀ (i : Nat) (s : BinaryState), S.get? i = some s → s.type = .VAL
  up : ∀ (i : Nat) (s : BinaryState) (b : Bool), S.get? i = some s →
    (if b then s.d1 else s.d0) = -1 ∨
      ((i : Int) < (if b then s.d1 else s.d0) ∧ (if b then s.d1 else s.d0) < S.length)
  edge : ∀ (i j : Nat) (s t : BinaryState) (b : Bool), S.get? i = some s →
    (if b then s.d1 else s.d0) = (j : Int) → S.get? j = some t →
    t.B = s.B + 1 ∧ t.V = (if i = 0 then 0 else s.V) + (if b then 2 ^ s.B.toNat else 0)
  sound : ∀ (k : Int × Int) (j : Nat), m k = some j →
    ∃ t, S.get? j = some t ∧ (t.V, t.B) = k
  complete : ∀ (j : Nat) (t : BinaryState), 1 ≤ j → S.get? j = some t → m (t.V, t.B) ≠ none
  reach : ∀ (j : Nat) (t : BinaryState), S.get? j = some t → ∃ w, trieWalk S 0 w = j

/-- The later list of binary states keeps the states and the successors of the
earlier one. -/
structure TrieExt (S S1 : List BinaryState) : Prop where
  keep : ∀ (i : Nat) (s : BinaryState), S.get? i = some s →
    ∃ s1, S1.get? i = some s1 ∧ s1.type = s.type ∧ s1.V = s.V ∧ s1.B = s.B ∧
      (0 ≤ s.d0 → s1.d0 = s.d0) ∧ (0 ≤ s.d1 → s1.d1 = s.d1)

/-- The triple of the successor of the state with the triple `k` on the bit
`b`. -/
def stepKey (C R : Int) (k : BinaryKey) (b : Bool) : BinaryKey :=
  match successorKeys C R k.1 k.2.1 k.2.2 with
  | some (x1, x0) => if b then x1 else x0
  | none => k

/-- The triple reached from `k` along a path. -/
def keyRun (C R : Int) (k : BinaryKey) (w : List Bool) : BinaryKey :=
  w.foldl (stepKey C R) k

/-- The state `j` has its two successors, and they carry the triples that
`add_binary_state` asks for. -/
def ClosedAt (C R : Int) (S : List BinaryState) (j : Nat) : Prop :=
  ∀ s, S.get? j = some s → ∀ b : Bool,
    ∃ (k : Nat) (t : BinaryState), (if b then s.d1 else s.d0) = (k : Int) ∧
      S.get? k = some t ∧ t.key = stepKey C R s.key b

/-- The triples whose numbers lie between `-1` and `M`. -/
def InBox (M : Int) (k : BinaryKey) : Prop :=
  -1 ≤ k.2.1 ∧ k.2.1 ≤ M ∧ -1 ≤ k.2.2 ∧ k.2.2 ≤ M

/-- The pattern `exception` of `makeGraterThanOrEqualToZero`: `X` at every
position, and then the character `c` at the positions of `indexes`. -/
def signPattern (indexes : List Nat) (number_of_variables : Nat) (c : Bool) : Pattern :=
  indexes.foldl (fun exception i => exception.set i (some c))
    (List.replicate number_of_variables none)

/-- `BinaryIntAutomaton::makeGraterThanOrEqualToZero`: the kernel automaton of
three states.  The automaton object that wraps it gets its formula from the
caller. -/
def makeGraterThanOrEqualToZero (indexes : List Nat) (number_of_variables : Nat) : DFA Int :=
  dfaBuild
    [ ⟨[(1, signPattern indexes number_of_variables false)], 0⟩,
      ⟨[(0, signPattern indexes number_of_variables true)], 1⟩,
      ⟨[], 2⟩ ]
    (statusArray [false, true, false])

/-- `BinaryIntAutomaton::getPositiveValuesFor`; `none` is the fatal error of
`intersect`. -/
def getPositiveValuesFor {σ : Type} (A : BinaryIntAutomaton σ) (var_name : String) :
    Option (BinaryIntAutomaton (σ × Int)) :=
  let var_index := A.formula.getNumberOfVariables - A.formula.getVariableIndex var_name - 1
  let greater_than_or_equalt_to_zero_auto : BinaryIntAutomaton Int :=
    { dfa := makeGraterThanOrEqualToZero [var_index] A.formula.getNumberOfVariables
      num_of_variables := A.formula.getNumberOfVariables
      formula := A.formula }
  A.intersect greater_than_or_equalt_to_zero_auto

/-- The formula `0·x + 5 = 0`, which no value of `x` satisfies. -/
def formula_0x_plus_5_eq_0 : ArithmeticFormula := ⟨.EQ, 5, [("x", 0)]⟩

/-! ## The carry automaton behind both constructions -/

/-- A state of the carry automaton: a label and its flavour (`true` is the
flavour `current`). -/
abbrev CarryState := Int × Bool

/-- The state index the carry map holds for a flavour of a label. -/
def ix (cm : CarryMap) (p : CarryState) : Int := if p.2 then (cm p.1).i else (cm p.1).ir

/-- The status the carry map holds for a flavour of a label. -/
def status (cm : CarryMap) (p : CarryState) : Int := if p.2 then (cm p.1).s else (cm p.1).sr

/-- The transition of `makeEquality` from a label on a mask, if there is one. -/
def equalityRule (formula : ArithmeticFormula) (label : Int) (j : Nat) : Option CarryState :=
  let result := label + formula.countOnes j
  if result % 2 = 0 then some (result.tdiv 2, decide (result.tdiv 2 = label)) else none

/-- The transition of `makeLessThan` from a label on a mask. -/
def lessThanRule (formula : ArithmeticFormula) (label : Int) (j : Nat) : Option CarryState :=
  some (lessThanTarget (label + formula.countOnes j),
        decide (lessThanWrite1 label (formula.countOnes j) ≠ 0))

/-- The exceptions a construction stores for a label, given the final indices. -/
def rowOf (rule : Int → Nat → Option CarryState) (V transitions : Nat)
    (index : CarryState → Int) (label : Int) : List (Int × Pattern) :=
  (List.range transitions).filterMap fun j =>
    (rule label j).map fun p => (index p, binaryFormat j V)

/-- The run of the carry automaton on a word of masks; `none` is the dead
state. -/
def carryRun (rule : Int → Nat → Option CarryState) : CarryState → List Nat → Option CarryState
  | p, [] => some p
  | p, j :: js =>
    match rule p.1 j with
    | some p1 => carryRun rule p1 js
    | none => none

/-- The mask of a label: bit `i` of the mask is the bit of BDD index
`V - 1 - i`. -/
def letterMask : Nat → Letter → Nat
  | 0, _ => 0
  | V + 1, a => (if bitAt a 0 then 2 ^ V else 0) + letterMask V a.tail

/-- The carry map is a numbering: the flavours that have an index are numbered
`0, ..., next_index` without repetition, a flavour has status `0` exactly when
it has no index, and only labels in `[lo, hi]` have one. -/
structure Numbering (lo hi : Int) (cm : CarryMap) (ni : Int) : Prop where
  nonneg : 0 ≤ ni
  idx_range : ∀ p, ix cm p = -1 ∨ (0 ≤ ix cm p ∧ ix cm p ≤ ni)
  status_zero : ∀ p, status cm p = 0 ↔ ix cm p = -1
  inj : ∀ p p1, ix cm p = ix cm p1 → ix cm p ≠ -1 → p = p1
  surj : ∀ k, 0 ≤ k → k ≤ ni → ∃ p, ix cm p = k
  in_range : ∀ p, ix cm p ≠ -1 → lo ≤ p.1 ∧ p.1 ≤ hi

/-- The second carry map extends the first: indices are kept, and so is the
status `2`. -/
structure Extends (cm cm1 : CarryMap) (ni ni1 : Int) : Prop where
  keep : ∀ p, ix cm p ≠ -1 → ix cm1 p = ix cm p
  fresh : ∀ p, ix cm p = -1 → ix cm1 p = -1 ∨ ni < ix cm1 p
  done : ∀ p, status cm1 p = 2 ↔ status cm p = 2
  mono : ni ≤ ni1

/-- The bits of the track of the variable at position `i` of the canonical
order: BDD index `V - 1 - i` of every letter. -/
def track (V i : Nat) (w : List Letter) : List Bool := w.map fun a => bitAt a (V - 1 - i)

/-- The two's-complement value of a bit string that is read least-significant
bit first and whose last bit is the sign bit. -/
def twosComplement : List Bool → Int
  | [] => 0
  | [b] => if b then -1 else 0
  | b :: b1 :: bs => (if b then 1 else 0) + 2 * twosComplement (b1 :: bs)

/-- The integer a non-empty bit string encodes; the empty string encodes no
number (the initial state of a binary automaton is never an accepting state of
the constructions). -/
def decode (w : List Bool) : Option Int :=
  if w = [] then none else some (twosComplement w)

/-- The bit a letter gives to the variable at position `i`, as a number. -/
def letterBit (V : Nat) (a : Letter) (i : Nat) : Int := if bitAt a (V - 1 - i) then 1 else 0

/-- The assignment a word gives to the variable positions. -/
def wordValues (V : Nat) (w : List Letter) : Nat → Int :=
  fun i => twosComplement (track V i w)

/-- The formula `x - y = 5` over the order `[x, y]`, written `x - y - 5 = 0`. -/
def formula_x_minus_y_eq_5 : ArithmeticFormula := ⟨.EQ, -5, [("x", 1), ("y", -1)]⟩

/-- The formula `x = 0`. -/
def formula_x_eq_0 : ArithmeticFormula := ⟨.EQ, 0, [("x", 1)]⟩

/-- The formula `x < 0`. -/
def formula_x_lt_0 : ArithmeticFormula := ⟨.LT, 0, [("x", 1)]⟩

/-- The six comparison kinds. -/
def isComparison (t : FormulaType) : Bool :=
  match t with
  | .EQ | .NOTEQ | .GT | .GE | .LT | .LE => true
  | _ => false

/-- The word that spells `x = 5`, `y = 0` most-significant bit first on four
bits (`0101` and `0000`); a letter is `[y bit, x bit]`. -/
def word_5_0_msb_first : List Letter :=
  [[false, false], [false, true], [false, false], [false, true]]

/-- The word that spells `x = 5`, `y = 0` least-significant bit first on four
bits, the sign bit last. -/
def word_5_0 : List Letter :=
  [[false, true], [false, false], [false, true], [false, false]]

/-- The word that spells `x = 6`, `y = 1` least-significant bit first. -/
def word_6_1 : List Letter :=
  [[true, false], [false, true], [false, true], [false, false]]

/-- The word that spells `x = -1`, `y = -6` least-significant bit first. -/
def word_m1_m6 : List Letter :=
  [[false, true], [true, true], [false, true], [true, true]]

/-- The formula `2·x + 3·y ≤ 7` over the order `[x, y]`, written
`2·x + 3·y - 7 ≤ 0`. -/
def formula_2x_3y_le_7 : ArithmeticFormula := ⟨.LE, -7, [("x", 2), ("y", 3)]⟩

/-- The formula `x ≥ 0` over the order `[x, y]`. -/
def formula_x_ge_0 : ArithmeticFormula := ⟨.GE, 0, [("x", 1), ("y", 0)]⟩

/-- The formula `y ≥ 0` over the order `[x, y]`. -/
def formula_y_ge_0 : ArithmeticFormula := ⟨.GE, 0, [("x", 0), ("y", 1)]⟩

/-- The body of a construction stores, for each mask, the transition that the
rule prescribes. -/
def BodyOf (rule : Int → Nat → Option CarryState) (V : Nat)
    (body : Int → ExpandState → Nat → ExpandState) : Prop :=
  ∀ L st j, body L st j =
    match rule L j with
    | none => st
    | some p => storeTransition st p.1 p.2 (binaryFormat j V)

/-- The rule never leaves the range of labels. -/
def ClosedOn (rule : Int → Nat → Option CarryState) (lo hi : Int) : Prop :=
  ∀ L j p, lo ≤ L → L ≤ hi → rule L j = some p → lo ≤ p.1 ∧ p.1 ≤ hi

/-- The invariant of the `while` loop: the carry map is a numbering, the states
`0, ..., count - 1` are the expanded ones, each has its row, and `next_label`
is the label of state `count` if there is one. -/
structure LoopInv (rule : Int → Nat → Option CarryState) (V T : Nat) (dflt : Int → Int)
    (lo hi c0 : Int) (st : LoopState) : Prop where
  num : Numbering lo hi st.carry_map st.next_index
  count_nonneg : 0 ≤ st.count
  count_le : st.count ≤ st.next_index + 1
  rows_len : (st.rows.length : Int) = st.count
  expanded : ∀ p, status st.carry_map p = 2 ↔
    (0 ≤ ix st.carry_map p ∧ ix st.carry_map p < st.count)
  rows_ok : ∀ p, 0 ≤ ix st.carry_map p → ix st.carry_map p < st.count →
    (∃ r, st.rows.get? (ix st.carry_map p).toNat = some r ∧
      r.exceptions = rowOf rule V T (ix st.carry_map) p.1 ∧
      r.default = dflt (ix st.carry_map p)) ∧
    ∀ j, j < T → ∀ p1, rule p.1 j = some p1 → ix st.carry_map p1 ≠ -1
  next_some : st.next_label ≤ hi → ∃ c, ix st.carry_map (st.next_label, c) = st.count
  next_none : st.count ≤ st.next_index → st.next_label ≤ hi
  next_le : st.next_label ≤ hi + 1
  start : ix st.carry_map (c0, false) = 0

/-! ### The loop of `makeEquality` and its reachable states -/

/-- The formula `x + 1 = 0`. -/
def formula_x_plus_1_eq_0 : ArithmeticFormula := ⟨.EQ, 1, [("x", 1)]⟩

/-- The formula `-x - 1 < 0`. -/
def formula_minus_x_minus_1_lt_0 : ArithmeticFormula := ⟨.LT, -1, [("x", -1)]⟩

/-- The variables of the `while` loop of `makeEquality` when the loop is left. -/
def equalityLoop (formula : ArithmeticFormula) : LoopState :=
  expandLoop (equalityBody formula formula.getCoefficients.length)
    (fun _ => 2 * maxLabel formula - 2 * minLabel formula + 3 - 1)
    (2 ^ formula.getCoefficients.length) (minLabel formula) (maxLabel formula)
    (2 * maxLabel formula - 2 * minLabel formula + 3).toNat (initLoopState formula.constant)

/-- The automaton `tmp_dfa` of `makeEquality`, the result of `dfaBuild` before
the minimization. -/
def equalityTmpDfa (formula : ArithmeticFormula) : DFA Int :=
  dfaBuild
    ((equalityLoop formula).rows ++
      paddingRows (fun _ => 2 * maxLabel formula - 2 * minLabel formula + 3 - 1)
        (equalityLoop formula).count
        (2 * maxLabel formula - 2 * minLabel formula + 3 - (equalityLoop formula).count).toNat)
    (finalStatuses (equalityLoop formula).carry_map (minLabel formula) (maxLabel formula))

/-- Every flavour with an index is the end of a run of the carry automaton that
starts in the reflected flavour of `c0` and reads masks below `T`. -/
def Reached (rule : Int → Nat → Option CarryState) (T : Nat) (c0 : Int) (cm : CarryMap) :
    Prop :=
  ∀ p, ix cm p ≠ -1 →
    ∃ js : List Nat, (∀ j ∈ js, j < T) ∧ carryRun rule (c0, false) js = some p

/-! ### Example automata, `hasNegative1` and the cyclic part of `getSemilinearSet` -/

/-- The formula `0·x + 0 = 0`. -/
def formula_0x_eq_0 : ArithmeticFormula := ⟨.EQ, 0, [("x", 0)]⟩

/-- The formula `2x + 1 = 0`. -/
def formula_2x_plus_1_eq_0 : ArithmeticFormula := ⟨.EQ, 1, [("x", 2)]⟩

/-- The number of exceptions `makeEquality` stores for a label: the masks `j`
below `transitions` for which `label + countOnes(j)` is even. -/
def storedExceptions (formula : ArithmeticFormula) (transitions : Nat) (label : Int) : Nat :=
  ((List.range transitions).filter fun j => (label + formula.countOnes j) % 2 = 0).length

/-- A single-track automaton with the cycle `0 → 1 → 0` on the letter `0`: the
states `0` and `1` lead to the sink `2` on the letter `1`, and state `1`
accepts. -/
def automaton_two_cycle : BinaryIntAutomaton Int :=
  { dfa := dfaBuild
      [⟨[(1, [some false])], 2⟩, ⟨[(0, [some false])], 2⟩, ⟨[], 2⟩]
      (statusArray [false, true, false])
    num_of_variables := 1
    formula := formula_x_eq_0 }

/-- The loop of `hasNegative1`, run for at most `fuel` tests of its condition;
`none` when the loop has not ended within them. -/
def hasNegative1Loop (A : BinaryIntAutomaton Int) : Nat → (Int → Bool) → Int → Option Bool
  | 0, _, _ => none
  | fuel + 1, is_visited, current_state =>
    if !(is_visited current_state) then
      let is_visited := Function.update is_visited current_state true
      let current_state := A.getNextState current_state [true]
      if current_state > -1 ∧ A.isAcceptingState current_state = true then some true
      else hasNegative1Loop A fuel is_visited current_state
    else some false

/-- `BinaryIntAutomaton::hasNegative1`; `none` is the failed check of the number
of tracks.  Every round of the loop visits a state that was not visited
before, so the condition is tested at most `ns + 1` times. -/
def hasNegative1 (A : BinaryIntAutomaton Int) : Option Bool :=
  if A.num_of_variables ≠ 1 then none
  else hasNegative1Loop A (A.dfa.states.length + 1) (fun _ => false) A.dfa.s

/-- The state reached from the initial state on the word `1^k`. -/
def onesState (A : BinaryIntAutomaton Int) (k : Nat) : Int :=
  A.dfa.run A.dfa.s (List.replicate k [true])

/-- Modelled from the spec: `SemilinearSet::hasConstants`, whether the set has a
constant. -/
def SemilinearSet.hasConstants (semilinear_set : SemilinearSet) : Bool :=
  !semilinear_set.constants.isEmpty

/-- One round of the loop over the two successors in the recursive
`getBaseConstants`, given the recursive call: a successor that is on the stack
or a sink is skipped. -/
def baseSuccessor (A : BinaryIntAutomaton Int)
    (recurse : Int → (Int → Bool) → List Bool → List Int → Option ((Int → Bool) × List Int))
    (next_state : Int) (b : Bool) (is_stack_member : Int → Bool) (path : List Bool)
    (constants : List Int) : Option ((Int → Bool) × List Int) :=
  if !(is_stack_member next_state) && !(A.isSinkState next_state) then
    let path := path ++ [b]
    let constants :=
      if A.isAcceptingState next_state then constants ++ [pathValue path] else constants
    recurse next_state is_stack_member path constants
  else some (is_stack_member, constants)

/-- The recursive `getBaseConstants(state, is_stack_member, path, constants)`,
run to a recursion depth of at most `fuel`; the result is the array
`is_stack_member` and the constants. -/
def getBaseConstantsFrom (A : BinaryIntAutomaton Int) :
    Nat → Int → (Int → Bool) → List Bool → List Int → Option ((Int → Bool) × List Int)
  | 0, _, _, _, _ => none
  | fuel + 1, state, is_stack_member, path, constants =>
    let is_stack_member := Function.update is_stack_member state true
    let l := A.getNextState state [false]
    let r := A.getNextState state [true]
    match baseSuccessor A (getBaseConstantsFrom A fuel) l false is_stack_member path
        constants with
    | none => none
    | some (is_stack_member, constants) =>
      match baseSuccessor A (getBaseConstantsFrom A fuel) r true is_stack_member path
          constants with
      | none => none
      | some (is_stack_member, constants) =>
        some (Function.update is_stack_member state false, constants)

/-- `getBaseConstants(constants)`: the values of the paths without a repeated
state from the initial state to an accepting state. -/
def getBaseConstants (A : BinaryIntAutomaton Int) : Option (List Int) :=
  if !(A.isSinkState A.dfa.s) then
    (getBaseConstantsFrom A (A.dfa.states.length + 1) A.dfa.s (fun _ => false) [] []).map
      Prod.snd
  else some []

/-- The loop `for (auto p : tmp_periods)` of `getSemilinearSet`: whether a period
found so far divides the candidate; `none` is a division by zero. -/
def dividedBySome : List Int → Int → Option Bool
  | [], _ => some false
  | p :: tmp_periods, possible_period =>
    if p = 0 then none
    else if Int.tmod possible_period p = 0 then some true
    else dividedBySome tmp_periods possible_period

/-- One round of the loop `for (i = 1; i < bases.size(); i++)` that fills
`tmp_periods`; `none` is a division by zero. -/
def periodStep (cycle_head : Int) (tmp_periods : Option (List Int)) (base : Int) :
    Option (List Int) :=
  match tmp_periods with
  | none => none
  | some tmp_periods =>
    let possible_period := base - cycle_head
    if tmp_periods.isEmpty then some (tmp_periods ++ [possible_period])
    else
      match dividedBySome tmp_periods possible_period with
      | none => none
      | some true => some tmp_periods
      | some false =>
        if cycle_head = 0 then none
        else if Int.tmod possible_period cycle_head = 0 then some (tmp_periods ++ [cycle_head])
        else some (tmp_periods ++ [possible_period])

/-- The vector `tmp_periods` that `getSemilinearSet` derives from a non-empty
list of bases; `none` is a division by zero. -/
def candidatePeriods (bases : List Int) : Option (List Int) :=
  if bases.length = 1 then some [bases.headD 0]
  else bases.tail.foldl (periodStep (bases.headD 0)) (some [])

/-- The errors in which the part of `getSemilinearSet` for a cyclic automaton
ends: the fatal error that is logged in the loop when there is no base, a
division by zero in the derivation of the periods, the use of the pointer
`current_set`, which is never set, and the fatal error that is logged after the
loop. -/
inductive SemilinearSetFailure where
  | fatal_no_base
  | division_by_zero
  | unset_current_set
  | fatal_after_loop
  deriving DecidableEq, Repr

/-- The part of `getSemilinearSet` for a cyclic automaton, up to the first
error.  `semilinear_set` is the set created at the start of the function.  The
kernel's emptiness test is a parameter, and so is the automaton
`constants_subject` that the branch of `hasConstants()` computes as subject.
The calls of `makeAutomaton` and `difference` in the loop are left out: what
they compute is not looked at before the first error.  The statement
`return semilinear_set` follows the fatal error after the loop and is never
reached.  The outer `none` is an unfinished search of `getBaseConstants`. -/
def getSemilinearSetCyclic (A : BinaryIntAutomaton Int) (semilinear_set : SemilinearSet)
    (constants_subject : BinaryIntAutomaton Int)
    (isEmptyLanguage : BinaryIntAutomaton Int → Bool) :
    Option (Except SemilinearSetFailure SemilinearSet) :=
  let subject_auto := if semilinear_set.hasConstants then constants_subject else A
  if !(isEmptyLanguage subject_auto) then
    match subject_auto.getBaseConstants with
    | none => none
    | some bases =>
      let bases := sort_and_remove_duplicate bases
      if bases.length = 0 then some (.error .fatal_no_base)
      else
        match candidatePeriods bases with
        | none => some (.error .division_by_zero)
        | some _ => some (.error .unset_current_set)
  else some (.error .fatal_after_loop)

/-- A single-track automaton for the words `0^k`: the initial state `0` accepts
and has a loop on the letter `0`, state `1` is the sink. -/
def automaton_zero_star : BinaryIntAutomaton Int :=
  { dfa := dfaBuild [⟨[(0, [some false])], 1⟩, ⟨[], 1⟩] (statusArray [true, false])
    num_of_variables := 1
    formula := formula_x_eq_0 }

/-! ### The invariants of the pass of `getCycleStatus` -/

/-- The invariant of the pass of `getCycleStatus` between two calls: the stack
holds pairwise distinct states that are discovered, the successors of the
states that are discovered and off the stack are discovered (a state that is
`exempt`, the sink that is skipped, apart), and the states off the stack that
are not marked are ranked: the successors of such a state are off the stack,
and those that are not marked have a smaller rank. -/
structure PassInv (A : BinaryIntAutomaton Int) (exempt : Int → Prop) (T : CycleState) :
    Prop where
  member : ∀ x, T.is_stack_member x = true ↔ x ∈ T.st
  disc_lt : ∀ x ∈ T.st, ∃ d, T.disc x = some d ∧ d < T.time
  nodup : T.st.Nodup
  states : ∀ x ∈ T.st, x ∈ A.dfa.states
  exempt_disc : ∀ x, exempt x → (T.disc x).isSome = true
  explored : ∀ x, (T.disc x).isSome = true → x ∉ T.st → ¬ exempt x →
    ∀ b : Bool, (T.disc (A.dfa.q x [b])).isSome = true
  ranked : ∃ rank : Int → Nat, ∀ x, (T.disc x).isSome = true → x ∉ T.st →
    T.cycle_status x = false →
    ∀ b : Bool, (T.disc (A.dfa.q x [b])).isSome = true ∧ A.dfa.q x [b] ∉ T.st ∧
      (T.cycle_status (A.dfa.q x [b]) = false → rank (A.dfa.q x [b]) < rank x)

/-- What a call of the recursive `getCycleStatus` at `state` leaves behind: the
states it leaves on the stack are new, what was discovered before keeps its
entries, and `low[state]` is the time of discovery of `state` or of a state that
was on the stack before; in the first case the stack is as before. -/
structure PassPost (A : BinaryIntAutomaton Int) (state : Int) (T T1 : CycleState) : Prop where
  stack : ∃ ext, T1.st = ext ++ T.st ∧
    ∀ y ∈ ext, T.disc y = none ∧ (∃ d, T1.disc y = some d ∧ T.time ≤ d) ∧
      ∀ b : Bool, (T1.disc (A.dfa.q y [b])).isSome = true
  frame : ∀ y, (T.disc y).isSome = true → T1.disc y = T.disc y ∧ T1.low y = T.low y
  disc : T1.disc state = some T.time
  time : T.time < T1.time
  low_le : T1.low state ≤ T.time
  low_char : T1.low state = T.time ∨ ∃ z ∈ T.st, T1.disc z = some (T1.low state)
  popped : T1.low state = T.time → T1.st = T.st

/-- The state `Tc` of the pass inside the call at `state` that started in `T`,
between the rounds of the loop over the successors. -/
structure FrameInv (A : BinaryIntAutomaton Int) (exempt : Int → Prop) (state : Int)
    (T Tc : CycleState) : Prop where
  inv : PassInv A exempt Tc
  stack : ∃ ext, Tc.st = ext ++ state :: T.st ∧
    ∀ y ∈ ext, T.disc y = none ∧ (∃ d, Tc.disc y = some d ∧ T.time < d) ∧
      ∀ b : Bool, (Tc.disc (A.dfa.q y [b])).isSome = true
  frame : ∀ y, (T.disc y).isSome = true → Tc.disc y = T.disc y ∧ Tc.low y = T.low y
  disc : Tc.disc state = some T.time
  time : T.time < Tc.time
  low_le : Tc.low state ≤ T.time
  low_char : Tc.low state = T.time ∨ ∃ z ∈ T.st, Tc.disc z = some (Tc.low state)

end BinaryIntAutomaton

end Theory

/-! ## The terms of the AST -/

namespace SMT

/-- Modelled from the spec: the tag `Term::Type` of a term.  `OTHER` stands for
every kind of term for which the extractor has an empty visitor. -/
inductive TermType where
  | AND | OR | NOT | EQ | NOTEQ | GT | GE | LT | LE | CONCAT | BEGINS | NOTBEGINS
  | QUALIDENTIFIER | TERMCONSTANT | OTHER
  deriving DecidableEq, Repr

/-- Modelled from the spec: `Primitive::Type`, the kind of a constant.  `OTHER`
stands for the kinds that are neither strings nor regular expressions. -/
inductive PrimitiveType where
  | STRING | REGEX | OTHER
  deriving DecidableEq, Repr

/-- Modelled from the spec: `Variable::Type`, the sort of a variable. -/
inductive VariableType where
  | BOOL | INT | STRING
  deriving DecidableEq, Repr

/-- Modelled from the spec: a `Variable` exposes its name and its sort. -/
structure Variable where
  name : String
  type : VariableType
  deriving DecidableEq, Repr

/-- Modelled from the spec: the terms of the AST (their source files are
missing).  Terms are equal by identity, so every node carries its identity `id`
(the address of the C++ object); the other fields are the accessors of the
kind. -/
inductive Term where
  | And (id : Nat) (term_list : List Term)
  | Or (id : Nat) (term_list : List Term)
  | Not (id : Nat) (term : Term)
  | Eq (id : Nat) (left_term right_term : Term)
  | NotEq (id : Nat) (left_term right_term : Term)
  | Gt (id : Nat) (left_term right_term : Term)
  | Ge (id : Nat) (left_term right_term : Term)
  | Lt (id : Nat) (left_term right_term : Term)
  | Le (id : Nat) (left_term right_term : Term)
  | Concat (id : Nat) (term_list : List Term)
  | Begins (id : Nat) (subject_term search_term : Term)
  | NotBegins (id : Nat) (subject_term search_term : Term)
  | QualIdentifier (id : Nat) (var_name : String)
  | TermConstant (id : Nat) (value : String) (value_type : PrimitiveType)
  | Other (id : Nat) (children : List Term)

/-- The identity of a term. -/
def Term.id : Term → Nat
  | .And id _ | .Or id _ | .Not id _ | .Eq id _ _ | .NotEq id _ _ | .Gt id _ _ | .Ge id _ _
  | .Lt id _ _ | .Le id _ _ | .Concat id _ | .Begins id _ _ | .NotBegins id _ _
  | .QualIdentifier id _ | .TermConstant id _ _ | .Other id _ => id

/-- Modelled from the spec: `Term::type()`. -/
def Term.type : Term → TermType
  | .And _ _ => .AND
  | .Or _ _ => .OR
  | .Not _ _ => .NOT
  | .Eq _ _ _ => .EQ
  | .NotEq _ _ _ => .NOTEQ
  | .Gt _ _ _ => .GT
  | .Ge _ _ _ => .GE
  | .Lt _ _ _ => .LT
  | .Le _ _ _ => .LE
  | .Concat _ _ => .CONCAT
  | .Begins _ _ _ => .BEGINS
  | .NotBegins _ _ _ => .NOTBEGINS
  | .QualIdentifier _ _ => .QUALIDENTIFIER
  | .TermConstant _ _ _ => .TERMCONSTANT
  | .Other _ _ => .OTHER

/-- A pointer to a term: `none` is `nullptr`, `some id` points to the term with
the identity `id`. -/
abbrev Term_ptr : Type := Option Nat

end SMT

/-! ## StringRelation -/

namespace Theory

open SMT

/-- Modelled from the spec: `StringRelation::Type`, the tag of a relation. -/
inductive StringRelationType where
  | NONE | STRING_VAR | STRING_CONSTANT | REGEX | CONCAT_VAR_CONSTANT
  | EQ | NOTEQ | GT | GE | LT | LE | BEGINS | NOTBEGINS
  deriving DecidableEq, Repr

/-- Modelled from the spec: a `StringRelation` is a tagged tree; a node has a
tag, two children that may be missing, a string payload and a reference to a
track map that it does not own.  The reference is the key under which the map
is stored in the table of the extractor (`none` is `nullptr`). -/
inductive StringRelation where
  | mk (type : StringRelationType) (left right : Option StringRelation) (data : String)
      (var_trackmap : Option Term_ptr)

namespace StringRelation

/-- The getter `get_type`. -/
def get_type : StringRelation → StringRelationType
  | .mk type _ _ _ _ => type

/-- The getter `get_left`. -/
def get_left : StringRelation → Option StringRelation
  | .mk _ left _ _ _ => left

/-- The getter `get_right`. -/
def get_right : StringRelation → Option StringRelation
  | .mk _ _ right _ _ => right

/-- The getter `get_data`. -/
def get_data : StringRelation → String
  | .mk _ _ _ data _ => data

/-- The getter `get_variable_trackmap`. -/
def get_variable_trackmap : StringRelation → Option Term_ptr
  | .mk _ _ _ _ var_trackmap => var_trackmap

/-- The setter `set_variable_trackmap`. -/
def set_variable_trackmap : StringRelation → Option Term_ptr → StringRelation
  | .mk type left right data _, var_trackmap => .mk type left right data var_trackmap

/-- The relation made by `new StringRelation()` followed by `set_type` and
`set_data`: a leaf. -/
def leaf (type : StringRelationType) (data : String) : StringRelation :=
  .mk type none none data none

end StringRelation

end Theory

/-! ## StringRelationGenerator -/

namespace Solver

open SMT Theory

/-- Modelled from the spec: the symbol table holds the declared variables;
`getVariable` looks a variable up by its name.  A name that is not declared has
no variable (`none`); the extractor cannot go on without one. -/
structure SymbolTable where
  variables_ : List Variable

/-- Modelled from the spec: `SymbolTable::getVariable`. -/
def SymbolTable.getVariable (symbol_table : SymbolTable) (name : String) : Option Variable :=
  symbol_table.variables_.find? fun v => v.name == name

/-- Modelled from the spec: the oracle `is_component` of the constraint
information, asked by the identity of a term. -/
structure ConstraintInformation where
  is_component : Nat → Bool

/-- A track map, `std::map<std::string, int>`: the entries in the order in which
they were inserted.  The extractor only looks names up, asks for the size and
inserts names that are not in the map. -/
abbrev VariableTrackMap : Type := List (String × Nat)

/-- The table `term_trackmap_table_`, from terms to track maps. -/
abbrev TrackmapTable : Type := Term_ptr → Option VariableTrackMap

/-- The state of a `StringRelationGenerator`: the symbol table and the oracle it
was made with, and the fields `current_term_`, `relations_` (a term may be
missing, or present with the relation `nullptr`), `variable_term_map_` (keyed by
the name of the variable) and `term_trackmap_table_`. -/
structure StringRelationGenerator where
  symbol_table_ : SymbolTable
  constraint_information_ : ConstraintInformation
  current_term_ : Term_ptr
  relations_ : Nat → Option (Option StringRelation)
  variable_term_map_ : String → Option Term_ptr
  term_trackmap_table_ : TrackmapTable

namespace StringRelationGenerator

/-- The constructor: no current term, and empty tables. -/
def new (symbol_table : SymbolTable) (constraint_information : ConstraintInformation) :
    StringRelationGenerator :=
  { symbol_table_ := symbol_table
    constraint_information_ := constraint_information
    current_term_ := none
    relations_ := fun _ => none
    variable_term_map_ := fun _ => none
    term_trackmap_table_ := fun _ => none }

/-- `get_term_relation`: `nullptr` when the term is missing, else what is
stored for it. -/
def get_term_relation (g : StringRelationGenerator) (term : Term) : Option StringRelation :=
  match g.relations_ term.id with
  | none => none
  | some str_rel => str_rel

/-- `set_term_relation`; `none` is the fatal error for a term that is in the
table already. -/
def set_term_relation (g : StringRelationGenerator) (term : Term)
    (str_rel : Option StringRelation) : Option StringRelationGenerator :=
  match g.relations_ term.id with
  | some _ => none
  | none => some { g with relations_ := Function.update g.relations_ term.id (some str_rel) }

/-- `delete_term_relation`: the term is erased when its relation is not
`nullptr`. -/
def delete_term_relation (g : StringRelationGenerator) (term : Term) :
    StringRelationGenerator :=
  match g.get_term_relation term with
  | some _ => { g with relations_ := Function.update g.relations_ term.id none }
  | none => g

/-- `get_parent_term`. -/
def get_parent_term (g : StringRelationGenerator) (var : Variable) : Term_ptr :=
  match g.variable_term_map_ var.name with
  | none => none
  | some term => term

/-- `set_parent_term`. -/
def set_parent_term (g : StringRelationGenerator) (var : Variable) (term : Term_ptr) :
    StringRelationGenerator :=
  { g with variable_term_map_ := Function.update g.variable_term_map_ var.name (some term) }

/-- What `add_string_variable` does to `term_trackmap_table_`: an empty map is
created for a term that has none; a name that is in the map of the term is left
alone; a new name gets the size of the map as its index. -/
def insertVariable (table : TrackmapTable) (variable_name : String) (term : Term_ptr) :
    TrackmapTable :=
  let table : TrackmapTable :=
    match table term with
    | none => Function.update table term (some [])
    | some _ => table
  match table term with
  | none => table
  | some trackmap =>
    match trackmap.lookup variable_name with
    | some _ => table
    | none =>
      let id := trackmap.length
      Function.update table term (some (trackmap ++ [(variable_name, id)]))

/-- `add_string_variable`. -/
def add_string_variable (g : StringRelationGenerator) (var : Variable) (term : Term_ptr) :
    StringRelationGenerator :=
  { g with term_trackmap_table_ := insertVariable g.term_trackmap_table_ var.name term }

/-- `get_term_trackmap`: `nullptr` when the term has no track map, else the
reference to the map of the term. -/
def get_term_trackmap (g : StringRelationGenerator) (term : Term_ptr) : Option Term_ptr :=
  match g.term_trackmap_table_ term with
  | none => none
  | some _ => some term

/-- The block that the six comparison visitors run for each operand: the
variable of a `STRING_VAR` relation, or of the left child of a
`CONCAT_VAR_CONSTANT` relation, is added to the track map of the current term.
`none` is a fatal error: a name without a variable, or a left child that is
missing. -/
def add_relation_variable (g : StringRelationGenerator) (relation : StringRelation) :
    Option StringRelationGenerator :=
  if relation.get_type = .STRING_VAR then
    match g.symbol_table_.getVariable relation.get_data with
    | none => none
    | some var => some (g.add_string_variable var g.current_term_)
  else if relation.get_type = .CONCAT_VAR_CONSTANT then
    match relation.get_left with
    | none => none
    | some left =>
      match g.symbol_table_.getVariable left.get_data with
      | none => none
      | some var => some (g.add_string_variable var g.current_term_)
  else some g

/-- The end of an accepting comparison visitor: the variables of the two
operands are added, the relations of the operands are deleted and the new
relation is stored for the term. -/
def accept_relation (g : StringRelationGenerator) (term left_term right_term : Term)
    (type : StringRelationType) (left_relation right_relation : StringRelation) :
    Option StringRelationGenerator :=
  let relation : StringRelation := .mk type (some left_relation) (some right_relation) "" none
  match g.add_relation_variable left_relation with
  | none => none
  | some g =>
    match g.add_relation_variable right_relation with
    | none => none
    | some g =>
      ((g.delete_term_relation left_term).delete_term_relation right_term).set_term_relation
        term (some relation)

/-- The rejection of a term by a visitor: the relations of both operands are
deleted and `nullptr` is stored for the term. -/
def reject_relation (g : StringRelationGenerator) (term left_term right_term : Term) :
    Option StringRelationGenerator :=
  ((g.delete_term_relation left_term).delete_term_relation right_term).set_term_relation
    term none

/-- `visitAnd`.  The parameter `visit_children_of` is the effect of
`visit_children_of(and_term)`, the visits of the children in their order. -/
def visitAnd (g : StringRelationGenerator)
    (visit_children_of : StringRelationGenerator → Option StringRelationGenerator)
    (id : Nat) (term_list : List Term) : Option StringRelationGenerator :=
  let g := { g with current_term_ := some id }
  match visit_children_of g with
  | none => none
  | some g =>
    if !(g.constraint_information_.is_component id) then some g
    else
      let current_trackmap := g.get_term_trackmap g.current_term_
      some (term_list.foldl
        (fun (g : StringRelationGenerator) term =>
          match g.get_term_relation term with
          | some term_relation =>
            { g with
              relations_ :=
                Function.update g.relations_ term.id
                  (some (some (term_relation.set_variable_trackmap current_trackmap))) }
          | none => g)
        g)

/-- `visitOr`.  The parameter is the effect of the loop that visits the terms
of `term_list` in their order. -/
def visitOr (g : StringRelationGenerator)
    (visit_children_of : StringRelationGenerator → Option StringRelationGenerator)
    (id : Nat) : Option StringRelationGenerator :=
  visit_children_of { g with current_term_ := some id }

/-- `visitNot`. -/
def visitNot (g : StringRelationGenerator)
    (visit_children_of : StringRelationGenerator → Option StringRelationGenerator) :
    Option StringRelationGenerator :=
  visit_children_of g

/-- `visitEq`. -/
def visitEq (g : StringRelationGenerator)
    (visit_children_of : StringRelationGenerator → Option StringRelationGenerator)
    (id : Nat) (left_term right_term : Term) : Option StringRelationGenerator :=
  match visit_children_of g with
  | none => none
  | some g =>
    let eq_term := Term.Eq id left_term right_term
    match g.get_term_relation left_term, g.get_term_relation right_term with
    | some left_relation, some right_relation =>
      if left_term.type ≠ .QUALIDENTIFIER ∧ right_term.type ≠ .QUALIDENTIFIER then
        g.reject_relation eq_term left_term right_term
      else if left_term.type = .TERMCONSTANT then
        g.reject_relation eq_term left_term right_term
      else if right_term.type = .TERMCONSTANT then
        g.reject_relation eq_term left_term right_term
      else g.accept_relation eq_term left_term right_term .EQ left_relation right_relation
    | _, _ => g.reject_relation eq_term left_term right_term

/-- `visitNotEq`.  In the two branches for a constant operand only the relation
of that operand is deleted. -/
def visitNotEq (g : StringRelationGenerator)
    (visit_children_of : StringRelationGenerator → Option StringRelationGenerator)
    (id : Nat) (left_term right_term : Term) : Option StringRelationGenerator :=
  match visit_children_of g with
  | none => none
  | some g =>
    let not_eq_term := Term.NotEq id left_term right_term
    match g.get_term_relation left_term, g.get_term_relation right_term with
    | some left_relation, some right_relation =>
      if left_term.type ≠ .QUALIDENTIFIER ∧ right_term.type ≠ .QUALIDENTIFIER then
        g.reject_relation not_eq_term left_term right_term
      else if left_term.type = .TERMCONSTANT then
        (g.delete_term_relation left_term).set_term_relation not_eq_term none
      else if right_term.type = .TERMCONSTANT then
        (g.delete_term_relation right_term).set_term_relation not_eq_term none
      else
        g.accept_relation not_eq_term left_term right_term .NOTEQ left_relation right_relation
    | _, _ => g.reject_relation not_eq_term left_term right_term

/-- `visitGt`. -/
def visitGt (g : StringRelationGenerator)
    (visit_children_of : StringRelationGenerator → Option StringRelationGenerator)
    (id : Nat) (left_term right_term : Term) : Option StringRelationGenerator :=
  match visit_children_of g with
  | none => none
  | some g =>
    let gt_term := Term.Gt id left_term right_term
    match g.get_term_relation left_term, g.get_term_relation right_term with
    | some left_relation, some right_relation =>
      if left_term.type ≠ .QUALIDENTIFIER ∧ right_term.type ≠ .QUALIDENTIFIER then
        g.reject_relation gt_term left_term right_term
      else g.accept_relation gt_term left_term right_term .GT left_relation right_relation
    | _, _ => g.reject_relation gt_term left_term right_term

/-- `visitGe`. -/
def visitGe (g : StringRelationGenerator)
    (visit_children_of : StringRelationGenerator → Option StringRelationGenerator)
    (id : Nat) (left_term right_term : Term) : Option StringRelationGenerator :=
  match visit_children_of g with
  | none => none
  | some g =>
    let ge_term := Term.Ge id left_term right_term
    match g.get_term_relation left_term, g.get_term_relation right_term with
    | some left_relation, some right_relation =>
      if left_term.type ≠ .QUALIDENTIFIER ∧ right_term.type ≠ .QUALIDENTIFIER then
        g.reject_relation ge_term left_term right_term
      else g.accept_relation ge_term left_term right_term .GE left_relation right_relation
    | _, _ => g.reject_relation ge_term left_term right_term

/-- `visitLt`. -/
def visitLt (g : StringRelationGenerator)
    (visit_children_of : StringRelationGenerator → Option StringRelationGenerator)
    (id : Nat) (left_term right_term : Term) : Option StringRelationGenerator :=
  match visit_children_of g with
  | none => none
  | some g =>
    let lt_term := Term.Lt id left_term right_term
    match g.get_term_relation left_term, g.get_term_relation right_term with
    | some left_relation, some right_relation =>
      if left_term.type ≠ .QUALIDENTIFIER ∧ right_term.type ≠ .QUALIDENTIFIER then
        g.reject_relation lt_term left_term right_term
      else g.accept_relation lt_term left_term right_term .LT left_relation right_relation
    | _, _ => g.reject_relation lt_term left_term right_term

/-- `visitLe`.  Its test is not the one of the other comparison visitors: a pair
of two constants or of two `CONCAT` terms is rejected. -/
def visitLe (g : StringRelationGenerator)
    (visit_children_of : StringRelationGenerator → Option StringRelationGenerator)
    (id : Nat) (left_term right_term : Term) : Option StringRelationGenerator :=
  match visit_children_of g with
  | none => none
  | some g =>
    let le_term := Term.Le id left_term right_term
    match g.get_term_relation left_term, g.get_term_relation right_term with
    | some left_relation, some right_relation =>
      if (left_term.type = .TERMCONSTANT ∧ right_term.type = .TERMCONSTANT)
          ∨ (left_term.type = .CONCAT ∧ right_term.type = .CONCAT) then
        g.reject_relation le_term left_term right_term
      else g.accept_relation le_term left_term right_term .LE left_relation right_relation
    | _, _ => g.reject_relation le_term left_term right_term

/-- `visitConcat`: its body is commented out, nothing is visited and nothing is
stored. -/
def visitConcat (g : StringRelationGenerator) : Option StringRelationGenerator :=
  some g

/-- The end of `visitBegins` and of `visitNotBegins` for an accepted term: the
payloads of both operands are looked up as names of variables, the variables
are added to the track map of the current term, the relations of the operands
are deleted and the new relation is stored. -/
def accept_begins (g : StringRelationGenerator) (term subject_term search_term : Term)
    (type : StringRelationType) (left_relation right_relation : StringRelation) :
    Option StringRelationGenerator :=
  let relation : StringRelation := .mk type (some left_relation) (some right_relation) "" none
  match g.symbol_table_.getVariable left_relation.get_data with
  | none => none
  | some var =>
    let g := g.add_string_variable var g.current_term_
    match g.symbol_table_.getVariable right_relation.get_data with
    | none => none
    | some var =>
      let g := g.add_string_variable var g.current_term_
      ((g.delete_term_relation subject_term).delete_term_relation search_term).set_term_relation
        term (some relation)

/-- `visitBegins`. -/
def visitBegins (g : StringRelationGenerator)
    (visit_children_of : StringRelationGenerator → Option StringRelationGenerator)
    (id : Nat) (subject_term search_term : Term) : Option StringRelationGenerator :=
  match visit_children_of g with
  | none => none
  | some g =>
    let begins_term := Term.Begins id subject_term search_term
    match g.get_term_relation subject_term, g.get_term_relation search_term with
    | some left_relation, some right_relation =>
      if subject_term.type ≠ .QUALIDENTIFIER ∧ search_term.type ≠ .QUALIDENTIFIER then
        g.reject_relation begins_term subject_term search_term
      else
        g.accept_begins begins_term subject_term search_term .BEGINS left_relation
          right_relation
    | _, _ => g.reject_relation begins_term subject_term search_term

/-- `visitNotBegins`. -/
def visitNotBegins (g : StringRelationGenerator)
    (visit_children_of : StringRelationGenerator → Option StringRelationGenerator)
    (id : Nat) (subject_term search_term : Term) : Option StringRelationGenerator :=
  match visit_children_of g with
  | none => none
  | some g =>
    let not_begins_term := Term.NotBegins id subject_term search_term
    match g.get_term_relation subject_term, g.get_term_relation search_term with
    | some left_relation, some right_relation =>
      if subject_term.type ≠ .QUALIDENTIFIER ∧ search_term.type ≠ .QUALIDENTIFIER then
        g.reject_relation not_begins_term subject_term search_term
      else
        g.accept_begins not_begins_term subject_term search_term .NOTBEGINS left_relation
          right_relation
    | _, _ => g.reject_relation not_begins_term subject_term search_term

/-- `visitQualIdentifier`; `none` is a fatal error (a name without a variable,
or a term that has a relation already). -/
def visitQualIdentifier (g : StringRelationGenerator) (id : Nat) (var_name : String) :
    Option StringRelationGenerator :=
  match g.symbol_table_.getVariable var_name with
  | none => none
  | some var =>
    match var.type with
    | .STRING =>
      (g.set_parent_term var g.current_term_).set_term_relation
        (.QualIdentifier id var_name) (some (StringRelation.leaf .STRING_VAR var.name))
    | _ => g.set_term_relation (.QualIdentifier id var_name) none

/-- `visitTermConstant`. -/
def visitTermConstant (g : StringRelationGenerator) (id : Nat) (value : String)
    (value_type : PrimitiveType) : Option StringRelationGenerator :=
  let term_constant := Term.TermConstant id value value_type
  match g.get_term_relation term_constant with
  | some _ => some g
  | none =>
    match value_type with
    | .STRING =>
      g.set_term_relation term_constant (some (StringRelation.leaf .STRING_CONSTANT value))
    | .REGEX => g.set_term_relation term_constant (some (StringRelation.leaf .REGEX value))
    | .OTHER => g.set_term_relation term_constant none

mutual

/-- Modelled from the spec: `visit(term)` calls the visitor of the kind of the
term, and `visit_children_of(term)` visits the children of the term in their
order.  The visitors of the other kinds are empty. -/
def visit (g : StringRelationGenerator) : Term → Option StringRelationGenerator
  | .And id term_list => visitAnd g (fun g => visitList g term_list) id term_list
  | .Or id term_list => visitOr g (fun g => visitList g term_list) id
  | .Not _ term => visitNot g (fun g => visit g term)
  | .Eq id left_term right_term =>
    visitEq g (fun g => (visit g left_term).bind fun g => visit g right_term) id left_term
      right_term
  | .NotEq id left_term right_term =>
    visitNotEq g (fun g => (visit g left_term).bind fun g => visit g right_term) id left_term
      right_term
  | .Gt id left_term right_term =>
    visitGt g (fun g => (visit g left_term).bind fun g => visit g right_term) id left_term
      right_term
  | .Ge id left_term right_term =>
    visitGe g (fun g => (visit g left_term).bind fun g => visit g right_term) id left_term
      right_term
  | .Lt id left_term right_term =>
    visitLt g (fun g => (visit g left_term).bind fun g => visit g right_term) id left_term
      right_term
  | .Le id left_term right_term =>
    visitLe g (fun g => (visit g left_term).bind fun g => visit g right_term) id left_term
      right_term
  | .Concat _ _ => visitConcat g
  | .Begins id subject_term search_term =>
    visitBegins g (fun g => (visit g subject_term).bind fun g => visit g search_term) id
      subject_term search_term
  | .NotBegins id subject_term search_term =>
    visitNotBegins g (fun g => (visit g subject_term).bind fun g => visit g search_term) id
      subject_term search_term
  | .QualIdentifier id var_name => visitQualIdentifier g id var_name
  | .TermConstant id value value_type => visitTermConstant g id value value_type
  | .Other _ _ => some g

/-- The visits of the terms of a list in their order. -/
def visitList (g : StringRelationGenerator) : List Term → Option StringRelationGenerator
  | [] => some g
  | term :: rest => (visit g term).bind fun g => visitList g rest

end

/-! ### Track maps and the keys of a walk -/

/-- The table after a sequence of registrations `(name, term)`, each done as
`add_string_variable` does it. -/
def insertAll (table : TrackmapTable) (calls : List (String × Term_ptr)) : TrackmapTable :=
  calls.foldl (fun table c => insertVariable table c.1 c.2) table

/-- A track map after the registration of a name: a name that is in the map
changes nothing, a new name gets the size of the map as its index. -/
def trackmapStep (trackmap : VariableTrackMap) (name : String) : VariableTrackMap :=
  match trackmap.lookup name with
  | some _ => trackmap
  | none => trackmap ++ [(name, trackmap.length)]

/-- The track map that grows from the empty map when the names of a list are
registered in their order. -/
def trackmapOf (names : List String) : VariableTrackMap :=
  names.foldl trackmapStep []

mutual

/-- The terms of a term that become `current_term_` when the term is visited:
its and-terms and or-terms.  The children of a `CONCAT` term and of a term of
another kind are not visited. -/
def componentKeys : Term → List Term_ptr
  | .And id term_list => some id :: componentKeysList term_list
  | .Or id term_list => some id :: componentKeysList term_list
  | .Not _ term => componentKeys term
  | .Eq _ left_term right_term => componentKeys left_term ++ componentKeys right_term
  | .NotEq _ left_term right_term => componentKeys left_term ++ componentKeys right_term
  | .Gt _ left_term right_term => componentKeys left_term ++ componentKeys right_term
  | .Ge _ left_term right_term => componentKeys left_term ++ componentKeys right_term
  | .Lt _ left_term right_term => componentKeys left_term ++ componentKeys right_term
  | .Le _ left_term right_term => componentKeys left_term ++ componentKeys right_term
  | .Concat _ _ => []
  | .Begins _ subject_term search_term => componentKeys subject_term ++ componentKeys search_term
  | .NotBegins _ subject_term search_term =>
    componentKeys subject_term ++ componentKeys search_term
  | .QualIdentifier _ _ => []
  | .TermConstant _ _ _ => []
  | .Other _ _ => []

/-- The and-terms and or-terms of the terms of a list. -/
def componentKeysList : List Term → List Term_ptr
  | [] => []
  | term :: rest => componentKeys term ++ componentKeysList rest

end

/-- What a part of the walk does to the track maps: `g1` arises from `g` by
registrations, each under the term that is current in `g` or under a term of
`keys`, and the current term of `g1` is the one of `g` or a term of `keys`. -/
def Walk (keys : List Term_ptr) (g g1 : StringRelationGenerator) : Prop :=
  (g1.current_term_ = g.current_term_ ∨ g1.current_term_ ∈ keys) ∧
  ∃ calls : List (String × Term_ptr),
    g1.term_trackmap_table_ = insertAll g.term_trackmap_table_ calls ∧
    ∀ c ∈ calls, c.2 = g.current_term_ ∨ c.2 ∈ keys

/-! ### Flat components -/

/-- The operands of a comparison and of a begins term. -/
def operands : Term → List Term
  | .Eq _ left_term right_term => [left_term, right_term]
  | .NotEq _ left_term right_term => [left_term, right_term]
  | .Gt _ left_term right_term => [left_term, right_term]
  | .Ge _ left_term right_term => [left_term, right_term]
  | .Lt _ left_term right_term => [left_term, right_term]
  | .Le _ left_term right_term => [left_term, right_term]
  | .Begins _ subject_term search_term => [subject_term, search_term]
  | .NotBegins _ subject_term search_term => [subject_term, search_term]
  | _ => []

/-- The name of the string variable that a term is, if it is one. -/
def stringVariableOf (symbol_table : SymbolTable) : Term → Option String
  | .QualIdentifier _ var_name =>
    match symbol_table.getVariable var_name with
    | some var => if var.type = .STRING then some var.name else none
    | none => none
  | _ => none

/-- The string variables that occur as operands of a constraint, in the order
of the operands. -/
def operandVariables (symbol_table : SymbolTable) (constraint : Term) : List String :=
  (operands constraint).filterMap (stringVariableOf symbol_table)

/-- An operand that is a declared variable, a constant, a concat term or a term
of a kind with an empty visitor. -/
def isFlatOperand (symbol_table : SymbolTable) : Term → Bool
  | .QualIdentifier _ var_name => (symbol_table.getVariable var_name).isSome
  | .TermConstant _ _ _ => true
  | .Concat _ _ => true
  | .Other _ _ => true
  | _ => false

/-- The declared variables. -/
def isDeclaredVariable (symbol_table : SymbolTable) : Term → Bool
  | .QualIdentifier _ var_name => (symbol_table.getVariable var_name).isSome
  | _ => false

/-- A constraint without and-terms and or-terms below it: a comparison of two
flat operands, or a begins term over two declared variables. -/
def isFlatConstraint (symbol_table : SymbolTable) : Term → Bool
  | .Eq _ left_term right_term =>
    isFlatOperand symbol_table left_term && isFlatOperand symbol_table right_term
  | .NotEq _ left_term right_term =>
    isFlatOperand symbol_table left_term && isFlatOperand symbol_table right_term
  | .Gt _ left_term right_term =>
    isFlatOperand symbol_table left_term && isFlatOperand symbol_table right_term
  | .Ge _ left_term right_term =>
    isFlatOperand symbol_table left_term && isFlatOperand symbol_table right_term
  | .Lt _ left_term right_term =>
    isFlatOperand symbol_table left_term && isFlatOperand symbol_table right_term
  | .Le _ left_term right_term =>
    isFlatOperand symbol_table left_term && isFlatOperand symbol_table right_term
  | .Begins _ subject_term search_term =>
    isDeclaredVariable symbol_table subject_term && isDeclaredVariable symbol_table search_term
  | .NotBegins _ subject_term search_term =>
    isDeclaredVariable symbol_table subject_term && isDeclaredVariable symbol_table search_term
  | _ => false

/-- The identities of a constraint and of its operands. -/
def visitedIds (constraint : Term) : List Nat :=
  constraint.id :: (operands constraint).map Term.id

/-- The relation that the visit of a flat operand leaves for it: a `STRING_VAR`
leaf for a string variable, a leaf for a string or a regex constant, and
`nullptr` for every other operand. -/
def leafRelation (symbol_table : SymbolTable) : Term → Option StringRelation
  | .QualIdentifier _ var_name =>
    match symbol_table.getVariable var_name with
    | some var =>
      match var.type with
      | .STRING => some (StringRelation.leaf .STRING_VAR var.name)
      | _ => none
    | none => none
  | .TermConstant _ value value_type =>
    match value_type with
    | .STRING => some (StringRelation.leaf .STRING_CONSTANT value)
    | .REGEX => some (StringRelation.leaf .REGEX value)
    | .OTHER => none
  | _ => none

/-- A part of the walk below one current term: the symbol table and the current
term stay, `relations_` changes at the identities of `ids` only, and the names
of `names` are registered under the current term in their order. -/
def FlatStep (ids : List Nat) (names : List String) (g g1 : StringRelationGenerator) : Prop :=
  g1.symbol_table_ = g.symbol_table_ ∧
  g1.current_term_ = g.current_term_ ∧
  (∀ k, k ∉ ids → g1.relations_ k = g.relations_ k) ∧
  g1.term_trackmap_table_
    = insertAll g.term_trackmap_table_ (names.map fun name => (name, g.current_term_))

/-- The string variables that occur as operands of the constraints of a list
for which the generator holds a relation, in the order of their occurrence. -/
def relationalVariables (symbol_table : SymbolTable) (g : StringRelationGenerator)
    (term_list : List Term) : List String :=
  (term_list.filter fun term => (g.get_term_relation term).isSome).flatMap
    (operandVariables symbol_table)

/-- The term `(and (= a b) (< a "s") (= a (concat c "y")) (begins b d))`. -/
def term_flat_component : Term :=
  .And 0
    [.Eq 1 (.QualIdentifier 2 "a") (.QualIdentifier 3 "b"),
     .Lt 4 (.QualIdentifier 5 "a") (.TermConstant 6 "s" .STRING),
     .Eq 7 (.QualIdentifier 8 "a")
       (.Concat 9 [.QualIdentifier 10 "c", .TermConstant 11 "y" .STRING]),
     .Begins 12 (.QualIdentifier 13 "b") (.QualIdentifier 14 "d")]

/-! ### Example symbol tables and terms -/

/-- The symbol table that declares the names of a list as string variables. -/
def stringVariables (names : List String) : SymbolTable :=
  ⟨names.map fun name => ⟨name, .STRING⟩⟩

/-- The oracle for which every term is a component. -/
def everyTermIsComponent : ConstraintInformation :=
  ⟨fun _ => true⟩

/-- The term `(and (= a b) (begins a "x") (= a (concat c "y")))`. -/
def term_eq_begins_concat : Term :=
  .And 0
    [.Eq 1 (.QualIdentifier 2 "a") (.QualIdentifier 3 "b"),
     .Begins 4 (.QualIdentifier 5 "a") (.TermConstant 6 "x" .STRING),
     .Eq 7 (.QualIdentifier 8 "a")
       (.Concat 9 [.QualIdentifier 10 "c", .TermConstant 11 "y" .STRING])]

/-- The term `(and (= a b) (= a (concat c "y")))`. -/
def term_eq_concat : Term :=
  .And 0
    [.Eq 1 (.QualIdentifier 2 "a") (.QualIdentifier 3 "b"),
     .Eq 7 (.QualIdentifier 8 "a")
       (.Concat 9 [.QualIdentifier 10 "c", .TermConstant 11 "y" .STRING])]

/-- The term `(= a "literal")`. -/
def term_a_eq_literal : Term :=
  .Eq 0 (.QualIdentifier 1 "a") (.TermConstant 2 "literal" .STRING)

/-- The term `(and (begins "x" a) (notbegins "x" a))`. -/
def term_begins_constant_subject : Term :=
  .And 0
    [.Begins 1 (.TermConstant 2 "x" .STRING) (.QualIdentifier 3 "a"),
     .NotBegins 4 (.TermConstant 5 "x" .STRING) (.QualIdentifier 6 "a")]

/-- The term `(or (= a b) (= c d))`. -/
def term_or_of_equations : Term :=
  .Or 0
    [.Eq 1 (.QualIdentifier 2 "a") (.QualIdentifier 3 "b"),
     .Eq 4 (.QualIdentifier 5 "c") (.QualIdentifier 6 "d")]

/-- The term `(or (and (= a b)) (and (= c d)))`. -/
def term_or_of_components : Term :=
  .Or 0
    [.And 1 [.Eq 2 (.QualIdentifier 3 "a") (.QualIdentifier 4 "b")],
     .And 5 [.Eq 6 (.QualIdentifier 7 "c") (.QualIdentifier 8 "d")]]

/-- The term `(and (or (= a b)) (= c d))`. -/
def term_and_with_or : Term :=
  .And 0
    [.Or 1 [.Eq 2 (.QualIdentifier 3 "a") (.QualIdentifier 4 "b")],
     .Eq 5 (.QualIdentifier 6 "c") (.QualIdentifier 7 "d")]

/-! ### The current term and the parent terms of a walk -/

/-- A part of the walk that leaves the symbol table, the oracle, the current
term and the parent terms of the variables as they are. -/
def Keeps (g g1 : StringRelationGenerator) : Prop :=
  g1.symbol_table_ = g.symbol_table_ ∧
  g1.constraint_information_ = g.constraint_information_ ∧
  g1.current_term_ = g.current_term_ ∧
  g1.variable_term_map_ = g.variable_term_map_

mutual

/-- The value of `current_term_` after the walk over a term that is entered with
the current term `current`: an and-term and an or-term become current and stay
so when they are left. -/
def currentAfter (current : Term_ptr) : Term → Term_ptr
  | .And id term_list => currentAfterList (some id) term_list
  | .Or id term_list => currentAfterList (some id) term_list
  | .Not _ term => currentAfter current term
  | .Eq _ left_term right_term => currentAfter (currentAfter current left_term) right_term
  | .NotEq _ left_term right_term => currentAfter (currentAfter current left_term) right_term
  | .Gt _ left_term right_term => currentAfter (currentAfter current left_term) right_term
  | .Ge _ left_term right_term => currentAfter (currentAfter current left_term) right_term
  | .Lt _ left_term right_term => currentAfter (currentAfter current left_term) right_term
  | .Le _ left_term right_term => currentAfter (currentAfter current left_term) right_term
  | .Concat _ _ => current
  | .Begins _ subject_term search_term =>
    currentAfter (currentAfter current subject_term) search_term
  | .NotBegins _ subject_term search_term =>
    currentAfter (currentAfter current subject_term) search_term
  | .QualIdentifier _ _ => current
  | .TermConstant _ _ _ => current
  | .Other _ _ => current

/-- The value of `current_term_` after the walk over the terms of a list. -/
def currentAfterList (current : Term_ptr) : List Term → Term_ptr
  | [] => current
  | term :: rest => currentAfterList (currentAfter current term) rest

end

/-- Of two visits in a row, the later one decides. -/
def laterParent (later earlier : Option Term_ptr) : Option Term_ptr :=
  match later with
  | some parent => some parent
  | none => earlier

mutual

/-- The term that is current at the last visit of a qual-identifier term of the
string variable `name` during the walk over a term that is entered with the
current term `current`; `none` when the walk visits no such term. -/
def lastParent (symbol_table : SymbolTable) (name : String) (current : Term_ptr) :
    Term → Option Term_ptr
  | .And id term_list => lastParentList symbol_table name (some id) term_list
  | .Or id term_list => lastParentList symbol_table name (some id) term_list
  | .Not _ term => lastParent symbol_table name current term
  | .Eq _ left_term right_term =>
    laterParent (lastParent symbol_table name (currentAfter current left_term) right_term)
      (lastParent symbol_table name current left_term)
  | .NotEq _ left_term right_term =>
    laterParent (lastParent symbol_table name (currentAfter current left_term) right_term)
      (lastParent symbol_table name current left_term)
  | .Gt _ left_term right_term =>
    laterParent (lastParent symbol_table name (currentAfter current left_term) right_term)
      (lastParent symbol_table name current left_term)
  | .Ge _ left_term right_term =>
    laterParent (lastParent symbol_table name (currentAfter current left_term) right_term)
      (lastParent symbol_table name current left_term)
  | .Lt _ left_term right_term =>
    laterParent (lastParent symbol_table name (currentAfter current left_term) right_term)
      (lastParent symbol_table name current left_term)
  | .Le _ left_term right_term =>
    laterParent (lastParent symbol_table name (currentAfter current left_term) right_term)
      (lastParent symbol_table name current left_term)
  | .Concat _ _ => none
  | .Begins _ subject_term search_term =>
    laterParent (lastParent symbol_table name (currentAfter current subject_term) search_term)
      (lastParent symbol_table name current subject_term)
  | .NotBegins _ subject_term search_term =>
    laterParent (lastParent symbol_table name (currentAfter current subject_term) search_term)
      (lastParent symbol_table name current subject_term)
  | .QualIdentifier _ var_name =>
    match symbol_table.getVariable var_name with
    | some var => if var.type = .STRING ∧ var.name = name then some current else none
    | none => none
  | .TermConstant _ _ _ => none
  | .Other _ _ => none

/-- The same for the walk over the terms of a list. -/
def lastParentList (symbol_table : SymbolTable) (name : String) (current : Term_ptr) :
    List Term → Option Term_ptr
  | [] => none
  | term :: rest =>
    laterParent (lastParentList symbol_table name (currentAfter current term) rest)
      (lastParent symbol_table name current term)

end

/-- What a part of the walk does to the current term and to the parent terms:
the symbol table and the oracle stay, the current term becomes `current`, and
the variables for which `parents` has a term get that term as their parent
term. -/
def WalkSpec (current : Term_ptr) (parents : String → Option Term_ptr)
    (g g1 : StringRelationGenerator) : Prop :=
  g1.symbol_table_ = g.symbol_table_ ∧
  g1.constraint_information_ = g.constraint_information_ ∧
  g1.current_term_ = current ∧
  ∀ name, g1.variable_term_map_ name = laterParent (parents name) (g.variable_term_map_ name)

/-- The term `(or (and (= a b)) (and (= a c)))`. -/
def term_or_with_shared_variable : Term :=
  .Or 0
    [.And 1 [.Eq 2 (.QualIdentifier 3 "a") (.QualIdentifier 4 "b")],
     .And 5 [.Eq 6 (.QualIdentifier 7 "a") (.QualIdentifier 8 "c")]]

/-- The term `(!= a "s")`. -/
def term_a_neq_constant : Term :=
  .NotEq 0 (.QualIdentifier 1 "a") (.TermConstant 2 "s" .STRING)

/-- The term `(!= "s" a)`. -/
def term_constant_neq_a : Term :=
  .NotEq 0 (.TermConstant 1 "s" .STRING) (.QualIdentifier 2 "a")

/-- The term `(and (begins a "b") (notbegins c "d"))`. -/
def term_begins_literal : Term :=
  .And 0
    [.Begins 1 (.QualIdentifier 2 "a") (.TermConstant 3 "b" .STRING),
     .NotBegins 4 (.QualIdentifier 5 "c") (.TermConstant 6 "d" .STRING)]

/-- The term `(and (< a "b"))`. -/
def term_lt_literal : Term :=
  .And 0 [.Lt 1 (.QualIdentifier 2 "a") (.TermConstant 3 "b" .STRING)]

/-- The calls that register `a`, `b` and again `a` for the term `0`, and `c` for
the term `1`. -/
def calls_a_b_a_c : List (Variable × Term_ptr) :=
  [(⟨"a", .STRING⟩, some 0), (⟨"b", .STRING⟩, some 0), (⟨"a", .STRING⟩, some 0),
   (⟨"c", .STRING⟩, some 1)]

end StringRelationGenerator

end Solver

namespace Theory

namespace BinaryIntAutomaton

theorem Extends.refl (cm : CarryMap) (ni : Int) : Extends cm cm ni ni :=
  ⟨fun _ _ => rfl, fun _ h => Or.inl h, fun _ => Iff.rfl, le_refl _⟩

theorem Extends.trans {cm cm1 cm2 : CarryMap} {ni ni1 ni2 : Int}
    (h1 : Extends cm cm1 ni ni1) (h2 : Extends cm1 cm2 ni1 ni2)
    (hr : 0 ≤ ni) :
    Extends cm cm2 ni ni2 := by
  refine ⟨?_, ?_, ?_, le_trans h1.mono h2.mono⟩
  · intro p hp
    have := h1.keep p hp
    rw [h2.keep p (by rw [this]; exact hp), this]
  · intro p hp
    rcases h1.fresh p hp with h | h
    · rcases h2.fresh p h with h3 | h3
      · exact Or.inl h3
      · exact Or.inr (lt_of_le_of_lt h1.mono h3)
    · have hne : ix cm1 p ≠ -1 := by omega
      rw [h2.keep p hne]; exact Or.inr h
  · intro p
    rw [h2.done, h1.done]

theorem ix_update_current (cm : CarryMap) (t : Int) (v : StateIndices) (p : CarryState) :
    ix (Function.update cm t v) p =
      if p.1 = t then (if p.2 then v.i else v.ir) else ix cm p := by
  unfold ix
  rcases p with ⟨l, b⟩
  by_cases h : l = t
  · subst h; simp
  · simp [h, Function.update_noteq h]

theorem status_update (cm : CarryMap) (t : Int) (v : StateIndices) (p : CarryState) :
    status (Function.update cm t v) p =
      if p.1 = t then (if p.2 then v.s else v.sr) else status cm p := by
  unfold status
  rcases p with ⟨l, b⟩
  by_cases h : l = t
  · subst h; simp
  · simp [h, Function.update_noteq h]

/-- Storing a transition into a label of the range keeps the numbering, extends
the carry map, and appends the exception with the index of the target. -/
theorem storeTransition_spec {lo hi : Int} (st : ExpandState) (t : Int) (c : Bool)
    (pat : Pattern) (hw : Numbering lo hi st.carry_map st.next_index)
    (ht : lo ≤ t ∧ t ≤ hi) :
    Numbering lo hi (storeTransition st t c pat).carry_map (storeTransition st t c pat).next_index ∧
    Extends st.carry_map (storeTransition st t c pat).carry_map st.next_index
      (storeTransition st t c pat).next_index ∧
    ix (storeTransition st t c pat).carry_map (t, c) ≠ -1 ∧
    (storeTransition st t c pat).exceptions =
      st.exceptions ++ [(ix (storeTransition st t c pat).carry_map (t, c), pat)] := by
  have hz := hw.status_zero (t, c)
  have hnn := hw.nonneg
  by_cases hs : status st.carry_map (t, c) = 0
  · -- a fresh flavour: it gets index next_index + 1
    have hix : ix st.carry_map (t, c) = -1 := hz.1 hs
    have hcm : (storeTransition st t c pat).carry_map = Function.update st.carry_map t
        (if c then { st.carry_map t with s := 1, i := st.next_index + 1 }
         else { st.carry_map t with sr := 1, ir := st.next_index + 1 }) := by
      unfold storeTransition
      cases c <;> simp_all [status]
    have hni : (storeTransition st t c pat).next_index = st.next_index + 1 := by
      unfold storeTransition
      cases c <;> simp_all [status]
    have hex : (storeTransition st t c pat).exceptions =
        st.exceptions ++ [(st.next_index + 1, pat)] := by
      unfold storeTransition
      cases c <;> simp_all [status]
    have hixn : ∀ p, ix (storeTransition st t c pat).carry_map p =
        if p = (t, c) then st.next_index + 1 else ix st.carry_map p := by
      intro p
      rw [hcm, ix_update_current]
      rcases p with ⟨l, b⟩
      by_cases hl : l = t
      · subst hl
        cases c <;> cases b <;> simp [ix]
      · simp [hl]
    have hstn : ∀ p, status (storeTransition st t c pat).carry_map p =
        if p = (t, c) then 1 else status st.carry_map p := by
      intro p
      rw [hcm, status_update]
      rcases p with ⟨l, b⟩
      by_cases hl : l = t
      · subst hl
        cases c <;> cases b <;> simp [status]
      · simp [hl]
    refine ⟨⟨?_, ?_, ?_, ?_, ?_, ?_⟩, ⟨?_, ?_, ?_, ?_⟩, ?_, ?_⟩
    · omega
    · intro p
      rw [hixn, hni]
      by_cases hp : p = (t, c)
      · simp [hp]; omega
      · simp only [hp, if_false]
        rcases hw.idx_range p with h | h
        · exact Or.inl h
        · right; omega
    · intro p
      rw [hixn, hstn]
      by_cases hp : p = (t, c)
      · simp [hp]; omega
      · simp only [hp, if_false]; exact hw.status_zero p
    · intro p p1 heq hne
      rw [hixn, hixn] at heq
      rw [hixn] at hne
      by_cases hp : p = (t, c) <;> by_cases hp1 : p1 = (t, c)
      · rw [hp, hp1]
      · simp only [hp, hp1, if_true, if_false] at heq
        rcases hw.idx_range p1 with h | h <;> omega
      · simp only [hp, hp1, if_true, if_false] at heq
        rcases hw.idx_range p with h | h <;> omega
      · simp only [hp, hp1, if_false] at heq hne
        exact hw.inj p p1 heq hne
    · intro k hk0 hk
      rw [hni] at hk
      by_cases hkk : k = st.next_index + 1
      · exact ⟨(t, c), by rw [hixn]; simp [hkk]⟩
      · obtain ⟨p, hp⟩ := hw.surj k hk0 (by omega)
        refine ⟨p, ?_⟩
        rw [hixn]
        have : p ≠ (t, c) := by
          intro h; rw [h, hix] at hp; omega
        simp [this, hp]
    · intro p hne
      rw [hixn] at hne
      by_cases hp : p = (t, c)
      · rw [hp]; exact ht
      · simp only [hp, if_false] at hne; exact hw.in_range p hne
    · intro p hne
      rw [hixn]
      have : p ≠ (t, c) := by
        intro h; rw [h] at hne; exact hne hix
      simp [this]
    · intro p hp
      rw [hixn]
      by_cases hpp : p = (t, c)
      · simp [hpp]
      · simp [hpp, hp]
    · intro p
      rw [hstn]
      by_cases hpp : p = (t, c)
      · simp only [hpp, if_true]
        rw [hs]; omega
      · simp [hpp]
    · omega
    · rw [hixn]; simp; omega
    · rw [hex, hixn]; simp
  · -- a flavour seen before: nothing is allocated
    have hix : ix st.carry_map (t, c) ≠ -1 := fun h => hs (hz.2 h)
    have hcm : (storeTransition st t c pat).carry_map = st.carry_map := by
      unfold storeTransition
      cases c <;> simp_all [status]
    have hni : (storeTransition st t c pat).next_index = st.next_index := by
      unfold storeTransition
      cases c <;> simp_all [status]
    have hex : (storeTransition st t c pat).exceptions =
        st.exceptions ++ [(ix st.carry_map (t, c), pat)] := by
      unfold storeTransition
      cases c <;> simp_all [status, ix]
    rw [hcm, hni]
    exact ⟨hw, Extends.refl _ _, hix, hex⟩

/-- Running the body over a list of masks keeps the numbering, extends the
carry map and appends the exceptions of the rule. -/
theorem foldl_body_spec {rule : Int → Nat → Option CarryState} {V : Nat}
    {body : Int → ExpandState → Nat → ExpandState} {lo hi : Int}
    (hbody : BodyOf rule V body) (hclosed : ClosedOn rule lo hi)
    (L : Int) (hL : lo ≤ L ∧ L ≤ hi) :
    ∀ (js : List Nat) (st : ExpandState), Numbering lo hi st.carry_map st.next_index →
      Numbering lo hi (js.foldl (body L) st).carry_map (js.foldl (body L) st).next_index ∧
      Extends st.carry_map (js.foldl (body L) st).carry_map st.next_index
        (js.foldl (body L) st).next_index ∧
      (∀ j ∈ js, ∀ p, rule L j = some p → ix (js.foldl (body L) st).carry_map p ≠ -1) ∧
      (js.foldl (body L) st).exceptions = st.exceptions ++
        js.filterMap fun j => (rule L j).map fun p =>
          (ix (js.foldl (body L) st).carry_map p, binaryFormat j V) := by
  intro js
  induction js with
  | nil =>
    intro st hw
    exact ⟨hw, Extends.refl _ _, by simp, by simp⟩
  | cons j js ih =>
    intro st hw
    simp only [List.foldl_cons]
    cases hr : rule L j with
    | none =>
      have hb : body L st j = st := by rw [hbody, hr]
      rw [hb]
      obtain ⟨h1, h2, h3, h4⟩ := ih st hw
      refine ⟨h1, h2, ?_, ?_⟩
      · intro j1 hj1 p hp
        rcases List.mem_cons.1 hj1 with h | h
        · subst h; rw [hr] at hp; cases hp
        · exact h3 j1 h p hp
      · rw [h4]; simp [List.filterMap_cons, hr]
    | some p0 =>
      have hb : body L st j = storeTransition st p0.1 p0.2 (binaryFormat j V) := by
        rw [hbody, hr]
      have hin := hclosed L j p0 hL.1 hL.2 hr
      obtain ⟨s1, s2, s3, s4⟩ := storeTransition_spec st p0.1 p0.2 (binaryFormat j V) hw hin
      rw [← hb] at s1 s2 s3 s4
      obtain ⟨h1, h2, h3, h4⟩ := ih (body L st j) s1
      have hkeep := h2.keep (p0.1, p0.2) s3
      refine ⟨h1, Extends.trans s2 h2 hw.nonneg, ?_, ?_⟩
      · intro j1 hj1 p hp
        rcases List.mem_cons.1 hj1 with h | h
        · subst h
          rw [hr] at hp
          cases hp
          show ix _ (p0.1, p0.2) ≠ -1
          rw [hkeep]; exact s3
        · exact h3 j1 h p hp
      · rw [h4, s4]
        simp only [List.filterMap_cons, hr, Option.map_some', List.append_assoc,
          List.singleton_append]
        have : ix (List.foldl (body L) (body L st j) js).carry_map p0 =
            ix (body L st j).carry_map (p0.1, p0.2) := hkeep
        rw [this]

/-- What the search for the next state returns. -/
theorem findNext_spec (cm : CarryMap) (hi count : Int) :
    ∀ (n : Nat) (l : Int), l + n = hi + 1 →
      l ≤ findNext cm hi count n l ∧ findNext cm hi count n l ≤ hi + 1 ∧
      (findNext cm hi count n l ≤ hi →
        (cm (findNext cm hi count n l)).i = count ∨
        (cm (findNext cm hi count n l)).ir = count) ∧
      (∀ l1, l ≤ l1 → l1 < findNext cm hi count n l →
        (cm l1).i ≠ count ∧ (cm l1).ir ≠ count) := by
  intro n
  induction n with
  | zero =>
    intro l hl
    simp only [findNext]
    refine ⟨le_refl _, by omega, ?_, ?_⟩
    · intro h; simp at hl; omega
    · intro l1 h1 h2; omega
  | succ n ih =>
    intro l hl
    simp only [findNext]
    by_cases hc : l ≤ hi ∧ (cm l).i ≠ count ∧ (cm l).ir ≠ count
    · rw [if_pos hc]
      obtain ⟨h1, h2, h3, h4⟩ := ih (l + 1) (by push_cast at hl ⊢; omega)
      refine ⟨by omega, h2, h3, ?_⟩
      intro l1 hl1 hl2
      by_cases hl3 : l1 = l
      · subst hl3; exact hc.2
      · exact h4 l1 (by omega) hl2
    · rw [if_neg hc]
      refine ⟨le_refl _, by push_cast at hl; omega, ?_, ?_⟩
      · intro h
        by_contra hcon
        push_neg at hcon
        exact hc ⟨h, hcon.1, hcon.2⟩
      · intro l1 h1 h2; omega

theorem rowOf_congr (rule : Int → Nat → Option CarryState) (V T : Nat)
    (g h : CarryState → Int) (l : Int)
    (hgh : ∀ j, j < T → ∀ p, rule l j = some p → g p = h p) :
    rowOf rule V T g l = rowOf rule V T h l := by
  unfold rowOf
  apply List.filterMap_congr
  intro j hj
  have hj1 : j < T := List.mem_range.1 hj
  cases hr : rule l j with
  | none => rfl
  | some p => simp [hgh j hj1 p hr]

/-- Marking the state that has index `count` as expanded changes no index and
gives that state the status `2`. -/
theorem mark_spec {lo hi : Int} (cm : CarryMap) (ni L count : Int) (c : Bool)
    (hw : Numbering lo hi cm ni) (hc : ix cm (L, c) = count) (h0 : 0 ≤ count) :
    (∀ p, ix (if (cm L).i = count then Function.update cm L { cm L with s := 2 }
            else Function.update cm L { cm L with sr := 2 }) p = ix cm p) ∧
    (∀ p, status (if (cm L).i = count then Function.update cm L { cm L with s := 2 }
            else Function.update cm L { cm L with sr := 2 }) p =
          if p = (L, c) then 2 else status cm p) := by
  cases c with
  | true =>
    have hi1 : (cm L).i = count := by simpa [ix] using hc
    rw [if_pos hi1]
    constructor
    · intro p
      rw [ix_update_current]
      rcases p with ⟨l, b⟩
      by_cases hl : l = L
      · subst hl; cases b <;> simp [ix]
      · simp [hl]
    · intro p
      rw [status_update]
      rcases p with ⟨l, b⟩
      by_cases hl : l = L
      · subst hl; cases b <;> simp [status]
      · simp [hl]
  | false =>
    have hi1 : (cm L).ir = count := by simpa [ix] using hc
    have hi2 : (cm L).i ≠ count := by
      intro h
      have h1 : ix cm (L, true) = ix cm (L, false) := by simp [ix, h, hi1]
      have h2 := hw.inj (L, true) (L, false) h1 (by simp [ix, h]; omega)
      simp at h2
    rw [if_neg hi2]
    constructor
    · intro p
      rw [ix_update_current]
      rcases p with ⟨l, b⟩
      by_cases hl : l = L
      · subst hl; cases b <;> simp [ix]
      · simp [hl]
    · intro p
      rw [status_update]
      rcases p with ⟨l, b⟩
      by_cases hl : l = L
      · subst hl; cases b <;> simp [status]
      · simp [hl]

/-- One round of the `while` loop keeps the loop invariant. -/
theorem expandOne_inv {rule : Int → Nat → Option CarryState} {V T : Nat}
    {body : Int → ExpandState → Nat → ExpandState} {dflt : Int → Int} {lo hi c0 : Int}
    (hbody : BodyOf rule V body) (hclosed : ClosedOn rule lo hi)
    (st : LoopState) (hinv : LoopInv rule V T dflt lo hi c0 st)
    (hlt : st.next_label < hi + 1) :
    LoopInv rule V T dflt lo hi c0 (expandOne body dflt T lo hi st) := by
  obtain ⟨c, hc⟩ := hinv.next_some (by omega)
  have hcnt0 := hinv.count_nonneg
  have hne : ix st.carry_map (st.next_label, c) ≠ -1 := by rw [hc]; omega
  have hLr := hinv.num.in_range (st.next_label, c) hne
  have hcle : st.count ≤ st.next_index := by
    rcases hinv.num.idx_range (st.next_label, c) with h | h
    · exact absurd h hne
    · rw [hc] at h; exact h.2
  obtain ⟨hix1, hst1⟩ := mark_spec st.carry_map st.next_index st.next_label st.count c
    hinv.num hc hcnt0
  set cm1 : CarryMap := (if (st.carry_map st.next_label).i = st.count then
      Function.update st.carry_map st.next_label { st.carry_map st.next_label with s := 2 }
    else Function.update st.carry_map st.next_label { st.carry_map st.next_label with sr := 2 })
    with hcm1
  have hnum1 : Numbering lo hi cm1 st.next_index := by
    refine ⟨hinv.num.nonneg, ?_, ?_, ?_, ?_, ?_⟩
    · intro p; rw [hix1]; exact hinv.num.idx_range p
    · intro p
      rw [hix1, hst1]
      by_cases hp : p = (st.next_label, c)
      · simp only [hp, if_true]
        constructor
        · intro h; omega
        · intro h; exact absurd h hne
      · simp only [hp, if_false]; exact hinv.num.status_zero p
    · intro p p1 h1 h2
      rw [hix1, hix1] at h1; rw [hix1] at h2
      exact hinv.num.inj p p1 h1 h2
    · intro k hk0 hk
      obtain ⟨p, hp⟩ := hinv.num.surj k hk0 hk
      exact ⟨p, by rw [hix1]; exact hp⟩
    · intro p h; rw [hix1] at h; exact hinv.num.in_range p h
  obtain ⟨f1, f2, f3, f4⟩ := foldl_body_spec hbody hclosed st.next_label hLr
    (List.range T) ⟨cm1, st.next_index, []⟩ hnum1
  set e := (List.range T).foldl (body st.next_label) ⟨cm1, st.next_index, []⟩ with he
  have hkeep : ∀ p, ix st.carry_map p ≠ -1 → ix e.carry_map p = ix st.carry_map p := by
    intro p hp
    have := f2.keep p (by rw [hix1]; exact hp)
    rw [this, hix1]
  have hold : ∀ p, 0 ≤ ix e.carry_map p → ix e.carry_map p < st.count + 1 →
      ix st.carry_map p ≠ -1 := by
    intro p h0 h1 hcon
    rcases f2.fresh p (by rw [hix1]; exact hcon) with h | h
    · omega
    · simp only at h; omega
  have hexp : e.exceptions = rowOf rule V T (ix e.carry_map) st.next_label := by
    rw [f4]; simp [rowOf]
  have hfn := findNext_spec e.carry_map hi (st.count + 1) (hi + 1 - lo).toNat lo
    (by have := hLr.1; have := hLr.2; omega)
  show LoopInv rule V T dflt lo hi c0
    { carry_map := e.carry_map, next_index := e.next_index,
      next_label := findNext e.carry_map hi (st.count + 1) (hi + 1 - lo).toNat lo,
      count := st.count + 1,
      rows := st.rows ++ [⟨e.exceptions, dflt st.count⟩] }
  refine ⟨f1, by simp only; omega, ?_, ?_, ?_, ?_, ?_, ?_, hfn.2.1, ?_⟩
  · have := f2.mono; simp only at this ⊢; omega
  · simp only [List.length_append, List.length_singleton]
    have := hinv.rows_len; push_cast; omega
  · intro p
    simp only
    rw [f2.done, hst1]
    constructor
    · intro h
      by_cases hp : p = (st.next_label, c)
      · rw [hp, hkeep _ hne, hc]; omega
      · simp only [hp, if_false] at h
        have h2 := (hinv.expanded p).1 h
        rw [hkeep p (by omega)]; omega
    · intro h
      have hpne := hold p h.1 h.2
      rw [hkeep p hpne] at h
      by_cases hp : p = (st.next_label, c)
      · simp [hp]
      · simp only [hp, if_false]
        apply (hinv.expanded p).2
        refine ⟨h.1, ?_⟩
        have : ix st.carry_map p ≠ st.count := by
          intro h3
          exact hp (hinv.num.inj p (st.next_label, c) (by rw [h3, hc]) hpne)
        omega
  · intro p h0 h1
    simp only at h0 h1 ⊢
    have hpne := hold p h0 h1
    have hpe := hkeep p hpne
    rw [hpe] at h0 h1 ⊢
    by_cases hlt2 : ix st.carry_map p < st.count
    · obtain ⟨⟨r, hr1, hr2, hr3⟩, htg⟩ := hinv.rows_ok p h0 hlt2
      refine ⟨⟨r, ?_, ?_, hr3⟩, ?_⟩
      · rw [List.get?_eq_getElem?] at hr1 ⊢
        rw [List.getElem?_append_left]
        · exact hr1
        · have := hinv.rows_len; omega
      · rw [hr2]
        apply rowOf_congr
        intro j hj p1 hp1
        exact (hkeep p1 (htg j hj p1 hp1)).symm
      · intro j hj p1 hp1
        rw [hkeep p1 (htg j hj p1 hp1)]
        exact htg j hj p1 hp1
    · have heq : ix st.carry_map p = st.count := by omega
      have hp : p = (st.next_label, c) :=
        hinv.num.inj p (st.next_label, c) (by rw [heq, hc]) hpne
      refine ⟨⟨⟨e.exceptions, dflt st.count⟩, ?_, ?_, ?_⟩, ?_⟩
      · rw [List.get?_eq_getElem?, heq]
        have hl : st.count.toNat = st.rows.length := by
          have := hinv.rows_len; omega
        rw [hl]
        simp
      · simp only; rw [hexp, hp]
      · simp only; rw [heq]
      · intro j hj p1 hp1
        rw [hp] at hp1
        exact f3 j (List.mem_range.2 hj) p1 hp1
  · intro h
    simp only at h ⊢
    rcases hfn.2.2.1 h with h1 | h1
    · exact ⟨true, by simp [ix, h1]⟩
    · exact ⟨false, by simp [ix, h1]⟩
  · intro h
    simp only at h ⊢
    obtain ⟨p, hp⟩ := f1.surj (st.count + 1) (by omega) h
    have hpr := f1.in_range p (by rw [hp]; omega)
    by_contra hcon
    push_neg at hcon
    have := hfn.2.2.2 p.1 hpr.1 (by omega)
    rcases p with ⟨l, b⟩
    cases b
    · simp [ix] at hp; exact this.2 hp
    · simp [ix] at hp; exact this.1 hp
  · simp only
    rw [hkeep _ (by rw [hinv.start]; omega)]
    exact hinv.start

/-- The loop invariant holds before the first round. -/
theorem initLoopState_inv (rule : Int → Nat → Option CarryState) (V T : Nat)
    (dflt : Int → Int) {lo hi c0 : Int} (h1 : lo ≤ c0) (h2 : c0 ≤ hi) :
    LoopInv rule V T dflt lo hi c0 (initLoopState c0) := by
  have hix : ∀ p, ix (initCarryMap c0) p = if p = (c0, false) then 0 else -1 := by
    intro p
    unfold initCarryMap
    rw [ix_update_current]
    rcases p with ⟨l, b⟩
    by_cases hl : l = c0
    · subst hl; cases b <;> simp
    · simp [hl, ix]
  have hst : ∀ p, status (initCarryMap c0) p = if p = (c0, false) then 1 else 0 := by
    intro p
    unfold initCarryMap
    rw [status_update]
    rcases p with ⟨l, b⟩
    by_cases hl : l = c0
    · subst hl; cases b <;> simp
    · simp [hl, status]
  refine ⟨⟨le_refl _, ?_, ?_, ?_, ?_, ?_⟩, le_refl _, ?_, ?_, ?_, ?_, ?_, ?_, ?_, ?_⟩
  · intro p
    show ix (initCarryMap c0) p = -1 ∨ (0 ≤ ix (initCarryMap c0) p ∧ ix (initCarryMap c0) p ≤ 0)
    rw [hix]; by_cases hp : p = (c0, false) <;> simp [hp]
  · intro p; show status (initCarryMap c0) p = 0 ↔ ix (initCarryMap c0) p = -1
    rw [hix, hst]; by_cases hp : p = (c0, false) <;> simp [hp]
  · intro p p1 h3 h4
    change ix (initCarryMap c0) p = ix (initCarryMap c0) p1 at h3
    change ix (initCarryMap c0) p ≠ -1 at h4
    rw [hix] at h4
    rw [hix, hix] at h3
    by_cases hp : p = (c0, false) <;> by_cases hp1 : p1 = (c0, false)
    · rw [hp, hp1]
    · simp [hp, hp1] at h3
    · simp [hp] at h4
    · simp [hp] at h4
  · intro k hk0 hk
    change k ≤ 0 at hk
    exact ⟨(c0, false), by
      show ix (initCarryMap c0) _ = k
      rw [hix]; simp; omega⟩
  · intro p hp
    change ix (initCarryMap c0) p ≠ -1 at hp
    rw [hix] at hp
    by_cases hpp : p = (c0, false)
    · rw [hpp]; exact ⟨h1, h2⟩
    · simp [hpp] at hp
  · simp [initLoopState]
  · simp [initLoopState]
  · intro p
    show status (initCarryMap c0) p = 2 ↔ (0 ≤ ix (initCarryMap c0) p ∧ ix (initCarryMap c0) p < 0)
    rw [hst]
    by_cases hp : p = (c0, false) <;> simp [hp]
  · intro p h3 h4
    change ix (initCarryMap c0) p < 0 at h4
    change 0 ≤ ix (initCarryMap c0) p at h3
    omega
  · intro _
    exact ⟨false, by show ix (initCarryMap c0) (c0, false) = 0; rw [hix]; simp⟩
  · intro _; exact h2
  · show c0 ≤ hi + 1; omega
  · show ix (initCarryMap c0) _ = 0; rw [hix]; simp

/-- The loop invariant holds after any number of rounds. -/
theorem expandLoop_inv {rule : Int → Nat → Option CarryState} {V T : Nat}
    {body : Int → ExpandState → Nat → ExpandState} {dflt : Int → Int} {lo hi c0 : Int}
    (hbody : BodyOf rule V body) (hclosed : ClosedOn rule lo hi) :
    ∀ (fuel : Nat) (st : LoopState), LoopInv rule V T dflt lo hi c0 st →
      LoopInv rule V T dflt lo hi c0 (expandLoop body dflt T lo hi fuel st) := by
  intro fuel
  induction fuel with
  | zero => intro st h; exact h
  | succ n ih =>
    intro st h
    simp only [expandLoop]
    by_cases hlt : st.next_label < hi + 1
    · rw [if_pos hlt]
      exact ih _ (expandOne_inv hbody hclosed st h hlt)
    · rw [if_neg hlt]; exact h

/-- A numbering has at most two indices per label of the range. -/
theorem Numbering.bound {lo hi : Int} {cm : CarryMap} {ni : Int}
    (hw : Numbering lo hi cm ni) : ni + 1 ≤ 2 * (hi + 1 - lo) := by
  classical
  have hex : ∀ k : Nat, ∃ p, (k : Int) ≤ ni → ix cm p = k := by
    intro k
    by_cases hk : (k : Int) ≤ ni
    · obtain ⟨p, hp⟩ := hw.surj k (by omega) hk
      exact ⟨p, fun _ => hp⟩
    · exact ⟨(0, false), fun h => absurd h hk⟩
  choose g hg using hex
  have hcard : (Finset.range (ni + 1).toNat).card ≤
      ((Finset.Icc lo hi) ×ˢ (Finset.univ : Finset Bool)).card := by
    apply Finset.card_le_card_of_injOn g
    · intro k hk
      have hk1 : (k : Int) ≤ ni := by
        have := Finset.mem_range.1 hk; omega
      have h1 := hg k hk1
      have h2 := hw.in_range (g k) (by rw [h1]; omega)
      simp only [Finset.mem_product, Finset.mem_Icc, Finset.mem_univ, and_true]
      exact h2
    · intro k hk k1 hk1 heq
      have hk2 : (k : Int) ≤ ni := by
        have := Finset.mem_range.1 (Finset.mem_coe.1 hk); omega
      have hk3 : (k1 : Int) ≤ ni := by
        have := Finset.mem_range.1 (Finset.mem_coe.1 hk1); omega
      have h1 := hg k hk2
      have h2 := hg k1 hk3
      rw [heq, h2] at h1
      exact_mod_cast h1.symm
  rw [Finset.card_range, Finset.card_product, Int.card_Icc, Finset.card_univ,
    Fintype.card_bool] at hcard
  have := hw.nonneg
  omega

/-- With enough fuel the `while` loop has left its condition: the constructions
terminate. -/
theorem expandLoop_exit {rule : Int → Nat → Option CarryState} {V T : Nat}
    {body : Int → ExpandState → Nat → ExpandState} {dflt : Int → Int} {lo hi c0 : Int}
    (hbody : BodyOf rule V body) (hclosed : ClosedOn rule lo hi) :
    ∀ (fuel : Nat) (st : LoopState), LoopInv rule V T dflt lo hi c0 st →
      2 * (hi + 1 - lo) - st.count ≤ fuel →
      ¬ ((expandLoop body dflt T lo hi fuel st).next_label < hi + 1) := by
  intro fuel
  induction fuel with
  | zero =>
    intro st h hf
    simp only [expandLoop]
    intro hlt
    obtain ⟨c, hc⟩ := h.next_some (by omega)
    have hb := h.num.bound
    rcases h.num.idx_range (st.next_label, c) with h1 | h1
    · have := h.count_nonneg; omega
    · simp at hf; omega
  | succ n ih =>
    intro st h hf
    simp only [expandLoop]
    by_cases hlt : st.next_label < hi + 1
    · rw [if_pos hlt]
      apply ih _ (expandOne_inv hbody hclosed st h hlt)
      show 2 * (hi + 1 - lo) - (st.count + 1) ≤ n
      push_cast at hf; omega
    · rw [if_neg hlt]; exact hlt

/-- After the loop has ended every state that has an index is expanded. -/
theorem LoopInv.all_expanded {rule : Int → Nat → Option CarryState} {V T : Nat}
    {dflt : Int → Int} {lo hi c0 : Int} {st : LoopState}
    (h : LoopInv rule V T dflt lo hi c0 st) (hex : ¬ (st.next_label < hi + 1)) :
    st.count = st.next_index + 1 := by
  by_contra hne
  have h1 := h.count_le
  have := h.next_none (by omega)
  omega

/-! ### Letters and masks -/

theorem letterMask_lt (V : Nat) : ∀ a : Letter, letterMask V a < 2 ^ V := by
  induction V with
  | zero => intro a; simp [letterMask]
  | succ V ih =>
    intro a
    have := ih a.tail
    simp only [letterMask]
    split <;> rw [pow_succ] <;> omega

theorem bitAt_tail (a : Letter) (k : Nat) : bitAt a.tail k = bitAt a (k + 1) := by
  cases a with
  | nil => simp [bitAt]
  | cons b bs => simp [bitAt]

theorem testBit_letterMask (V : Nat) :
    ∀ (a : Letter) (i : Nat), i < V → (letterMask V a).testBit i = bitAt a (V - 1 - i) := by
  induction V with
  | zero => intro a i hi; omega
  | succ V ih =>
    intro a i hi
    simp only [letterMask]
    have hlt := letterMask_lt V a.tail
    by_cases hiV : i = V
    · subst hiV
      have h0 : (letterMask i a.tail).testBit i = false := Nat.testBit_lt_two_pow hlt
      by_cases hb : bitAt a 0 = true
      · rw [if_pos hb, Nat.testBit_two_pow_add_eq, h0]; simp [hb]
      · rw [if_neg hb]; simp only [zero_add, h0]
        simp at hb; simp [hb]
    · have hi2 : i < V := by omega
      have h1 := ih a.tail i hi2
      rw [bitAt_tail] at h1
      have h2 : V - 1 - i + 1 = V + 1 - 1 - i := by omega
      rw [h2] at h1
      by_cases hb : bitAt a 0 = true
      · rw [if_pos hb, Nat.testBit_two_pow_add_gt hi2, h1]
      · rw [if_neg hb, zero_add, h1]

/-- A label is covered by the pattern of a mask exactly when the mask is the
mask of the label. -/
theorem matchesPattern_binaryFormat (V j : Nat) (a : Letter) (hj : j < 2 ^ V) :
    matchesPattern (binaryFormat j V) a = true ↔ j = letterMask V a := by
  have hlen : (binaryFormat j V).length = V := by simp [binaryFormat]
  have hget : ∀ k, k < V →
      (binaryFormat j V).getD k none = some (j.testBit (V - 1 - k)) := by
    intro k hk
    simp [binaryFormat, List.getD_eq_getElem?_getD, List.getElem?_map,
      List.getElem?_range hk]
  unfold matchesPattern
  rw [hlen, List.all_eq_true]
  constructor
  · intro h
    apply Nat.eq_of_testBit_eq
    intro i
    by_cases hi : i < V
    · have h1 := h (V - 1 - i) (List.mem_range.2 (by omega))
      rw [hget _ (by omega)] at h1
      have h2 : V - 1 - (V - 1 - i) = i := by omega
      simp only [h2, beq_iff_eq] at h1
      rw [h1, testBit_letterMask V a i hi]
    · have h1 : j < 2 ^ i := lt_of_lt_of_le hj (Nat.pow_le_pow_right (by omega) (by omega))
      have h2 : letterMask V a < 2 ^ i :=
        lt_of_lt_of_le (letterMask_lt V a) (Nat.pow_le_pow_right (by omega) (by omega))
      rw [Nat.testBit_lt_two_pow h1, Nat.testBit_lt_two_pow h2]
  · intro h k hk
    have hk1 : k < V := List.mem_range.1 hk
    rw [hget k hk1, h, testBit_letterMask V a _ (by omega)]
    have h2 : V - 1 - (V - 1 - k) = k := by omega
    simp [h2]

/-- The successor the stored row of a label prescribes is the index of the
target of the rule, or the default target when the rule has no transition. -/
theorem rowOf_next (rule : Int → Nat → Option CarryState) (V : Nat)
    (index : CarryState → Int) (l : Int) (r : Row)
    (hr : r.exceptions = rowOf rule V (2 ^ V) index l) (a : Letter) :
    r.next a =
      match rule l (letterMask V a) with
      | some p => index p
      | none => r.default := by
  have key : ∀ js : List Nat, (∀ j ∈ js, j < 2 ^ V) →
      (js.filterMap fun j => (rule l j).map fun p => (index p, binaryFormat j V)).find?
        (fun e => matchesPattern e.2 a) =
      if letterMask V a ∈ js then
        (rule l (letterMask V a)).map fun p => (index p, binaryFormat (letterMask V a) V)
      else none := by
    intro js
    induction js with
    | nil => intro _; simp
    | cons j js ih =>
      intro hjs
      have ih1 := ih (fun j1 hj1 => hjs j1 (List.mem_cons_of_mem _ hj1))
      have hj := hjs j (List.mem_cons_self _ _)
      by_cases hjm : j = letterMask V a
      · subst hjm
        cases hrule : rule l (letterMask V a) with
        | none =>
          simp only [List.filterMap_cons, hrule, Option.map_none', List.mem_cons, true_or,
            if_true]
          rw [ih1, hrule]; simp
        | some p =>
          have hm := (matchesPattern_binaryFormat V (letterMask V a) a hj).2 rfl
          simp [List.filterMap_cons, hrule, List.find?_cons, hm]
      · have hmem : (if letterMask V a ∈ j :: js then
              (rule l (letterMask V a)).map fun p => (index p, binaryFormat (letterMask V a) V)
            else none) =
            (if letterMask V a ∈ js then
              (rule l (letterMask V a)).map fun p => (index p, binaryFormat (letterMask V a) V)
            else none) := by
          simp only [List.mem_cons, Ne.symm hjm, false_or]
        rw [hmem]
        cases hrule : rule l j with
        | none =>
          simp only [List.filterMap_cons, hrule, Option.map_none']
          exact ih1
        | some p =>
          have hm : matchesPattern (binaryFormat j V) a = false := by
            cases h : matchesPattern (binaryFormat j V) a with
            | false => rfl
            | true => exact absurd ((matchesPattern_binaryFormat V j a hj).1 h) hjm
          simp only [List.filterMap_cons, hrule, Option.map_some', List.find?_cons, hm]
          exact ih1
  unfold Row.next
  rw [hr]
  unfold rowOf
  rw [key (List.range (2 ^ V)) (fun j hj => List.mem_range.1 hj)]
  rw [if_pos (List.mem_range.2 (letterMask_lt V a))]
  cases rule l (letterMask V a) <;> rfl

/-- What the final loop over the labels leaves in the statuses. -/
theorem finalStatuses_spec (cm : CarryMap) (lo hi k : Int) :
    finalStatuses cm lo hi k = true ↔
      ∃ l, lo ≤ l ∧ l ≤ hi ∧ (cm l).s = 2 ∧ (cm l).i = k := by
  have key : ∀ n : Nat,
      (List.range n).foldl
        (fun (st : Int → Bool) (m : Nat) =>
          if (cm (lo + (m : Int))).s = 2 then Function.update st (cm (lo + (m : Int))).i true
          else st)
        (fun _ => false) k = true ↔
      ∃ m : Nat, m < n ∧ (cm (lo + (m : Int))).s = 2 ∧ (cm (lo + (m : Int))).i = k := by
    intro n
    induction n with
    | zero => simp
    | succ n ih =>
      rw [List.range_succ, List.foldl_append]
      simp only [List.foldl_cons, List.foldl_nil]
      by_cases hs : (cm (lo + (n : Int))).s = 2
      · rw [if_pos hs, Function.update_apply]
        by_cases hk : k = (cm (lo + (n : Int))).i
        · simp only [hk, if_true, true_iff]
          exact ⟨n, by omega, hs, rfl⟩
        · rw [if_neg hk, ih]
          constructor
          · rintro ⟨m, h1, h2, h3⟩; exact ⟨m, by omega, h2, h3⟩
          · rintro ⟨m, h1, h2, h3⟩
            by_cases hmn : m = n
            · subst hmn; exact absurd h3.symm hk
            · exact ⟨m, by omega, h2, h3⟩
      · rw [if_neg hs, ih]
        constructor
        · rintro ⟨m, h1, h2, h3⟩; exact ⟨m, by omega, h2, h3⟩
        · rintro ⟨m, h1, h2, h3⟩
          by_cases hmn : m = n
          · subst hmn; exact absurd h2 hs
          · exact ⟨m, by omega, h2, h3⟩
  unfold finalStatuses
  rw [key]
  constructor
  · rintro ⟨m, h1, h2, h3⟩
    exact ⟨lo + m, by omega, by omega, h2, h3⟩
  · rintro ⟨l, h1, h2, h3, h4⟩
    refine ⟨(l - lo).toNat, by omega, ?_, ?_⟩
    · have : lo + ((l - lo).toNat : Int) = l := by omega
      rw [this]; exact h3
    · have : lo + ((l - lo).toNat : Int) = l := by omega
      rw [this]; exact h4

/-! ### The automaton built from the rows -/

theorem dfaBuild_q_neg (rows : List Row) (statuses : Int → Bool) (i : Int) (a : Letter)
    (hi : i < 0) : (dfaBuild rows statuses).q i a = i := by
  simp [dfaBuild, hi]

/-- In the built automaton, the state of an indexed flavour moves to the state
of the target of the rule, or to the default target. -/
theorem built_step {rule : Int → Nat → Option CarryState} {V : Nat} {dflt : Int → Int}
    {lo hi c0 : Int} (st : LoopState) (hinv : LoopInv rule V (2 ^ V) dflt lo hi c0 st)
    (hall : st.count = st.next_index + 1) (extra : List Row) (statuses : Int → Bool)
    (p : CarryState) (hp : ix st.carry_map p ≠ -1) (a : Letter) :
    (dfaBuild (st.rows ++ extra) statuses).q (ix st.carry_map p) a =
      (match rule p.1 (letterMask V a) with
       | some p1 => ix st.carry_map p1
       | none => dflt (ix st.carry_map p)) ∧
    ∀ p1, rule p.1 (letterMask V a) = some p1 → ix st.carry_map p1 ≠ -1 := by
  have hr : 0 ≤ ix st.carry_map p ∧ ix st.carry_map p < st.count := by
    rcases hinv.num.idx_range p with h | h
    · exact absurd h hp
    · omega
  obtain ⟨⟨r, hr1, hr2, hr3⟩, htg⟩ := hinv.rows_ok p hr.1 hr.2
  have hget : (st.rows ++ extra).get? (ix st.carry_map p).toNat = some r := by
    rw [List.get?_eq_getElem?] at hr1 ⊢
    rw [List.getElem?_append_left]
    · exact hr1
    · have := hinv.rows_len; omega
  constructor
  · show (if ix st.carry_map p < 0 then ix st.carry_map p
      else match (st.rows ++ extra).get? (ix st.carry_map p).toNat with
        | some r => r.next a
        | none => ix st.carry_map p) = _
    rw [if_neg (by omega), hget]
    simp only
    rw [rowOf_next rule V (ix st.carry_map) p.1 r hr2 a, hr3]
  · intro p1 hp1
    exact htg _ (letterMask_lt V a) p1 hp1

/-- The statuses of the built automaton: the state of an indexed flavour accepts
exactly when the flavour is `current`. -/
theorem built_status {rule : Int → Nat → Option CarryState} {V T : Nat} {dflt : Int → Int}
    {lo hi c0 : Int} (st : LoopState) (hinv : LoopInv rule V T dflt lo hi c0 st)
    (hall : st.count = st.next_index + 1)
    (p : CarryState) (hp : ix st.carry_map p ≠ -1) :
    finalStatuses st.carry_map lo hi (ix st.carry_map p) = p.2 := by
  have hr : 0 ≤ ix st.carry_map p ∧ ix st.carry_map p < st.count := by
    rcases hinv.num.idx_range p with h | h
    · exact absurd h hp
    · omega
  rcases p with ⟨l, b⟩
  cases b with
  | true =>
    rw [finalStatuses_spec]
    have h2 := (hinv.expanded (l, true)).2 hr
    have h3 := hinv.num.in_range (l, true) hp
    exact ⟨l, h3.1, h3.2, by simpa [status] using h2, by simp [ix]⟩
  | false =>
    cases hf : finalStatuses st.carry_map lo hi (ix st.carry_map (l, false)) with
    | false => rfl
    | true =>
      obtain ⟨l1, _, _, h3, h4⟩ := (finalStatuses_spec _ _ _ _).1 hf
      have h5 : ix st.carry_map (l1, true) = ix st.carry_map (l, false) := by
        simpa [ix] using h4
      have := hinv.num.inj (l1, true) (l, false) h5 (by rw [h5]; exact hp)
      simp at this

/-- The built automaton accepts a word exactly when the carry automaton, started
in the reflected flavour of the constant, ends in a flavour `current`. -/
theorem built_accepts {rule : Int → Nat → Option CarryState} {V : Nat} {dflt : Int → Int}
    {lo hi c0 : Int} (st : LoopState) (hinv : LoopInv rule V (2 ^ V) dflt lo hi c0 st)
    (hall : st.count = st.next_index + 1) (extra : List Row) (d : Int)
    (hd1 : ∀ a, (dfaBuild (st.rows ++ extra) (finalStatuses st.carry_map lo hi)).q d a = d)
    (hd2 : finalStatuses st.carry_map lo hi d = false)
    (hd3 : ∀ p j, ix st.carry_map p ≠ -1 → rule p.1 j = none → dflt (ix st.carry_map p) = d)
    (w : List Letter) :
    (dfaBuild (st.rows ++ extra) (finalStatuses st.carry_map lo hi)).accepts w =
      match carryRun rule (c0, false) (w.map (letterMask V)) with
      | some p => p.2
      | none => false := by
  set A := dfaBuild (st.rows ++ extra) (finalStatuses st.carry_map lo hi) with hA
  have hdead : ∀ w : List Letter, A.run d w = d := by
    intro w
    induction w with
    | nil => rfl
    | cons a w ih =>
      show A.run (A.q d a) w = d
      rw [hd1 a]; exact ih
  have hrun : ∀ (w : List Letter) (p : CarryState), ix st.carry_map p ≠ -1 →
      A.f (A.run (ix st.carry_map p) w) =
        match carryRun rule p (w.map (letterMask V)) with
        | some p1 => p1.2
        | none => false := by
    intro w
    induction w with
    | nil =>
      intro p hp
      show finalStatuses st.carry_map lo hi (ix st.carry_map p) = _
      simp only [List.map_nil, carryRun]
      exact built_status st hinv hall p hp
    | cons a w ih =>
      intro p hp
      obtain ⟨h1, h2⟩ := built_step st hinv hall extra (finalStatuses st.carry_map lo hi) p hp a
      show A.f (A.run (A.q (ix st.carry_map p) a) w) = _
      rw [hA, h1]
      simp only [List.map_cons, carryRun]
      cases hrule : rule p.1 (letterMask V a) with
      | none =>
        simp only
        rw [hd3 p _ hp hrule, ← hA, hdead w]
        exact hd2
      | some p1 =>
        simp only
        rw [← hA]
        exact ih p1 (h2 p1 hrule)
  have h0 := hrun w (c0, false) (by rw [hinv.start]; omega)
  rw [hinv.start] at h0
  exact h0

/-! ### The arithmetic of the carries -/

open ArithmeticFormula in
theorem evalAux_congr (cs : List Int) :
    ∀ (k : Nat) (r1 r2 : Nat → Int), (∀ i, k ≤ i → i < k + cs.length → r1 i = r2 i) →
      evalAux cs k r1 = evalAux cs k r2 := by
  induction cs with
  | nil => intro k r1 r2 _; rfl
  | cons c cs ih =>
    intro k r1 r2 h
    simp only [evalAux]
    rw [h k (le_refl _) (by simp), ih (k + 1) r1 r2]
    intro i hi1 hi2
    exact h i (by omega) (by simp only [List.length_cons]; omega)

open ArithmeticFormula in
theorem evalAux_add_two_mul (cs : List Int) :
    ∀ (k : Nat) (x y : Nat → Int),
      evalAux cs k (fun i => x i + 2 * y i) = evalAux cs k x + 2 * evalAux cs k y := by
  induction cs with
  | nil => intro k x y; simp [evalAux]
  | cons c cs ih =>
    intro k x y
    simp only [evalAux]
    rw [ih]; ring

open ArithmeticFormula in
theorem evalAux_neg (cs : List Int) :
    ∀ (k : Nat) (x : Nat → Int), evalAux cs k (fun i => - x i) = - evalAux cs k x := by
  induction cs with
  | nil => intro k x; simp [evalAux]
  | cons c cs ih =>
    intro k x
    simp only [evalAux]
    rw [ih]; ring

open ArithmeticFormula in
theorem countOnesAux_eq (cs : List Int) :
    ∀ (n k : Nat), countOnesAux cs n =
      evalAux cs k (fun i => if n.testBit (i - k) then 1 else 0) := by
  induction cs with
  | nil => intro n k; rfl
  | cons c cs ih =>
    intro n k
    simp only [countOnesAux, evalAux]
    rw [ih (n / 2) (k + 1)]
    have h1 : (if n % 2 = 1 then c else 0) = c * (if n.testBit (k - k) then 1 else 0) := by
      simp only [Nat.sub_self, Nat.testBit_zero, decide_eq_true_eq]
      split <;> simp
    rw [h1]
    congr 1
    apply evalAux_congr
    intro i hi1 _
    have : i - k = (i - (k + 1)) + 1 := by omega
    rw [this, Nat.testBit_succ]

/-- The weighted count of the ones of a letter is the sum of the coefficients
of the variables whose bit is set. -/
theorem countOnes_letterMask (f : ArithmeticFormula) (a : Letter) :
    f.countOnes (letterMask f.getNumberOfVariables a) =
      ArithmeticFormula.evalAux f.getCoefficients 0 (letterBit f.getNumberOfVariables a) := by
  unfold ArithmeticFormula.countOnes
  rw [countOnesAux_eq _ _ 0]
  apply evalAux_congr
  intro i _ hi
  have hlen : f.getCoefficients.length = f.getNumberOfVariables := by
    simp [ArithmeticFormula.getCoefficients, ArithmeticFormula.getNumberOfVariables]
  rw [hlen] at hi
  have h1 := testBit_letterMask f.getNumberOfVariables a i (by omega)
  simp only [Nat.sub_zero, letterBit, h1]

theorem wordValues_single (V : Nat) (a : Letter) :
    wordValues V [a] = fun i => - letterBit V a i := by
  funext i
  simp only [wordValues, track, List.map_cons, List.map_nil, twosComplement, letterBit]
  split <;> simp

theorem wordValues_cons (V : Nat) (a b : Letter) (w : List Letter) :
    wordValues V (a :: b :: w) = fun i => letterBit V a i + 2 * wordValues V (b :: w) i := by
  funext i
  simp only [wordValues, track, List.map_cons, twosComplement, letterBit]

/-- The successor label of `makeLessThan` is the floor of half the sum. -/
theorem lessThanTarget_eq (r : Int) : lessThanTarget r = r / 2 := by
  unfold lessThanTarget
  split
  · rw [Int.tdiv_eq_ediv (by omega) (by omega)]
  · have h1 : r - 1 = -(1 - r) := by ring
    rw [h1, Int.neg_tdiv, Int.tdiv_eq_ediv (by omega) (by omega)]
    omega

/-- The re-normalization loop leaves `write1` set exactly when the label is
below the weighted count of ones. -/
theorem renormalize_spec (S : Int) :
    ∀ (n : Nat) (l1 l2 w : Int), l2 = (l1 + S) / 2 → w = (l1 + S) % 2 →
      (l1 - S).natAbs + 1 ≤ n →
      ((renormalize S n (l1, l2, w)).2.2 ≠ 0 ↔ l1 < S) ∧
      (renormalize S n (l1, l2, w)).1 = (renormalize S n (l1, l2, w)).2.1 := by
  intro n
  induction n with
  | zero => intro l1 l2 w _ _ h; omega
  | succ n ih =>
    intro l1 l2 w h2 hw hn
    simp only [renormalize]
    by_cases heq : l1 = l2
    · rw [if_neg (by simpa using heq)]
      simp only
      refine ⟨?_, heq⟩
      omega
    · rw [if_pos heq]
      have h3 := ih l2 (lessThanTarget (l2 + S)) ((l2 + S) % 2) (lessThanTarget_eq _) rfl
        (by omega)
      refine ⟨?_, h3.2⟩
      rw [h3.1]
      omega

theorem lessThanWrite1_spec (L S : Int) : lessThanWrite1 L S ≠ 0 ↔ L < S := by
  unfold lessThanWrite1
  exact (renormalize_spec S _ L _ _ (lessThanTarget_eq _) rfl (le_refl _)).1

/-! ### The range of the labels -/

theorem sumPos_foldl (cs : List Int) : ∀ m : Int,
    cs.foldl (fun m c => if c > 0 then m + c else m) m = m + sumPos cs := by
  induction cs with
  | nil => intro m; simp [sumPos]
  | cons c cs ih =>
    intro m
    simp only [List.foldl_cons, sumPos]
    rw [ih, ih (if c > 0 then 0 + c else 0)]
    split <;> ring

theorem sumNeg_foldl (cs : List Int) : ∀ m : Int,
    cs.foldl (fun m c => if c > 0 then m else m + c) m = m + sumNeg cs := by
  induction cs with
  | nil => intro m; simp [sumNeg]
  | cons c cs ih =>
    intro m
    simp only [List.foldl_cons, sumNeg]
    rw [ih, ih (if c > 0 then 0 else 0 + c)]
    split <;> ring

theorem sumPos_cons (c : Int) (cs : List Int) :
    sumPos (c :: cs) = (if c > 0 then c else 0) + sumPos cs := by
  show List.foldl _ _ (c :: cs) = _
  simp only [List.foldl_cons]
  rw [sumPos_foldl]
  split <;> ring

theorem sumNeg_cons (c : Int) (cs : List Int) :
    sumNeg (c :: cs) = (if c > 0 then 0 else c) + sumNeg cs := by
  show List.foldl _ _ (c :: cs) = _
  simp only [List.foldl_cons]
  rw [sumNeg_foldl]
  split <;> ring

/-- The weighted count of ones lies between the sum of the negative and the sum
of the positive coefficients. -/
theorem countOnesAux_bounds (cs : List Int) :
    ∀ n : Nat, sumNeg cs ≤ ArithmeticFormula.countOnesAux cs n ∧
      ArithmeticFormula.countOnesAux cs n ≤ sumPos cs := by
  induction cs with
  | nil => intro n; simp [sumNeg, sumPos, ArithmeticFormula.countOnesAux]
  | cons c cs ih =>
    intro n
    have := ih (n / 2)
    rw [sumPos_cons, sumNeg_cons]
    simp only [ArithmeticFormula.countOnesAux]
    split <;> split <;> omega

theorem countOnesAux_zero (cs : List Int) : ArithmeticFormula.countOnesAux cs 0 = 0 := by
  induction cs with
  | nil => rfl
  | cons c cs ih => simp [ArithmeticFormula.countOnesAux, ih]

theorem sumNeg_le_zero (cs : List Int) : sumNeg cs ≤ 0 := by
  have := countOnesAux_bounds cs 0
  have h := countOnesAux_zero cs
  omega

theorem zero_le_sumPos (cs : List Int) : 0 ≤ sumPos cs := by
  have := countOnesAux_bounds cs 0
  have h := countOnesAux_zero cs
  omega

/-- After widening, the constant and every weighted count of ones lie in
`[min, max]`. -/
theorem label_range (f : ArithmeticFormula) (n : Nat) :
    minLabel f ≤ f.constant ∧ f.constant ≤ maxLabel f ∧
    minLabel f ≤ f.countOnes n ∧ f.countOnes n ≤ maxLabel f ∧
    minLabel f ≤ 0 ∧ 0 ≤ maxLabel f := by
  have h1 := countOnesAux_bounds f.getCoefficients n
  have h2 := sumNeg_le_zero f.getCoefficients
  have h3 := zero_le_sumPos f.getCoefficients
  unfold minLabel maxLabel ArithmeticFormula.countOnes
  split <;> (try split) <;> omega

theorem equalityBody_bodyOf (f : ArithmeticFormula) (V : Nat) :
    BodyOf (equalityRule f) V (equalityBody f V) := by
  intro L st j
  unfold equalityBody equalityRule
  simp only
  by_cases h : (L + f.countOnes j) % 2 = 0
  · simp only [h, if_true]
    by_cases h2 : (L + f.countOnes j).tdiv 2 = L
    · simp [h2]
    · simp [h2]
  · simp only [h, if_false]

theorem lessThanBody_bodyOf (f : ArithmeticFormula) (V : Nat) :
    BodyOf (lessThanRule f) V (lessThanBody f V) := by
  intro L st j
  unfold lessThanBody lessThanRule
  simp only
  by_cases h : lessThanWrite1 L (f.countOnes j) ≠ 0
  · simp [h]
  · simp only [h, if_false]
    simp

theorem equalityRule_closed (f : ArithmeticFormula) :
    ClosedOn (equalityRule f) (minLabel f) (maxLabel f) := by
  intro L j p h1 h2 hr
  have hb := label_range f j
  unfold equalityRule at hr
  simp only at hr
  by_cases h : (L + f.countOnes j) % 2 = 0
  · rw [if_pos h] at hr
    cases hr
    simp only
    rw [Int.tdiv_eq_ediv_of_dvd (Int.dvd_of_emod_eq_zero h)]
    omega
  · rw [if_neg h] at hr; cases hr

theorem lessThanRule_closed (f : ArithmeticFormula) :
    ClosedOn (lessThanRule f) (minLabel f) (maxLabel f) := by
  intro L j p h1 h2 hr
  have hb := label_range f j
  unfold lessThanRule at hr
  cases hr
  simp only
  rw [lessThanTarget_eq]
  omega

/-! ### The languages of the carry automata -/

/-- The carry automaton of `makeEquality`, started at a label, ends in a
flavour `current` on a non-empty word exactly when the label and the weighted
two's-complement values of the tracks add up to zero. -/
theorem equality_carry (f : ArithmeticFormula) :
    ∀ (w : List Letter) (a : Letter) (L : Int) (b : Bool),
      (match carryRun (equalityRule f) (L, b)
          ((a :: w).map (letterMask f.getNumberOfVariables)) with
        | some p => p.2
        | none => false) = true ↔
      L + ArithmeticFormula.evalAux f.getCoefficients 0
        (wordValues f.getNumberOfVariables (a :: w)) = 0 := by
  intro w
  induction w with
  | nil =>
    intro a L b
    rw [wordValues_single, evalAux_neg, ← countOnes_letterMask]
    simp only [List.map_cons, List.map_nil, carryRun, equalityRule]
    by_cases h : (L + f.countOnes (letterMask f.getNumberOfVariables a)) % 2 = 0
    · rw [if_pos h]
      simp only [decide_eq_true_eq]
      rw [Int.tdiv_eq_ediv_of_dvd (Int.dvd_of_emod_eq_zero h)]
      omega
    · rw [if_neg h]
      simp only [Bool.false_eq_true, false_iff]
      omega
  | cons a1 w ih =>
    intro a L b
    rw [wordValues_cons, evalAux_add_two_mul, ← countOnes_letterMask]
    have h1 : carryRun (equalityRule f) (L, b)
        ((a :: a1 :: w).map (letterMask f.getNumberOfVariables)) =
        match equalityRule f L (letterMask f.getNumberOfVariables a) with
        | some p1 => carryRun (equalityRule f) p1
            ((a1 :: w).map (letterMask f.getNumberOfVariables))
        | none => none := rfl
    rw [h1]
    have h2 : equalityRule f L (letterMask f.getNumberOfVariables a) =
        if (L + f.countOnes (letterMask f.getNumberOfVariables a)) % 2 = 0 then
          some ((L + f.countOnes (letterMask f.getNumberOfVariables a)).tdiv 2,
            decide ((L + f.countOnes (letterMask f.getNumberOfVariables a)).tdiv 2 = L))
        else none := rfl
    rw [h2]
    by_cases h : (L + f.countOnes (letterMask f.getNumberOfVariables a)) % 2 = 0
    · rw [if_pos h]
      simp only
      rw [ih a1 _ _, Int.tdiv_eq_ediv_of_dvd (Int.dvd_of_emod_eq_zero h)]
      omega
    · rw [if_neg h]
      simp only [Bool.false_eq_true, false_iff]
      omega

/-- The carry automaton of `makeLessThan`, started at a label, ends in a flavour
`current` on a non-empty word exactly when the label and the weighted
two's-complement values of the tracks add up to a negative number. -/
theorem lessThan_carry (f : ArithmeticFormula) :
    ∀ (w : List Letter) (a : Letter) (L : Int) (b : Bool),
      (match carryRun (lessThanRule f) (L, b)
          ((a :: w).map (letterMask f.getNumberOfVariables)) with
        | some p => p.2
        | none => false) = true ↔
      L + ArithmeticFormula.evalAux f.getCoefficients 0
        (wordValues f.getNumberOfVariables (a :: w)) < 0 := by
  intro w
  induction w with
  | nil =>
    intro a L b
    rw [wordValues_single, evalAux_neg, ← countOnes_letterMask]
    simp only [List.map_cons, List.map_nil, carryRun, lessThanRule, decide_eq_true_eq]
    rw [lessThanWrite1_spec]
    omega
  | cons a1 w ih =>
    intro a L b
    rw [wordValues_cons, evalAux_add_two_mul, ← countOnes_letterMask]
    have h1 : carryRun (lessThanRule f) (L, b)
        ((a :: a1 :: w).map (letterMask f.getNumberOfVariables)) =
        match lessThanRule f L (letterMask f.getNumberOfVariables a) with
        | some p1 => carryRun (lessThanRule f) p1
            ((a1 :: w).map (letterMask f.getNumberOfVariables))
        | none => none := rfl
    rw [h1]
    have h2 : lessThanRule f L (letterMask f.getNumberOfVariables a) =
        some (lessThanTarget (L + f.countOnes (letterMask f.getNumberOfVariables a)),
          decide (lessThanWrite1 L (f.countOnes (letterMask f.getNumberOfVariables a)) ≠ 0)) :=
      rfl
    rw [h2]
    simp only
    rw [ih a1 _ _, lessThanTarget_eq]
    omega

/-! ### The languages of the two constructions -/

theorem getCoefficients_length (f : ArithmeticFormula) :
    f.getCoefficients.length = f.getNumberOfVariables := by
  simp [ArithmeticFormula.getCoefficients, ArithmeticFormula.getNumberOfVariables]

/-- The automaton `makeEquality` builds for a formula (after `simplify()`)
accepts exactly the non-empty words whose tracks, read least-significant bit
first with the last bit as sign bit, satisfy `Σ aᵢ·xᵢ + c = 0`. -/
theorem equalityDfa_accepts (f : ArithmeticFormula) (w : List Letter) :
    (equalityDfa f).accepts w = true ↔
      w ≠ [] ∧ f.evalAt (wordValues f.getNumberOfVariables w) = 0 := by
  have hb := label_range f 0
  have hinv0 := initLoopState_inv (equalityRule f) f.getNumberOfVariables
    (2 ^ f.getNumberOfVariables) (fun _ => 2 * maxLabel f - 2 * minLabel f + 3 - 1) hb.1 hb.2.1
  have hbody := equalityBody_bodyOf f f.getNumberOfVariables
  have hclosed := equalityRule_closed f
  have hinv := expandLoop_inv hbody hclosed (2 * maxLabel f - 2 * minLabel f + 3).toNat _ hinv0
  have hexit := expandLoop_exit hbody hclosed (2 * maxLabel f - 2 * minLabel f + 3).toNat _ hinv0
    (by simp only [initLoopState]; omega)
  have hall := hinv.all_expanded hexit
  have hbound := hinv.num.bound
  unfold equalityDfa
  simp only [getCoefficients_length, dfaMinimize]
  set fin := expandLoop (equalityBody f f.getNumberOfVariables)
    (fun _ => 2 * maxLabel f - 2 * minLabel f + 3 - 1) (2 ^ f.getNumberOfVariables)
    (minLabel f) (maxLabel f) (2 * maxLabel f - 2 * minLabel f + 3).toNat
    (initLoopState f.constant) with hfin
  rw [built_accepts fin hinv hall _ (2 * maxLabel f - 2 * minLabel f + 3 - 1)]
  · cases w with
    | nil => simp [carryRun]
    | cons a w =>
      rw [equality_carry f w a f.constant false]
      simp only [ne_eq, reduceCtorEq, not_false_eq_true, true_and, ArithmeticFormula.evalAt]
      omega
  · intro a
    show (if (2 * maxLabel f - 2 * minLabel f + 3 - 1) < 0 then _ else _) = _
    rw [if_neg (by omega)]
    have hlen := hinv.rows_len
    have hget : (fin.rows ++ paddingRows (fun _ => 2 * maxLabel f - 2 * minLabel f + 3 - 1)
        fin.count (2 * maxLabel f - 2 * minLabel f + 3 - fin.count).toNat).get?
        (2 * maxLabel f - 2 * minLabel f + 3 - 1).toNat =
        some ⟨[], 2 * maxLabel f - 2 * minLabel f + 3 - 1⟩ := by
      rw [List.get?_eq_getElem?, List.getElem?_append_right (by omega)]
      unfold paddingRows
      rw [List.getElem?_map, List.getElem?_range (by omega)]
      rfl
    rw [hget]
    rfl
  · cases hf : finalStatuses fin.carry_map (minLabel f) (maxLabel f)
      (2 * maxLabel f - 2 * minLabel f + 3 - 1) with
    | false => rfl
    | true =>
      obtain ⟨l, _, _, h3, h4⟩ := (finalStatuses_spec _ _ _ _).1 hf
      have h5 := (hinv.expanded (l, true)).1 (by simpa [status] using h3)
      have h6 : ix fin.carry_map (l, true) = 2 * maxLabel f - 2 * minLabel f + 3 - 1 := by
        simpa [ix] using h4
      omega
  · intro p j _ _; rfl

/-- The automaton `makeLessThan` builds for a formula (after `simplify()`)
accepts exactly the non-empty words whose tracks, read least-significant bit
first with the last bit as sign bit, satisfy `Σ aᵢ·xᵢ + c < 0`. -/
theorem lessThanDfa_accepts (f : ArithmeticFormula) (w : List Letter) :
    (lessThanDfa f).accepts w = true ↔
      w ≠ [] ∧ f.evalAt (wordValues f.getNumberOfVariables w) < 0 := by
  have hb := label_range f 0
  have hinv0 := initLoopState_inv (lessThanRule f) f.getNumberOfVariables
    (2 ^ f.getNumberOfVariables) (fun k => k) hb.1 hb.2.1
  have hbody := lessThanBody_bodyOf f f.getNumberOfVariables
  have hclosed := lessThanRule_closed f
  have hinv := expandLoop_inv hbody hclosed (2 * (maxLabel f - minLabel f + 1)).toNat _ hinv0
  have hexit := expandLoop_exit hbody hclosed (2 * (maxLabel f - minLabel f + 1)).toNat _ hinv0
    (by simp only [initLoopState]; omega)
  have hall := hinv.all_expanded hexit
  unfold lessThanDfa
  simp only [getCoefficients_length, dfaMinimize]
  set fin := expandLoop (lessThanBody f f.getNumberOfVariables)
    (fun k => k) (2 ^ f.getNumberOfVariables)
    (minLabel f) (maxLabel f) (2 * (maxLabel f - minLabel f + 1)).toNat
    (initLoopState f.constant) with hfin
  have hacc := built_accepts fin hinv hall
    (paddingRows (fun k => k) fin.count (2 * (maxLabel f - minLabel f + 1) - fin.count).toNat)
    (-1) (fun a => dfaBuild_q_neg _ _ (-1) a (by omega))
    (by
      cases hf : finalStatuses fin.carry_map (minLabel f) (maxLabel f) (-1) with
      | false => rfl
      | true =>
        obtain ⟨l, _, _, h3, h4⟩ := (finalStatuses_spec _ _ _ _).1 hf
        have h5 := (hinv.expanded (l, true)).1 (by simpa [status] using h3)
        have h6 : ix fin.carry_map (l, true) = -1 := by simpa [ix] using h4
        omega)
    (by intro p j _ h; simp [lessThanRule] at h) w
  have hsame : ∀ (A : DFA Int) (l : List Int), ({ A with states := l } : DFA Int).accepts w =
      A.accepts w := fun _ _ => rfl
  rw [hsame, hacc]
  cases w with
  | nil => simp [carryRun]
  | cons a w =>
    rw [lessThan_carry f w a f.constant false]
    simp only [ne_eq, reduceCtorEq, not_false_eq_true, true_and, ArithmeticFormula.evalAt]
    omega

/-! ### `simplify()` and the other operations on formulas -/

theorem gcdAll_dvd (f : ArithmeticFormula) :
    ((f.gcdAll : Int) ∣ f.constant) ∧ ∀ c ∈ f.getCoefficients, (f.gcdAll : Int) ∣ c := by
  unfold ArithmeticFormula.gcdAll
  generalize f.getCoefficients = cs
  induction cs with
  | nil =>
    simp only [List.foldr_nil, List.not_mem_nil, false_implies, implies_true, and_true]
    exact Int.natCast_dvd.2 (dvd_refl _)
  | cons c cs ih =>
    simp only [List.foldr_cons, List.mem_cons]
    have h1 : Nat.gcd c.natAbs (List.foldr (fun c g => Nat.gcd c.natAbs g) f.constant.natAbs cs) ∣
        List.foldr (fun c g => Nat.gcd c.natAbs g) f.constant.natAbs cs := Nat.gcd_dvd_right _ _
    have h2 : Nat.gcd c.natAbs (List.foldr (fun c g => Nat.gcd c.natAbs g) f.constant.natAbs cs) ∣
        c.natAbs := Nat.gcd_dvd_left _ _
    have h3 := Int.natCast_dvd_natCast.2 h1
    refine ⟨dvd_trans h3 ih.1, ?_⟩
    intro c1 hc1
    rcases hc1 with h | h
    · subst h
      exact Int.natCast_dvd.2 h2
    · exact dvd_trans h3 (ih.2 c1 h)

open ArithmeticFormula in
theorem evalAux_map_div (g : Int) (cs : List Int) (hg : ∀ c ∈ cs, g ∣ c) :
    ∀ (k : Nat) (rho : Nat → Int),
      evalAux cs k rho = g * evalAux (cs.map fun c => c / g) k rho := by
  induction cs with
  | nil => intro k rho; simp [evalAux]
  | cons c cs ih =>
    intro k rho
    simp only [List.map_cons, evalAux]
    rw [ih (fun c1 h => hg c1 (List.mem_cons_of_mem _ h)) (k + 1) rho]
    have h1 : g * (c / g) = c := Int.mul_ediv_cancel' (hg c (List.mem_cons_self _ _))
    calc c * rho k + g * evalAux (cs.map fun c => c / g) (k + 1) rho
        = g * (c / g) * rho k + g * evalAux (cs.map fun c => c / g) (k + 1) rho := by rw [h1]
      _ = g * (c / g * rho k + evalAux (cs.map fun c => c / g) (k + 1) rho) := by ring

/-- What `simplify()` does to a formula: the left-hand side is divided by a
positive number; kind, variables and their order are kept. -/
theorem simplify_spec (f : ArithmeticFormula) :
    (∃ g : Int, 0 < g ∧ ∀ rho, f.evalAt rho = g * f.simplify.2.evalAt rho) ∧
    f.simplify.2.getNumberOfVariables = f.getNumberOfVariables ∧
    f.simplify.2.type = f.type ∧
    f.simplify.2.getVariables = f.getVariables := by
  unfold ArithmeticFormula.simplify
  simp only
  by_cases hg : (f.gcdAll : Int) = 0
  · rw [if_pos hg]
    exact ⟨⟨1, by omega, fun rho => by ring⟩, rfl, rfl, rfl⟩
  · rw [if_neg hg]
    obtain ⟨h1, h2⟩ := gcdAll_dvd f
    refine ⟨⟨(f.gcdAll : Int), by omega, ?_⟩, ?_, rfl, ?_⟩
    · intro rho
      have hcs : (f.coeffs.map (fun p => (p.1, p.2 / (f.gcdAll : Int)))).map Prod.snd =
          (f.coeffs.map Prod.snd).map fun c => c / (f.gcdAll : Int) := by
        simp [List.map_map, Function.comp_def]
      have h4 := evalAux_map_div (f.gcdAll : Int) f.getCoefficients h2 0 rho
      have h3 : (f.gcdAll : Int) * (f.constant / (f.gcdAll : Int)) = f.constant :=
        Int.mul_ediv_cancel' h1
      unfold ArithmeticFormula.evalAt ArithmeticFormula.getCoefficients at *
      simp only
      rw [hcs, h4, mul_add, h3]
    · simp [ArithmeticFormula.getNumberOfVariables]
    · simp [ArithmeticFormula.getVariables, List.map_map, Function.comp_def]

open ArithmeticFormula in
theorem evalAux_all_zero (cs : List Int) (h : cs.all (fun c => c == 0) = true) :
    ∀ (k : Nat) (rho : Nat → Int), evalAux cs k rho = 0 := by
  induction cs with
  | nil => intro k rho; rfl
  | cons c cs ih =>
    intro k rho
    simp only [List.all_cons, Bool.and_eq_true, beq_iff_eq] at h
    simp only [evalAux]
    rw [ih h.2, h.1]; simp

open ArithmeticFormula in
theorem evalAux_map_mul (k0 : Int) (cs : List Int) :
    ∀ (k : Nat) (rho : Nat → Int),
      evalAux (cs.map fun c => k0 * c) k rho = k0 * evalAux cs k rho := by
  induction cs with
  | nil => intro k rho; simp [evalAux]
  | cons c cs ih =>
    intro k rho
    simp only [List.map_cons, evalAux]
    rw [ih]; ring

theorem evalAt_multiply (f : ArithmeticFormula) (k : Int) (rho : Nat → Int) :
    (f.multiply k).evalAt rho = k * f.evalAt rho := by
  have hcs : (f.coeffs.map (fun p => (p.1, k * p.2))).map Prod.snd =
      (f.coeffs.map Prod.snd).map fun c => k * c := by
    simp [List.map_map, Function.comp_def]
  have h4 := evalAux_map_mul k f.getCoefficients 0 rho
  unfold ArithmeticFormula.evalAt ArithmeticFormula.multiply ArithmeticFormula.getCoefficients at *
  simp only
  rw [hcs, h4]
  ring

theorem numberOfVariables_multiply (f : ArithmeticFormula) (k : Int) :
    (f.multiply k).getNumberOfVariables = f.getNumberOfVariables := by
  simp [ArithmeticFormula.getNumberOfVariables, ArithmeticFormula.multiply]

/-! ### The languages of the six comparison automata -/

/-- `makeEquality` on a formula of kind EQ accepts exactly the non-empty words
that satisfy `Σ aᵢ·xᵢ + c = 0`. -/
theorem makeEquality_accepts (f : ArithmeticFormula) (hf : f.type = .EQ) (w : List Letter) :
    (makeEquality f).accepts w = true ↔
      w ≠ [] ∧ f.evalAt (wordValues f.getNumberOfVariables w) = 0 := by
  obtain ⟨⟨g, hg, hev⟩, hV, hty, _⟩ := simplify_spec f
  unfold makeEquality
  simp only
  by_cases hok : f.simplify.1 = true
  · simp only [hok, Bool.not_true, Bool.false_eq_true, if_false]
    show (equalityDfa f.simplify.2).accepts w = true ↔ _
    rw [equalityDfa_accepts, hV, hev]
    constructor
    · rintro ⟨h1, h2⟩; exact ⟨h1, by rw [h2]; ring⟩
    · rintro ⟨h1, h2⟩
      refine ⟨h1, ?_⟩
      rcases Int.mul_eq_zero.1 h2 with h | h
      · omega
      · exact h
  · have hok2 : f.simplify.1 = false := by simpa using hok
    simp only [hok2, Bool.not_false, if_true]
    have hinc : ArithmeticFormula.isInconsistent f.simplify.2 = true := by
      have : f.simplify.1 = !(ArithmeticFormula.isInconsistent f.simplify.2) := rfl
      rw [this] at hok2
      simpa using hok2
    have hacc : (makePhi f.simplify.2).accepts w = false := rfl
    rw [hacc]
    simp only [Bool.false_eq_true, false_iff, not_and]
    intro _ h0
    unfold ArithmeticFormula.isInconsistent at hinc
    simp only [Bool.and_eq_true, Bool.not_eq_true'] at hinc
    rw [hev] at h0
    have h1 : f.simplify.2.evalAt (wordValues f.getNumberOfVariables w) = 0 := by
      rcases Int.mul_eq_zero.1 h0 with h | h
      · omega
      · exact h
    unfold ArithmeticFormula.evalAt at h1
    rw [evalAux_all_zero _ hinc.1] at h1
    rw [hty, hf] at hinc
    simp [ArithmeticFormula.holdsAt] at hinc
    omega

/-- `makeLessThan` accepts exactly the non-empty words that satisfy
`Σ aᵢ·xᵢ + c < 0`. -/
theorem makeLessThan_accepts (f : ArithmeticFormula) (w : List Letter) :
    (makeLessThan f).accepts w = true ↔
      w ≠ [] ∧ f.evalAt (wordValues f.getNumberOfVariables w) < 0 := by
  obtain ⟨⟨g, hg, hev⟩, hV, _, _⟩ := simplify_spec f
  show (lessThanDfa f.simplify.2).accepts w = true ↔ _
  rw [lessThanDfa_accepts, hV, hev]
  constructor
  · rintro ⟨h1, h2⟩; exact ⟨h1, by nlinarith⟩
  · rintro ⟨h1, h2⟩; exact ⟨h1, by nlinarith⟩

/-- `makeNotEquality` accepts the empty word and the non-empty words that do
not satisfy `Σ aᵢ·xᵢ + c = 0`. -/
theorem makeNotEquality_accepts (f : ArithmeticFormula) (w : List Letter) :
    (makeNotEquality f).accepts w = true ↔
      w = [] ∨ f.evalAt (wordValues f.getNumberOfVariables w) ≠ 0 := by
  have h := makeEquality_accepts (f.setType .EQ) rfl w
  have h1 : (makeNotEquality f).accepts w = !((makeEquality (f.setType .EQ)).accepts w) := rfl
  rw [h1]
  have h2 : (f.setType .EQ).evalAt (wordValues (f.setType .EQ).getNumberOfVariables w) =
      f.evalAt (wordValues f.getNumberOfVariables w) := rfl
  rw [h2] at h
  cases hacc : (makeEquality (f.setType .EQ)).accepts w with
  | true =>
    have := h.1 hacc
    simp only [Bool.not_true, Bool.false_eq_true, false_iff, not_or]
    exact ⟨this.1, fun hne => hne this.2⟩
  | false =>
    simp only [Bool.not_false, true_iff]
    by_contra hcon
    push_neg at hcon
    have := h.2 ⟨hcon.1, hcon.2⟩
    rw [hacc] at this
    cases this

/-- `makeLessThanOrEqual` accepts exactly the non-empty words that satisfy
`Σ aᵢ·xᵢ + c ≤ 0`. -/
theorem makeLessThanOrEqual_accepts (f : ArithmeticFormula) (w : List Letter) :
    (makeLessThanOrEqual f).accepts w = true ↔
      w ≠ [] ∧ f.evalAt (wordValues f.getNumberOfVariables w) ≤ 0 := by
  have h := makeLessThan_accepts ((f.setConstant (f.constant - 1)).setType .LT) w
  have h1 : (makeLessThanOrEqual f).accepts w =
      (makeLessThan ((f.setConstant (f.constant - 1)).setType .LT)).accepts w := rfl
  have h2 : ((f.setConstant (f.constant - 1)).setType .LT).evalAt
      (wordValues ((f.setConstant (f.constant - 1)).setType .LT).getNumberOfVariables w) =
      f.evalAt (wordValues f.getNumberOfVariables w) - 1 := by
    show ArithmeticFormula.evalAux f.getCoefficients 0 (wordValues f.getNumberOfVariables w) +
        (f.constant - 1) =
      ArithmeticFormula.evalAux f.getCoefficients 0 (wordValues f.getNumberOfVariables w) +
        f.constant - 1
    ring
  rw [h1, h, h2]
  constructor
  · rintro ⟨h3, h4⟩; exact ⟨h3, by omega⟩
  · rintro ⟨h3, h4⟩; exact ⟨h3, by omega⟩

/-- `makeGreaterThan` accepts exactly the non-empty words that satisfy
`Σ aᵢ·xᵢ + c > 0`. -/
theorem makeGreaterThan_accepts (f : ArithmeticFormula) (w : List Letter) :
    (makeGreaterThan f).accepts w = true ↔
      w ≠ [] ∧ 0 < f.evalAt (wordValues f.getNumberOfVariables w) := by
  have h := makeLessThan_accepts ((f.multiply (-1)).setType .LT) w
  have h1 : (makeGreaterThan f).accepts w =
      (makeLessThan ((f.multiply (-1)).setType .LT)).accepts w := rfl
  have h2 : ((f.multiply (-1)).setType .LT).evalAt
      (wordValues ((f.multiply (-1)).setType .LT).getNumberOfVariables w) =
      - f.evalAt (wordValues f.getNumberOfVariables w) := by
    have h3 : ((f.multiply (-1)).setType .LT).getNumberOfVariables = f.getNumberOfVariables :=
      numberOfVariables_multiply f (-1)
    rw [h3]
    show (f.multiply (-1)).evalAt _ = _
    rw [evalAt_multiply]; ring
  rw [h1, h, h2]
  constructor
  · rintro ⟨h3, h4⟩; exact ⟨h3, by omega⟩
  · rintro ⟨h3, h4⟩; exact ⟨h3, by omega⟩

/-- `makeGreaterThanOrEqual` accepts exactly the non-empty words that satisfy
`Σ aᵢ·xᵢ + c ≥ 0`. -/
theorem makeGreaterThanOrEqual_accepts (f : ArithmeticFormula) (w : List Letter) :
    (makeGreaterThanOrEqual f).accepts w = true ↔
      w ≠ [] ∧ 0 ≤ f.evalAt (wordValues f.getNumberOfVariables w) := by
  have h := makeLessThan_accepts
    (((f.multiply (-1)).setConstant ((f.multiply (-1)).constant - 1)).setType .LT) w
  have h1 : (makeGreaterThanOrEqual f).accepts w =
      (makeLessThan
        (((f.multiply (-1)).setConstant ((f.multiply (-1)).constant - 1)).setType .LT)).accepts w :=
    rfl
  have h2 : (((f.multiply (-1)).setConstant ((f.multiply (-1)).constant - 1)).setType .LT).evalAt
      (wordValues (((f.multiply (-1)).setConstant
        ((f.multiply (-1)).constant - 1)).setType .LT).getNumberOfVariables w) =
      - f.evalAt (wordValues f.getNumberOfVariables w) - 1 := by
    have h3 : (((f.multiply (-1)).setConstant
        ((f.multiply (-1)).constant - 1)).setType .LT).getNumberOfVariables =
        f.getNumberOfVariables := numberOfVariables_multiply f (-1)
    rw [h3]
    have h4 := evalAt_multiply f (-1) (wordValues f.getNumberOfVariables w)
    unfold ArithmeticFormula.evalAt at h4 ⊢
    show ArithmeticFormula.evalAux (f.multiply (-1)).getCoefficients 0 _ +
      ((f.multiply (-1)).constant - 1) = _
    linarith
  rw [h1, h, h2]
  constructor
  · rintro ⟨h3, h4⟩; exact ⟨h3, by omega⟩
  · rintro ⟨h3, h4⟩; exact ⟨h3, by omega⟩

/-! ### The kernel operations on languages -/

theorem accepts_dfaNegation {σ : Type} (a : DFA σ) (w : List Letter) :
    (dfaNegation a).accepts w = !(a.accepts w) := rfl

theorem run_dfaProduct {σ τ : Type} (a : DFA σ) (b : DFA τ) (op : Bool → Bool → Bool) :
    ∀ (w : List Letter) (p : σ × τ),
      (dfaProduct a b op).run p w = (a.run p.1 w, b.run p.2 w) := by
  intro w
  induction w with
  | nil => intro p; rfl
  | cons x w ih =>
    intro p
    show (dfaProduct a b op).run ((dfaProduct a b op).q p x) w = _
    rw [ih]
    rfl

theorem accepts_dfaProduct {σ τ : Type} (a : DFA σ) (b : DFA τ) (op : Bool → Bool → Bool)
    (w : List Letter) :
    (dfaProduct a b op).accepts w = op (a.accepts w) (b.accepts w) := by
  unfold DFA.accepts
  rw [show (dfaProduct a b op).s = (a.s, b.s) from rfl, run_dfaProduct]
  rfl

theorem accepts_complement {σ : Type} (A : BinaryIntAutomaton σ) (w : List Letter) :
    A.complement.accepts w = !(A.accepts w) := rfl

/-- The language of every automaton `makeAutomaton` builds: the non-empty words
that satisfy the formula and, for the kind NOTEQ, the empty word. -/
theorem makeAutomaton_accepts (f : ArithmeticFormula) (A : BinaryIntAutomaton Int)
    (hA : makeAutomaton f = some A) (w : List Letter) :
    A.accepts w = true ↔
      (w ≠ [] ∧ ArithmeticFormula.holdsAt f.type
        (f.evalAt (wordValues f.getNumberOfVariables w)) = true) ∨
      (f.type = .NOTEQ ∧ w = []) := by
  unfold makeAutomaton at hA
  cases hty : f.type <;> rw [hty] at hA <;> simp only [Option.some.injEq, reduceCtorEq] at hA
  · subst hA
    rw [makeEquality_accepts f hty]
    simp [ArithmeticFormula.holdsAt]
  · subst hA
    rw [makeNotEquality_accepts]
    simp only [ArithmeticFormula.holdsAt, bne_iff_ne, ne_eq, true_and]
    by_cases hw : w = []
    · simp [hw]
    · simp [hw]
  · subst hA
    rw [makeGreaterThan_accepts]
    simp [ArithmeticFormula.holdsAt]
  · subst hA
    rw [makeGreaterThanOrEqual_accepts]
    simp [ArithmeticFormula.holdsAt]
  · subst hA
    rw [makeLessThan_accepts]
    simp [ArithmeticFormula.holdsAt]
  · subst hA
    rw [makeLessThanOrEqual_accepts]
    simp [ArithmeticFormula.holdsAt]

/-- `makeAutomaton` succeeds exactly on the six comparison kinds. -/
theorem makeAutomaton_isSome (f : ArithmeticFormula) :
    (makeAutomaton f).isSome = isComparison f.type := by
  unfold makeAutomaton isComparison
  cases f.type <;> rfl

/-! ## The claims about the comparison automata -/

/-- C1, counterexample.  The word that spells `(5, 0)` most-significant bit
first (its tracks, reversed, decode to `5` and `0`) is rejected by the automaton
`makeEquality` builds for `x - y = 5`. -/
theorem makeEquality_rejects_msb_first_5_0 :
    twosComplement (track 2 0 word_5_0_msb_first).reverse = 5 ∧
    twosComplement (track 2 1 word_5_0_msb_first).reverse = 0 ∧
    (makeEquality formula_x_minus_y_eq_5).accepts word_5_0_msb_first = false := by
  refine ⟨by decide, by decide, ?_⟩
  cases h : (makeEquality formula_x_minus_y_eq_5).accepts word_5_0_msb_first with
  | false => rfl
  | true =>
    have h1 := ((makeEquality_accepts formula_x_minus_y_eq_5 rfl word_5_0_msb_first).1 h).2
    revert h1
    decide

/-- C1, amended.  The automaton `makeEquality` builds for `x - y = 5` over
`[x, y]` accepts exactly the non-empty words whose tracks, read
least-significant bit first with the sign bit last, have the signed difference
`5`; it accepts the words of `(5, 0)`, `(6, 1)` and `(-1, -6)` in that reading;
and it has three reachable states that are pairwise distinguishable, so that at
least three states remain after minimization. -/
theorem makeEquality_x_minus_y_eq_5_language :
    (∀ w, (makeEquality formula_x_minus_y_eq_5).accepts w = true ↔
      w ≠ [] ∧ wordValues 2 w 0 - wordValues 2 w 1 = 5) ∧
    (wordValues 2 word_5_0 0 = 5 ∧ wordValues 2 word_5_0 1 = 0 ∧
      (makeEquality formula_x_minus_y_eq_5).accepts word_5_0 = true) ∧
    (wordValues 2 word_6_1 0 = 6 ∧ wordValues 2 word_6_1 1 = 1 ∧
      (makeEquality formula_x_minus_y_eq_5).accepts word_6_1 = true) ∧
    (wordValues 2 word_m1_m6 0 = -1 ∧ wordValues 2 word_m1_m6 1 = -6 ∧
      (makeEquality formula_x_minus_y_eq_5).accepts word_m1_m6 = true) ∧
    ((makeEquality formula_x_minus_y_eq_5).accepts ([] ++ []) ≠
        (makeEquality formula_x_minus_y_eq_5).accepts (word_5_0 ++ []) ∧
      (makeEquality formula_x_minus_y_eq_5).accepts ([] ++ word_5_0) ≠
        (makeEquality formula_x_minus_y_eq_5).accepts ([[false, false]] ++ word_5_0) ∧
      (makeEquality formula_x_minus_y_eq_5).accepts (word_5_0 ++ []) ≠
        (makeEquality formula_x_minus_y_eq_5).accepts ([[false, false]] ++ [])) := by
  have key : ∀ w, (makeEquality formula_x_minus_y_eq_5).accepts w = true ↔
      w ≠ [] ∧ wordValues 2 w 0 - wordValues 2 w 1 = 5 := by
    intro w
    rw [makeEquality_accepts formula_x_minus_y_eq_5 rfl w]
    have h : formula_x_minus_y_eq_5.evalAt
        (wordValues formula_x_minus_y_eq_5.getNumberOfVariables w) =
        wordValues 2 w 0 - wordValues 2 w 1 - 5 := by
      show 1 * wordValues 2 w 0 + (-1 * wordValues 2 w 1 + 0) + -5 = _
      ring
    rw [h]
    constructor
    · rintro ⟨h1, h2⟩; exact ⟨h1, by omega⟩
    · rintro ⟨h1, h2⟩; exact ⟨h1, by omega⟩
  have hno : ∀ w, ¬ (w ≠ [] ∧ wordValues 2 w 0 - wordValues 2 w 1 = 5) →
      (makeEquality formula_x_minus_y_eq_5).accepts w = false := by
    intro w hw
    cases h : (makeEquality formula_x_minus_y_eq_5).accepts w with
    | false => rfl
    | true => exact absurd ((key w).1 h) hw
  have a1 := (key word_5_0).2 ⟨by decide, by decide⟩
  have a2 := (key word_6_1).2 ⟨by decide, by decide⟩
  have a3 := (key word_m1_m6).2 ⟨by decide, by decide⟩
  have r1 := hno [] (by decide)
  have r2 := hno ([[false, false]] ++ word_5_0) (by decide)
  have r3 := hno [[false, false]] (by decide)
  refine ⟨key, ⟨by decide, by decide, a1⟩, ⟨by decide, by decide, a2⟩,
    ⟨by decide, by decide, a3⟩, ?_, ?_, ?_⟩
  · simp only [List.append_nil, List.nil_append]
    rw [a1, r1]; decide
  · simp only [List.nil_append]
    rw [a1, r2]; decide
  · simp only [List.append_nil]
    rw [a1, r3]; decide

/-- C9, counterexample.  Zero satisfies `x = 0`, yet the automaton
`makeAutomaton` builds for it rejects the empty word. -/
theorem makeAutomaton_x_eq_0_rejects_empty_word :
    makeAutomaton formula_x_eq_0 = some (makeEquality formula_x_eq_0) ∧
    (makeEquality formula_x_eq_0).accepts [] = false ∧
    formula_x_eq_0.satisfiedBy (fun _ => 0) := by
  refine ⟨rfl, ?_, by unfold ArithmeticFormula.satisfiedBy; decide⟩
  cases h : (makeEquality formula_x_eq_0).accepts [] with
  | false => rfl
  | true => exact absurd rfl ((makeEquality_accepts formula_x_eq_0 rfl []).1 h).1

/-- C9, amended.  The automaton `makeAutomaton` builds for a comparison formula
accepts the empty word if and only if the kind of the formula is NOTEQ, whether
or not the assignment of zero to every variable satisfies the formula. -/
theorem makeAutomaton_accepts_empty_word_iff (f : ArithmeticFormula)
    (A : BinaryIntAutomaton Int) (hA : makeAutomaton f = some A) :
    A.accepts [] = true ↔ f.type = .NOTEQ := by
  rw [makeAutomaton_accepts f A hA []]
  simp

theorem makeAutomaton_accepts_empty_word_iff_witness :
    makeAutomaton formula_x_eq_0 = some (makeEquality formula_x_eq_0) ∧
    ((makeEquality formula_x_eq_0).accepts [] = true ↔ formula_x_eq_0.type = .NOTEQ) :=
  ⟨rfl, makeAutomaton_accepts_empty_word_iff formula_x_eq_0 (makeEquality formula_x_eq_0) rfl⟩

theorem holdsAt_negate (t : FormulaType) (ht : isComparison t = true) (v : Int) :
    ArithmeticFormula.holdsAt (ArithmeticFormula.negateOperation ⟨t, 0, []⟩).type v =
      !(ArithmeticFormula.holdsAt t v) := by
  cases t <;> simp [isComparison] at ht <;>
    simp only [ArithmeticFormula.holdsAt, ArithmeticFormula.negateOperation] <;>
    rw [Bool.eq_iff_iff] <;> simp

/-- C2, counterexample.  For `x < 0` the complement of the automaton accepts the
empty word, the automaton of the negated formula `x ≥ 0` does not. -/
theorem complement_x_lt_0_differs_on_empty_word :
    makeAutomaton formula_x_lt_0 = some (makeLessThan formula_x_lt_0) ∧
    makeAutomaton formula_x_lt_0.negateOperation =
      some (makeGreaterThanOrEqual formula_x_lt_0.negateOperation) ∧
    (makeLessThan formula_x_lt_0).complement.accepts [] = true ∧
    (makeGreaterThanOrEqual formula_x_lt_0.negateOperation).accepts [] = false := by
  refine ⟨rfl, rfl, ?_, ?_⟩
  · rw [accepts_complement]
    cases h : (makeLessThan formula_x_lt_0).accepts [] with
    | false => rfl
    | true => exact absurd rfl ((makeLessThan_accepts formula_x_lt_0 []).1 h).1
  · cases h : (makeGreaterThanOrEqual formula_x_lt_0.negateOperation).accepts [] with
    | false => rfl
    | true =>
      exact absurd rfl ((makeGreaterThanOrEqual_accepts formula_x_lt_0.negateOperation []).1 h).1

/-- C2, amended.  For every comparison formula `f`, the complement of
`makeAutomaton(f)` and `makeAutomaton(negate(f))` accept the same non-empty
words; they agree on the empty word exactly for the kinds EQ and NOTEQ (for LT,
LE, GT and GE the complement accepts it and the other automaton does not). -/
theorem complement_makeAutomaton_negate (f : ArithmeticFormula)
    (A B : BinaryIntAutomaton Int) (hA : makeAutomaton f = some A)
    (hB : makeAutomaton f.negateOperation = some B) :
    (∀ w, w ≠ [] → A.complement.accepts w = B.accepts w) ∧
    (A.complement.accepts [] = B.accepts [] ↔ (f.type = .EQ ∨ f.type = .NOTEQ)) := by
  have hcomp : isComparison f.type = true := by
    rw [← makeAutomaton_isSome, hA]; rfl
  have hneg : ∀ v, ArithmeticFormula.holdsAt f.negateOperation.type v =
      !(ArithmeticFormula.holdsAt f.type v) := fun v => holdsAt_negate f.type hcomp v
  have hev : ∀ w, f.negateOperation.evalAt
      (wordValues f.negateOperation.getNumberOfVariables w) =
      f.evalAt (wordValues f.getNumberOfVariables w) := fun _ => rfl
  have hAw := makeAutomaton_accepts f A hA
  have hBw := makeAutomaton_accepts f.negateOperation B hB
  constructor
  · intro w hw
    rw [accepts_complement, Bool.eq_iff_iff]
    have h1 := hAw w
    have h2 := hBw w
    rw [hneg, hev] at h2
    simp only [hw, ne_eq, not_false_eq_true, true_and, and_false, or_false] at h1 h2
    rw [h2]
    cases hx : A.accepts w with
    | true =>
      have := h1.1 hx
      simp [this]
    | false =>
      cases hy : ArithmeticFormula.holdsAt f.type (f.evalAt (wordValues f.getNumberOfVariables w))
        with
      | true => rw [h1.2 hy] at hx; cases hx
      | false => simp
  · have h1 := hAw []
    have h2 := hBw []
    simp only [ne_eq, not_true_eq_false, false_and, and_true, false_or] at h1 h2
    rw [accepts_complement]
    have hnt : f.negateOperation.type = .NOTEQ ↔ f.type = .EQ := by
      cases hty : f.type <;> simp [ArithmeticFormula.negateOperation, hty]
    rw [hnt] at h2
    cases hty : f.type <;> rw [hty] at h1 h2 hcomp <;> simp [isComparison] at hcomp h1 h2 ⊢ <;>
      simp_all

theorem complement_makeAutomaton_negate_witness :
    makeAutomaton formula_x_lt_0 = some (makeLessThan formula_x_lt_0) ∧
    makeAutomaton formula_x_lt_0.negateOperation =
      some (makeGreaterThanOrEqual formula_x_lt_0.negateOperation) ∧
    ((∀ w, w ≠ [] → (makeLessThan formula_x_lt_0).complement.accepts w =
        (makeGreaterThanOrEqual formula_x_lt_0.negateOperation).accepts w) ∧
     ((makeLessThan formula_x_lt_0).complement.accepts [] =
        (makeGreaterThanOrEqual formula_x_lt_0.negateOperation).accepts [] ↔
      (formula_x_lt_0.type = .EQ ∨ formula_x_lt_0.type = .NOTEQ))) :=
  ⟨rfl, rfl, complement_makeAutomaton_negate formula_x_lt_0 (makeLessThan formula_x_lt_0)
    (makeGreaterThanOrEqual formula_x_lt_0.negateOperation) rfl rfl⟩

/-- C10 (De Morgan).  For automata with the same variable ordering, `intersect`
and `union_` both succeed, and the complement of the intersection accepts
exactly the words the union of the complements accepts. -/
theorem complement_intersect_eq_union_complement {σ τ : Type}
    (A : BinaryIntAutomaton σ) (B : BinaryIntAutomaton τ)
    (h : A.formula.isVariableOrderingSame B.formula = true) :
    ∃ X Y, A.intersect B = some X ∧ A.complement.union_ B.complement = some Y ∧
      ∀ w, X.complement.accepts w = Y.accepts w := by
  have h2 : A.complement.formula.isVariableOrderingSame B.complement.formula = true := h
  refine ⟨{ dfa := dfaMinimize (dfaProduct A.dfa B.dfa dfaAND)
            num_of_variables := A.num_of_variables
            formula := A.formula.resetCoefficients.setType .INTERSECT },
          { dfa := dfaMinimize (dfaProduct A.complement.dfa B.complement.dfa dfaOR)
            num_of_variables := A.complement.num_of_variables
            formula := A.complement.formula.resetCoefficients.setType .UNION }, ?_, ?_, ?_⟩
  · unfold intersect; rw [h]; rfl
  · unfold union_; rw [h2]; rfl
  · intro w
    show (dfaNegation (dfaMinimize (dfaProduct A.dfa B.dfa dfaAND))).accepts w =
      (dfaMinimize (dfaProduct (dfaNegation A.dfa) (dfaNegation B.dfa) dfaOR)).accepts w
    unfold dfaMinimize
    rw [accepts_dfaNegation, accepts_dfaProduct, accepts_dfaProduct, accepts_dfaNegation,
      accepts_dfaNegation]
    simp [dfaAND, dfaOR, Bool.not_and]

theorem complement_intersect_eq_union_complement_witness :
    (makePhi formula_x_eq_0).formula.isVariableOrderingSame (makePhi formula_x_lt_0).formula
      = true ∧
    ∃ X Y, (makePhi formula_x_eq_0).intersect (makePhi formula_x_lt_0) = some X ∧
      (makePhi formula_x_eq_0).complement.union_ (makePhi formula_x_lt_0).complement = some Y ∧
      ∀ w, X.complement.accepts w = Y.accepts w :=
  ⟨by decide, complement_intersect_eq_union_complement (makePhi formula_x_eq_0)
    (makePhi formula_x_lt_0) (by decide)⟩

/-! ### Projection -/

theorem bitAt_setBit (a : Letter) (i : Nat) (b : Bool) (k : Nat) :
    bitAt (setBit a i b) k = if k = i then b else bitAt a k := by
  unfold bitAt setBit
  have hlen : i < (a ++ List.replicate (i + 1 - a.length) false).length := by
    simp only [List.length_append, List.length_replicate]; omega
  by_cases hk : k = i
  · subst hk
    simp [List.getD_eq_getElem?_getD, List.getElem?_set_self hlen]
  · rw [if_neg hk]
    simp only [List.getD_eq_getElem?_getD]
    rw [List.getElem?_set_ne (Ne.symm hk)]
    by_cases hka : k < a.length
    · rw [List.getElem?_append_left hka]
    · rw [List.getElem?_append_right (by omega)]
      rw [List.getElem?_eq_none (by omega : a.length ≤ k)]
      simp only [Option.getD_none]
      by_cases hk2 : k - a.length < i + 1 - a.length
      · rw [List.getElem?_replicate_of_lt hk2]; rfl
      · rw [List.getElem?_eq_none (by simp; omega)]; rfl

/-- The states the subset construction reaches are the states the automaton
reaches on the words that differ from the given one in the projected bit. -/
theorem run_dfaProject {σ : Type} (d : DFA σ) (i : Nat) :
    ∀ (w : List Letter) (S : List σ) (p : σ),
      p ∈ (dfaProject d i).run S w ↔
        ∃ s ∈ S, ∃ bs : List Bool, bs.length = w.length ∧
          d.run s (List.zipWith (fun a b => setBit a i b) w bs) = p := by
  intro w
  induction w with
  | nil =>
    intro S p
    constructor
    · intro h; exact ⟨p, h, [], rfl, rfl⟩
    · rintro ⟨s, hs, bs, _, h⟩
      have : d.run s (List.zipWith (fun a b => setBit a i b) [] bs) = s := by
        simp [DFA.run]
      rw [this] at h; subst h; exact hs
  | cons x w ih =>
    intro S p
    have hrun : (dfaProject d i).run S (x :: w) =
        (dfaProject d i).run
          (S.flatMap fun p => [d.q p (setBit x i false), d.q p (setBit x i true)]) w := rfl
    rw [hrun, ih]
    constructor
    · rintro ⟨s, hs, bs, hl, h⟩
      obtain ⟨s0, hs0, hs1⟩ := List.mem_flatMap.1 hs
      simp only [List.mem_cons, List.mem_singleton, List.not_mem_nil, or_false] at hs1
      rcases hs1 with h1 | h1
      · refine ⟨s0, hs0, false :: bs, by simp [hl], ?_⟩
        simp only [List.zipWith_cons_cons]
        show d.run (d.q s0 (setBit x i false)) _ = p
        rw [← h1]; exact h
      · refine ⟨s0, hs0, true :: bs, by simp [hl], ?_⟩
        simp only [List.zipWith_cons_cons]
        show d.run (d.q s0 (setBit x i true)) _ = p
        rw [← h1]; exact h
    · rintro ⟨s, hs, bs, hl, h⟩
      cases bs with
      | nil => simp at hl
      | cons b bs =>
        simp only [List.zipWith_cons_cons] at h
        refine ⟨d.q s (setBit x i b), ?_, bs, by simpa using hl, h⟩
        apply List.mem_flatMap.2
        refine ⟨s, hs, ?_⟩
        cases b <;> simp

/-- The projected automaton accepts a word exactly when the automaton accepts
one of the words that differ from it in the projected bit only. -/
theorem accepts_dfaProject {σ : Type} (d : DFA σ) (i : Nat) (w : List Letter) :
    (dfaProject d i).accepts w = true ↔
      ∃ bs : List Bool, bs.length = w.length ∧
        d.accepts (List.zipWith (fun a b => setBit a i b) w bs) = true := by
  show ((dfaProject d i).run [d.s] w).any d.f = true ↔ _
  rw [List.any_eq_true]
  constructor
  · rintro ⟨p, hp, hf⟩
    obtain ⟨s, hs, bs, hl, h⟩ := (run_dfaProject d i w [d.s] p).1 hp
    simp only [List.mem_singleton] at hs
    subst hs
    exact ⟨bs, hl, by show d.f _ = true; rw [h]; exact hf⟩
  · rintro ⟨bs, hl, h⟩
    exact ⟨_, (run_dfaProject d i w [d.s] _).2 ⟨d.s, by simp, bs, hl, rfl⟩, h⟩

theorem forall2_comp {α β γ : Type} {R : α → β → Prop} {S : β → γ → Prop} {T : α → γ → Prop}
    (h : ∀ a b c, R a b → S b c → T a c) :
    ∀ {l1 : List α} {l2 : List β} {l3 : List γ},
      List.Forall₂ R l1 l2 → List.Forall₂ S l2 l3 → List.Forall₂ T l1 l3 := by
  intro l1 l2 l3 h1
  induction h1 generalizing l3 with
  | nil => intro h2; cases h2; exact List.Forall₂.nil
  | cons hab _ ih =>
    intro h2
    cases h2 with
    | cons hbc h3 => exact List.Forall₂.cons (h _ _ _ hab hbc) (ih h3)

theorem forall2_same {α : Type} {R : α → α → Prop} (h : ∀ a, R a a) :
    ∀ l : List α, List.Forall₂ R l l := by
  intro l
  induction l with
  | nil => exact List.Forall₂.nil
  | cons a l ih => exact List.Forall₂.cons (h a) ih

theorem forall2_zipWith_setBit (i : Nat) (R : Letter → Letter → Prop)
    (hR : ∀ a b, R (setBit a i b) a) :
    ∀ (w : List Letter) (bs : List Bool), bs.length = w.length →
      List.Forall₂ R (List.zipWith (fun a b => setBit a i b) w bs) w := by
  intro w
  induction w with
  | nil => intro bs _; simp
  | cons a w ih =>
    intro bs hl
    cases bs with
    | nil => simp at hl
    | cons b bs =>
      simp only [List.zipWith_cons_cons]
      exact List.Forall₂.cons (hR a b) (ih bs (by simpa using hl))

/-- With an automaton that looks at the bits below `V` only, the projected
automaton accepts a word exactly when the automaton accepts a word that agrees
with it on every bit below `V` but the projected one. -/
theorem accepts_dfaProject_ext {σ : Type} (d : DFA σ) (V i : Nat) (hext : ExtBelow V d)
    (w : List Letter) :
    (dfaProject d i).accepts w = true ↔
      ∃ w1, List.Forall₂ (fun a1 a => ∀ k, k < V → k ≠ i → bitAt a1 k = bitAt a k) w1 w ∧
        d.accepts w1 = true := by
  rw [accepts_dfaProject]
  constructor
  · rintro ⟨bs, hl, h⟩
    refine ⟨_, forall2_zipWith_setBit i _ ?_ w bs hl, h⟩
    intro a b k _ hk
    rw [bitAt_setBit, if_neg hk]
  · rintro ⟨w1, hw1, h⟩
    refine ⟨w1.map fun a => bitAt a i, by simp [hw1.length_eq], ?_⟩
    rw [← h]
    apply hext
    clear h
    induction hw1 with
    | nil => simp
    | cons hab _ ih =>
      simp only [List.map_cons, List.zipWith_cons_cons]
      refine List.Forall₂.cons ?_ ih
      intro k hk
      rw [bitAt_setBit]
      by_cases hki : k = i
      · rw [if_pos hki, hki]
      · rw [if_neg hki]; exact (hab k hk hki).symm

theorem extBelow_dfaProject {σ : Type} (d : DFA σ) (V i : Nat) (hext : ExtBelow V d) :
    ExtBelow V (dfaProject d i) := by
  intro w w1 hww
  rw [Bool.eq_iff_iff, accepts_dfaProject_ext d V i hext, accepts_dfaProject_ext d V i hext]
  constructor
  · rintro ⟨w2, h1, h2⟩
    exact ⟨w2, forall2_comp (fun a b c hab hbc k hk hki => by
      rw [hab k hk hki, hbc k hk]) h1 hww, h2⟩
  · rintro ⟨w2, h1, h2⟩
    have hww1 : List.Forall₂ (fun a1 a => ∀ k, k < V → bitAt a1 k = bitAt a k) w1 w :=
      (List.Forall₂.flip hww).imp fun _ _ h k hk => (h k hk).symm
    exact ⟨w2, forall2_comp (fun a b c hab hbc k hk hki => by
      rw [hab k hk hki, hbc k hk]) h1 hww1, h2⟩

/-- After the loop of `getBinaryAutomatonFor` the automaton accepts a word
exactly when the automaton it started from accepts a word that agrees with it
on the kept index and on the indices the loop did not visit. -/
theorem projectAway_accepts (V keep : Nat) :
    ∀ (is : List Nat) {σ : Type} (d : DFA σ), ExtBelow V d → ∀ w : List Letter,
      (projectAway d keep is).dfa.accepts w = true ↔
        ∃ w1, List.Forall₂
          (fun a1 a => ∀ k, k < V → (k ∉ is ∨ k = keep) → bitAt a1 k = bitAt a k) w1 w ∧
          d.accepts w1 = true := by
  intro is
  induction is with
  | nil =>
    intro σ d hext w
    show d.accepts w = true ↔ _
    constructor
    · intro h
      exact ⟨w, forall2_same (fun a k _ _ => rfl) w, h⟩
    · rintro ⟨w1, h1, h2⟩
      rw [← h2]
      apply hext
      exact (List.Forall₂.flip h1).imp fun _ _ h k hk => (h k hk (Or.inl (by simp))).symm
  | cons i is ih =>
    intro σ d hext w
    by_cases hik : i ≠ keep
    · have hstep : projectAway d keep (i :: is) =
          projectAway (dfaMinimize (dfaProject d i)) keep is := by
        simp only [projectAway, if_pos hik]
      rw [hstep, ih (dfaMinimize (dfaProject d i)) (extBelow_dfaProject d V i hext) w]
      constructor
      · rintro ⟨w1, h1, h2⟩
        obtain ⟨w2, h3, h4⟩ := (accepts_dfaProject_ext d V i hext w1).1 h2
        refine ⟨w2, forall2_comp ?_ h3 h1, h4⟩
        intro a b c hab hbc k hk hkk
        have hki : k ≠ i := by
          rcases hkk with h | h
          · intro hcon; exact h (by simp [hcon])
          · rw [h]; exact Ne.symm hik
        rw [hab k hk hki]
        apply hbc k hk
        rcases hkk with h | h
        · left; intro hcon; exact h (List.mem_cons_of_mem _ hcon)
        · right; exact h
      · rintro ⟨w2, h1, h2⟩
        refine ⟨List.zipWith (fun a2 a => setBit a2 i (bitAt a i)) w2 w, ?_, ?_⟩
        · clear h2
          induction h1 with
          | nil => simp
          | cons hab _ ih2 =>
            simp only [List.zipWith_cons_cons]
            refine List.Forall₂.cons ?_ ih2
            intro k hk hkk
            rw [bitAt_setBit]
            by_cases hki : k = i
            · rw [if_pos hki, hki]
            · rw [if_neg hki]
              apply hab k hk
              rcases hkk with h | h
              · left; intro hcon
                rcases List.mem_cons.1 hcon with h3 | h3
                · exact hki h3
                · exact h h3
              · right; exact h
        · apply (accepts_dfaProject_ext d V i hext _).2
          refine ⟨w2, ?_, h2⟩
          clear h2
          induction h1 with
          | nil => simp
          | cons hab _ ih2 =>
            simp only [List.zipWith_cons_cons]
            refine List.Forall₂.cons ?_ ih2
            intro k _ hki
            rw [bitAt_setBit, if_neg hki]
    · have hik2 : i = keep := by
        by_contra h; exact hik h
      have hstep : projectAway d keep (i :: is) = projectAway d keep is := by
        simp only [projectAway, if_neg hik]
      rw [hstep, ih d hext w]
      constructor
      · rintro ⟨w1, h1, h2⟩
        refine ⟨w1, h1.imp ?_, h2⟩
        intro a b h k hk hkk
        apply h k hk
        rcases hkk with h3 | h3
        · left; intro hcon; exact h3 (List.mem_cons_of_mem _ hcon)
        · right; exact h3
      · rintro ⟨w1, h1, h2⟩
        refine ⟨w1, h1.imp ?_, h2⟩
        intro a b h k hk hkk
        apply h k hk
        rcases hkk with h3 | h3
        · by_cases hkeep : k = keep
          · right; exact hkeep
          · left; intro hcon
            rcases List.mem_cons.1 hcon with h4 | h4
            · exact hkeep (by rw [h4, hik2])
            · exact h3 h4
        · right; exact h3

theorem accepts_dfaReplaceIndices {σ : Type} (d : DFA σ) (map : List Nat) (w : List Letter) :
    (dfaReplaceIndices d map).accepts w =
      d.accepts (w.map fun x => map.map fun k => bitAt x k) := by
  have hrun : ∀ (w : List Letter) (p : σ), (dfaReplaceIndices d map).run p w =
      d.run p (w.map fun x => map.map fun k => bitAt x k) := by
    intro w
    induction w with
    | nil => intro p; rfl
    | cons x w ih =>
      intro p
      show (dfaReplaceIndices d map).run (d.q p (map.map fun k => bitAt x k)) w = _
      rw [ih]; rfl
  show d.f ((dfaReplaceIndices d map).run d.s w) = _
  rw [hrun]; rfl

/-- The language of `getBinaryAutomatonFor`: the single-track words that are
the track of the variable in a word the automaton accepts. -/
theorem getBinaryAutomatonFor_accepts {σ : Type} (A : BinaryIntAutomaton σ) (x : String)
    (hV : A.num_of_variables = A.formula.getNumberOfVariables)
    (hext : ExtBelow A.num_of_variables A.dfa)
    (hidx : A.formula.getVariableIndex x < A.num_of_variables) :
    ∃ B, A.getBinaryAutomatonFor x = some B ∧ ∀ w, B.automaton.accepts w = true ↔
      ∃ W, List.Forall₂ (fun a1 a =>
          bitAt a1 (A.num_of_variables - 1 - A.formula.getVariableIndex x) = bitAt a 0) W w ∧
        A.accepts W = true := by
  have hkeep : A.num_of_variables - A.formula.getVariableIndex x - 1 =
      A.num_of_variables - 1 - A.formula.getVariableIndex x := by omega
  refine ⟨_, by unfold getBinaryAutomatonFor; rw [if_neg (by simpa using hV)], ?_⟩
  intro w
  simp only
  show (dfaReplaceIndices _ _).accepts w = true ↔ _
  rw [accepts_dfaReplaceIndices, projectAway_accepts A.num_of_variables _ _ A.dfa hext, hkeep]
  have hlift : ∀ a : Letter, bitAt (((getIndices A.num_of_variables).set
      (A.num_of_variables - 1 - A.formula.getVariableIndex x) 0).map fun k => bitAt a k)
      (A.num_of_variables - 1 - A.formula.getVariableIndex x) = bitAt a 0 := by
    intro a
    have hlt : A.num_of_variables - 1 - A.formula.getVariableIndex x <
        (getIndices A.num_of_variables).length := by
      simp only [getIndices, List.length_range]; omega
    simp only [bitAt, List.getD_eq_getElem?_getD, List.getElem?_map,
      List.getElem?_set_self hlt, Option.map_some', Option.getD_some]
  constructor
  · rintro ⟨W, h1, h2⟩
    refine ⟨W, ?_, h2⟩
    rw [List.forall₂_map_right_iff] at h1
    refine h1.imp ?_
    intro a1 a h
    rw [h _ (by omega) (Or.inr rfl), hlift]
  · rintro ⟨W, h1, h2⟩
    refine ⟨W, ?_, h2⟩
    rw [List.forall₂_map_right_iff]
    refine h1.imp ?_
    intro a1 a h k hk hkk
    rcases hkk with h3 | h3
    · exact absurd (List.mem_reverse.2 (List.mem_range.2 hk)) h3
    · rw [h3, hlift]; exact h

theorem map_bitAt_eq_of_forall2 (V : Nat) {w w1 : List Letter}
    (h : List.Forall₂ (fun a a1 => ∀ k, k < V → bitAt a k = bitAt a1 k) w w1)
    (k : Nat) (hk : k < V) :
    (w.map fun a => bitAt a k) = w1.map fun a => bitAt a k := by
  induction h with
  | nil => rfl
  | cons hab _ ih => simp only [List.map_cons, hab k hk, ih]

theorem extBelow_of_accepts_iff {σ : Type} (V : Nat) (d : DFA σ) (f : ArithmeticFormula)
    (hV : f.getNumberOfVariables = V) (P : Bool → Int → Prop)
    (h : ∀ w, d.accepts w = true ↔ P (decide (w = [])) (f.evalAt (wordValues V w))) :
    ExtBelow V d := by
  intro w w1 hww
  rw [Bool.eq_iff_iff, h, h]
  have h1 : decide (w = []) = decide (w1 = []) := by
    cases hww <;> simp
  have h2 : f.evalAt (wordValues V w) = f.evalAt (wordValues V w1) := by
    unfold ArithmeticFormula.evalAt
    congr 1
    apply evalAux_congr
    intro i _ hi
    rw [getCoefficients_length, hV] at hi
    simp only [wordValues, track]
    rw [map_bitAt_eq_of_forall2 V hww (V - 1 - i) (by omega)]
  rw [h1, h2]

/-- The automata `makeAutomaton` builds have as many tracks as the formula has
variables, keep the variable order, and look at the bits of their tracks
only. -/
theorem makeAutomaton_shape (f : ArithmeticFormula) (A : BinaryIntAutomaton Int)
    (hA : makeAutomaton f = some A) :
    A.num_of_variables = f.getNumberOfVariables ∧
    A.formula.getNumberOfVariables = f.getNumberOfVariables ∧
    A.formula.getVariables = f.getVariables ∧
    ExtBelow f.getNumberOfVariables A.dfa := by
  have hext : ExtBelow f.getNumberOfVariables A.dfa := by
    apply extBelow_of_accepts_iff f.getNumberOfVariables A.dfa f rfl
      (fun b v => (b = false ∧ ArithmeticFormula.holdsAt f.type v = true) ∨
        (f.type = .NOTEQ ∧ b = true))
    intro w
    have := makeAutomaton_accepts f A hA w
    simp only [decide_eq_false_iff_not, decide_eq_true_eq]
    exact this
  have hlen : ∀ g : ArithmeticFormula, g.getNumberOfVariables = g.getVariables.length := by
    intro g; simp [ArithmeticFormula.getNumberOfVariables, ArithmeticFormula.getVariables]
  have hME : ∀ g : ArithmeticFormula,
      (makeEquality g).num_of_variables = g.getNumberOfVariables ∧
      (makeEquality g).formula.getVariables = g.getVariables := by
    intro g
    obtain ⟨_, h1, _, h2⟩ := simplify_spec g
    unfold makeEquality
    simp only
    split
    · exact ⟨h1, h2⟩
    · exact ⟨by show g.simplify.2.getCoefficients.length = _
                rw [getCoefficients_length, h1], h2⟩
  have hLT : ∀ g : ArithmeticFormula,
      (makeLessThan g).num_of_variables = g.getNumberOfVariables ∧
      (makeLessThan g).formula.getVariables = g.getVariables := by
    intro g
    obtain ⟨_, h1, _, h2⟩ := simplify_spec g
    exact ⟨by show g.simplify.2.getCoefficients.length = _
              rw [getCoefficients_length, h1], h2⟩
  have key : A.num_of_variables = f.getNumberOfVariables ∧
      A.formula.getVariables = f.getVariables := by
    unfold makeAutomaton at hA
    cases hty : f.type <;> rw [hty] at hA <;>
      simp only [Option.some.injEq, reduceCtorEq] at hA <;> subst hA
    · exact hME f
    · exact hME (f.setType .EQ)
    · exact ⟨((hLT ((f.multiply (-1)).setType .LT)).1).trans
        (numberOfVariables_multiply f (-1)), rfl⟩
    · exact ⟨((hLT (((f.multiply (-1)).setConstant
        ((f.multiply (-1)).constant - 1)).setType .LT)).1).trans
        (numberOfVariables_multiply f (-1)), rfl⟩
    · exact hLT f
    · exact ⟨(hLT ((f.setConstant (f.constant - 1)).setType .LT)).1, rfl⟩
  exact ⟨key.1, by rw [hlen, key.2, ← hlen], key.2, hext⟩

/-! ### Words that spell given integers -/

theorem encodeInt_ne_nil (N : Nat) (v : Int) : encodeInt N v ≠ [] := by
  cases N <;> simp [encodeInt]

theorem length_encodeInt (N : Nat) : ∀ v : Int, (encodeInt N v).length = N + 1 := by
  induction N with
  | zero => intro v; rfl
  | succ N ih => intro v; simp [encodeInt, ih]

/-- An integer in the range of `N + 1` bits is the value of its encoding. -/
theorem twosComplement_encodeInt (N : Nat) :
    ∀ v : Int, -(2 : Int) ^ N ≤ v → v < (2 : Int) ^ N → twosComplement (encodeInt N v) = v := by
  induction N with
  | zero =>
    intro v h1 h2
    simp only [pow_zero] at h1 h2
    simp only [encodeInt, twosComplement]
    by_cases h : v % 2 = 1
    · simp only [h, decide_True, if_true]; omega
    · simp only [h, decide_False, Bool.false_eq_true, if_false]; omega
  | succ N ih =>
    intro v h1 h2
    rw [pow_succ] at h1 h2
    have h3 := ih (v / 2) (by omega) (by omega)
    have hne := encodeInt_ne_nil N (v / 2)
    simp only [encodeInt]
    cases hl : encodeInt N (v / 2) with
    | nil => exact absurd hl hne
    | cons b bs =>
      rw [hl] at h3
      simp only [twosComplement, h3]
      by_cases h : v % 2 = 1
      · simp only [h, decide_True, if_true]; omega
      · simp only [h, decide_False, Bool.false_eq_true, if_false]; omega

theorem track_encodeWord (V N : Nat) (rho : Nat → Int) (i : Nat) (hi : i < V) :
    track V i (encodeWord V N rho) = encodeInt N (rho i) := by
  unfold track encodeWord
  rw [List.map_map]
  apply List.ext_getElem
  · simp [length_encodeInt]
  · intro t h1 h2
    simp only [List.length_map, List.length_range] at h1
    simp only [List.getElem_map, List.getElem_range, Function.comp_apply, bitAt,
      List.getD_eq_getElem?_getD]
    rw [List.getElem?_map, List.getElem?_range (by omega)]
    simp only [Option.map_some', Option.getD_some]
    have h3 : V - 1 - (V - 1 - i) = i := by omega
    rw [h3, List.getElem?_eq_getElem h2]
    rfl

theorem encodeWord_ne_nil (V N : Nat) (rho : Nat → Int) : encodeWord V N rho ≠ [] := by
  intro h
  have := congrArg List.length h
  simp [encodeWord] at this

/-- Finitely many integers fit into some common number of bits. -/
theorem exists_common_width (rho : Nat → Int) :
    ∀ V : Nat, ∃ N : Nat, ∀ i, i < V → -(2 : Int) ^ N ≤ rho i ∧ rho i < (2 : Int) ^ N := by
  intro V
  induction V with
  | zero => exact ⟨0, fun i hi => by omega⟩
  | succ V ih =>
    obtain ⟨N, hN⟩ := ih
    refine ⟨N + (rho V).natAbs, ?_⟩
    have hpow : ∀ a b : Nat, (2 : Int) ^ a ≤ (2 : Int) ^ (a + b) := by
      intro a b
      exact pow_le_pow_right₀ (by norm_num) (by omega)
    have hpow2 : ((rho V).natAbs : Int) < (2 : Int) ^ (N + (rho V).natAbs) := by
      have h1 : (rho V).natAbs < 2 ^ (rho V).natAbs := Nat.lt_two_pow _
      have h2 : (2 : Int) ^ (rho V).natAbs ≤ (2 : Int) ^ (N + (rho V).natAbs) :=
        pow_le_pow_right₀ (by norm_num) (by omega)
      have h3 : ((rho V).natAbs : Int) < (2 : Int) ^ (rho V).natAbs := by exact_mod_cast h1
      omega
    intro i hi
    by_cases hiV : i = V
    · subst hiV
      constructor <;> omega
    · have := hN i (by omega)
      have := hpow N (rho V).natAbs
      constructor <;> omega

/-- The word that spells an assignment gives back the values below `V`. -/
theorem wordValues_encodeWord (V N : Nat) (rho : Nat → Int)
    (hN : ∀ i, i < V → -(2 : Int) ^ N ≤ rho i ∧ rho i < (2 : Int) ^ N) (i : Nat) (hi : i < V) :
    wordValues V (encodeWord V N rho) i = rho i := by
  unfold wordValues
  rw [track_encodeWord V N rho i hi]
  exact twosComplement_encodeInt N (rho i) (hN i hi).1 (hN i hi).2

theorem evalAt_congr (f : ArithmeticFormula) (r1 r2 : Nat → Int)
    (h : ∀ i, i < f.getNumberOfVariables → r1 i = r2 i) : f.evalAt r1 = f.evalAt r2 := by
  unfold ArithmeticFormula.evalAt
  congr 1
  apply evalAux_congr
  intro i _ hi
  rw [getCoefficients_length] at hi
  exact h i (by omega)

theorem map_eq_of_forall2 {α β γ : Type} (g : α → γ) (h : β → γ) {l1 : List α} {l2 : List β}
    (hf : List.Forall₂ (fun a b => g a = h b) l1 l2) : l1.map g = l2.map h := by
  induction hf with
  | nil => rfl
  | cons hab _ ih => simp only [List.map_cons, hab, ih]

/-- The values of a projection.  When an automaton accepts a non-empty word
exactly if the values of its tracks satisfy `P`, the automaton
`getBinaryAutomatonFor` builds for a variable accepts the encodings (and only
encodings) of the values the variable takes in the solutions of `P`. -/
theorem getBinaryAutomatonFor_decoded {σ : Type} (A : BinaryIntAutomaton σ) (V : Nat)
    (P : (Nat → Int) → Prop)
    (hP : ∀ r1 r2 : Nat → Int, (∀ i, i < V → r1 i = r2 i) → (P r1 ↔ P r2))
    (hacc : ∀ W, W ≠ [] → (A.accepts W = true ↔ P (wordValues V W)))
    (hnum : A.num_of_variables = V) (hform : A.formula.getNumberOfVariables = V)
    (x : String) (hidx : A.formula.getVariableIndex x < V) :
    ∃ B, A.getBinaryAutomatonFor x = some B ∧ ∀ n : Int,
      (∃ w, B.automaton.accepts w = true ∧ decode (track 1 0 w) = some n) ↔
      ∃ rho, P rho ∧ rho (A.formula.getVariableIndex x) = n := by
  have hext : ExtBelow A.num_of_variables A.dfa := by
    rw [hnum]
    intro w w1 hww
    cases hww with
    | nil => rfl
    | cons hab hrest =>
      rename_i a a1 l l1
      have hww : List.Forall₂ (fun a a1 => ∀ k, k < V → bitAt a k = bitAt a1 k)
          (a :: l) (a1 :: l1) := List.Forall₂.cons hab hrest
      have h1 := hacc (a :: l) (by simp)
      have h2 := hacc (a1 :: l1) (by simp)
      have h3 : P (wordValues V (a :: l)) ↔ P (wordValues V (a1 :: l1)) := by
        apply hP
        intro i hi
        simp only [wordValues, track]
        rw [map_bitAt_eq_of_forall2 V hww (V - 1 - i) (by omega)]
      show A.accepts (a :: l) = A.accepts (a1 :: l1)
      rw [Bool.eq_iff_iff, h1, h2, h3]
  obtain ⟨B, hB, hBacc⟩ := getBinaryAutomatonFor_accepts A x (hnum.trans hform.symm) hext
    (by rw [hnum]; exact hidx)
  rw [hnum] at hBacc
  refine ⟨B, hB, fun n => ⟨?_, ?_⟩⟩
  · rintro ⟨w, hw, hdec⟩
    obtain ⟨W, hF, hW⟩ := (hBacc w).1 hw
    have hwne : w ≠ [] := by
      intro h; rw [h] at hdec; simp [decode, track] at hdec
    have hWne : W ≠ [] := by
      intro h; rw [h] at hF; cases hF; exact hwne rfl
    refine ⟨wordValues V W, (hacc W hWne).1 hW, ?_⟩
    have htr : track V (A.formula.getVariableIndex x) W = track 1 0 w := by
      unfold track
      exact map_eq_of_forall2 _ _ hF
    have hne : track 1 0 w ≠ [] := by simpa [track] using hwne
    simp only [decode, hne, if_false, Option.some.injEq] at hdec
    simp only [wordValues, htr, hdec]
  · rintro ⟨rho, hrho, hn⟩
    obtain ⟨N, hN⟩ := exists_common_width rho V
    have hWne := encodeWord_ne_nil V N rho
    have hPW : P (wordValues V (encodeWord V N rho)) :=
      (hP _ _ (fun i hi => wordValues_encodeWord V N rho hN i hi)).2 hrho
    refine ⟨(encodeWord V N rho).map fun a => [bitAt a (V - 1 - A.formula.getVariableIndex x)],
      (hBacc _).2 ⟨encodeWord V N rho, ?_, (hacc _ hWne).2 hPW⟩, ?_⟩
    · rw [List.forall₂_map_right_iff]
      exact forall2_same (fun a => by simp [bitAt]) _
    · have htr : track 1 0 ((encodeWord V N rho).map fun a =>
          [bitAt a (V - 1 - A.formula.getVariableIndex x)]) =
          track V (A.formula.getVariableIndex x) (encodeWord V N rho) := by
        simp [track, List.map_map, Function.comp_def, bitAt]
      rw [htr, track_encodeWord V N rho _ hidx]
      simp only [decode, encodeInt_ne_nil, if_false, Option.some.injEq]
      rw [twosComplement_encodeInt N _ (hN _ hidx).1 (hN _ hidx).2, hn]

/-- C3 (projection correctness).  For an automaton `makeAutomaton` builds from a
formula and a variable `x` of the formula, an integer `n` is the decoded value
(least-significant bit first, sign bit last) of a word that
`getBinaryAutomatonFor(x)` accepts if and only if the formula has an integer
solution with `x = n`. -/
theorem getBinaryAutomatonFor_values (f : ArithmeticFormula) (A : BinaryIntAutomaton Int)
    (hA : makeAutomaton f = some A) (x : String) (hx : x ∈ f.getVariables) :
    ∃ B, A.getBinaryAutomatonFor x = some B ∧ ∀ n : Int,
      (∃ w, B.automaton.accepts w = true ∧ decode (track 1 0 w) = some n) ↔
      ∃ rho, f.satisfiedBy rho ∧ rho (f.getVariableIndex x) = n := by
  obtain ⟨h1, h2, h3, _⟩ := makeAutomaton_shape f A hA
  have hix : A.formula.getVariableIndex x = f.getVariableIndex x := by
    unfold ArithmeticFormula.getVariableIndex; rw [h3]
  have hidx : f.getVariableIndex x < f.getNumberOfVariables := by
    have : f.getNumberOfVariables = f.getVariables.length := by
      simp [ArithmeticFormula.getNumberOfVariables, ArithmeticFormula.getVariables]
    rw [this]
    exact List.indexOf_lt_length.2 hx
  have h := getBinaryAutomatonFor_decoded A f.getNumberOfVariables
    (fun rho => f.satisfiedBy rho)
    (fun r1 r2 h12 => by
      show ArithmeticFormula.holdsAt f.type (f.evalAt r1) = true ↔
        ArithmeticFormula.holdsAt f.type (f.evalAt r2) = true
      rw [evalAt_congr f r1 r2 h12])
    (fun W hW => by
      rw [makeAutomaton_accepts f A hA W]
      unfold ArithmeticFormula.satisfiedBy
      simp [hW])
    h1 h2 x (by rw [hix]; exact hidx)
  rw [hix] at h
  exact h

/-- What `intersect` returns for automata with the same variable ordering. -/
theorem intersect_spec {σ τ : Type} (A : BinaryIntAutomaton σ)
    (B : BinaryIntAutomaton τ) (h : A.formula.getVariables = B.formula.getVariables) :
    ∃ X, A.intersect B = some X ∧ X.num_of_variables = A.num_of_variables ∧
      X.formula.getVariables = A.formula.getVariables ∧
      ∀ w, X.accepts w = (A.accepts w && B.accepts w) := by
  have h1 : A.formula.isVariableOrderingSame B.formula = true := by
    unfold ArithmeticFormula.isVariableOrderingSame
    rw [h]; simp
  refine ⟨{ dfa := dfaMinimize (dfaProduct A.dfa B.dfa dfaAND)
            num_of_variables := A.num_of_variables
            formula := A.formula.resetCoefficients.setType .INTERSECT }, ?_, rfl, ?_, ?_⟩
  · unfold intersect; rw [h1]; rfl
  · simp [ArithmeticFormula.getVariables, ArithmeticFormula.resetCoefficients,
      ArithmeticFormula.setType, List.map_map, Function.comp_def]
  · intro w
    show (dfaMinimize (dfaProduct A.dfa B.dfa dfaAND)).accepts w = _
    unfold dfaMinimize
    rw [accepts_dfaProduct]
    rfl

theorem getNumberOfVariables_eq_length (g : ArithmeticFormula) :
    g.getNumberOfVariables = g.getVariables.length := by
  simp [ArithmeticFormula.getNumberOfVariables, ArithmeticFormula.getVariables]

/-- C4.  For `2·x + 3·y ≤ 7 ∧ x ≥ 0 ∧ y ≥ 0` over `[x, y]`, the three automata
of `makeAutomaton` can be intersected, and the words the projection onto `x`
accepts decode (least-significant bit first, sign bit last) to exactly the
values `0, 1, 2, 3`. -/
theorem projection_2x_3y_le_7_values :
    ∃ A1 A2 A3 X12 X B,
      makeAutomaton formula_2x_3y_le_7 = some A1 ∧
      makeAutomaton formula_x_ge_0 = some A2 ∧
      makeAutomaton formula_y_ge_0 = some A3 ∧
      A1.intersect A2 = some X12 ∧
      X12.intersect A3 = some X ∧
      X.getBinaryAutomatonFor "x" = some B ∧
      ∀ n : Int, (∃ w, B.automaton.accepts w = true ∧ decode (track 1 0 w) = some n) ↔
        (n = 0 ∨ n = 1 ∨ n = 2 ∨ n = 3) := by
  have hA1 : makeAutomaton formula_2x_3y_le_7 =
      some (makeLessThanOrEqual formula_2x_3y_le_7) := rfl
  have hA2 : makeAutomaton formula_x_ge_0 = some (makeGreaterThanOrEqual formula_x_ge_0) := rfl
  have hA3 : makeAutomaton formula_y_ge_0 = some (makeGreaterThanOrEqual formula_y_ge_0) := rfl
  have s1 := makeAutomaton_shape _ _ hA1
  have s2 := makeAutomaton_shape _ _ hA2
  have s3 := makeAutomaton_shape _ _ hA3
  have a1 := makeLessThanOrEqual_accepts formula_2x_3y_le_7
  have a2 := makeGreaterThanOrEqual_accepts formula_x_ge_0
  have a3 := makeGreaterThanOrEqual_accepts formula_y_ge_0
  generalize makeLessThanOrEqual formula_2x_3y_le_7 = A1 at hA1 s1 a1
  generalize makeGreaterThanOrEqual formula_x_ge_0 = A2 at hA2 s2 a2
  generalize makeGreaterThanOrEqual formula_y_ge_0 = A3 at hA3 s3 a3
  have g1 : formula_2x_3y_le_7.getVariables = ["x", "y"] := by decide
  have g2 : formula_x_ge_0.getVariables = ["x", "y"] := by decide
  have g3 : formula_y_ge_0.getVariables = ["x", "y"] := by decide
  obtain ⟨X12, e1, n12, v12, acc12⟩ := intersect_spec A1 A2
    (by rw [s1.2.2.1, s2.2.2.1, g1, g2])
  obtain ⟨X, e2, nX, vX, accX⟩ := intersect_spec X12 A3
    (by rw [v12, s1.2.2.1, s3.2.2.1, g1, g3])
  have hvars : X.formula.getVariables = ["x", "y"] := by rw [vX, v12, s1.2.2.1, g1]
  have hix : X.formula.getVariableIndex "x" = 0 := by
    unfold ArithmeticFormula.getVariableIndex; rw [hvars]; decide
  have v1 : ∀ W, formula_2x_3y_le_7.evalAt
      (wordValues formula_2x_3y_le_7.getNumberOfVariables W) =
      2 * wordValues 2 W 0 + 3 * wordValues 2 W 1 - 7 := by
    intro W
    show 2 * wordValues 2 W 0 + (3 * wordValues 2 W 1 + 0) + -7 = _
    ring
  have v2 : ∀ W, formula_x_ge_0.evalAt (wordValues formula_x_ge_0.getNumberOfVariables W) =
      wordValues 2 W 0 := by
    intro W
    show 1 * wordValues 2 W 0 + (0 * wordValues 2 W 1 + 0) + 0 = _
    ring
  have v3 : ∀ W, formula_y_ge_0.evalAt (wordValues formula_y_ge_0.getNumberOfVariables W) =
      wordValues 2 W 1 := by
    intro W
    show 0 * wordValues 2 W 0 + (1 * wordValues 2 W 1 + 0) + 0 = _
    ring
  obtain ⟨B, hB, hval⟩ := getBinaryAutomatonFor_decoded X 2
    (fun rho => 2 * rho 0 + 3 * rho 1 - 7 ≤ 0 ∧ 0 ≤ rho 0 ∧ 0 ≤ rho 1)
    (fun r1 r2 h => by
      show (2 * r1 0 + 3 * r1 1 - 7 ≤ 0 ∧ 0 ≤ r1 0 ∧ 0 ≤ r1 1) ↔
        (2 * r2 0 + 3 * r2 1 - 7 ≤ 0 ∧ 0 ≤ r2 0 ∧ 0 ≤ r2 1)
      rw [h 0 (by omega), h 1 (by omega)])
    (fun W hW => by
      have h1 := a1 W
      have h2 := a2 W
      have h3 := a3 W
      rw [v1] at h1; rw [v2] at h2; rw [v3] at h3
      rw [accX, acc12]
      simp only [Bool.and_eq_true]
      rw [h1, h2, h3]
      simp only [hW, ne_eq, not_false_eq_true, true_and]
      tauto)
    (by rw [nX, n12, s1.1]; rfl)
    (by rw [getNumberOfVariables_eq_length, hvars]; rfl)
    "x" (by rw [hix]; omega)
  refine ⟨A1, A2, A3, X12, X, B, hA1, hA2, hA3, e1, e2, hB, ?_⟩
  intro n
  rw [hval n, hix]
  constructor
  · rintro ⟨rho, ⟨h1, h2, h3⟩, h4⟩
    omega
  · intro h
    refine ⟨fun i => if i = 0 then n else 0, ?_, by simp⟩
    simp only [if_true, one_ne_zero, if_false]
    omega

theorem getBinaryAutomatonFor_values_witness :
    makeAutomaton formula_x_minus_y_eq_5 = some (makeEquality formula_x_minus_y_eq_5) ∧
    "y" ∈ formula_x_minus_y_eq_5.getVariables ∧
    ∃ B, (makeEquality formula_x_minus_y_eq_5).getBinaryAutomatonFor "y" = some B ∧
      ∀ n : Int,
        (∃ w, B.automaton.accepts w = true ∧ decode (track 1 0 w) = some n) ↔
        ∃ rho, formula_x_minus_y_eq_5.satisfiedBy rho ∧
          rho (formula_x_minus_y_eq_5.getVariableIndex "y") = n :=
  ⟨rfl, by decide,
    getBinaryAutomatonFor_values formula_x_minus_y_eq_5 (makeEquality formula_x_minus_y_eq_5)
      rfl "y" (by decide)⟩

/-! ### Trimming of leading zeros -/

theorem run_append {σ : Type} (d : DFA σ) (p : σ) (w1 w2 : List Letter) :
    d.run p (w1 ++ w2) = d.run (d.run p w1) w2 := by
  simp [DFA.run, List.foldl_append]

theorem matchesPattern_single (b : Bool) (a : Letter) :
    matchesPattern [some b] a = (b == bitAt a 0) := by
  show ([0].all fun k => match [some b].getD k none with
    | none => true
    | some b => b == bitAt a k) = _
  simp

theorem rowNext_two (t1 t2 d : Int) (a : Letter) :
    Row.next ⟨[(t1, [some false]), (t2, [some true])], d⟩ a = if bitAt a 0 then t2 else t1 := by
  unfold Row.next
  simp only [List.find?, matchesPattern_single]
  cases bitAt a 0 <;> rfl

theorem rowNext_one (t1 d : Int) (b : Bool) (a : Letter) :
    Row.next ⟨[(t1, [some b])], d⟩ a = if bitAt a 0 = b then t1 else d := by
  unfold Row.next
  simp only [List.find?, matchesPattern_single]
  cases bitAt a 0 <;> cases b <;> rfl

/-- The transitions of the helper automaton. -/
theorem makeTrimHelperAuto_q (a : Letter) :
    makeTrimHelperAuto.q 0 a = (if bitAt a 0 then 2 else 1) ∧
    makeTrimHelperAuto.q 1 a = (if bitAt a 0 then 2 else 3) ∧
    makeTrimHelperAuto.q 2 a = (if bitAt a 0 then 2 else 4) ∧
    makeTrimHelperAuto.q 3 a = (if bitAt a 0 then 2 else 3) ∧
    makeTrimHelperAuto.q 4 a = (if bitAt a 0 then 2 else 4) := by
  refine ⟨?_, ?_, ?_, ?_, ?_⟩
  · show Row.next ⟨[(1, [some false]), (2, [some true])], 0⟩ a = _
    rw [rowNext_two]
  · show Row.next ⟨[(3, [some false]), (2, [some true])], 1⟩ a = _
    rw [rowNext_two]
  · show Row.next ⟨[(4, [some false])], 2⟩ a = _
    rw [rowNext_one]
    cases bitAt a 0 <;> rfl
  · show Row.next ⟨[(2, [some true])], 3⟩ a = _
    rw [rowNext_one]
  · show Row.next ⟨[(2, [some true])], 4⟩ a = _
    rw [rowNext_one]

/-- The helper automaton accepts the one-letter word `0` and the words that end
in the letter `1`. -/
theorem makeTrimHelperAuto_accepts (w : List Letter) :
    makeTrimHelperAuto.accepts w = true ↔
      (∃ a, w = [a] ∧ bitAt a 0 = false) ∨ (∃ a, w.getLast? = some a ∧ bitAt a 0 = true) := by
  have key : ∀ w : List Letter,
      (makeTrimHelperAuto.run 0 w = 0 ∧ w = []) ∨
      (makeTrimHelperAuto.run 0 w = 1 ∧ ∃ a, w = [a] ∧ bitAt a 0 = false) ∨
      (makeTrimHelperAuto.run 0 w = 2 ∧ ∃ a, w.getLast? = some a ∧ bitAt a 0 = true) ∨
      ((makeTrimHelperAuto.run 0 w = 3 ∨ makeTrimHelperAuto.run 0 w = 4) ∧
        (∃ a, w.getLast? = some a ∧ bitAt a 0 = false) ∧ 2 ≤ w.length) := by
    intro w
    induction w using List.reverseRecOn with
    | nil => left; exact ⟨rfl, rfl⟩
    | append_singleton w a ih =>
      right
      have hrun : makeTrimHelperAuto.run 0 (w ++ [a]) =
          makeTrimHelperAuto.q (makeTrimHelperAuto.run 0 w) a := by
        rw [run_append]; rfl
      obtain ⟨q0, q1, q2, q3, q4⟩ := makeTrimHelperAuto_q a
      rw [hrun]
      cases hb : bitAt a 0 with
      | true =>
        right; left
        rw [hb] at q0 q1 q2 q3 q4
        simp only [if_true] at q0 q1 q2 q3 q4
        refine ⟨?_, a, by simp, hb⟩
        rcases ih with h | h | h | h
        · rw [h.1]; exact q0
        · rw [h.1]; exact q1
        · rw [h.1]; exact q2
        · rcases h.1 with h1 | h1
          · rw [h1]; exact q3
          · rw [h1]; exact q4
      | false =>
        rw [hb] at q0 q1 q2 q3 q4
        simp only [Bool.false_eq_true, if_false] at q0 q1 q2 q3 q4
        rcases ih with h | h | h | h
        · left
          rw [h.1, h.2]
          exact ⟨q0, a, rfl, hb⟩
        · right; right
          obtain ⟨a1, ha1, _⟩ := h.2
          rw [h.1, ha1]
          exact ⟨Or.inl q1, ⟨a, by simp, hb⟩, by simp⟩
        · right; right
          obtain ⟨a1, ha1, _⟩ := h.2
          have hne : w ≠ [] := by
            intro hw; rw [hw] at ha1; simp at ha1
          have hlen : 1 ≤ w.length := List.length_pos.2 hne
          rw [h.1]
          exact ⟨Or.inr q2, ⟨a, by simp, hb⟩, by simp; omega⟩
        · right; right
          refine ⟨?_, ⟨a, by simp, hb⟩, by simp; omega⟩
          rcases h.1 with h1 | h1
          · rw [h1]; exact Or.inl q3
          · rw [h1]; exact Or.inr q4
  have hf : ∀ i : Int, makeTrimHelperAuto.f i = true ↔ (i = 1 ∨ i = 2) ∨
      (i ≠ 0 ∧ i ≠ 1 ∧ i ≠ 2 ∧ i ≠ 3 ∧ i ≠ 4 ∧ makeTrimHelperAuto.f i = true) := by
    intro i
    constructor
    · intro h
      by_cases h0 : i = 0
      · subst h0; revert h; decide
      by_cases h1 : i = 1
      · left; left; exact h1
      by_cases h2 : i = 2
      · left; right; exact h2
      by_cases h3 : i = 3
      · subst h3; revert h; decide
      by_cases h4 : i = 4
      · subst h4; revert h; decide
      right; exact ⟨h0, h1, h2, h3, h4, h⟩
    · rintro (h | h)
      · rcases h with h | h <;> subst h <;> decide
      · exact h.2.2.2.2.2
  show makeTrimHelperAuto.f (makeTrimHelperAuto.run 0 w) = true ↔ _
  rw [hf]
  rcases key w with h | h | h | h
  · rw [h.1, h.2]; simp
  · rw [h.1]
    constructor
    · intro _; left; exact h.2
    · intro _; left; left; rfl
  · rw [h.1]
    constructor
    · intro _; right; exact h.2
    · intro _; left; right; rfl
  · obtain ⟨a, ha, hb⟩ := h.2.1
    constructor
    · rintro (h1 | h1)
      · rcases h.1 with h2 | h2 <;> rcases h1 with h3 | h3 <;> omega
      · rcases h.1 with h2 | h2
        · exact absurd h2 h1.2.2.2.1
        · exact absurd h2 h1.2.2.2.2.1
    · rintro (⟨a1, ha1, _⟩ | ⟨a1, ha1, hb1⟩)
      · rw [ha1] at h; simp at h
      · rw [ha] at ha1
        cases ha1
        rw [hb] at hb1; cases hb1

/-- The language of `trimLeadingZeros`: the words `w` such that the automaton
accepts `w` or `w` followed by one letter `0`, and that are the one-letter word
`0` or end in the letter `1`. -/
theorem trimLeadingZeros_accepts {σ : Type} (A : BinaryIntAutomaton σ)
    (h1 : A.num_of_variables = 1) :
    ∃ T, A.trimLeadingZeros = some T ∧ ∀ w, T.accepts w = true ↔
      (A.accepts w = true ∨ A.accepts (w ++ [[false]]) = true) ∧
      ((∃ a, w = [a] ∧ bitAt a 0 = false) ∨
        (∃ a, w.getLast? = some a ∧ bitAt a 0 = true)) := by
  obtain ⟨T, hT, _, _, hacc⟩ := intersect_spec
    ({ A with
        dfa := { A.dfa with
          f := fun i =>
            if A.isAcceptingState (A.getNextState i [false]) then true else A.dfa.f i } } :
      BinaryIntAutomaton σ)
    ({ dfa := makeTrimHelperAuto, num_of_variables := 1, formula := A.formula } :
      BinaryIntAutomaton Int) rfl
  refine ⟨T, ?_, ?_⟩
  · unfold trimLeadingZeros
    rw [if_neg (by simp [h1])]
    exact hT
  · intro w
    rw [hacc, Bool.and_eq_true]
    have hh : ({ dfa := makeTrimHelperAuto, num_of_variables := 1, formula := A.formula } :
        BinaryIntAutomaton Int).accepts w = makeTrimHelperAuto.accepts w := rfl
    rw [hh, makeTrimHelperAuto_accepts]
    have ht : ({ A with
        dfa := { A.dfa with
          f := fun i =>
            if A.isAcceptingState (A.getNextState i [false]) then true else A.dfa.f i } } :
        BinaryIntAutomaton σ).accepts w = true ↔
        (A.accepts w = true ∨ A.accepts (w ++ [[false]]) = true) := by
      show (if A.dfa.f (A.dfa.q (A.dfa.run A.dfa.s w) [false]) then true
        else A.dfa.f (A.dfa.run A.dfa.s w)) = true ↔ _
      have happ : A.accepts (w ++ [[false]]) = A.dfa.f (A.dfa.q (A.dfa.run A.dfa.s w) [false]) := by
        show A.dfa.f (A.dfa.run A.dfa.s (w ++ [[false]])) = _
        rw [run_append]; rfl
      rw [happ]
      show _ ↔ (A.dfa.f (A.dfa.run A.dfa.s w) = true ∨ _)
      cases A.dfa.f (A.dfa.q (A.dfa.run A.dfa.s w) [false]) <;> simp
    rw [ht]

theorem twosComplement_cons (b : Bool) (l : List Bool) (hl : l ≠ []) :
    twosComplement (b :: l) = (if b then 1 else 0) + 2 * twosComplement l := by
  cases l with
  | nil => exact absurd rfl hl
  | cons b1 bs => rfl

theorem twosComplement_zeros_one (k : Nat) :
    twosComplement (List.replicate k false ++ [true]) < 0 := by
  induction k with
  | zero => decide
  | succ k ih =>
    have h : List.replicate (k + 1) false ++ [true] =
        false :: (List.replicate k false ++ [true]) := rfl
    rw [h, twosComplement_cons _ _ (by simp)]
    simp only [Bool.false_eq_true, if_false]
    omega

/-- C5, counterexample.  The automaton of `x = 1` is a single-track automaton
that accepts no word `0^k · 1`, yet `trimLeadingZeros` of it accepts the word
`1`, which has no leading zero. -/
theorem trimLeadingZeros_x_eq_1_accepts_one :
    (makeEquality formula_x_eq_1).num_of_variables = 1 ∧
    (∀ k, (makeEquality formula_x_eq_1).accepts (List.replicate k [false] ++ [[true]]) = false) ∧
    ∃ T, (makeEquality formula_x_eq_1).trimLeadingZeros = some T ∧
      T.accepts [[true]] = true := by
  have hnum : (makeEquality formula_x_eq_1).num_of_variables = 1 :=
    (makeAutomaton_shape formula_x_eq_1 _ rfl).1
  have hacc := makeEquality_accepts formula_x_eq_1 rfl
  have hev : ∀ w, formula_x_eq_1.evalAt (wordValues formula_x_eq_1.getNumberOfVariables w) =
      twosComplement (w.map fun a => bitAt a 0) - 1 := by
    intro w
    show 1 * twosComplement (w.map fun a => bitAt a (1 - 1 - 0)) + 0 + -1 = _
    simp only [Nat.sub_self, Nat.sub_zero]
    ring
  refine ⟨hnum, ?_, ?_⟩
  · intro k
    cases h : (makeEquality formula_x_eq_1).accepts (List.replicate k [false] ++ [[true]]) with
    | false => rfl
    | true =>
      have h1 := ((hacc _).1 h).2
      rw [hev] at h1
      have h2 : ((List.replicate k [false] ++ [[true]]).map fun a => bitAt a 0) =
          List.replicate k false ++ [true] := by
        simp [bitAt]
      rw [h2] at h1
      have := twosComplement_zeros_one k
      omega
  · obtain ⟨T, hT, hTacc⟩ := trimLeadingZeros_accepts (makeEquality formula_x_eq_1) hnum
    refine ⟨T, hT, (hTacc [[true]]).2 ⟨Or.inr ?_, Or.inr ⟨[true], rfl, rfl⟩⟩⟩
    apply (hacc _).2
    refine ⟨by simp, ?_⟩
    rw [hev]
    decide

/-- C5, amended.  For a single-track automaton `A`, `trimLeadingZeros(A)`
accepts a word `w` if and only if `A` accepts `w · 0^k` for `k = 0` or `k = 1`
(the zeros follow `w`: the least-significant bit is read first) and `w` is the
one-letter word `0` or ends in the letter `1`. -/
theorem trimLeadingZeros_language {σ : Type} (A : BinaryIntAutomaton σ)
    (h1 : A.num_of_variables = 1) :
    ∃ T, A.trimLeadingZeros = some T ∧ ∀ w, T.accepts w = true ↔
      (∃ k, k ≤ 1 ∧ A.accepts (w ++ List.replicate k [false]) = true) ∧
      ((∃ a, w = [a] ∧ bitAt a 0 = false) ∨
        (∃ a, w.getLast? = some a ∧ bitAt a 0 = true)) := by
  obtain ⟨T, hT, hacc⟩ := trimLeadingZeros_accepts A h1
  refine ⟨T, hT, fun w => ?_⟩
  rw [hacc w]
  have hk : (∃ k, k ≤ 1 ∧ A.accepts (w ++ List.replicate k [false]) = true) ↔
      (A.accepts w = true ∨ A.accepts (w ++ [[false]]) = true) := by
    constructor
    · rintro ⟨k, hk, h⟩
      rcases Nat.le_one_iff_eq_zero_or_eq_one.1 hk with h0 | h0
      · left; subst h0; simpa using h
      · right; subst h0; simpa using h
    · rintro (h | h)
      · exact ⟨0, by omega, by simpa using h⟩
      · exact ⟨1, le_refl _, by simpa using h⟩
  rw [hk]

theorem trimLeadingZeros_language_witness :
    (makeEquality formula_x_eq_1).num_of_variables = 1 ∧
    ∃ T, (makeEquality formula_x_eq_1).trimLeadingZeros = some T ∧ ∀ w, T.accepts w = true ↔
      (∃ k, k ≤ 1 ∧
        (makeEquality formula_x_eq_1).accepts (w ++ List.replicate k [false]) = true) ∧
      ((∃ a, w = [a] ∧ bitAt a 0 = false) ∨
        (∃ a, w.getLast? = some a ∧ bitAt a 0 = true)) :=
  ⟨(makeAutomaton_shape formula_x_eq_1 _ rfl).1,
    trimLeadingZeros_language (makeEquality formula_x_eq_1)
      (makeAutomaton_shape formula_x_eq_1 _ rfl).1⟩

/-! ## Semilinear sets: the automaton of a set and the set of an automaton -/

theorem isSinkState_upward {A : BinaryIntAutomaton Int} {n : Nat} (hU : Upward A n)
    (i : Int) (h0 : 0 ≤ i) (hn : i ≤ n) : A.isSinkState i = decide (i = n) := by
  unfold isSinkState
  rcases eq_or_lt_of_le hn with h | h
  · subst h
    simp [hU.sink_next, hU.sink_rej]
  · have h1 := hU.next i false h0 h
    have h2 : A.dfa.q i [false] ≠ i := by
      rcases h1 with h1 | h1
      · rw [h1]; omega
      · omega
    have h3 : i ≠ n := by omega
    simp [h2, h3]

theorem getSinkState_upward {A : BinaryIntAutomaton Int} {n : Nat} (hU : Upward A n) :
    A.getSinkState = n := by
  unfold getSinkState
  rw [hU.states, List.range_succ, List.map_append, List.find?_append]
  have h1 : List.find? (fun i => A.isSinkState i) ((List.range n).map Int.ofNat) = none := by
    rw [List.find?_eq_none]
    intro x hx
    rw [List.mem_map] at hx
    obtain ⟨k, hk, rfl⟩ := hx
    rw [List.mem_range] at hk
    have := isSinkState_upward hU (Int.ofNat k) (by simp) (by simp; omega)
    rw [this]
    simp
    omega
  rw [h1]
  have h2 := isSinkState_upward hU (n : Int) (by simp) le_rfl
  simp at h2
  simp [h2]

theorem visitSuccessor_upward {n : Nat}
    (recurse : Int → CycleState → Option CycleState)
    (state next_state : Int)
    (IH : ∀ (s : Int) (T : CycleState), 0 ≤ s → s < n →
      T.disc n ≠ none → (∀ x, T.is_stack_member x = true → x < s) → state < s →
      ∃ T1, recurse s T = some T1 ∧ CyclePost n s T T1)
    (T : CycleState) (h0 : 0 ≤ state) (hn : state < n)
    (hnext : next_state = n ∨ (state < next_state ∧ next_state < n))
    (hsink : T.disc n ≠ none) (hmem : ∀ x, T.is_stack_member x = true → x ≤ state)
    (hlow : T.low state ≤ T.time) :
    ∃ T1, visitSuccessor recurse state next_state T = some T1 ∧
      T1.st = T.st ∧ T1.is_stack_member = T.is_stack_member ∧
      T1.cycle_status = T.cycle_status ∧
      (∀ x : Int, x ≤ state ∨ (n : Int) ≤ x → T1.disc x = T.disc x ∧ T1.low x = T.low x) ∧
      T.time ≤ T1.time := by
  unfold visitSuccessor
  by_cases hd : (T.disc next_state).isNone = true
  · rw [if_pos hd]
    have hne : next_state ≠ n := by
      intro h
      rw [h] at hd
      cases hx : T.disc n with
      | none => exact hsink hx
      | some d => rw [hx] at hd; simp at hd
    have hlt : state < next_state ∧ next_state < n := by
      rcases hnext with h | h
      · exact absurd h hne
      · exact h
    obtain ⟨T1, hT1, hp⟩ := IH next_state T (by omega) hlt.2 hsink
      (fun x hx => lt_of_le_of_lt (hmem x hx) hlt.1) hlt.1
    rw [hT1]
    obtain ⟨d, hd1, hd2, hd3⟩ := hp.low
    have hfs := hp.frame state (Or.inl hlt.1)
    have hmin : min (T1.low state) (T1.low next_state) = T1.low state := by
      rw [hd2, hfs.2]
      exact min_eq_left (le_trans hlow hd3)
    refine ⟨_, rfl, hp.st, hp.member, hp.status, ?_, le_of_lt hp.time⟩
    intro x hx
    simp only [hmin, Function.update_eq_self]
    exact hp.frame x (by omega)
  · rw [if_neg hd]
    have hns : T.is_stack_member next_state = false := by
      cases hx : T.is_stack_member next_state with
      | false => rfl
      | true =>
        have := hmem _ hx
        omega
    rw [hns]
    exact ⟨T, by simp, rfl, rfl, rfl, fun _ _ => ⟨rfl, rfl⟩, le_rfl⟩

theorem getCycleStatusFrom_upward {A : BinaryIntAutomaton Int} {n : Nat} (hU : Upward A n) :
    ∀ (fuel : Nat) (state : Int) (T : CycleState), (n : Int) - state ≤ fuel →
      0 ≤ state → state < n →
      T.disc n ≠ none → (∀ x, T.is_stack_member x = true → x < state) →
      ∃ T1, getCycleStatusFrom A fuel state T = some T1 ∧ CyclePost n state T T1 := by
  intro fuel
  induction fuel with
  | zero =>
    intro state T hf h0 hn
    omega
  | succ fuel ih =>
    intro state T hf h0 hn hsink hmem
    have IH : ∀ (s : Int) (T : CycleState), 0 ≤ s → s < n →
        T.disc n ≠ none → (∀ x, T.is_stack_member x = true → x < s) → state < s →
        ∃ T1, getCycleStatusFrom A fuel s T = some T1 ∧ CyclePost n s T T1 := by
      intro s T hs0 hsn h1 h2 hlt
      exact ih s T (by push_cast at hf; omega) hs0 hsn h1 h2
    have hstep : ∀ T0 : CycleState, getCycleStatusFrom A (fuel + 1) state T0 =
        (let T : CycleState :=
          { T0 with
            disc := Function.update T0.disc state (some T0.time)
            low := Function.update T0.low state T0.time
            time := T0.time + 1
            st := state :: T0.st
            is_stack_member := Function.update T0.is_stack_member state true }
        let l := A.getNextState state [false]
        let r := A.getNextState state [true]
        match visitSuccessor (getCycleStatusFrom A fuel) state l T with
        | none => none
        | some T =>
          match visitSuccessor (getCycleStatusFrom A fuel) state r T with
          | none => none
          | some T =>
            if T.low state = (T.disc state).getD 0 then
              let T := popComponent state T.st T
              let current_state := T.st.headD state
              let T : CycleState :=
                { T with
                  is_stack_member := Function.update T.is_stack_member current_state false
                  st := T.st.tail }
              if current_state = l ∨ current_state = r then
                some { T with
                  cycle_status :=
                    Function.update (Function.update T.cycle_status current_state true) (-2)
                      true }
              else some T
            else some T) := fun _ => rfl
    rw [hstep]
    have hsn : state ≠ n := by omega
    have hl := hU.next state false h0 hn
    have hr := hU.next state true h0 hn
    obtain ⟨T1, hT1, h1st, h1m, h1c, h1f, h1t⟩ := visitSuccessor_upward (n := n)
      (getCycleStatusFrom A fuel) state (A.getNextState state [false]) IH
      { T with
        disc := Function.update T.disc state (some T.time)
        low := Function.update T.low state T.time
        time := T.time + 1
        st := state :: T.st
        is_stack_member := Function.update T.is_stack_member state true }
      h0 hn hl
      (by
        show Function.update T.disc state (some T.time) n ≠ none
        rw [Function.update_noteq (Ne.symm hsn)]
        exact hsink)
      (by
        intro x hx
        change Function.update T.is_stack_member state true x = true at hx
        by_cases hxs : x = state
        · omega
        · rw [Function.update_noteq hxs] at hx
          exact le_of_lt (hmem x hx))
      (by
        show Function.update T.low state T.time state ≤ T.time + 1
        rw [Function.update_same]
        omega)
    simp only [hT1]
    obtain ⟨T2, hT2, h2st, h2m, h2c, h2f, h2t⟩ := visitSuccessor_upward (n := n)
      (getCycleStatusFrom A fuel) state (A.getNextState state [true]) IH T1
      h0 hn hr
      (by
        rw [(h1f n (Or.inr le_rfl)).1]
        show Function.update T.disc state (some T.time) n ≠ none
        rw [Function.update_noteq (Ne.symm hsn)]
        exact hsink)
      (by
        intro x hx
        rw [h1m] at hx
        change Function.update T.is_stack_member state true x = true at hx
        by_cases hxs : x = state
        · omega
        · rw [Function.update_noteq hxs] at hx
          exact le_of_lt (hmem x hx))
      (by
        rw [(h1f state (Or.inl le_rfl)).2]
        show Function.update T.low state T.time state ≤ T1.time
        rw [Function.update_same]
        change T.time + 1 ≤ T1.time at h1t
        omega)
    simp only [hT2]
    have hdisc : T2.disc state = some T.time := by
      rw [(h2f state (Or.inl le_rfl)).1, (h1f state (Or.inl le_rfl)).1]
      exact Function.update_same _ _ _
    have hlow : T2.low state = T.time := by
      rw [(h2f state (Or.inl le_rfl)).2, (h1f state (Or.inl le_rfl)).2]
      exact Function.update_same _ _ _
    have hst : T2.st = state :: T.st := by rw [h2st, h1st]
    have hpop : popComponent state (state :: T.st) T2 = T2 := by
      unfold popComponent
      simp only [ne_eq, not_true_eq_false, if_false]
      cases T2
      simp only at hst
      simp [hst]
    rw [if_pos (by rw [hlow, hdisc]; rfl)]
    simp only [hst, hpop, List.headD_cons, List.tail_cons]
    have hnl : ¬ (state = A.getNextState state [false] ∨ state = A.getNextState state [true]) := by
      unfold getNextState
      omega
    rw [if_neg hnl]
    refine ⟨_, rfl, ⟨rfl, ?_, ?_, ?_, ?_, ?_⟩⟩
    · show Function.update T2.is_stack_member state false = T.is_stack_member
      rw [h2m, h1m]
      show Function.update (Function.update T.is_stack_member state true) state false = _
      rw [Function.update_idem]
      have : T.is_stack_member state = false := by
        cases hx : T.is_stack_member state with
        | false => rfl
        | true => have := hmem _ hx; omega
      rw [← this, Function.update_eq_self]
    · show T2.cycle_status = T.cycle_status
      rw [h2c, h1c]
    · intro x hx
      show T2.disc x = T.disc x ∧ T2.low x = T.low x
      have hxs : x ≠ state := by omega
      rw [(h2f x (by omega)).1, (h2f x (by omega)).2, (h1f x (by omega)).1, (h1f x (by omega)).2]
      exact ⟨Function.update_noteq hxs _ _, Function.update_noteq hxs _ _⟩
    · show T.time < T2.time
      change T.time + 1 ≤ T1.time at h1t
      omega
    · exact ⟨T.time, hdisc, hlow, le_rfl⟩

theorem getCycleStatus_upward {A : BinaryIntAutomaton Int} {n : Nat} (hU : Upward A n) :
    A.getCycleStatus = some (false, Function.update (fun _ => false) (n : Int) true) := by
  unfold getCycleStatus
  rw [getSinkState_upward hU, hU.start, hU.states]
  obtain ⟨T1, hT1, hp⟩ := getCycleStatusFrom_upward hU
    (((List.range (n + 1)).map Int.ofNat).length + 1) 0
    { disc := Function.update (fun _ => none) (n : Int) (some 0)
      low := fun _ => 0
      st := []
      is_stack_member := fun _ => false
      cycle_status := Function.update (fun _ => false) (n : Int) true
      time := 0 }
    (by simp; omega) le_rfl (by have := hU.pos; omega)
    (by simp) (by simp)
  simp only [hT1, hp.status]
  have hne : (-2 : Int) ≠ (n : Int) := by omega
  rw [Function.update_noteq hne]

theorem run_sink_upward {A : BinaryIntAutomaton Int} {n : Nat} (hU : Upward A n)
    (w : List Bool) : A.dfa.run (n : Int) (w.map fun b => [b]) = n := by
  induction w with
  | nil => rfl
  | cons b w ih =>
    show A.dfa.run (A.dfa.q n [b]) (w.map fun b => [b]) = n
    rw [hU.sink_next, ih]

theorem collectSuccessor_upward {A : BinaryIntAutomaton Int} {n : Nat} (hU : Upward A n)
    (cycle_status : Int → Bool)
    (hcs : ∀ i : Int, 0 ≤ i → i < n → cycle_status i = false)
    (recurse : Int → List Bool → List Int → Option (List Int))
    (state : Int) (h0 : 0 ≤ state) (hn : state < n)
    (IH : ∀ (s : Int) (path : List Bool) (constants : List Int), state < s → s < n →
      ∃ L, recurse s path constants = some (constants ++ L) ∧
        ∀ x, x ∈ L ↔ ∃ w : List Bool, w ≠ [] ∧
          A.dfa.f (A.dfa.run s (w.map fun b => [b])) = true ∧ x = pathValue (path ++ w))
    (b : Bool) (path : List Bool) (constants : List Int) :
    ∃ L, collectSuccessor A cycle_status recurse (A.getNextState state [b]) b path constants
        = some (constants ++ L) ∧
      ∀ x, x ∈ L ↔ ∃ w : List Bool,
        A.dfa.f (A.dfa.run (A.dfa.q state [b]) (w.map fun b => [b])) = true ∧
          x = pathValue (path ++ b :: w) := by
  unfold collectSuccessor getNextState
  rcases hU.next state b h0 hn with h | h
  · rw [h, isSinkState_upward hU n (by omega) le_rfl]
    refine ⟨[], by simp, ?_⟩
    intro x
    simp [run_sink_upward hU, hU.sink_rej]
  · rw [isSinkState_upward hU _ (by omega) (le_of_lt h.2)]
    have hne : A.dfa.q state [b] ≠ n := by omega
    simp only [hne, decide_False, Bool.not_false, if_true, hcs _ (by omega) h.2]
    obtain ⟨L, hL, hx⟩ := IH (A.dfa.q state [b]) (path ++ [b])
      (if A.isAcceptingState (A.dfa.q state [b]) then constants ++ [pathValue (path ++ [b])]
        else constants) h.1 h.2
    rw [hL]
    by_cases hf : A.dfa.f (A.dfa.q state [b]) = true
    · refine ⟨pathValue (path ++ [b]) :: L, ?_, ?_⟩
      · simp [isAcceptingState, hf]
      · intro x
        rw [List.mem_cons, hx]
        constructor
        · rintro (h1 | ⟨w, hw, hfw, hxw⟩)
          · exact ⟨[], hf, h1⟩
          · exact ⟨w, hfw, by rw [hxw, List.append_assoc]; rfl⟩
        · rintro ⟨w, hfw, hxw⟩
          by_cases hw : w = []
          · left; rw [hxw, hw]
          · right; exact ⟨w, hw, hfw, by rw [hxw, List.append_assoc]; rfl⟩
    · refine ⟨L, ?_, ?_⟩
      · simp [isAcceptingState, hf]
      · intro x
        rw [hx]
        constructor
        · rintro ⟨w, hw, hfw, hxw⟩
          exact ⟨w, hfw, by rw [hxw, List.append_assoc]; rfl⟩
        · rintro ⟨w, hfw, hxw⟩
          by_cases hw : w = []
          · rw [hw] at hfw; exact absurd hfw hf
          · exact ⟨w, hw, hfw, by rw [hxw, List.append_assoc]; rfl⟩

theorem getConstantsFrom_upward {A : BinaryIntAutomaton Int} {n : Nat} (hU : Upward A n)
    (cycle_status : Int → Bool)
    (hcs : ∀ i : Int, 0 ≤ i → i < n → cycle_status i = false) :
    ∀ (fuel : Nat) (state : Int) (path : List Bool) (constants : List Int),
      (n : Int) - state ≤ fuel → 0 ≤ state → state < n →
      ∃ L, getConstantsFrom A cycle_status fuel state path constants = some (constants ++ L) ∧
        ∀ x, x ∈ L ↔ ∃ w : List Bool, w ≠ [] ∧
          A.dfa.f (A.dfa.run state (w.map fun b => [b])) = true ∧ x = pathValue (path ++ w) := by
  intro fuel
  induction fuel with
  | zero =>
    intro state path constants hf h0 hn
    omega
  | succ fuel ih =>
    intro state path constants hf h0 hn
    have IH : ∀ (s : Int) (path : List Bool) (constants : List Int), state < s → s < n →
        ∃ L, getConstantsFrom A cycle_status fuel s path constants = some (constants ++ L) ∧
          ∀ x, x ∈ L ↔ ∃ w : List Bool, w ≠ [] ∧
            A.dfa.f (A.dfa.run s (w.map fun b => [b])) = true ∧ x = pathValue (path ++ w) := by
      intro s path constants h1 h2
      exact ih s path constants (by push_cast at hf; omega) (by omega) h2
    obtain ⟨L0, hL0, hx0⟩ := collectSuccessor_upward hU cycle_status hcs
      (getConstantsFrom A cycle_status fuel) state h0 hn IH false path constants
    obtain ⟨L1, hL1, hx1⟩ := collectSuccessor_upward hU cycle_status hcs
      (getConstantsFrom A cycle_status fuel) state h0 hn IH true path (constants ++ L0)
    refine ⟨L0 ++ L1, ?_, ?_⟩
    · show (match collectSuccessor A cycle_status (getConstantsFrom A cycle_status fuel)
          (A.getNextState state [false]) false path constants with
        | none => none
        | some constants =>
          collectSuccessor A cycle_status (getConstantsFrom A cycle_status fuel)
            (A.getNextState state [true]) true path constants) = _
      rw [hL0]
      simp only [hL1, List.append_assoc]
    · intro x
      rw [List.mem_append, hx0, hx1]
      constructor
      · rintro (⟨w, hfw, hxw⟩ | ⟨w, hfw, hxw⟩)
        · exact ⟨false :: w, by simp, hfw, hxw⟩
        · exact ⟨true :: w, by simp, hfw, hxw⟩
      · rintro ⟨w, hw, hfw, hxw⟩
        cases w with
        | nil => exact absurd rfl hw
        | cons b w =>
          cases b
          · left; exact ⟨w, hfw, hxw⟩
          · right; exact ⟨w, hfw, hxw⟩

theorem sort_and_remove_duplicate_sorted (l : List Int) :
    (sort_and_remove_duplicate l).Sorted (· < ·) := by
  unfold sort_and_remove_duplicate
  have h1 : (l.dedup.insertionSort (· ≤ ·)).Sorted (· ≤ ·) := List.sorted_insertionSort _ _
  have h2 : (l.dedup.insertionSort (· ≤ ·)).Nodup :=
    (List.perm_insertionSort (· ≤ ·) l.dedup).nodup_iff.2 (List.nodup_dedup l)
  exact h1.lt_of_le h2

theorem mem_sort_and_remove_duplicate (l : List Int) (x : Int) :
    x ∈ sort_and_remove_duplicate l ↔ x ∈ l := by
  unfold sort_and_remove_duplicate
  rw [(List.perm_insertionSort (· ≤ ·) l.dedup).mem_iff, List.mem_dedup]

/-- The set an acyclic automaton is turned into: the numbers spelled by the
accepted words, in increasing order. -/
theorem getSemilinearSet_upward {A : BinaryIntAutomaton Int} {n : Nat} (hU : Upward A n) :
    ∃ S, A.getSemilinearSet = some S ∧ S.period = 0 ∧ S.cycle_head = 0 ∧
      S.periodic_constants = [] ∧ S.constants.Sorted (· < ·) ∧
      ∀ x, x ∈ S.constants ↔ ∃ w : List Bool, w ≠ [] ∧
        A.dfa.f (A.dfa.run 0 (w.map fun b => [b])) = true ∧ x = pathValue w := by
  unfold getSemilinearSet
  rw [getCycleStatus_upward hU]
  have hcs : ∀ i : Int, 0 ≤ i → i < n →
      Function.update (fun _ => false) (n : Int) true i = false := by
    intro i _ hi
    rw [Function.update_noteq (by omega)]
  have hpos := hU.pos
  obtain ⟨L, hL, hx⟩ := getConstantsFrom_upward hU _ hcs (A.dfa.states.length + 1) 0 [] []
    (by rw [hU.states]; simp; omega) le_rfl (by omega)
  have hgc : A.getConstants (Function.update (fun _ => false) (n : Int) true) = some L := by
    unfold getConstants
    rw [hU.start, isSinkState_upward hU 0 le_rfl (by omega), hcs 0 le_rfl (by omega)]
    have : ¬ ((0 : Int) = n) := by omega
    simp only [this, decide_False, Bool.not_false, Bool.and_self, if_true]
    rw [hL]
    simp
  simp only [hgc, Bool.not_false, if_true]
  refine ⟨_, rfl, rfl, rfl, rfl, sort_and_remove_duplicate_sorted L, ?_⟩
  intro x
  show x ∈ sort_and_remove_duplicate L ↔ _
  rw [mem_sort_and_remove_duplicate, hx]
  simp

theorem trieExt_refl (S : List BinaryState) : TrieExt S S :=
  ⟨fun _ s h => ⟨s, h, rfl, rfl, rfl, fun _ => rfl, fun _ => rfl⟩⟩

theorem trieExt_trans {S1 S2 S3 : List BinaryState} (h12 : TrieExt S1 S2)
    (h23 : TrieExt S2 S3) : TrieExt S1 S3 := by
  refine ⟨fun i s h => ?_⟩
  obtain ⟨s2, h2, a1, a2, a3, a4, a5⟩ := h12.keep i s h
  obtain ⟨s3, h3, b1, b2, b3, b4, b5⟩ := h23.keep i s2 h2
  refine ⟨s3, h3, by rw [b1, a1], by rw [b2, a2], by rw [b3, a3], ?_, ?_⟩
  · intro h0
    rw [b4 (by rw [a4 h0]; exact h0), a4 h0]
  · intro h0
    rw [b5 (by rw [a5 h0]; exact h0), a5 h0]

theorem trieStep_neg (S : List BinaryState) (i : Int) (b : Bool) (hi : i < 0) :
    trieStep S i b = -1 := by
  unfold trieStep
  rw [if_pos hi]

theorem trieWalk_neg (S : List BinaryState) (w : List Bool) :
    ∀ i : Int, i < 0 → trieWalk S i w < 0 := by
  induction w with
  | nil => intro i hi; exact hi
  | cons b w ih =>
    intro i hi
    show trieWalk S (trieStep S i b) w < 0
    rw [trieStep_neg S i b hi]
    exact ih _ (by omega)

theorem trieWalk_append (S : List BinaryState) (i : Int) (w1 w2 : List Bool) :
    trieWalk S i (w1 ++ w2) = trieWalk S (trieWalk S i w1) w2 := by
  simp [trieWalk, List.foldl_append]

theorem trieStep_get (S : List BinaryState) (i : Nat) (s : BinaryState) (b : Bool)
    (h : S.get? i = some s) : trieStep S (i : Int) b = if b then s.d1 else s.d0 := by
  unfold trieStep
  rw [if_neg (by omega), Int.toNat_natCast, h]

theorem trieStep_ext {S S1 : List BinaryState} (hE : TrieExt S S1) (i : Int) (b : Bool)
    (h : 0 ≤ trieStep S i b) : trieStep S1 i b = trieStep S i b := by
  by_cases hi : i < 0
  · rw [trieStep_neg S i b hi] at h
    omega
  · obtain ⟨k, rfl⟩ := Int.eq_ofNat_of_zero_le (not_lt.1 hi)
    cases hs : S.get? k with
    | none =>
      unfold trieStep at h
      rw [if_neg hi, Int.toNat_natCast, hs] at h
      simp at h
    | some s =>
      obtain ⟨s1, h1, _, _, _, a4, a5⟩ := hE.keep k s hs
      rw [trieStep_get S k s b hs] at h ⊢
      rw [trieStep_get S1 k s1 b h1]
      cases b
      · exact a4 h
      · exact a5 h

theorem trieWalk_ext {S S1 : List BinaryState} (hE : TrieExt S S1) (w : List Bool) :
    ∀ i : Int, 0 ≤ trieWalk S i w → trieWalk S1 i w = trieWalk S i w := by
  induction w with
  | nil => intro i _; rfl
  | cons b w ih =>
    intro i h
    change 0 ≤ trieWalk S (trieStep S i b) w at h
    show trieWalk S1 (trieStep S1 i b) w = trieWalk S (trieStep S i b) w
    have h0 : 0 ≤ trieStep S i b := by
      by_contra hc
      have := trieWalk_neg S w _ (not_le.1 hc)
      omega
    rw [trieStep_ext hE i b h0]
    exact ih _ h

theorem get?_setd1 (S : List BinaryState) (i : Nat) (d : Int) (j : Nat) :
    (setd1 S i d).get? j = (S.get? j).map (fun s => if j = i then { s with d1 := d } else s) := by
  unfold setd1
  cases h : S.get? i with
  | none =>
    by_cases hj : j = i
    · subst hj; rw [h]; rfl
    · simp [hj]
  | some s =>
    simp only [List.get?_eq_getElem?] at h ⊢
    have hlt : i < S.length := (List.getElem?_eq_some.1 h).1
    by_cases hj : j = i
    · subst hj
      simp [List.getElem?_set, h, hlt]
    · simp [List.getElem?_set, hj, Ne.symm hj]

theorem get?_setd0 (S : List BinaryState) (i : Nat) (d : Int) (j : Nat) :
    (setd0 S i d).get? j = (S.get? j).map (fun s => if j = i then { s with d0 := d } else s) := by
  unfold setd0
  cases h : S.get? i with
  | none =>
    by_cases hj : j = i
    · subst hj; rw [h]; rfl
    · simp [hj]
  | some s =>
    simp only [List.get?_eq_getElem?] at h ⊢
    have hlt : i < S.length := (List.getElem?_eq_some.1 h).1
    by_cases hj : j = i
    · subst hj
      simp [List.getElem?_set, h, hlt]
    · simp [List.getElem?_set, hj, Ne.symm hj]

theorem length_setd1 (S : List BinaryState) (i : Nat) (d : Int) :
    (setd1 S i d).length = S.length := by
  unfold setd1
  cases S.get? i <;> simp

theorem length_setd0 (S : List BinaryState) (i : Nat) (d : Int) :
    (setd0 S i d).length = S.length := by
  unfold setd0
  cases S.get? i <;> simp

theorem insert_value (sv rank mask : Nat) (hlt : sv < 2 ^ (rank - 1)) :
    (if mask % 2 ≠ 0 then sv ||| (1 <<< (rank - 1)) else sv)
      = sv + (mask % 2) * 2 ^ (rank - 1) := by
  by_cases h : mask % 2 ≠ 0
  · rw [if_pos h]
    have h1 : mask % 2 = 1 := by omega
    have h2 := Nat.mul_add_lt_is_or hlt 1
    rw [h1, Nat.one_shiftLeft, Nat.lor_comm]
    rw [Nat.mul_one] at h2
    rw [← h2]
    omega
  · rw [if_neg h]
    have h1 : mask % 2 = 0 := by omega
    rw [h1]
    omega

/-- The list of binary states after a new state was appended and made the
successor of the state `i` on the bit `b`. -/
theorem created_get (S : List BinaryState) (i : Nat) (d : Int) (new : BinaryState) (b : Bool)
    (hi : i < S.length) :
    (∀ j s, S.get? j = some s → j ≠ i →
      (if b then setd1 (S ++ [new]) i d else setd0 (S ++ [new]) i d).get? j = some s) ∧
    (∀ s, S.get? i = some s →
      (if b then setd1 (S ++ [new]) i d else setd0 (S ++ [new]) i d).get? i
        = some (if b then { s with d1 := d } else { s with d0 := d })) ∧
    (if b then setd1 (S ++ [new]) i d else setd0 (S ++ [new]) i d).get? S.length = some new ∧
    (if b then setd1 (S ++ [new]) i d else setd0 (S ++ [new]) i d).length = S.length + 1 ∧
    (∀ j s1, (if b then setd1 (S ++ [new]) i d else setd0 (S ++ [new]) i d).get? j = some s1 →
      (j = S.length ∧ s1 = new) ∨
      (j < S.length ∧ ∃ s, S.get? j = some s ∧
        s1 = if j = i then (if b then { s with d1 := d } else { s with d0 := d }) else s)) := by
  have hG : ∀ j, (if b then setd1 (S ++ [new]) i d else setd0 (S ++ [new]) i d).get? j
      = ((S ++ [new]).get? j).map (fun s =>
          if j = i then (if b then { s with d1 := d } else { s with d0 := d }) else s) := by
    intro j
    cases b
    · simp only [Bool.false_eq_true, if_false]
      exact get?_setd0 _ _ _ _
    · simp only [if_true]
      exact get?_setd1 _ _ _ _
  have hA : ∀ j, (S ++ [new]).get? j
      = if j < S.length then S.get? j else if j = S.length then some new else none := by
    intro j
    simp only [List.get?_eq_getElem?]
    by_cases h1 : j < S.length
    · rw [if_pos h1, List.getElem?_append_left h1]
    · rw [if_neg h1]
      by_cases h2 : j = S.length
      · rw [if_pos h2, h2]
        simp
      · rw [if_neg h2]
        apply List.getElem?_eq_none
        simp
        omega
  have hlt : ∀ j s, S.get? j = some s → j < S.length := by
    intro j s h
    simp only [List.get?_eq_getElem?] at h
    exact (List.getElem?_eq_some.1 h).1
  refine ⟨?_, ?_, ?_, ?_, ?_⟩
  · intro j s hs hj
    rw [hG, hA, if_pos (hlt j s hs), hs]
    simp [hj]
  · intro s hs
    rw [hG, hA, if_pos hi, hs]
    simp
  · rw [hG, hA, if_neg (lt_irrefl _), if_pos rfl]
    have : S.length ≠ i := by omega
    simp [this]
  · cases b
    · simp [length_setd0]
    · simp [length_setd1]
  · intro j s1 h1
    rw [hG, hA] at h1
    by_cases h2 : j < S.length
    · right
      rw [if_pos h2] at h1
      cases hs : S.get? j with
      | none => rw [hs] at h1; simp at h1
      | some s =>
        rw [hs] at h1
        simp only [Option.map_some', Option.some.injEq] at h1
        exact ⟨h2, s, rfl, h1.symm⟩
    · left
      rw [if_neg h2] at h1
      by_cases h3 : j = S.length
      · rw [if_pos h3] at h1
        have : j ≠ i := by omega
        simp only [Option.map_some', this, if_false, Option.some.injEq] at h1
        exact ⟨h3, h1.symm⟩
      · rw [if_neg h3] at h1
        simp at h1

theorem get?_lt {S : List BinaryState} {j : Nat} {s : BinaryState} (h : S.get? j = some s) :
    j < S.length := by
  simp only [List.get?_eq_getElem?] at h
  exact (List.getElem?_eq_some.1 h).1

theorem get?_of_lt {S : List BinaryState} {j : Nat} (h : j < S.length) :
    ∃ s, S.get? j = some s := by
  simp only [List.get?_eq_getElem?]
  exact ⟨S[j], List.getElem?_eq_getElem h⟩

theorem trieInv_created (S : List BinaryState) (m : Int × Int → Option Nat) (i : Nat)
    (s : BinaryState) (b : Bool) (k : Nat) (v : Int)
    (hI : TrieInv S m) (hs : S.get? i = some s) (hB : s.B = k)
    (hnone : m (v, (k : Int) + 1) = none)
    (hv : v = (if i = 0 then 0 else s.V) + (if b then 2 ^ k else 0)) :
    TrieInv
      (if b then setd1 (S ++ [⟨.VAL, v, (k : Int) + 1, -1, -1⟩]) i (S.length : Int)
        else setd0 (S ++ [⟨.VAL, v, (k : Int) + 1, -1, -1⟩]) i (S.length : Int))
      (Function.update m (v, (k : Int) + 1) (some S.length)) ∧
    TrieExt S
      (if b then setd1 (S ++ [⟨.VAL, v, (k : Int) + 1, -1, -1⟩]) i (S.length : Int)
        else setd0 (S ++ [⟨.VAL, v, (k : Int) + 1, -1, -1⟩]) i (S.length : Int)) := by
  have hi : i < S.length := get?_lt hs
  have hd : (if b then s.d1 else s.d0) = -1 := by
    rcases hI.up i s b hs with h | ⟨h1, h2⟩
    · exact h
    · exfalso
      obtain ⟨j, hj⟩ := Int.eq_ofNat_of_zero_le (a := if b then s.d1 else s.d0) (by omega)
      rw [hj] at h1 h2
      obtain ⟨t, ht⟩ := get?_of_lt (S := S) (j := j) (by exact_mod_cast h2)
      obtain ⟨e1, e2⟩ := hI.edge i j s t b hs hj ht
      have := hI.complete j t (by omega) ht
      rw [e1, e2, hB, Int.toNat_natCast, ← hv] at this
      exact this hnone
  obtain ⟨g1, g2, g3, g4, g5⟩ :=
    created_get S i (S.length : Int) ⟨.VAL, v, (k : Int) + 1, -1, -1⟩ b hi
  generalize hS1 : (if b then setd1 (S ++ [⟨.VAL, v, (k : Int) + 1, -1, -1⟩]) i (S.length : Int)
        else setd0 (S ++ [⟨.VAL, v, (k : Int) + 1, -1, -1⟩]) i (S.length : Int)) = S1 at *
  -- the old states and what they have become
  have hold : ∀ j s0, S.get? j = some s0 → ∃ s1, S1.get? j = some s1 ∧ s1.type = s0.type ∧
      s1.V = s0.V ∧ s1.B = s0.B ∧
      (∀ c : Bool, (j = i ∧ c = b ∧ (if c then s1.d1 else s1.d0) = S.length) ∨
        ((j ≠ i ∨ c ≠ b) ∧ (if c then s1.d1 else s1.d0) = (if c then s0.d1 else s0.d0))) := by
    intro j s0 h0
    by_cases hj : j = i
    · subst hj
      rw [hs] at h0
      cases h0
      refine ⟨_, g2 s hs, ?_, ?_, ?_, ?_⟩
      · cases b <;> rfl
      · cases b <;> rfl
      · cases b <;> rfl
      · intro c
        cases b <;> cases c <;> simp
    · exact ⟨s0, g1 j s0 h0 hj, rfl, rfl, rfl, fun c => Or.inr ⟨Or.inl hj, rfl⟩⟩
  have hnew : ∀ j s1, S1.get? j = some s1 →
      (j = S.length ∧ s1 = ⟨.VAL, v, (k : Int) + 1, -1, -1⟩) ∨
      (j < S.length ∧ ∃ s0, S.get? j = some s0) := by
    intro j s1 h1
    rcases g5 j s1 h1 with h | ⟨h, s0, h0, _⟩
    · exact Or.inl h
    · exact Or.inr ⟨h, s0, h0⟩
  have hE : TrieExt S S1 := by
    refine ⟨fun j s0 h0 => ?_⟩
    obtain ⟨s1, h1, a1, a2, a3, a4⟩ := hold j s0 h0
    refine ⟨s1, h1, a1, a2, a3, ?_, ?_⟩
    · intro hpos
      rcases a4 false with ⟨rfl, hb, _⟩ | ⟨_, h⟩
      · rw [hs] at h0
        cases h0
        rw [← hb] at hd
        simp at hd
        omega
      · simpa using h
    · intro hpos
      rcases a4 true with ⟨rfl, hb, _⟩ | ⟨_, h⟩
      · rw [hs] at h0
        cases h0
        rw [← hb] at hd
        simp at hd
        omega
      · simpa using h
  refine ⟨⟨?_, ?_, ?_, ?_, ?_, ?_, ?_⟩, hE⟩
  · obtain ⟨r, hr, hrB⟩ := hI.root
    obtain ⟨s1, h1, _, _, a3, _⟩ := hold 0 r hr
    exact ⟨s1, h1, by rw [a3, hrB]⟩
  · intro j s1 h1
    rcases hnew j s1 h1 with ⟨_, rfl⟩ | ⟨_, s0, h0⟩
    · rfl
    · obtain ⟨s2, h2, a1, _⟩ := hold j s0 h0
      rw [h1] at h2
      cases h2
      rw [a1]
      exact hI.kind j s0 h0
  · intro j s1 c h1
    rw [g4]
    rcases hnew j s1 h1 with ⟨_, rfl⟩ | ⟨hjl, s0, h0⟩
    · left
      cases c <;> rfl
    · obtain ⟨s2, h2, _, _, _, a4⟩ := hold j s0 h0
      rw [h1] at h2
      cases h2
      rcases a4 c with ⟨rfl, _, h⟩ | ⟨_, h⟩
      · right
        rw [h]
        push_cast
        omega
      · rw [h]
        rcases hI.up j s0 c h0 with h3 | h3
        · exact Or.inl h3
        · right
          push_cast
          omega
  · intro j j1 s1 t1 c h1 hc ht1
    rcases hnew j s1 h1 with ⟨_, rfl⟩ | ⟨hjl, s0, h0⟩
    · exfalso
      cases c <;> simp at hc
    · obtain ⟨s2, h2, _, a2, a3, a4⟩ := hold j s0 h0
      rw [h1] at h2
      cases h2
      rw [a2, a3]
      rcases a4 c with ⟨rfl, rfl, h⟩ | ⟨_, h⟩
      · rw [hs] at h0
        cases h0
        rw [h] at hc
        have hj1 : j1 = S.length := by exact_mod_cast hc.symm
        rw [hj1, g3] at ht1
        cases ht1
        refine ⟨by rw [hB], ?_⟩
        rw [hB, Int.toNat_natCast]
        exact hv
      · rw [h] at hc
        have hj1 : j1 < S.length := by
          rcases hI.up j s0 c h0 with h3 | h3
          · omega
          · rw [hc] at h3
            exact_mod_cast h3.2
        obtain ⟨t0, ht0⟩ := get?_of_lt hj1
        obtain ⟨t2, ht2, _, b2, b3, _⟩ := hold j1 t0 ht0
        rw [ht1] at ht2
        cases ht2
        rw [b2, b3]
        exact hI.edge j j1 s0 t0 c h0 hc ht0
  · intro key j hm
    by_cases hk : key = (v, (k : Int) + 1)
    · rw [hk, Function.update_same] at hm
      cases hm
      exact ⟨_, g3, hk.symm⟩
    · rw [Function.update_noteq hk] at hm
      obtain ⟨t0, ht0, hkey⟩ := hI.sound key j hm
      obtain ⟨t1, ht1, _, b2, b3, _⟩ := hold j t0 ht0
      exact ⟨t1, ht1, by rw [b2, b3]; exact hkey⟩
  · intro j t1 hj ht1
    rcases hnew j t1 ht1 with ⟨_, rfl⟩ | ⟨hjl, t0, ht0⟩
    · rw [Function.update_same]
      simp
    · obtain ⟨t2, ht2, _, b2, b3, _⟩ := hold j t0 ht0
      rw [ht1] at ht2
      cases ht2
      rw [b2, b3]
      by_cases hk : (t0.V, t0.B) = (v, (k : Int) + 1)
      · rw [hk, Function.update_same]
        simp
      · rw [Function.update_noteq hk]
        exact hI.complete j t0 hj ht0
  · intro j t1 ht1
    rcases hnew j t1 ht1 with ⟨rfl, rfl⟩ | ⟨hjl, t0, ht0⟩
    · obtain ⟨w, hw⟩ := hI.reach i s hs
      refine ⟨w ++ [b], ?_⟩
      rw [trieWalk_append, trieWalk_ext hE w 0 (by rw [hw]; omega), hw]
      show trieStep S1 (i : Int) b = _
      rw [trieStep_get S1 i _ b (g2 s hs)]
      cases b <;> rfl
    · obtain ⟨w, hw⟩ := hI.reach j t0 ht0
      exact ⟨w, by rw [trieWalk_ext hE w 0 (by rw [hw]; omega), hw]⟩

theorem insertBody_spec (st : InsertState)
    (hI : TrieInv st.binary_states st.binary_state_map) (s : BinaryState)
    (hs : st.binary_states.get? st.i = some s) (hr : 1 ≤ st.rank)
    (hB : s.B = (st.rank : Int) - 1)
    (hV : (if st.i = 0 then 0 else s.V) = (st.state_value : Int))
    (hlt : st.state_value < 2 ^ (st.rank - 1)) :
    TrieInv (insertBody st).binary_states (insertBody st).binary_state_map ∧
    TrieExt st.binary_states (insertBody st).binary_states ∧
    (insertBody st).rank = st.rank + 1 ∧ (insertBody st).mask = st.mask / 2 ∧
    (insertBody st).state_value = st.state_value + (st.mask % 2) * 2 ^ (st.rank - 1) ∧
    ∃ t, (insertBody st).binary_states.get? (insertBody st).i = some t ∧
      t.B = (st.rank : Int) ∧ t.V = ((insertBody st).state_value : Int) ∧
      1 ≤ (insertBody st).i := by
  obtain ⟨S, m, i, rank, mask, sv⟩ := st
  simp only at hI hs hr hB hV hlt
  have hsv := insert_value sv rank mask hlt
  obtain ⟨k, rfl⟩ : ∃ k, rank = k + 1 := ⟨rank - 1, by omega⟩
  simp only [Nat.add_sub_cancel] at hsv hlt
  have hBk : s.B = (k : Int) := by rw [hB]; push_cast; omega
  unfold insertBody
  simp only [hsv, Nat.add_sub_cancel]
  cases hm : m (((sv + mask % 2 * 2 ^ k : Nat) : Int), ((k + 1 : Nat) : Int)) with
  | some index =>
    simp only []
    refine ⟨hI, trieExt_refl S, trivial, trivial, trivial, ?_⟩
    obtain ⟨t, ht, hkey⟩ := hI.sound _ index hm
    simp only [Prod.mk.injEq] at hkey
    refine ⟨t, ht, hkey.2, hkey.1, ?_⟩
    by_contra h0
    have : index = 0 := by omega
    subst this
    obtain ⟨r, hr0, hrB⟩ := hI.root
    rw [ht] at hr0
    cases hr0
    rw [hrB] at hkey
    have := hkey.2
    push_cast at this
    omega
  | none =>
    simp only []
    have hlen : (S ++ [(⟨.VAL, ((sv + mask % 2 * 2 ^ k : Nat) : Int), ((k + 1 : Nat) : Int), -1, -1⟩ :
        BinaryState)]).length - 1 = S.length := by simp
    simp only [hlen]
    have hv : ((sv + mask % 2 * 2 ^ k : Nat) : Int)
        = (if i = 0 then 0 else s.V) + (if decide (mask % 2 ≠ 0) then 2 ^ k else 0) := by
      rw [hV]
      by_cases h : mask % 2 ≠ 0
      · have h1 : mask % 2 = 1 := by omega
        simp [h1]
      · have h1 : mask % 2 = 0 := by omega
        simp [h1]
    have hcast : ((k + 1 : Nat) : Int) = (k : Int) + 1 := by push_cast; rfl
    rw [hcast] at hm ⊢
    obtain ⟨h1, h2⟩ := trieInv_created S m i s (decide (mask % 2 ≠ 0)) k _ hI hs hBk hm hv
    have hif : (if mask % 2 ≠ 0 then
          setd1 (S ++ [⟨.VAL, ((sv + mask % 2 * 2 ^ k : Nat) : Int), (k : Int) + 1, -1, -1⟩]) i
            (S.length : Int)
        else
          setd0 (S ++ [⟨.VAL, ((sv + mask % 2 * 2 ^ k : Nat) : Int), (k : Int) + 1, -1, -1⟩]) i
            (S.length : Int))
        = (if decide (mask % 2 ≠ 0) = true then
          setd1 (S ++ [⟨.VAL, ((sv + mask % 2 * 2 ^ k : Nat) : Int), (k : Int) + 1, -1, -1⟩]) i
            (S.length : Int)
        else
          setd0 (S ++ [⟨.VAL, ((sv + mask % 2 * 2 ^ k : Nat) : Int), (k : Int) + 1, -1, -1⟩]) i
            (S.length : Int)) := by
      by_cases h : mask % 2 ≠ 0 <;> simp [h]
    rw [hif]
    refine ⟨h1, h2, trivial, trivial, trivial, ?_⟩
    have hi : i < S.length := get?_lt hs
    obtain ⟨_, _, g3, _, _⟩ := created_get S i (S.length : Int)
      ⟨.VAL, ((sv + mask % 2 * 2 ^ k : Nat) : Int), (k : Int) + 1, -1, -1⟩
      (decide (mask % 2 ≠ 0)) hi
    exact ⟨_, g3, rfl, rfl, by omega⟩

theorem insertLoop_spec (c : Nat) :
    ∀ (fuel : Nat) (st : InsertState) (k : Nat),
      TrieInv st.binary_states st.binary_state_map →
      (∃ s, st.binary_states.get? st.i = some s ∧ s.B = (k : Int) ∧
        (if st.i = 0 then 0 else s.V) = (st.state_value : Int)) →
      st.rank = k + 1 → st.state_value = c % 2 ^ k → st.mask = c / 2 ^ k →
      c + 1 ≤ fuel + k → k ≤ c →
      ∃ st1, insertLoop c fuel st = some st1 ∧
        TrieInv st1.binary_states st1.binary_state_map ∧
        TrieExt st.binary_states st1.binary_states ∧
        ∃ (j : Nat) (t : BinaryState), st1.binary_states.get? j = some t ∧ t.V = (c : Int) ∧
          1 ≤ j := by
  intro fuel
  induction fuel with
  | zero =>
    intro st k _ _ _ _ _ h1 h2
    omega
  | succ fuel ih =>
    intro st k hI hcur hrank hsv hmask hfuel hk
    obtain ⟨s, hs, hB, hV⟩ := hcur
    have hlt : st.state_value < 2 ^ (st.rank - 1) := by
      rw [hrank, hsv, Nat.add_sub_cancel]
      exact Nat.mod_lt _ (by positivity)
    obtain ⟨b1, b2, b3, b4, b5, t, ht, htB, htV, hti⟩ := insertBody_spec st hI s hs (by omega)
      (by rw [hB, hrank]; push_cast; omega) hV hlt
    have hsv1 : (insertBody st).state_value = c % 2 ^ (k + 1) := by
      rw [b5, hsv, hmask, hrank, Nat.add_sub_cancel, Nat.mod_pow_succ]
      ring
    show ∃ st1, (if (insertBody st).state_value ≠ c then insertLoop c fuel (insertBody st)
      else some (insertBody st)) = some st1 ∧ _
    by_cases hne : (insertBody st).state_value ≠ c
    · rw [if_pos hne]
      have hge : 2 ^ (k + 1) ≤ c := by
        by_contra hc
        rw [hsv1, Nat.mod_eq_of_lt (not_le.1 hc)] at hne
        exact hne rfl
      have hk1 : k + 1 < 2 ^ (k + 1) := Nat.lt_two_pow _
      obtain ⟨st1, h1, h2, h3, h4⟩ := ih (insertBody st) (k + 1) b1
        ⟨t, ht, by rw [htB, hrank], by
          have : (insertBody st).i ≠ 0 := by omega
          rw [if_neg this, htV]⟩
        (by rw [b3, hrank]) hsv1
        (by rw [b4, hmask, Nat.div_div_eq_div_mul, pow_succ])
        (by omega) (by omega)
      exact ⟨st1, h1, h2, trieExt_trans b2 h3, h4⟩
    · rw [if_neg hne]
      have hc : (insertBody st).state_value = c := not_not.1 hne
      exact ⟨_, rfl, b1, b2, (insertBody st).i, t, ht, by rw [htV, hc], hti⟩

theorem trieInv_init :
    TrieInv [⟨.VAL, -1, 0, -1, -1⟩] (Function.update (fun _ => none) (-1, 0) (some 0)) := by
  have hg : ∀ (j : Nat) (t : BinaryState),
      ([⟨.VAL, -1, 0, -1, -1⟩] : List BinaryState).get? j = some t →
      j = 0 ∧ t = ⟨.VAL, -1, 0, -1, -1⟩ := by
    intro j t h
    cases j with
    | zero => simp at h; exact ⟨rfl, h.symm⟩
    | succ j => simp at h
  refine ⟨⟨_, rfl, rfl⟩, ?_, ?_, ?_, ?_, ?_, ?_⟩
  · intro i s h
    rw [(hg i s h).2]
  · intro i s b h
    rw [(hg i s h).2]
    left
    cases b <;> rfl
  · intro i j s t b h hb
    rw [(hg i s h).2] at hb
    cases b <;> simp at hb
  · intro key j h
    by_cases hk : key = (-1, 0)
    · rw [hk, Function.update_same] at h
      cases h
      exact ⟨_, rfl, hk.symm⟩
    · rw [Function.update_noteq hk] at h
      cases h
  · intro j t hj h
    have := (hg j t h).1
    omega
  · intro j t h
    exact ⟨[], by rw [(hg j t h).1]; rfl⟩

theorem insertFold_spec (constants : List Int) :
    ∀ (S : List BinaryState) (m : Int × Int → Option Nat), TrieInv S m →
      (∀ c ∈ constants, 0 ≤ c) →
      ∃ S1 m1,
        constants.foldl insertConstant
          (some (S, m)) = some (S1, m1) ∧
        TrieInv S1 m1 ∧ TrieExt S S1 ∧
        ∀ c ∈ constants, ∃ (j : Nat) (t : BinaryState), S1.get? j = some t ∧ t.V = c ∧ 1 ≤ j := by
  induction constants with
  | nil =>
    intro S m hI _
    exact ⟨S, m, rfl, hI, trieExt_refl S, fun c hc => by cases hc⟩
  | cons value rest ih =>
    intro S m hI hpos
    have hv : 0 ≤ value := hpos value (List.mem_cons_self _ _)
    obtain ⟨r, hr, hrB⟩ := hI.root
    obtain ⟨st1, h1, h2, h3, j, t, ht, htV, hj⟩ := insertLoop_spec value.toNat
      (value.toNat + 1) ⟨S, m, 0, 1, value.toNat, 0⟩ 0 hI
      ⟨r, hr, by rw [hrB]; rfl, by simp⟩ rfl (by simp [Nat.mod_one]) (by simp)
      (by omega) (by omega)
    obtain ⟨S2, m2, g1, g2, g3, g4⟩ := ih st1.binary_states st1.binary_state_map h2
      (fun c hc => hpos c (List.mem_cons_of_mem _ hc))
    refine ⟨S2, m2, ?_, g2, trieExt_trans h3 g3, ?_⟩
    · rw [List.foldl_cons]
      have : insertConstant (some (S, m)) value
          = some (st1.binary_states, st1.binary_state_map) := by
        unfold insertConstant
        simp only [if_neg (not_lt.2 hv), h1]
      rw [this]
      exact g1
    · intro c hc
      rcases List.mem_cons.1 hc with rfl | hc
      · obtain ⟨t2, ht2, _, a2, _⟩ := g3.keep j t ht
        exact ⟨j, t2, ht2, by rw [a2, htV, Int.toNat_of_nonneg hv], hj⟩
      · exact g4 c hc

theorem add_binary_state_constants_spec (constants : List Int)
    (hpos : ∀ c ∈ constants, 0 ≤ c) :
    ∃ S m, add_binary_state_constants constants = some S ∧ TrieInv S m ∧
      ∀ c ∈ constants, ∃ (j : Nat) (t : BinaryState), S.get? j = some t ∧ t.V = c ∧ 1 ≤ j := by
  obtain ⟨S1, m1, h1, h2, _, h4⟩ := insertFold_spec constants _ _ trieInv_init hpos
  refine ⟨S1, m1, ?_, h2, h4⟩
  unfold add_binary_state_constants
  simp only [h1, Option.map_some']

theorem pathValue_append (u : List Bool) (b : Bool) :
    pathValue (u ++ [b]) = pathValue u + (if b then 2 ^ u.length else 0) := by
  induction u with
  | nil => cases b <;> simp [pathValue]
  | cons a u ih =>
    show (if a then 1 else 0) + 2 * pathValue (u ++ [b]) = _
    rw [ih]
    show _ = (if a then 1 else 0) + 2 * pathValue u + _
    cases b
    · simp
    · simp only [if_true, List.length_cons, pow_succ]
      ring

theorem trieWalk_value {S : List BinaryState} {m : Int × Int → Option Nat} (hI : TrieInv S m) :
    ∀ (w : List Bool) (i : Nat) (s : BinaryState) (u : List Bool), S.get? i = some s →
      (if i = 0 then 0 else s.V) = pathValue u → s.B = (u.length : Int) →
      ∀ (j : Nat) (t : BinaryState), trieWalk S (i : Int) w = (j : Int) → S.get? j = some t →
        (if j = 0 then 0 else t.V) = pathValue (u ++ w) ∧ t.B = ((u ++ w).length : Int) ∧
          i + w.length ≤ j := by
  intro w
  induction w with
  | nil =>
    intro i s u hs hV hB j t hw ht
    change (i : Int) = (j : Int) at hw
    have : i = j := by exact_mod_cast hw
    subst this
    rw [hs] at ht
    cases ht
    simp [hV, hB]
  | cons b w ih =>
    intro i s u hs hV hB j t hw ht
    change trieWalk S (trieStep S (i : Int) b) w = (j : Int) at hw
    rw [trieStep_get S i s b hs] at hw
    rcases hI.up i s b hs with h | ⟨h1, h2⟩
    · exfalso
      have := trieWalk_neg S w (if b then s.d1 else s.d0) (by omega)
      omega
    · obtain ⟨j1, hj1⟩ := Int.eq_ofNat_of_zero_le (a := if b then s.d1 else s.d0) (by omega)
      rw [hj1] at hw h1 h2
      have hj1i : i < j1 := by exact_mod_cast h1
      obtain ⟨t1, ht1⟩ := get?_of_lt (S := S) (j := j1) (by exact_mod_cast h2)
      obtain ⟨e1, e2⟩ := hI.edge i j1 s t1 b hs hj1 ht1
      have hne : j1 ≠ 0 := by omega
      obtain ⟨r1, r2, r3⟩ := ih j1 t1 (u ++ [b]) ht1
        (by rw [if_neg hne, e2, hV, pathValue_append, hB, Int.toNat_natCast])
        (by rw [e1, hB]; simp) j t hw ht
      refine ⟨by rw [r1, List.append_assoc]; rfl, by rw [r2, List.append_assoc]; rfl, ?_⟩
      simp only [List.length_cons]
      omega

theorem binaryStateRow_next_letter (sink_state : Int) (s : BinaryState) (a : Letter) :
    (binaryStateRow 1 0 sink_state s).next a
      = if 0 ≤ (if bitAt a 0 then s.d1 else s.d0) then (if bitAt a 0 then s.d1 else s.d0)
        else sink_state := by
  have hbt : ∀ c : Bool, bitTransition 1 0 c = [some c] := fun _ => rfl
  unfold binaryStateRow
  simp only [hbt]
  by_cases h0 : s.d0 ≥ 0 <;> by_cases h1 : s.d1 ≥ 0
  · rw [if_pos ⟨h0, h1⟩, rowNext_two]
    cases bitAt a 0 <;> simp [h0, h1]
  · rw [if_neg (fun h => h1 h.2), if_pos ⟨h0, not_le.1 h1⟩, rowNext_one]
    cases bitAt a 0 <;> simp [h0, h1]
  · rw [if_neg (fun h => h0 h.1), if_neg (fun h => h0 h.1), if_pos ⟨not_le.1 h0, h1⟩,
      rowNext_one]
    cases bitAt a 0 <;> simp [h0, h1]
  · rw [if_neg (fun h => h0 h.1), if_neg (fun h => h0 h.1), if_neg (fun h => h1 h.2)]
    cases bitAt a 0 <;> simp [Row.next, h0, h1]

theorem binaryStateRow_next (sink_state : Int) (s : BinaryState) (b : Bool) :
    (binaryStateRow 1 0 sink_state s).next [b]
      = if 0 ≤ (if b then s.d1 else s.d0) then (if b then s.d1 else s.d0) else sink_state :=
  binaryStateRow_next_letter sink_state s [b]

theorem semilinearStatuses_eq (B : List BinaryState) (semilinear_set : SemilinearSet) (i : Int) :
    semilinearStatuses B semilinear_set i
      = (decide (0 ≤ i) && acceptingAt B semilinear_set i.toNat) := by
  unfold semilinearStatuses
  split
  · rename_i h
    rw [Bool.and_eq_true, decide_eq_true_eq] at h
    rw [Function.update_apply]
    split
    · rename_i hi
      rw [hi, h.2, Bool.and_true]
      symm
      rw [decide_eq_true_eq]
      have h1 := h.1
      omega
    · rfl
  · rfl

/-- The automaton of the binary states `B` over one track. -/
theorem trieDfa_step_letter (B : List BinaryState) (statuses : Int → Bool) (i : Nat)
    (a : Letter) (hi : i < B.length) :
    (dfaBuild (B.map (binaryStateRow 1 0 (B.length : Int)) ++ [⟨[], (B.length : Int)⟩])
        statuses).q (i : Int) a
      = if 0 ≤ trieStep B (i : Int) (bitAt a 0) then trieStep B (i : Int) (bitAt a 0)
        else (B.length : Int) := by
  obtain ⟨s, hs⟩ := get?_of_lt hi
  rw [trieStep_get B i s _ hs]
  unfold dfaBuild
  simp only []
  rw [if_neg (by omega), Int.toNat_natCast]
  have : (B.map (binaryStateRow 1 0 (B.length : Int)) ++ [(⟨[], (B.length : Int)⟩ : Row)]).get? i
      = some (binaryStateRow 1 0 (B.length : Int) s) := by
    simp only [List.get?_eq_getElem?] at hs ⊢
    rw [List.getElem?_append_left (by simpa using hi), List.getElem?_map, hs]
    rfl
  rw [this]
  exact binaryStateRow_next_letter _ s a

theorem trieDfa_step (B : List BinaryState) (statuses : Int → Bool) (i : Nat) (b : Bool)
    (hi : i < B.length) :
    (dfaBuild (B.map (binaryStateRow 1 0 (B.length : Int)) ++ [⟨[], (B.length : Int)⟩])
        statuses).q (i : Int) [b]
      = if 0 ≤ trieStep B (i : Int) b then trieStep B (i : Int) b else (B.length : Int) :=
  trieDfa_step_letter B statuses i [b] hi

theorem trieDfa_sink (B : List BinaryState) (statuses : Int → Bool) (a : Letter) :
    (dfaBuild (B.map (binaryStateRow 1 0 (B.length : Int)) ++ [⟨[], (B.length : Int)⟩])
        statuses).q (B.length : Int) a = (B.length : Int) := by
  unfold dfaBuild
  simp only []
  rw [if_neg (by omega), Int.toNat_natCast]
  have : (B.map (binaryStateRow 1 0 (B.length : Int)) ++ [(⟨[], (B.length : Int)⟩ : Row)]).get?
      B.length = some ⟨[], (B.length : Int)⟩ := by
    simp only [List.get?_eq_getElem?]
    rw [List.getElem?_append_right (by simp)]
    simp
  rw [this]
  rfl

theorem acceptingAt_length (B : List BinaryState) (semilinear_set : SemilinearSet) :
    acceptingAt B semilinear_set B.length = false := by
  unfold acceptingAt
  have : B.get? B.length = none := by
    simp only [List.get?_eq_getElem?]
    exact List.getElem?_eq_none (le_refl _)
  rw [this]

theorem trieAutomaton_upward {B : List BinaryState} {m : Int × Int → Option Nat}
    (hI : TrieInv B m) (semilinear_set : SemilinearSet) (formula : ArithmeticFormula) :
    Upward
      { dfa := dfaMinimize (dfaBuild
          (B.map (binaryStateRow 1 0 (B.length : Int)) ++ [⟨[], (B.length : Int)⟩])
          (semilinearStatuses B semilinear_set))
        num_of_variables := 1
        formula := formula } B.length := by
  obtain ⟨r, hr, _⟩ := hI.root
  have hpos : 0 < B.length := get?_lt hr
  refine ⟨?_, rfl, hpos, ?_, ?_, ?_⟩
  · show (List.range (B.map (binaryStateRow 1 0 (B.length : Int)) ++
      [(⟨[], (B.length : Int)⟩ : Row)]).length).map Int.ofNat = _
    simp
  · intro i b h0 hn
    obtain ⟨k, rfl⟩ := Int.eq_ofNat_of_zero_le h0
    have hk : k < B.length := by exact_mod_cast hn
    show (dfaBuild _ _).q (k : Int) [b] = _ ∨ _ < (dfaBuild _ _).q (k : Int) [b] ∧
      (dfaBuild _ _).q (k : Int) [b] < _
    rw [trieDfa_step B _ k b hk]
    obtain ⟨s, hs⟩ := get?_of_lt hk
    rw [trieStep_get B k s b hs]
    rcases hI.up k s b hs with h | h
    · left
      rw [h]
      rfl
    · right
      rw [if_pos (by omega)]
      exact h
  · intro b
    exact trieDfa_sink B _ [b]
  · show semilinearStatuses B semilinear_set (B.length : Int) = false
    rw [semilinearStatuses_eq, Int.toNat_natCast, acceptingAt_length, Bool.and_false]

theorem trieDfa_run {B : List BinaryState} {m : Int × Int → Option Nat}
    (hI : TrieInv B m) (statuses : Int → Bool) :
    ∀ (w : List Bool) (i : Nat), i < B.length →
      (dfaBuild (B.map (binaryStateRow 1 0 (B.length : Int)) ++ [⟨[], (B.length : Int)⟩])
          statuses).run (i : Int) (w.map fun b => [b])
        = if 0 ≤ trieWalk B (i : Int) w then trieWalk B (i : Int) w else (B.length : Int) := by
  intro w
  induction w with
  | nil =>
    intro i _
    show (i : Int) = if 0 ≤ (i : Int) then (i : Int) else _
    rw [if_pos (by omega)]
  | cons b w ih =>
    intro i hi
    show (dfaBuild _ statuses).run ((dfaBuild _ statuses).q (i : Int) [b]) (w.map fun b => [b])
      = if 0 ≤ trieWalk B (trieStep B (i : Int) b) w then trieWalk B (trieStep B (i : Int) b) w
        else (B.length : Int)
    rw [trieDfa_step B statuses i b hi]
    obtain ⟨s, hs⟩ := get?_of_lt hi
    rcases hI.up i s b hs with h | h
    · rw [trieStep_get B i s b hs, h]
      have h1 := trieWalk_neg B w (-1) (by omega)
      rw [if_neg (by omega), if_neg (by omega)]
      clear h1 ih
      induction w with
      | nil => rfl
      | cons c w ihw =>
        show (dfaBuild _ statuses).run ((dfaBuild _ statuses).q (B.length : Int) [c])
          (w.map fun b => [b]) = _
        rw [trieDfa_sink]
        exact ihw
    · rw [trieStep_get B i s b hs]
      obtain ⟨j, hj⟩ := Int.eq_ofNat_of_zero_le (a := if b then s.d1 else s.d0) (by omega)
      rw [hj] at h ⊢
      rw [if_pos (by omega)]
      exact ih j (by exact_mod_cast h.2)

theorem acceptingAt_constants {B : List BinaryState} {m : Int × Int → Option Nat}
    (hI : TrieInv B m) (constants : List Int) (j : Nat) (t : BinaryState)
    (ht : B.get? j = some t) :
    acceptingAt B ⟨constants, 0, 0, []⟩ j = true ↔ t.V ∈ constants := by
  unfold acceptingAt is_accepting_binary_state
  rw [ht]
  simp only [hI.kind j t ht, if_true, List.any_eq_true, beq_iff_eq]
  constructor
  · rintro ⟨x, hx, rfl⟩
    exact hx
  · intro h
    exact ⟨_, h, rfl⟩

theorem makeAutomatonSemilinear_constants (constants : List Int) (var_name : String)
    (formula : ArithmeticFormula) (hpos : ∀ c ∈ constants, 0 ≤ c)
    (hvar : formula.getVariables = [var_name]) :
    ∃ A, makeAutomatonSemilinear ⟨constants, 0, 0, []⟩ var_name formula = some A ∧
      ∃ S, A.getSemilinearSet = some S ∧ S.period = 0 ∧ S.cycle_head = 0 ∧
        S.periodic_constants = [] ∧ S.constants.Sorted (· < ·) ∧
        ∀ x, x ∈ S.constants ↔ x ∈ constants := by
  obtain ⟨B, m, hB, hI, hnodes⟩ := add_binary_state_constants_spec constants hpos
  have hV : formula.getNumberOfVariables = 1 := by
    rw [getNumberOfVariables_eq_length, hvar]
    rfl
  have hidx : formula.getVariableIndex var_name = 0 := by
    unfold ArithmeticFormula.getVariableIndex
    rw [hvar]
    simp
  have hcomp : compute_binary_states ⟨constants, 0, 0, []⟩ = some B := by
    unfold compute_binary_states
    simp only [if_true]
    exact hB
  have hmk : makeAutomatonSemilinear ⟨constants, 0, 0, []⟩ var_name formula = some
      { dfa := dfaMinimize (dfaBuild
          (B.map (binaryStateRow 1 0 (B.length : Int)) ++ [⟨[], (B.length : Int)⟩])
          (semilinearStatuses B ⟨constants, 0, 0, []⟩))
        num_of_variables := 1
        formula := formula } := by
    unfold makeAutomatonSemilinear
    simp only [hcomp, hV, hidx]
  refine ⟨_, hmk, ?_⟩
  have hU := trieAutomaton_upward hI ⟨constants, 0, 0, []⟩ formula
  obtain ⟨S, hS, h1, h2, h3, h4, h5⟩ := getSemilinearSet_upward hU
  refine ⟨S, hS, h1, h2, h3, h4, ?_⟩
  obtain ⟨r, hr, hrB⟩ := hI.root
  have hlen : 0 < B.length := get?_lt hr
  have hrun : ∀ w : List Bool,
      (dfaMinimize (dfaBuild
          (B.map (binaryStateRow 1 0 (B.length : Int)) ++ [⟨[], (B.length : Int)⟩])
          (semilinearStatuses B ⟨constants, 0, 0, []⟩))).run 0 (w.map fun b => [b])
        = if 0 ≤ trieWalk B 0 w then trieWalk B 0 w else (B.length : Int) :=
    fun w => trieDfa_run hI _ w 0 hlen
  intro x
  rw [h5]
  constructor
  · rintro ⟨w, hw, hf, rfl⟩
    change semilinearStatuses B ⟨constants, 0, 0, []⟩ _ = true at hf
    rw [hrun w, semilinearStatuses_eq] at hf
    by_cases hwalk : 0 ≤ trieWalk B 0 w
    · rw [if_pos hwalk] at hf
      obtain ⟨j, hj⟩ := Int.eq_ofNat_of_zero_le hwalk
      rw [hj, Int.toNat_natCast, Bool.and_eq_true] at hf
      cases ht : B.get? j with
      | none =>
        have := hf.2
        unfold acceptingAt at this
        rw [ht] at this
        cases this
      | some t =>
        obtain ⟨v1, _, v3⟩ := trieWalk_value hI w 0 r [] hr (by simp [pathValue])
          (by rw [hrB]; rfl) j t hj ht
        have hj0 : j ≠ 0 := by
          have : 0 < w.length := List.length_pos.2 hw
          omega
        rw [if_neg hj0, List.nil_append] at v1
        rw [← v1]
        exact (acceptingAt_constants hI constants j t ht).1 hf.2
    · rw [if_neg hwalk, Int.toNat_natCast, acceptingAt_length, Bool.and_false] at hf
      cases hf
  · intro hx
    obtain ⟨j, t, ht, htV, hj⟩ := hnodes x hx
    obtain ⟨w, hw⟩ := hI.reach j t ht
    obtain ⟨v1, _, _⟩ := trieWalk_value hI w 0 r [] hr (by simp [pathValue])
      (by rw [hrB]; rfl) j t hw ht
    rw [if_neg (by omega), List.nil_append] at v1
    refine ⟨w, ?_, ?_, by rw [← v1, htV]⟩
    · rintro rfl
      change (0 : Int) = (j : Int) at hw
      omega
    · show semilinearStatuses B ⟨constants, 0, 0, []⟩ _ = true
      rw [hrun w, hw, if_pos (by omega), semilinearStatuses_eq, Int.toNat_natCast,
        Bool.and_eq_true]
      exact ⟨by simp, (acceptingAt_constants hI constants j t ht).2 (by rw [htV]; exact hx)⟩

theorem isEqualTo_iff (s : BinaryState) (t : BinaryStateType) (v b : Int) :
    s.isEqualTo t v b = true ↔ s.key = (t, v, b) := by
  unfold BinaryState.isEqualTo BinaryState.key
  simp [Prod.ext_iff, and_assoc]

theorem map_key_setd1 (S : List BinaryState) (i : Nat) (d : Int) :
    (setd1 S i d).map BinaryState.key = S.map BinaryState.key := by
  apply List.ext_get?
  intro j
  have h := get?_setd1 S i d j
  simp only [List.get?_eq_getElem?] at h
  simp only [List.getElem?_map, List.get?_eq_getElem?, h, Option.map_map]
  congr 1
  funext s
  by_cases h : j = i <;> simp [h, BinaryState.key]

theorem map_key_setd0 (S : List BinaryState) (i : Nat) (d : Int) :
    (setd0 S i d).map BinaryState.key = S.map BinaryState.key := by
  apply List.ext_get?
  intro j
  have h := get?_setd0 S i d j
  simp only [List.get?_eq_getElem?] at h
  simp only [List.getElem?_map, List.get?_eq_getElem?, h, Option.map_map]
  congr 1
  funext s
  by_cases h : j = i <;> simp [h, BinaryState.key]

theorem successorKeys_isSome (C R : Int) (t : BinaryStateType) (v b : Int) :
    ∃ x1 x0, successorKeys C R t v b = some (x1, x0) := by
  unfold successorKeys
  by_cases hb : b < 0
  · rw [if_pos hb]
    by_cases h0 : C = 0
    · rw [if_pos h0]; exact ⟨_, _, rfl⟩
    · rw [if_neg h0]
      by_cases h1 : C = 1
      · rw [if_pos h1]; exact ⟨_, _, rfl⟩
      · rw [if_neg h1]; exact ⟨_, _, rfl⟩
  · rw [if_neg hb]
    cases t
    · by_cases h : v + 2 * b ≥ C
      · rw [if_pos ⟨rfl, h⟩]; exact ⟨_, _, rfl⟩
      · rw [if_neg (fun x => h x.2), if_pos ⟨rfl, not_le.1 h⟩]; exact ⟨_, _, rfl⟩
    · simp
    · simp

theorem tmod_box (x R : Int) (hx : -1 ≤ x) (hR : 0 < R) :
    -1 ≤ Int.tmod x R ∧ Int.tmod x R < R := by
  refine ⟨?_, Int.tmod_lt_of_pos x hR⟩
  by_cases h : 0 ≤ x
  · have := Int.tmod_nonneg R h
    omega
  · have : x = -1 := by omega
    subst this
    obtain ⟨n, rfl⟩ := Int.eq_ofNat_of_zero_le (le_of_lt hR)
    have : Int.tmod (-1) (n : Int) = -((1 % n : Nat) : Int) := rfl
    rw [this]
    have : 1 % n ≤ 1 := Nat.mod_le 1 n
    omega

theorem successorKeys_inBox (C R : Int) (hC : 0 ≤ C) (hR : 0 < R) (t : BinaryStateType)
    (v b : Int) (h : InBox (C + R) (t, v, b)) (x1 x0 : BinaryKey)
    (hx : successorKeys C R t v b = some (x1, x0)) :
    InBox (C + R) x1 ∧ InBox (C + R) x0 := by
  obtain ⟨hv1, hv2, hb1, hb2⟩ := h
  simp only at hv1 hv2 hb1 hb2
  have t1 := tmod_box 1 R (by omega) hR
  have t2 := tmod_box (v + 2 * b) R
  have t3 := tmod_box (2 * b) R
  have t4 := tmod_box v R hv1 hR
  unfold successorKeys at hx
  unfold InBox
  by_cases hb : b < 0
  · rw [if_pos hb] at hx
    by_cases h0 : C = 0
    · rw [if_pos h0] at hx
      cases hx
      simp only
      omega
    · rw [if_neg h0] at hx
      by_cases h1 : C = 1
      · rw [if_pos h1] at hx
        cases hx
        simp only
        omega
      · rw [if_neg h1] at hx
        cases hx
        simp only
        omega
  · rw [if_neg hb] at hx
    have t2 := t2 (by omega) hR
    have t3 := t3 (by omega) hR
    by_cases hge : v + 2 * b ≥ C
    · cases t
      · rw [if_pos ⟨rfl, hge⟩] at hx
        cases hx
        simp only
        omega
      · simp at hx
        obtain ⟨rfl, rfl⟩ := hx
        simp only
        omega
      · simp at hx
        obtain ⟨rfl, rfl⟩ := hx
        simp only
        omega
    · cases t
      · rw [if_neg (fun x => hge x.2), if_pos ⟨rfl, not_le.1 hge⟩] at hx
        cases hx
        simp only
        omega
      · simp at hx
        obtain ⟨rfl, rfl⟩ := hx
        simp only
        omega
      · simp at hx
        obtain ⟨rfl, rfl⟩ := hx
        simp only
        omega

theorem length_le_of_inBox (M : Nat) (l : List BinaryKey) (hnd : l.Nodup)
    (hbox : ∀ k ∈ l, InBox (M : Int) k) : l.length ≤ 3 * (M + 2) ^ 2 := by
  have hsub : l.toFinset ⊆
      ({.VAL, .REMT, .REMF} : Finset BinaryStateType) ×ˢ
        (Finset.Icc (-1 : Int) M ×ˢ Finset.Icc (-1 : Int) M) := by
    intro k hk
    rw [List.mem_toFinset] at hk
    obtain ⟨h1, h2, h3, h4⟩ := hbox k hk
    obtain ⟨t, v, b⟩ := k
    simp only [Finset.mem_product, Finset.mem_Icc, Finset.mem_insert, Finset.mem_singleton]
    refine ⟨?_, ⟨h1, h2⟩, ⟨h3, h4⟩⟩
    cases t <;> simp
  have hcard := Finset.card_le_card hsub
  rw [List.toFinset_card_of_nodup hnd, Finset.card_product, Finset.card_product,
    Int.card_Icc] at hcard
  have h3 : ({.VAL, .REMT, .REMF} : Finset BinaryStateType).card ≤ 3 := Finset.card_le_three
  have h4 : ((M : Int) + 1 - -1).toNat = M + 2 := by omega
  rw [h4] at hcard
  calc l.length ≤ _ := hcard
    _ ≤ 3 * ((M + 2) * (M + 2)) := Nat.mul_le_mul_right _ h3
    _ = 3 * (M + 2) ^ 2 := by ring

theorem get?_setd01 (S : List BinaryState) (i : Nat) (d0 d1 : Int) (j : Nat) :
    (setd1 (setd0 S i d0) i d1).get? j
      = (S.get? j).map (fun s => if j = i then { s with d0 := d0, d1 := d1 } else s) := by
  rw [get?_setd1, get?_setd0, Option.map_map]
  congr 1
  funext s
  by_cases h : j = i <;> simp [h]

theorem closedAt_mono (C R : Int) (S S1 : List BinaryState) (j : Nat)
    (h : ClosedAt C R S j) (hj : S1.get? j = S.get? j)
    (hk : ∀ k s, S.get? k = some s → ∃ s1, S1.get? k = some s1 ∧ s1.key = s.key) :
    ClosedAt C R S1 j := by
  intro s hs b
  rw [hj] at hs
  obtain ⟨k, t, h1, h2, h3⟩ := h s hs b
  obtain ⟨t1, h4, h5⟩ := hk k t h2
  exact ⟨k, t1, h1, h4, by rw [h5, h3]⟩

theorem add_binary_state_spec (C R : Int) (M : Nat) (hC : 0 ≤ C) (hR : 0 < R)
    (hM : (M : Int) = C + R) :
    ∀ (fuel : Nat) (S : List BinaryState) (t : BinaryStateType) (v b : Int),
      (S.map BinaryState.key).Nodup → (∀ k ∈ S.map BinaryState.key, InBox (M : Int) k) →
      InBox (M : Int) (t, v, b) → 3 * (M + 2) ^ 2 + 1 ≤ fuel + S.length →
      ∃ (S1 : List BinaryState) (idx : Nat),
        add_binary_state C R fuel S t v b = some (S1, (idx : Int)) ∧
        (S1.map BinaryState.key).Nodup ∧ (∀ k ∈ S1.map BinaryState.key, InBox (M : Int) k) ∧
        S.length ≤ S1.length ∧ (∀ j, j < S.length → S1.get? j = S.get? j) ∧
        (∃ s, S1.get? idx = some s ∧ s.key = (t, v, b)) ∧
        (∀ j, S.length ≤ j → j < S1.length → ClosedAt C R S1 j) ∧
        ((∀ s ∈ S, s.key ≠ (t, v, b)) → idx = S.length) := by
  intro fuel
  induction fuel with
  | zero =>
    intro S t v b hnd hbox _ hfuel
    have := length_le_of_inBox M _ hnd hbox
    rw [List.length_map] at this
    omega
  | succ fuel ih =>
    intro S t v b hnd hbox hin hfuel
    rw [add_binary_state]
    cases hfind : S.findIdx? (fun s => s.isEqualTo t v b) with
    | some i =>
      simp only []
      obtain ⟨hi, hp, _⟩ := List.findIdx?_eq_some_iff_getElem.1 hfind
      have hget : S.get? i = some S[i] := by
        simp only [List.get?_eq_getElem?]
        exact List.getElem?_eq_getElem hi
      refine ⟨S, i, rfl, hnd, hbox, le_rfl, fun _ _ => rfl,
        ⟨S[i], hget, (isEqualTo_iff _ _ _ _).1 hp⟩, ?_, ?_⟩
      · intro j h1 h2
        omega
      · intro hne
        exact absurd ((isEqualTo_iff _ _ _ _).1 hp) (hne _ (List.getElem_mem hi))
    | none =>
      simp only []
      have hnone : ∀ s ∈ S, s.key ≠ (t, v, b) := by
        intro s hs hk
        have := List.findIdx?_eq_none_iff.1 hfind s hs
        rw [(isEqualTo_iff _ _ _ _).2 hk] at this
        cases this
      obtain ⟨⟨t1, v1, b1⟩, ⟨t0, v0, b0⟩, hx⟩ := successorKeys_isSome C R t v b
      obtain ⟨hin1, hin0⟩ := successorKeys_inBox C R hC hR t v b (hM ▸ hin) _ _ hx
      rw [← hM] at hin1 hin0
      rw [hx]
      simp only []
      have hnd1 : ((S ++ [(⟨t, v, b, -1, -1⟩ : BinaryState)]).map BinaryState.key).Nodup := by
        rw [List.map_append, List.nodup_append]
        refine ⟨hnd, by simp, ?_⟩
        intro k hk1 hk2
        rw [List.mem_map] at hk1
        obtain ⟨s, hs, rfl⟩ := hk1
        simp only [List.map_cons, List.map_nil, List.mem_singleton] at hk2
        exact hnone s hs hk2
      have hbox1 : ∀ k ∈ (S ++ [(⟨t, v, b, -1, -1⟩ : BinaryState)]).map BinaryState.key,
          InBox (M : Int) k := by
        intro k hk
        rw [List.map_append, List.mem_append] at hk
        rcases hk with hk | hk
        · exact hbox k hk
        · simp only [List.map_cons, List.map_nil, List.mem_singleton] at hk
          rw [hk]
          exact hin
      have hlen1 : (S ++ [(⟨t, v, b, -1, -1⟩ : BinaryState)]).length = S.length + 1 := by simp
      obtain ⟨S2, d1, e1, nd2, box2, len2, pre2, ⟨s1, gs1, ks1⟩, cl2, _⟩ :=
        ih (S ++ [⟨t, v, b, -1, -1⟩]) t1 v1 b1 hnd1 hbox1 hin1 (by rw [hlen1]; omega)
      rw [e1]
      simp only []
      obtain ⟨S3, d0, e0, nd3, box3, len3, pre3, ⟨s0, gs0, ks0⟩, cl3, _⟩ :=
        ih S2 t0 v0 b0 nd2 box2 hin0 (by rw [hlen1] at len2; omega)
      rw [e0]
      simp only []
      rw [hlen1] at len2 pre2 cl2
      have hkeys : (setd1 (setd0 S3 S.length d0) S.length d1).map BinaryState.key
          = S3.map BinaryState.key := by
        rw [map_key_setd1, map_key_setd0]
      have hlen4 : (setd1 (setd0 S3 S.length d0) S.length d1).length = S3.length := by
        rw [length_setd1, length_setd0]
      have hnew : S3.get? S.length = some ⟨t, v, b, -1, -1⟩ := by
        rw [pre3 _ (by omega), pre2 _ (by omega)]
        simp only [List.get?_eq_getElem?]
        rw [List.getElem?_append_right (le_refl _)]
        simp
      have hkeep : ∀ k s, S3.get? k = some s →
          ∃ s4, (setd1 (setd0 S3 S.length d0) S.length d1).get? k = some s4 ∧
            s4.key = s.key := by
        intro k s hs
        rw [get?_setd01, hs]
        refine ⟨_, rfl, ?_⟩
        by_cases h : k = S.length <;> simp [h, BinaryState.key]
      have hsame : ∀ j, j ≠ S.length →
          (setd1 (setd0 S3 S.length d0) S.length d1).get? j = S3.get? j := by
        intro j hj
        rw [get?_setd01]
        cases S3.get? j with
        | none => rfl
        | some s => simp [hj]
      refine ⟨_, S.length, rfl, by rw [hkeys]; exact nd3, by rw [hkeys]; exact box3,
        by rw [hlen4]; omega, ?_, ?_, ?_, fun _ => rfl⟩
      · intro j hj
        rw [hsame j (by omega), pre3 j (by omega), pre2 j (by omega)]
        simp only [List.get?_eq_getElem?]
        exact List.getElem?_append_left hj
      · rw [get?_setd01, hnew]
        exact ⟨_, rfl, by simp [BinaryState.key]⟩
      · intro j hj1 hj2
        rw [hlen4] at hj2
        by_cases hji : j = S.length
        · subst hji
          intro s hs c
          rw [get?_setd01, hnew] at hs
          simp only [Option.map_some', if_true, Option.some.injEq] at hs
          subst hs
          have hstep : stepKey C R (BinaryState.key ⟨t, v, b, d0, d1⟩) c
              = if c then (t1, v1, b1) else (t0, v0, b0) := by
            unfold stepKey BinaryState.key
            simp only [hx]
          rw [hstep]
          cases c
          · obtain ⟨s4, h4, k4⟩ := hkeep d0 s0 gs0
            exact ⟨d0, s4, rfl, h4, by rw [k4, ks0]; rfl⟩
          · have gs1' : S3.get? d1 = some s1 := by
              rw [pre3 d1 (get?_lt gs1)]
              exact gs1
            obtain ⟨s4, h4, k4⟩ := hkeep d1 s1 gs1'
            exact ⟨d1, s4, rfl, h4, by rw [k4, ks1]; rfl⟩
        · by_cases hj3 : j < S2.length
          · have c2 := cl2 j (by omega) hj3
            have c3 : ClosedAt C R S3 j := closedAt_mono C R S2 S3 j c2 (pre3 j hj3)
              (fun k s hs => ⟨s, by rw [pre3 k (get?_lt hs)]; exact hs, rfl⟩)
            exact closedAt_mono C R S3 _ j c3 (hsame j hji) hkeep
          · exact closedAt_mono C R S3 _ j (cl3 j (by omega) hj2) (hsame j hji) hkeep

theorem keyRun_snoc (C R : Int) (k : BinaryKey) (u : List Bool) (c : Bool) :
    keyRun C R k (u ++ [c]) = stepKey C R (keyRun C R k u) c := by
  simp [keyRun, List.foldl_append]

theorem tmod_emod_step (n B R : Int) (hR : 0 < R) :
    Int.tmod (n % R + 2 * (B % R)) R = (n + 2 * B) % R := by
  have h1 : 0 ≤ n % R := Int.emod_nonneg _ (by omega)
  have h2 : 0 ≤ B % R := Int.emod_nonneg _ (by omega)
  rw [Int.tmod_eq_emod (by omega) (by omega), Int.add_emod, Int.emod_emod_of_dvd _ (dvd_refl R),
    Int.mul_emod, Int.emod_emod_of_dvd _ (dvd_refl R), ← Int.mul_emod, ← Int.add_emod]

theorem tmod_emod_two (B R : Int) (hR : 0 < R) :
    Int.tmod (2 * (B % R)) R = (2 * B) % R := by
  have h2 : 0 ≤ B % R := Int.emod_nonneg _ (by omega)
  rw [Int.tmod_eq_emod (by omega) (by omega), Int.mul_emod,
    Int.emod_emod_of_dvd _ (dvd_refl R), ← Int.mul_emod]

theorem tmod_emod_self (n R : Int) (hR : 0 < R) : Int.tmod (n % R) R = n % R := by
  have h1 : 0 ≤ n % R := Int.emod_nonneg _ (by omega)
  rw [Int.tmod_eq_emod h1 (by omega), Int.emod_emod_of_dvd _ (dvd_refl R)]

theorem stepKey_root (H R : Int) (c : Bool) (hH : 0 ≤ H) (hR : 0 < R) :
    stepKey H R (.VAL, -1, -1) c =
      if 1 < H then (.VAL, if c then 1 else 0, 1)
      else if H ≤ (if c then 1 else 0) then (.REMT, (if c then 1 else 0) % R, 1 % R)
      else (.REMF, (if c then 1 else 0) % R, 1 % R) := by
  have h1 : Int.tmod 1 R = 1 % R := Int.tmod_eq_emod (by omega) (by omega)
  unfold stepKey successorKeys
  simp only [show ((-1 : Int) < 0) from by omega, if_true, h1]
  by_cases h0 : H = 0
  · subst h0
    cases c <;> simp
  · by_cases h1' : H = 1
    · subst h1'
      cases c <;> simp
    · have : 1 < H := by omega
      simp only [h0, h1', if_false, this, if_true]
      cases c <;> rfl

theorem stepKey_val (H R n B : Int) (c : Bool) (hn : 0 ≤ n) (hB : 0 < B) (hR : 0 < R) :
    stepKey H R (.VAL, n, B) c =
      if n + 2 * B < H then (.VAL, n + (if c then 2 * B else 0), 2 * B)
      else if c then (.REMT, (n + 2 * B) % R, (2 * B) % R)
      else (.REMF, n % R, (2 * B) % R) := by
  have h1 : Int.tmod (n + 2 * B) R = (n + 2 * B) % R :=
    Int.tmod_eq_emod (by omega) (by omega)
  have h2 : Int.tmod (2 * B) R = (2 * B) % R := Int.tmod_eq_emod (by omega) (by omega)
  have h3 : Int.tmod n R = n % R := Int.tmod_eq_emod (by omega) (by omega)
  unfold stepKey successorKeys
  simp only [show ¬ (B < 0) from by omega, if_false, h1, h2, h3, true_and]
  by_cases h : n + 2 * B < H
  · have h' : ¬ (n + 2 * B ≥ H) := by omega
    simp only [h, h', if_true, if_false]
    cases c <;> simp
  · have h' : n + 2 * B ≥ H := by omega
    simp only [h, h', if_true, if_false]

theorem stepKey_remt (H R n B : Int) (c : Bool) (hR : 0 < R) :
    stepKey H R (.REMT, n % R, B % R) c
      = (.REMT, (n + (if c then 2 * B else 0)) % R, (2 * B) % R) := by
  have hb : ¬ (B % R < 0) := not_lt.2 (Int.emod_nonneg _ (by omega))
  unfold stepKey successorKeys
  simp only [hb, if_false, tmod_emod_step n B R hR, tmod_emod_two B R hR,
    tmod_emod_self n R hR]
  cases c <;> simp

theorem stepKey_remf (H R n B : Int) (c : Bool) (hR : 0 < R) :
    stepKey H R (.REMF, n % R, B % R) c
      = if c then (.REMT, (n + 2 * B) % R, (2 * B) % R)
        else (.REMF, n % R, (2 * B) % R) := by
  have hb : ¬ (B % R < 0) := not_lt.2 (Int.emod_nonneg _ (by omega))
  unfold stepKey successorKeys
  simp only [hb, if_false, tmod_emod_step n B R hR, tmod_emod_two B R hR,
    tmod_emod_self n R hR]
  cases c <;> simp

theorem pathValue_nonneg (u : List Bool) : 0 ≤ pathValue u := by
  induction u with
  | nil => exact le_rfl
  | cons b u ih =>
    show 0 ≤ (if b then 1 else 0) + 2 * pathValue u
    cases b <;> simp <;> omega

theorem pathValue_dropLast (u : List Bool) (hu : u ≠ []) :
    pathValue u = pathValue u.dropLast ∨
      pathValue u = pathValue u.dropLast + 2 ^ (u.length - 1) := by
  induction u using List.reverseRecOn with
  | nil => exact absurd rfl hu
  | append_singleton v c _ =>
    rw [pathValue_append, List.dropLast_concat, List.length_append, List.length_singleton,
      Nat.add_sub_cancel]
    cases c
    · left; simp
    · right; simp

/-- The triple of the state a non-empty path leads to from the first state. -/
theorem keyRun_root (H R : Int) (hH : 0 ≤ H) (hR : 0 < R) (w : List Bool) (hw : w ≠ []) :
    keyRun H R (.VAL, -1, -1) w =
      if pathValue w.dropLast + 2 ^ (w.length - 1) < H then
        (.VAL, pathValue w, 2 ^ (w.length - 1))
      else if H ≤ pathValue w then (.REMT, pathValue w % R, 2 ^ (w.length - 1) % R)
      else (.REMF, pathValue w % R, 2 ^ (w.length - 1) % R) := by
  induction w using List.reverseRecOn with
  | nil => exact absurd rfl hw
  | append_singleton u c ih =>
    rw [keyRun_snoc, List.dropLast_concat, List.length_append, List.length_singleton,
      Nat.add_sub_cancel, pathValue_append]
    by_cases hu : u = []
    · subst hu
      show stepKey H R (.VAL, -1, -1) c = _
      rw [stepKey_root H R c hH hR]
      simp only [pathValue, List.length_nil, pow_zero, zero_add]
    · rw [ih hu]
      have hn := pathValue_nonneg u
      have hp := pathValue_nonneg u.dropLast
      have hd := pathValue_dropLast u hu
      have hpow : (2 : Int) ^ u.length = 2 * 2 ^ (u.length - 1) := by
        have : u.length = (u.length - 1) + 1 := by
          have := List.length_pos.2 hu
          omega
        conv_lhs => rw [this, pow_succ]
        ring
      have hB : (0 : Int) < 2 ^ (u.length - 1) := by positivity
      rw [hpow]
      generalize (2 : Int) ^ (u.length - 1) = B at *
      generalize pathValue u = n at *
      generalize pathValue u.dropLast = p at *
      by_cases h1 : p + B < H
      · rw [if_pos h1, stepKey_val H R n B c hn hB hR]
        by_cases h2 : n + 2 * B < H
        · rw [if_pos h2, if_pos h2]
        · rw [if_neg h2, if_neg h2]
          have h2' : ¬ (H ≤ n) := by omega
          cases c
          · simp [h2']
          · have : H ≤ n + 2 * B := by omega
            simp [this]
      · rw [if_neg h1]
        by_cases h2 : H ≤ n
        · rw [if_pos h2, stepKey_remt H R n B c hR]
          have h3 : ¬ (n + 2 * B < H) := by omega
          have h4 : H ≤ n + (if c = true then 2 * B else 0) := by
            cases c <;> simp <;> omega
          rw [if_neg h3, if_pos h4]
        · rw [if_neg h2, stepKey_remf H R n B c hR]
          have h3 : ¬ (n + 2 * B < H) := by omega
          have h2' : ¬ (H ≤ n) := h2
          rw [if_neg h3]
          cases c
          · simp [h2']
          · have : H ≤ n + 2 * B := by omega
            simp [this]

theorem closedDfa_run (C R : Int) (B : List BinaryState) (statuses : Int → Bool)
    (hcl : ∀ j, j < B.length → ClosedAt C R B j) :
    ∀ (w : List Letter) (i : Nat) (s : BinaryState), B.get? i = some s →
      ∃ (j : Nat) (t : BinaryState),
        (dfaBuild (B.map (binaryStateRow 1 0 (B.length : Int)) ++ [⟨[], (B.length : Int)⟩])
          statuses).run (i : Int) w = (j : Int) ∧
        B.get? j = some t ∧ t.key = keyRun C R s.key (track 1 0 w) := by
  intro w
  induction w with
  | nil =>
    intro i s hs
    exact ⟨i, s, rfl, hs, rfl⟩
  | cons a w ih =>
    intro i s hs
    have hi := get?_lt hs
    obtain ⟨k, t, h1, h2, h3⟩ := hcl i hi s hs (bitAt a 0)
    obtain ⟨j, t1, g1, g2, g3⟩ := ih k t h2
    refine ⟨j, t1, ?_, g2, ?_⟩
    · show (dfaBuild _ statuses).run ((dfaBuild _ statuses).q (i : Int) a) w = _
      rw [trieDfa_step_letter B statuses i a hi, trieStep_get B i s _ hs, h1,
        if_pos (by omega)]
      exact g1
    · rw [g3, h3]
      rfl

theorem remt_accepting (P : List Int) (H R n : Int) (hR : 0 < R)
    (hP : ∀ p ∈ P, 0 ≤ p ∧ p < R) (hH : 0 ≤ H) :
    (P.any fun i => Int.tmod (i + H) R == n % R) = true ↔ (n - H) % R ∈ P := by
  rw [List.any_eq_true]
  constructor
  · rintro ⟨i, hi, h⟩
    rw [beq_iff_eq, Int.tmod_eq_emod (by have := (hP i hi).1; omega) (by omega)] at h
    have h1 : (n - H) % R = i % R := by
      have : (n - H) % R = ((i + H) - H) % R := by
        rw [Int.sub_emod, ← h, ← Int.sub_emod]
      rw [this]
      congr 1
      omega
    rw [h1, Int.emod_eq_of_lt (hP i hi).1 (hP i hi).2]
    exact hi
  · intro h
    refine ⟨_, h, ?_⟩
    rw [beq_iff_eq, Int.tmod_eq_emod
      (by have := Int.emod_nonneg (n - H) (show R ≠ 0 by omega); omega) (by omega),
      Int.add_emod, Int.emod_emod_of_dvd _ (dvd_refl R), ← Int.add_emod]
    congr 1
    omega

theorem makeAutomatonSemilinear_periodic (C P : List Int) (H R : Int) (var_name : String)
    (formula : ArithmeticFormula) (hvar : formula.getVariables = [var_name])
    (hH : 0 ≤ H) (hR : 0 < R) (hP : ∀ p ∈ P, 0 ≤ p ∧ p < R) :
    ∃ A, makeAutomatonSemilinear ⟨C, H, R, P⟩ var_name formula = some A ∧
      ∀ w : List Letter, w ≠ [] →
        (A.accepts w = true ↔
          (H ≤ pathValue (track 1 0 w) ∧ (pathValue (track 1 0 w) - H) % R ∈ P) ∨
          (pathValue (track 1 0 w) ∈ C ∧
            pathValue (track 1 0 w).dropLast + 2 ^ (w.length - 1) < H)) := by
  have hV : formula.getNumberOfVariables = 1 := by
    rw [getNumberOfVariables_eq_length, hvar]
    rfl
  have hidx : formula.getVariableIndex var_name = 0 := by
    unfold ArithmeticFormula.getVariableIndex
    rw [hvar]
    simp
  obtain ⟨B, idx, hB, _, _, _, _, ⟨r, hr, hrk⟩, hcl, hidx0⟩ :=
    add_binary_state_spec H R (H.toNat + R.toNat) hH hR (by omega)
      (3 * (H.toNat + R.toNat + 2) ^ 2 + 1) [] .VAL (-1) (-1) (by simp) (by simp)
      (by unfold InBox; simp only; omega) (by simp)
  have hi0 : idx = 0 := hidx0 (by simp)
  subst hi0
  have hcomp : compute_binary_states ⟨C, H, R, P⟩ = some B := by
    unfold compute_binary_states
    simp only [if_neg (show ¬ (R = 0) by omega), hB, Option.map_some']
  have hmk : makeAutomatonSemilinear ⟨C, H, R, P⟩ var_name formula = some
      { dfa := dfaMinimize (dfaBuild
          (B.map (binaryStateRow 1 0 (B.length : Int)) ++ [⟨[], (B.length : Int)⟩])
          (semilinearStatuses B ⟨C, H, R, P⟩))
        num_of_variables := 1
        formula := formula } := by
    unfold makeAutomatonSemilinear
    simp only [hcomp, hV, hidx]
  refine ⟨_, hmk, ?_⟩
  intro w hw
  obtain ⟨j, t, h1, h2, h3⟩ := closedDfa_run H R B (semilinearStatuses B ⟨C, H, R, P⟩)
    (fun j hj => hcl j (Nat.zero_le _) hj) w 0 r hr
  have hbits : track 1 0 w ≠ [] := by
    unfold track
    simpa using hw
  have hlen : (track 1 0 w).length = w.length := by simp [track]
  rw [hrk, keyRun_root H R hH hR _ hbits, hlen] at h3
  have hacc : accepts
      { dfa := dfaMinimize (dfaBuild
          (B.map (binaryStateRow 1 0 (B.length : Int)) ++ [⟨[], (B.length : Int)⟩])
          (semilinearStatuses B ⟨C, H, R, P⟩))
        num_of_variables := 1
        formula := formula } w = is_accepting_binary_state t ⟨C, H, R, P⟩ := by
    show semilinearStatuses B ⟨C, H, R, P⟩ ((dfaBuild _ _).run 0 w) = _
    have h1' : (dfaBuild (B.map (binaryStateRow 1 0 (B.length : Int)) ++
        [⟨[], (B.length : Int)⟩]) (semilinearStatuses B ⟨C, H, R, P⟩)).run 0 w = (j : Int) := h1
    rw [h1', semilinearStatuses_eq, Int.toNat_natCast]
    unfold acceptingAt
    rw [h2]
    simp
  rw [hacc]
  have hd := pathValue_dropLast _ hbits
  rw [hlen] at hd
  have hpow : (0 : Int) < 2 ^ (w.length - 1) := by positivity
  generalize pathValue (track 1 0 w) = n at *
  generalize pathValue (track 1 0 w).dropLast = p at *
  generalize (2 : Int) ^ (w.length - 1) = W at *
  unfold is_accepting_binary_state
  unfold BinaryState.key at h3
  by_cases c1 : p + W < H
  · rw [if_pos c1] at h3
    simp only [Prod.mk.injEq] at h3
    obtain ⟨e1, e2, _⟩ := h3
    simp only [e1, e2, if_true, List.any_eq_true, beq_iff_eq]
    have : ¬ (H ≤ n) := by omega
    constructor
    · rintro ⟨x, hx, rfl⟩
      exact Or.inr ⟨hx, c1⟩
    · rintro (h | h)
      · exact absurd h.1 this
      · exact ⟨n, h.1, rfl⟩
  · rw [if_neg c1] at h3
    by_cases c2 : H ≤ n
    · rw [if_pos c2] at h3
      simp only [Prod.mk.injEq] at h3
      obtain ⟨e1, e2, _⟩ := h3
      simp only [e1, e2, if_true, reduceCtorEq, if_false]
      rw [remt_accepting P H R n hR hP hH]
      constructor
      · intro h
        exact Or.inl ⟨c2, h⟩
      · rintro (h | h)
        · exact h.2
        · exact absurd h.2 c1
    · rw [if_neg c2] at h3
      simp only [Prod.mk.injEq] at h3
      obtain ⟨e1, e2, _⟩ := h3
      simp only [e1, reduceCtorEq, if_false]
      constructor
      · intro h
        cases h
      · rintro (h | h)
        · exact absurd h.1 c2
        · exact absurd h.2 c1

/-- Claim C6, the failing input: for the canonical set of all natural numbers
(no constants, cycle head `0`, period `1`, periodic constant `0`) the automaton
is built, and `getSemilinearSet` returns no set for it, so the round trip does
not give the set back. -/
theorem getSemilinearSet_periodic_returns_no_set :
    (makeAutomatonSemilinear ⟨[], 0, 1, [0]⟩ "x" formula_x_eq_1).map getSemilinearSet
      = some none := by
  decide

/-- Claim C7: for every non-empty list `C` of natural numbers the automaton of
the set with the constants `C`, cycle head `0` and period `0` is built, and
`getSemilinearSet` returns for it a set with period `0` whose constants are the
members of `C` in strictly increasing order. -/
theorem getSemilinearSet_makeAutomaton_constants (C : List Int) (var_name : String)
    (formula : ArithmeticFormula) (hne : C ≠ []) (hnat : ∀ c ∈ C, 0 ≤ c)
    (hvar : formula.getVariables = [var_name]) :
    ∃ A, makeAutomatonSemilinear ⟨C, 0, 0, []⟩ var_name formula = some A ∧
      ∃ S, A.getSemilinearSet = some S ∧ S.period = 0 ∧ S.cycle_head = 0 ∧
        S.periodic_constants = [] ∧ S.constants ≠ [] ∧ S.constants.Sorted (· < ·) ∧
        ∀ x, x ∈ S.constants ↔ x ∈ C := by
  obtain ⟨A, hA, S, hS, h1, h2, h3, h4, h5⟩ :=
    makeAutomatonSemilinear_constants C var_name formula hnat hvar
  refine ⟨A, hA, S, hS, h1, h2, h3, ?_, h4, h5⟩
  obtain ⟨c, hc⟩ := List.exists_mem_of_ne_nil C hne
  exact List.ne_nil_of_mem ((h5 c).2 hc)

theorem getSemilinearSet_makeAutomaton_constants_witness :
    (([0, 2, 4] : List Int) ≠ [] ∧ (∀ c ∈ ([0, 2, 4] : List Int), 0 ≤ c) ∧
      formula_x_eq_1.getVariables = ["x"]) ∧
    ∃ A, makeAutomatonSemilinear ⟨[0, 2, 4], 0, 0, []⟩ "x" formula_x_eq_1 = some A ∧
      ∃ S, A.getSemilinearSet = some S ∧ S.period = 0 ∧ S.cycle_head = 0 ∧
        S.periodic_constants = [] ∧ S.constants ≠ [] ∧ S.constants.Sorted (· < ·) ∧
        ∀ x, x ∈ S.constants ↔ x ∈ ([0, 2, 4] : List Int) :=
  ⟨⟨by decide, by decide, rfl⟩,
    getSemilinearSet_makeAutomaton_constants [0, 2, 4] "x" formula_x_eq_1 (by decide)
      (by decide) rfl⟩

/-- Claim C8, the counterexample: for the set with the constant `5`, cycle head
`0`, period `3` and periodic constant `0` the word `1 0 1` (least significant
bit first) spells the constant `5`, and the automaton rejects it. -/
theorem makeAutomaton_periodic_rejects_constant_5 :
    pathValue (track 1 0 [[true], [false], [true]]) = 5 ∧ (5 : Int) ∈ ([5] : List Int) ∧
    (makeAutomatonSemilinear ⟨[5], 0, 3, [0]⟩ "x" formula_x_eq_1).map
      (fun A => A.accepts [[true], [false], [true]]) = some false := by
  decide

/-- Claim C8, amended: for a set with the constants `C`, cycle head `H ≥ 0`,
period `R > 0` and periodic constants `P ⊆ [0, R)` the automaton is built, and it
accepts a non-empty word iff the number `n` spelled by the track (first letter
least significant) satisfies `n ≥ H` and `(n - H) mod R ∈ P`, or `n ∈ C` and the
number spelled by the word without its last letter stays below `H` when the
weight of the last letter is added. -/
theorem makeAutomaton_periodic_language (C P : List Int) (H R : Int) (var_name : String)
    (formula : ArithmeticFormula) (hvar : formula.getVariables = [var_name])
    (hH : 0 ≤ H) (hR : 0 < R) (hP : ∀ p ∈ P, 0 ≤ p ∧ p < R) :
    ∃ A, makeAutomatonSemilinear ⟨C, H, R, P⟩ var_name formula = some A ∧
      ∀ w : List Letter, w ≠ [] →
        (A.accepts w = true ↔
          (H ≤ pathValue (track 1 0 w) ∧ (pathValue (track 1 0 w) - H) % R ∈ P) ∨
          (pathValue (track 1 0 w) ∈ C ∧
            pathValue (track 1 0 w).dropLast + 2 ^ (w.length - 1) < H)) :=
  makeAutomatonSemilinear_periodic C P H R var_name formula hvar hH hR hP

theorem makeAutomaton_periodic_language_witness :
    (formula_x_eq_1.getVariables = ["x"] ∧ (0 : Int) ≤ 3 ∧ (0 : Int) < 2 ∧
      ∀ p ∈ ([0] : List Int), 0 ≤ p ∧ p < 2) ∧
    ∃ A, makeAutomatonSemilinear ⟨[1], 3, 2, [0]⟩ "x" formula_x_eq_1 = some A ∧
      ∀ w : List Letter, w ≠ [] →
        (A.accepts w = true ↔
          (3 ≤ pathValue (track 1 0 w) ∧ (pathValue (track 1 0 w) - 3) % 2 ∈ ([0] : List Int)) ∨
          (pathValue (track 1 0 w) ∈ ([1] : List Int) ∧
            pathValue (track 1 0 w).dropLast + 2 ^ (w.length - 1) < 3)) :=
  ⟨⟨rfl, by decide, by decide, by decide⟩,
    makeAutomaton_periodic_language [1] [0] 3 2 "x" formula_x_eq_1 rfl (by decide) (by decide)
      (by decide)⟩

/-! ## Boolean combinators, the sign guard and inconsistent formulas -/

theorem rowNext_single (t d : Int) (p : Pattern) (a : Letter) :
    Row.next ⟨[(t, p)], d⟩ a = if matchesPattern p a then t else d := by
  unfold Row.next
  simp only [List.find?]
  cases matchesPattern p a <;> rfl

theorem matchesPattern_signPattern (V i : Nat) (c : Bool) (a : Letter) (hi : i < V) :
    matchesPattern (signPattern [i] V c) a = (c == bitAt a i) := by
  have hp : signPattern [i] V c = (List.replicate V none).set i (some c) := rfl
  have hget : ∀ k, k < V → ((List.replicate V (none : Option Bool)).set i (some c)).getD k none
      = if k = i then some c else none := by
    intro k hk
    rw [List.getD_eq_getElem?_getD, List.getElem?_set]
    by_cases h : i = k
    · subst h; simp [hk]
    · rw [if_neg h, if_neg (Ne.symm h)]
      simp [hk]
  rw [hp]
  unfold matchesPattern
  rw [Bool.eq_iff_iff, List.all_eq_true]
  simp only [List.length_set, List.length_replicate, List.mem_range]
  constructor
  · intro h
    have := h i hi
    rw [hget i hi, if_pos rfl] at this
    exact this
  · intro h k hk
    rw [hget k hk]
    by_cases hki : k = i
    · subst hki; rw [if_pos rfl]; exact h
    · rw [if_neg hki]

theorem makeGraterThanOrEqualToZero_q (V i : Nat) (hi : i < V) (a : Letter) :
    (makeGraterThanOrEqualToZero [i] V).q 0 a = (if bitAt a i then 0 else 1) ∧
    (makeGraterThanOrEqualToZero [i] V).q 1 a = (if bitAt a i then 0 else 1) := by
  constructor
  · show Row.next ⟨[(1, signPattern [i] V false)], 0⟩ a = _
    rw [rowNext_single, matchesPattern_signPattern V i false a hi]
    cases bitAt a i <;> rfl
  · show Row.next ⟨[(0, signPattern [i] V true)], 1⟩ a = _
    rw [rowNext_single, matchesPattern_signPattern V i true a hi]
    cases bitAt a i <;> rfl

theorem makeGraterThanOrEqualToZero_run (V i : Nat) (hi : i < V) (w : List Letter) :
    (makeGraterThanOrEqualToZero [i] V).run 0 w = 0 ∨
      (makeGraterThanOrEqualToZero [i] V).run 0 w = 1 := by
  induction w using List.reverseRecOn with
  | nil => left; rfl
  | append_singleton u a ih =>
    rw [run_append]
    show (makeGraterThanOrEqualToZero [i] V).q _ a = 0 ∨ (makeGraterThanOrEqualToZero [i] V).q _ a = 1
    rcases ih with h | h <;> rw [h]
    · rw [(makeGraterThanOrEqualToZero_q V i hi a).1]
      cases bitAt a i <;> simp
    · rw [(makeGraterThanOrEqualToZero_q V i hi a).2]
      cases bitAt a i <;> simp

/-- The guard accepts the words whose last letter has the bit `0` at the
position `i`. -/
theorem makeGraterThanOrEqualToZero_accepts (V i : Nat) (hi : i < V) (w : List Letter) :
    (makeGraterThanOrEqualToZero [i] V).accepts w = true ↔
      (w.map fun a => bitAt a i).getLast? = some false := by
  induction w using List.reverseRecOn with
  | nil => simp [DFA.accepts, DFA.run, makeGraterThanOrEqualToZero, dfaBuild, statusArray]
  | append_singleton u a _ =>
    have hs : (makeGraterThanOrEqualToZero [i] V).s = 0 := rfl
    have hf : ∀ p, (makeGraterThanOrEqualToZero [i] V).f p = statusArray [false, true, false] p :=
      fun _ => rfl
    unfold DFA.accepts
    rw [hs, run_append, hf]
    show statusArray [false, true, false] ((makeGraterThanOrEqualToZero [i] V).q _ a) = true ↔ _
    have hq : (makeGraterThanOrEqualToZero [i] V).q
        ((makeGraterThanOrEqualToZero [i] V).run 0 u) a = if bitAt a i then 0 else 1 := by
      rcases makeGraterThanOrEqualToZero_run V i hi u with h | h <;> rw [h]
      · exact (makeGraterThanOrEqualToZero_q V i hi a).1
      · exact (makeGraterThanOrEqualToZero_q V i hi a).2
    rw [hq]
    simp only [List.map_append, List.map_cons, List.map_nil, List.getLast?_append_of_ne_nil _
      (List.cons_ne_nil _ _), List.getLast?_singleton, Option.some.injEq]
    cases bitAt a i <;> simp [statusArray]

theorem twosComplement_nonneg_iff (l : List Bool) :
    l.getLast? = some false ↔ ∃ n, decode l = some n ∧ 0 ≤ n := by
  induction l with
  | nil => simp [decode]
  | cons b l ih =>
    cases l with
    | nil =>
      cases b <;> simp [decode, twosComplement]
    | cons b1 bs =>
      have h1 : (b :: b1 :: bs).getLast? = (b1 :: bs).getLast? := by simp [List.getLast?_cons_cons]
      rw [h1, ih]
      simp only [decode, if_neg (List.cons_ne_nil _ _), Option.some.injEq, exists_eq_left']
      show 0 ≤ twosComplement (b1 :: bs) ↔ 0 ≤ (if b then 1 else 0) + 2 * twosComplement (b1 :: bs)
      cases b
      · simp
      · simp only [if_true]
        omega

/-- Claim C11: `intersect` and `union_` end in the fatal error exactly when the
variable orderings of the two formulas differ; otherwise the result accepts the
intersection (the union) of the two languages, and its formula has the kind
`INTERSECT` (`UNION`), only zero coefficients and the variables of the
receiver. -/
theorem intersect_union_spec {σ τ : Type} (A : BinaryIntAutomaton σ)
    (B : BinaryIntAutomaton τ) :
    ((A.intersect B = none ↔ A.formula.isVariableOrderingSame B.formula = false) ∧
      (A.union_ B = none ↔ A.formula.isVariableOrderingSame B.formula = false)) ∧
    (A.formula.isVariableOrderingSame B.formula = true →
      (∃ X, A.intersect B = some X ∧ (∀ w, X.accepts w = (A.accepts w && B.accepts w)) ∧
        X.formula.type = .INTERSECT ∧ (∀ c ∈ X.formula.getCoefficients, c = 0) ∧
        X.formula.getVariables = A.formula.getVariables) ∧
      (∃ Y, A.union_ B = some Y ∧ (∀ w, Y.accepts w = (A.accepts w || B.accepts w)) ∧
        Y.formula.type = .UNION ∧ (∀ c ∈ Y.formula.getCoefficients, c = 0) ∧
        Y.formula.getVariables = A.formula.getVariables)) := by
  have hvars : ∀ t, ((A.formula.resetCoefficients.setType t).getVariables
      = A.formula.getVariables) := by
    intro t
    simp [ArithmeticFormula.getVariables, ArithmeticFormula.resetCoefficients,
      ArithmeticFormula.setType, List.map_map, Function.comp_def]
  have hcoef : ∀ t, ∀ c ∈ (A.formula.resetCoefficients.setType t).getCoefficients, c = 0 := by
    intro t c hc
    simp only [ArithmeticFormula.getCoefficients, ArithmeticFormula.resetCoefficients,
      ArithmeticFormula.setType, List.map_map, List.mem_map, Function.comp_apply] at hc
    obtain ⟨_, _, rfl⟩ := hc
    rfl
  refine ⟨⟨?_, ?_⟩, ?_⟩
  · unfold intersect
    cases h : A.formula.isVariableOrderingSame B.formula <;> simp
  · unfold union_
    cases h : A.formula.isVariableOrderingSame B.formula <;> simp
  · intro h
    refine ⟨⟨_, by unfold intersect; rw [h]; rfl, ?_, rfl, hcoef _, hvars _⟩,
      ⟨_, by unfold union_; rw [h]; rfl, ?_, rfl, hcoef _, hvars _⟩⟩
    · intro w
      show (dfaMinimize (dfaProduct A.dfa B.dfa dfaAND)).accepts w = _
      unfold dfaMinimize
      rw [accepts_dfaProduct]
      rfl
    · intro w
      show (dfaMinimize (dfaProduct A.dfa B.dfa dfaOR)).accepts w = _
      unfold dfaMinimize
      rw [accepts_dfaProduct]
      rfl

/-- Claim C12: for a variable of the formula, `getPositiveValuesFor` returns an
automaton, and it accepts a word iff the receiver accepts it and the sign bit of
the track of the variable (the bit of the last letter) is `0`, which is to say
that the track decodes to a number that is not negative. -/
theorem getPositiveValuesFor_accepts {σ : Type} (A : BinaryIntAutomaton σ) (var_name : String)
    (hvar : var_name ∈ A.formula.getVariables) :
    ∃ P, A.getPositiveValuesFor var_name = some P ∧
      ∀ w,
        (P.accepts w = true ↔ A.accepts w = true ∧
          (track A.formula.getNumberOfVariables (A.formula.getVariableIndex var_name) w).getLast?
            = some false) ∧
        (P.accepts w = true ↔ A.accepts w = true ∧
          ∃ n, decode (track A.formula.getNumberOfVariables
            (A.formula.getVariableIndex var_name) w) = some n ∧ 0 ≤ n) := by
  have hidx : A.formula.getVariableIndex var_name < A.formula.getNumberOfVariables := by
    rw [getNumberOfVariables_eq_length]
    exact List.indexOf_lt_length.2 hvar
  obtain ⟨P, hP, _, _, hacc⟩ := intersect_spec A
    ({ dfa := makeGraterThanOrEqualToZero
          [A.formula.getNumberOfVariables - A.formula.getVariableIndex var_name - 1]
          A.formula.getNumberOfVariables
       num_of_variables := A.formula.getNumberOfVariables
       formula := A.formula } : BinaryIntAutomaton Int) rfl
  refine ⟨P, hP, fun w => ?_⟩
  have hg := makeGraterThanOrEqualToZero_accepts A.formula.getNumberOfVariables
    (A.formula.getNumberOfVariables - A.formula.getVariableIndex var_name - 1) (by omega) w
  have hsub : A.formula.getNumberOfVariables - A.formula.getVariableIndex var_name - 1
      = A.formula.getNumberOfVariables - 1 - A.formula.getVariableIndex var_name := by omega
  have h1 : P.accepts w = true ↔ A.accepts w = true ∧
      (track A.formula.getNumberOfVariables (A.formula.getVariableIndex var_name) w).getLast?
        = some false := by
    rw [hacc w, Bool.and_eq_true]
    unfold track
    rw [← hsub, ← hg]
    rfl
  refine ⟨h1, ?_⟩
  rw [h1, twosComplement_nonneg_iff]

theorem getPositiveValuesFor_accepts_witness :
    "x" ∈ (makeEquality formula_x_eq_1).formula.getVariables ∧
    ∃ P, (makeEquality formula_x_eq_1).getPositiveValuesFor "x" = some P ∧
      ∀ w,
        (P.accepts w = true ↔ (makeEquality formula_x_eq_1).accepts w = true ∧
          (track (makeEquality formula_x_eq_1).formula.getNumberOfVariables
            ((makeEquality formula_x_eq_1).formula.getVariableIndex "x") w).getLast?
            = some false) ∧
        (P.accepts w = true ↔ (makeEquality formula_x_eq_1).accepts w = true ∧
          ∃ n, decode (track (makeEquality formula_x_eq_1).formula.getNumberOfVariables
            ((makeEquality formula_x_eq_1).formula.getVariableIndex "x") w) = some n ∧ 0 ≤ n) :=
  ⟨by decide, getPositiveValuesFor_accepts (makeEquality formula_x_eq_1) "x" (by decide)⟩

/-- Claim C13: when `simplify()` returns `false`, `makeEquality` returns an
automaton that accepts no word, has one track for every variable of the formula
and carries the formula (as `simplify()` has left it). -/
theorem makeEquality_inconsistent (formula : ArithmeticFormula)
    (h : formula.simplify.1 = false) :
    (∀ w, (makeEquality formula).accepts w = false) ∧
    (makeEquality formula).num_of_variables = formula.getNumberOfVariables ∧
    (makeEquality formula).formula = formula.simplify.2 := by
  have hmk : makeEquality formula = makePhi formula.simplify.2 := by
    unfold makeEquality
    simp only [h, Bool.not_false, if_true]
  rw [hmk]
  refine ⟨fun w => rfl, ?_, rfl⟩
  show formula.simplify.2.getNumberOfVariables = formula.getNumberOfVariables
  unfold ArithmeticFormula.simplify ArithmeticFormula.getNumberOfVariables
  simp only []
  split <;> simp

theorem makeEquality_inconsistent_witness :
    formula_0x_plus_5_eq_0.simplify.1 = false ∧
    (∀ w, (makeEquality formula_0x_plus_5_eq_0).accepts w = false) ∧
    (makeEquality formula_0x_plus_5_eq_0).num_of_variables
      = formula_0x_plus_5_eq_0.getNumberOfVariables ∧
    (makeEquality formula_0x_plus_5_eq_0).formula = formula_0x_plus_5_eq_0.simplify.2 :=
  ⟨by decide, makeEquality_inconsistent formula_0x_plus_5_eq_0 (by decide)⟩

/-! ## The states of the carry automata and the languages of the constructions -/

theorem equalityDfa_eq (f : ArithmeticFormula) :
    equalityDfa f = dfaMinimize (equalityTmpDfa f) := rfl

/-- A stored transition gives an index to its target only. -/
theorem storeTransition_ix (st : ExpandState) (t : Int) (c : Bool) (pat : Pattern)
    (q : CarryState) (h : ix (storeTransition st t c pat).carry_map q ≠ -1) :
    ix st.carry_map q ≠ -1 ∨ q = (t, c) := by
  rcases q with ⟨l, b⟩
  by_cases hq : (l, b) = (t, c)
  · exact Or.inr hq
  · left
    intro hcon
    apply h
    unfold storeTransition
    cases c with
    | true =>
      simp only [if_true]
      split_ifs with h0
      · show ix (Function.update st.carry_map t _) (l, b) = -1
        rw [ix_update_current]
        by_cases hl : l = t
        · subst hl
          cases b with
          | true => exact absurd rfl hq
          | false => simpa [ix] using hcon
        · simpa [hl] using hcon
      · exact hcon
    | false =>
      simp only [Bool.false_eq_true, if_false]
      split_ifs with h0
      · show ix (Function.update st.carry_map t _) (l, b) = -1
        rw [ix_update_current]
        by_cases hl : l = t
        · subst hl
          cases b with
          | false => exact absurd rfl hq
          | true => simpa [ix] using hcon
        · simpa [hl] using hcon
      · exact hcon

theorem carryRun_snoc (rule : Int → Nat → Option CarryState) :
    ∀ (js : List Nat) (p0 p : CarryState) (j : Nat) (p1 : CarryState),
      carryRun rule p0 js = some p → rule p.1 j = some p1 →
      carryRun rule p0 (js ++ [j]) = some p1 := by
  intro js
  induction js with
  | nil =>
    intro p0 p j p1 h hr
    simp only [carryRun, Option.some.injEq] at h
    subst h
    simp only [List.nil_append, carryRun, hr]
  | cons i js ih =>
    intro p0 p j p1 h hr
    simp only [carryRun, List.cons_append] at h ⊢
    cases hi : rule p0.1 i with
    | none => rw [hi] at h; cases h
    | some p2 =>
      rw [hi] at h
      simp only [] at h ⊢
      exact ih p2 p j p1 h hr

/-- While a reached label is expanded, every flavour with an index stays
reached. -/
theorem foldl_body_reached {rule : Int → Nat → Option CarryState} {V T : Nat}
    {body : Int → ExpandState → Nat → ExpandState} {c0 : Int}
    (hbody : BodyOf rule V body) (L : Int) (c : Bool)
    (hL : ∃ js : List Nat, (∀ j ∈ js, j < T) ∧ carryRun rule (c0, false) js = some (L, c)) :
    ∀ js : List Nat, (∀ j ∈ js, j < T) → ∀ st : ExpandState,
      Reached rule T c0 st.carry_map →
      Reached rule T c0 (js.foldl (body L) st).carry_map := by
  intro js
  induction js with
  | nil => intro _ st h; exact h
  | cons j js ih =>
    intro hjs st h
    rw [List.foldl_cons]
    apply ih (fun i hi => hjs i (List.mem_cons_of_mem _ hi))
    rw [hbody L st j]
    cases hr : rule L j with
    | none => exact h
    | some p =>
      simp only []
      intro q hq
      rcases storeTransition_ix st p.1 p.2 _ q hq with h1 | h1
      · exact h q h1
      · obtain ⟨jsL, hjsL, hrun⟩ := hL
        refine ⟨jsL ++ [j], ?_, ?_⟩
        · intro i hi
          rcases List.mem_append.1 hi with h2 | h2
          · exact hjsL i h2
          · rw [List.mem_singleton] at h2
            rw [h2]
            exact hjs j (List.mem_cons_self _ _)
        · rw [h1]
          exact carryRun_snoc rule jsL (c0, false) (L, c) j p hrun hr

theorem expandOne_reached {rule : Int → Nat → Option CarryState} {V T : Nat}
    {body : Int → ExpandState → Nat → ExpandState} {dflt : Int → Int} {lo hi c0 : Int}
    (hbody : BodyOf rule V body)
    (st : LoopState) (hinv : LoopInv rule V T dflt lo hi c0 st)
    (hlt : st.next_label < hi + 1) (hr : Reached rule T c0 st.carry_map) :
    Reached rule T c0 (expandOne body dflt T lo hi st).carry_map := by
  obtain ⟨c, hc⟩ := hinv.next_some (by omega)
  have hcnt0 := hinv.count_nonneg
  have hne : ix st.carry_map (st.next_label, c) ≠ -1 := by rw [hc]; omega
  obtain ⟨hix1, -⟩ := mark_spec st.carry_map st.next_index st.next_label st.count c
    hinv.num hc hcnt0
  show Reached rule T c0 ((List.range T).foldl (body st.next_label) _).carry_map
  apply foldl_body_reached hbody st.next_label c (hr _ hne) (List.range T)
    (fun j hj => List.mem_range.1 hj)
  intro p hp
  rw [hix1] at hp
  exact hr p hp

theorem expandLoop_reached {rule : Int → Nat → Option CarryState} {V T : Nat}
    {body : Int → ExpandState → Nat → ExpandState} {dflt : Int → Int} {lo hi c0 : Int}
    (hbody : BodyOf rule V body) (hclosed : ClosedOn rule lo hi) :
    ∀ (fuel : Nat) (st : LoopState), LoopInv rule V T dflt lo hi c0 st →
      Reached rule T c0 st.carry_map →
      Reached rule T c0 (expandLoop body dflt T lo hi fuel st).carry_map := by
  intro fuel
  induction fuel with
  | zero => intro st _ h; exact h
  | succ fuel ih =>
    intro st hinv h
    simp only [expandLoop]
    split_ifs with hlt
    · exact ih _ (expandOne_inv hbody hclosed st hinv hlt)
        (expandOne_reached hbody st hinv hlt h)
    · exact h

theorem initLoopState_reached (rule : Int → Nat → Option CarryState) (T : Nat) (c0 : Int) :
    Reached rule T c0 (initLoopState c0).carry_map := by
  intro p hp
  refine ⟨[], fun _ h => (by cases h), ?_⟩
  show some (c0, false) = some p
  change ix (initCarryMap c0) p ≠ -1 at hp
  unfold initCarryMap at hp
  rw [ix_update_current] at hp
  rcases p with ⟨l, b⟩
  by_cases hl : l = c0
  · subst hl
    cases b with
    | false => rfl
    | true => simp at hp
  · simp [hl, ix] at hp

theorem exists_letterMask (V : Nat) : ∀ j : Nat, j < 2 ^ V → ∃ a : Letter, letterMask V a = j := by
  induction V with
  | zero =>
    intro j hj
    exact ⟨[], by simp only [letterMask]; simp at hj; omega⟩
  | succ V ih =>
    intro j hj
    rw [pow_succ] at hj
    by_cases hb : 2 ^ V ≤ j
    · obtain ⟨a, ha⟩ := ih (j - 2 ^ V) (by omega)
      refine ⟨true :: a, ?_⟩
      simp only [letterMask, bitAt, List.getD_cons_zero, if_true, List.tail_cons, ha]
      omega
    · obtain ⟨a, ha⟩ := ih j (by omega)
      refine ⟨false :: a, ?_⟩
      simp only [letterMask, bitAt, List.getD_cons_zero, Bool.false_eq_true, if_false,
        List.tail_cons, ha]
      omega

theorem exists_word_masks (V : Nat) :
    ∀ js : List Nat, (∀ j ∈ js, j < 2 ^ V) → ∃ w : List Letter, w.map (letterMask V) = js := by
  intro js
  induction js with
  | nil => intro _; exact ⟨[], rfl⟩
  | cons j js ih =>
    intro h
    obtain ⟨a, ha⟩ := exists_letterMask V j (h j (List.mem_cons_self _ _))
    obtain ⟨w, hw⟩ := ih (fun i hi => h i (List.mem_cons_of_mem _ hi))
    exact ⟨a :: w, by rw [List.map_cons, ha, hw]⟩

/-- The built automaton follows the runs of the carry automaton. -/
theorem built_run {rule : Int → Nat → Option CarryState} {V : Nat} {dflt : Int → Int}
    {lo hi c0 : Int} (st : LoopState) (hinv : LoopInv rule V (2 ^ V) dflt lo hi c0 st)
    (hall : st.count = st.next_index + 1) (extra : List Row) (statuses : Int → Bool) :
    ∀ (w : List Letter) (p p1 : CarryState), ix st.carry_map p ≠ -1 →
      carryRun rule p (w.map (letterMask V)) = some p1 →
      (dfaBuild (st.rows ++ extra) statuses).run (ix st.carry_map p) w = ix st.carry_map p1 ∧
      ix st.carry_map p1 ≠ -1 := by
  intro w
  induction w with
  | nil =>
    intro p p1 hp h
    simp only [List.map_nil, carryRun, Option.some.injEq] at h
    subst h
    exact ⟨rfl, hp⟩
  | cons a w ih =>
    intro p p1 hp h
    obtain ⟨h1, h2⟩ := built_step st hinv hall extra statuses p hp a
    simp only [List.map_cons, carryRun] at h
    cases hr : rule p.1 (letterMask V a) with
    | none => rw [hr] at h; cases h
    | some p2 =>
      rw [hr] at h h1
      simp only [] at h h1
      obtain ⟨h3, h4⟩ := ih p2 p1 (h2 p2 hr) h
      refine ⟨?_, h4⟩
      show (dfaBuild (st.rows ++ extra) statuses).run
        ((dfaBuild (st.rows ++ extra) statuses).q (ix st.carry_map p) a) w = _
      rw [h1]
      exact h3

theorem carryRun_snoc_inv (rule : Int → Nat → Option CarryState) :
    ∀ (js : List Nat) (p0 p1 : CarryState) (j : Nat),
      carryRun rule p0 (js ++ [j]) = some p1 →
      ∃ p, carryRun rule p0 js = some p ∧ rule p.1 j = some p1 := by
  intro js
  induction js with
  | nil =>
    intro p0 p1 j h
    simp only [List.nil_append, carryRun] at h
    cases hr : rule p0.1 j with
    | none => rw [hr] at h; cases h
    | some p2 =>
      rw [hr] at h
      simp only [Option.some.injEq] at h
      exact ⟨p0, rfl, by rw [hr, h]⟩
  | cons i js ih =>
    intro p0 p1 j h
    simp only [List.cons_append, carryRun] at h ⊢
    cases hi : rule p0.1 i with
    | none => rw [hi] at h; cases h
    | some p2 =>
      rw [hi] at h
      simp only [] at h ⊢
      exact ih p2 p1 j h

/-- The loop of `makeEquality` is left with the invariant, every state that has
an index is expanded and is reached by the carry automaton. -/
theorem equalityLoop_spec (f : ArithmeticFormula) :
    LoopInv (equalityRule f) f.getNumberOfVariables (2 ^ f.getNumberOfVariables)
      (fun _ => 2 * maxLabel f - 2 * minLabel f + 3 - 1) (minLabel f) (maxLabel f) f.constant
      (equalityLoop f) ∧
    (equalityLoop f).count = (equalityLoop f).next_index + 1 ∧
    Reached (equalityRule f) (2 ^ f.getNumberOfVariables) f.constant
      (equalityLoop f).carry_map := by
  have hb := label_range f 0
  have hinv0 := initLoopState_inv (equalityRule f) f.getNumberOfVariables
    (2 ^ f.getNumberOfVariables) (fun _ => 2 * maxLabel f - 2 * minLabel f + 3 - 1) hb.1 hb.2.1
  have hbody := equalityBody_bodyOf f f.getNumberOfVariables
  have hclosed := equalityRule_closed f
  have hinv := expandLoop_inv hbody hclosed (2 * maxLabel f - 2 * minLabel f + 3).toNat _ hinv0
  have hexit := expandLoop_exit hbody hclosed (2 * maxLabel f - 2 * minLabel f + 3).toNat _ hinv0
    (by simp only [initLoopState]; omega)
  have hreach := expandLoop_reached hbody hclosed (2 * maxLabel f - 2 * minLabel f + 3).toNat _
    hinv0 (initLoopState_reached (equalityRule f) (2 ^ f.getNumberOfVariables) f.constant)
  unfold equalityLoop
  rw [getCoefficients_length]
  exact ⟨hinv, hinv.all_expanded hexit, hreach⟩

theorem renormalize_write1_range (S : Int) :
    ∀ (n : Nat) (l1 l2 w : Int), (w = 0 ∨ w = 1) →
      (renormalize S n (l1, l2, w)).2.2 = 0 ∨ (renormalize S n (l1, l2, w)).2.2 = 1 := by
  intro n
  induction n with
  | zero => intro l1 l2 w h; exact h
  | succ n ih =>
    intro l1 l2 w h
    simp only [renormalize]
    split_ifs
    · exact ih _ _ _ (by omega)
    · exact h

/-- Claim C25: when `simplify()` succeeds and leaves the formula as it is, the
automaton of `makeEquality` accepts a word iff the word is not empty and
`Σ aᵢ·xᵢ + c = 0`, where `xᵢ` is the two's-complement value of the track of BDD
index `V - 1 - i`, read least-significant bit first with the bit of the last
letter as sign bit.  That track is the one that `countOnes` weights with `aᵢ`:
the mask whose pattern covers a letter has bit `i` set iff the letter has the
bit of index `V - 1 - i`, and `countOnes` of the mask is the sum of the `aᵢ` of
the set bits. -/
theorem makeEquality_language (f : ArithmeticFormula) (hs : f.simplify = (true, f))
    (w : List Letter) :
    ((makeEquality f).accepts w = true ↔
      w ≠ [] ∧
      f.evalAt (fun i => twosComplement (track f.getNumberOfVariables i w)) = 0) ∧
    (∀ (a : Letter) (j : Nat), j < 2 ^ f.getNumberOfVariables →
      (matchesPattern (binaryFormat j f.getNumberOfVariables) a = true ↔
        j = letterMask f.getNumberOfVariables a)) ∧
    (∀ (a : Letter) (i : Nat), i < f.getNumberOfVariables →
      (letterMask f.getNumberOfVariables a).testBit i
        = bitAt a (f.getNumberOfVariables - 1 - i)) ∧
    ∀ a : Letter, f.countOnes (letterMask f.getNumberOfVariables a)
      = ArithmeticFormula.evalAux f.getCoefficients 0
          (fun i => if bitAt a (f.getNumberOfVariables - 1 - i) then 1 else 0) := by
  refine ⟨?_, fun a j hj => matchesPattern_binaryFormat _ j a hj,
    fun a i hi => testBit_letterMask _ a i hi, fun a => countOnes_letterMask f a⟩
  have h1 : (makeEquality f).accepts w = (equalityDfa f).accepts w := by
    unfold makeEquality
    simp only [hs, Bool.not_true, Bool.false_eq_true, if_false]
    rfl
  rw [h1, equalityDfa_accepts]
  rfl

theorem makeEquality_language_witness :
    (makeEquality formula_x_minus_y_eq_5).accepts word_6_1 = true ↔
      word_6_1 ≠ [] ∧
      formula_x_minus_y_eq_5.evalAt
        (fun i => twosComplement (track formula_x_minus_y_eq_5.getNumberOfVariables i word_6_1))
        = 0 :=
  (makeEquality_language formula_x_minus_y_eq_5 (by decide) word_6_1).1

/-- Claim C26: when `simplify()` leaves the formula as it is, the automaton of
`makeLessThan` accepts a word iff the word is not empty and `Σ aᵢ·xᵢ + c < 0`,
where `xᵢ` is the two's-complement value of the track of BDD index `V - 1 - i`,
read least-significant bit first with the bit of the last letter as sign bit.
That track is the one that `countOnes` weights with `aᵢ`. -/
theorem makeLessThan_language (f : ArithmeticFormula) (hs : f.simplify.2 = f)
    (w : List Letter) :
    ((makeLessThan f).accepts w = true ↔
      w ≠ [] ∧
      f.evalAt (fun i => twosComplement (track f.getNumberOfVariables i w)) < 0) ∧
    (∀ (a : Letter) (j : Nat), j < 2 ^ f.getNumberOfVariables →
      (matchesPattern (binaryFormat j f.getNumberOfVariables) a = true ↔
        j = letterMask f.getNumberOfVariables a)) ∧
    (∀ (a : Letter) (i : Nat), i < f.getNumberOfVariables →
      (letterMask f.getNumberOfVariables a).testBit i
        = bitAt a (f.getNumberOfVariables - 1 - i)) ∧
    ∀ a : Letter, f.countOnes (letterMask f.getNumberOfVariables a)
      = ArithmeticFormula.evalAux f.getCoefficients 0
          (fun i => if bitAt a (f.getNumberOfVariables - 1 - i) then 1 else 0) := by
  refine ⟨?_, fun a j hj => matchesPattern_binaryFormat _ j a hj,
    fun a i hi => testBit_letterMask _ a i hi, fun a => countOnes_letterMask f a⟩
  have h1 : (makeLessThan f).accepts w = (lessThanDfa f).accepts w := by
    show (lessThanDfa f.simplify.2).accepts w = _
    rw [hs]
  rw [h1, lessThanDfa_accepts]
  rfl

theorem makeLessThan_language_witness :
    (makeLessThan formula_x_lt_0).accepts [[true]] = true ↔
      ([[true]] : List Letter) ≠ [] ∧
      formula_x_lt_0.evalAt
        (fun i => twosComplement (track formula_x_lt_0.getNumberOfVariables i [[true]])) < 0 :=
  (makeLessThan_language formula_x_lt_0 (by decide) [[true]]).1

/-- Claim C27: every non-empty word is accepted by exactly one of the automata
of `makeLessThan` and of `makeGreaterThanOrEqual` for the same formula. -/
theorem makeLessThan_makeGreaterThanOrEqual_exclusive (f : ArithmeticFormula)
    (w : List Letter) (hw : w ≠ []) :
    ((makeLessThan f).accepts w = true ∧ (makeGreaterThanOrEqual f).accepts w = false) ∨
    ((makeLessThan f).accepts w = false ∧ (makeGreaterThanOrEqual f).accepts w = true) := by
  have h1 := makeLessThan_accepts f w
  have h2 := makeGreaterThanOrEqual_accepts f w
  by_cases h : f.evalAt (wordValues f.getNumberOfVariables w) < 0
  · left
    refine ⟨h1.2 ⟨hw, h⟩, ?_⟩
    cases hacc : (makeGreaterThanOrEqual f).accepts w with
    | false => rfl
    | true =>
      have := (h2.1 hacc).2
      omega
  · right
    refine ⟨?_, h2.2 ⟨hw, by omega⟩⟩
    cases hacc : (makeLessThan f).accepts w with
    | false => rfl
    | true => exact absurd (h1.1 hacc).2 h

theorem makeLessThan_makeGreaterThanOrEqual_exclusive_witness :
    ((makeLessThan formula_x_lt_0).accepts [[true]] = true ∧
      (makeGreaterThanOrEqual formula_x_lt_0).accepts [[true]] = false) ∨
    ((makeLessThan formula_x_lt_0).accepts [[true]] = false ∧
      (makeGreaterThanOrEqual formula_x_lt_0).accepts [[true]] = true) :=
  makeLessThan_makeGreaterThanOrEqual_exclusive formula_x_lt_0 [[true]] (by decide)

/-- Claim C28, the counterexample: in the automaton that `makeEquality` builds
for `x + 1 = 0` before the minimization, state `1` accepts and is reached on the
letter `1`; it is the flavour `current` of the carry label `1`, and the flavour
`current` of the label `0` is no state at all. -/
theorem makeEquality_accepting_label_1 :
    formula_x_plus_1_eq_0.simplify = (true, formula_x_plus_1_eq_0) ∧
    (equalityTmpDfa formula_x_plus_1_eq_0).f 1 = true ∧
    (equalityTmpDfa formula_x_plus_1_eq_0).run (equalityTmpDfa formula_x_plus_1_eq_0).s [[true]]
      = 1 ∧
    ((equalityLoop formula_x_plus_1_eq_0).carry_map 1).i = 1 ∧
    ((equalityLoop formula_x_plus_1_eq_0).carry_map 0).i = -1 := by
  decide

/-- Claim C28, amended: in the automaton that `makeEquality` builds before the
minimization, a state accepts iff it is the state of the flavour `current` of a
carry label, whatever the label.  Every such state is reached from the initial
state on a non-empty word, and its label is the weighted count of ones of a
mask: the flavour `current` is entered by the transitions that leave the label
as it is. -/
theorem equalityTmpDfa_accepting_states (f : ArithmeticFormula) :
    equalityDfa f = dfaMinimize (equalityTmpDfa f) ∧
    (∀ k : Int, (equalityTmpDfa f).f k = true ↔
      k ≠ -1 ∧ ∃ l : Int, ((equalityLoop f).carry_map l).i = k) ∧
    ∀ l : Int, ((equalityLoop f).carry_map l).i ≠ -1 →
      (∃ w : List Letter, w ≠ [] ∧
        (equalityTmpDfa f).run (equalityTmpDfa f).s w = ((equalityLoop f).carry_map l).i) ∧
      ∃ j : Nat, j < 2 ^ f.getNumberOfVariables ∧ f.countOnes j = l := by
  obtain ⟨hinv, hall, hreach⟩ := equalityLoop_spec f
  refine ⟨rfl, ?_, ?_⟩
  · intro k
    show finalStatuses (equalityLoop f).carry_map (minLabel f) (maxLabel f) k = true ↔ _
    constructor
    · intro h
      obtain ⟨l, _, _, h3, h4⟩ := (finalStatuses_spec _ _ _ _).1 h
      have h5 := (hinv.expanded (l, true)).1 (by simpa [status] using h3)
      have h6 : ix (equalityLoop f).carry_map (l, true) = k := by simpa [ix] using h4
      exact ⟨by omega, l, h4⟩
    · rintro ⟨hk, l, hl⟩
      have hp : ix (equalityLoop f).carry_map (l, true) ≠ -1 := by
        simpa [ix, hl] using hk
      have := built_status (equalityLoop f) hinv hall (l, true) hp
      simpa [ix, hl] using this
  · intro l hl
    have hp : ix (equalityLoop f).carry_map (l, true) ≠ -1 := by simpa [ix] using hl
    obtain ⟨js, hjs, hrun⟩ := hreach (l, true) hp
    rcases List.eq_nil_or_concat js with hnil | ⟨js1, j, hcat⟩
    · subst hnil
      simp [carryRun] at hrun
    · rw [List.concat_eq_append] at hcat
      subst hcat
      obtain ⟨p, hp1, hp2⟩ := carryRun_snoc_inv _ js1 _ _ j hrun
      constructor
      · obtain ⟨w, hw⟩ := exists_word_masks f.getNumberOfVariables (js1 ++ [j]) hjs
        have hstart : ix (equalityLoop f).carry_map (f.constant, false) ≠ -1 := by
          rw [hinv.start]; omega
        have hrun2 := built_run (equalityLoop f) hinv hall
          (paddingRows (fun _ => 2 * maxLabel f - 2 * minLabel f + 3 - 1)
            (equalityLoop f).count
            (2 * maxLabel f - 2 * minLabel f + 3 - (equalityLoop f).count).toNat)
          (finalStatuses (equalityLoop f).carry_map (minLabel f) (maxLabel f))
          w (f.constant, false) (l, true) hstart (by rw [hw]; exact hrun)
        refine ⟨w, ?_, ?_⟩
        · intro hnil
          rw [hnil] at hw
          simp at hw
        · have h0 := hrun2.1
          rw [hinv.start] at h0
          simpa [ix] using h0
      · refine ⟨j, hjs j (by simp), ?_⟩
        unfold equalityRule at hp2
        simp only [] at hp2
        split_ifs at hp2 with heven
        simp only [Option.some.injEq, Prod.mk.injEq, decide_eq_true_eq] at hp2
        obtain ⟨h1, h2⟩ := hp2
        have h3 : (p.1 + f.countOnes j).tdiv 2 = (p.1 + f.countOnes j) / 2 := by
          rcases le_or_lt 0 (p.1 + f.countOnes j) with h | h
          · exact Int.tdiv_eq_ediv h (by omega)
          · have h4 : p.1 + f.countOnes j = -(-(p.1 + f.countOnes j)) := by ring
            rw [h4, Int.neg_tdiv, Int.tdiv_eq_ediv (by omega) (by omega)]
            omega
        omega

/-- Claim C29, the counterexample: in `makeLessThan` for `-x - 1 < 0` the mask
`1` gives the sum `-2` at the initial label; the successor label is `-1`, and
`⌊(-2 - 1) / 2⌋` is `-2`. -/
theorem lessThanTarget_of_minus_2 :
    formula_minus_x_minus_1_lt_0.simplify.2 = formula_minus_x_minus_1_lt_0 ∧
    formula_minus_x_minus_1_lt_0.constant + formula_minus_x_minus_1_lt_0.countOnes 1 = -2 ∧
    (lessThanRule formula_minus_x_minus_1_lt_0 formula_minus_x_minus_1_lt_0.constant 1).map
      Prod.fst = some (-1) ∧
    lessThanTarget (-2) = -1 ∧
    ⌊((-2 : ℚ) - 1) / 2⌋ = -2 := by
  refine ⟨by decide, by decide, by decide, by decide, ?_⟩
  rw [Int.floor_eq_iff]
  norm_num

/-- Claim C29, amended: for every sum `s` the successor label of `makeLessThan`
is `⌊s / 2⌋`: the quotient `s / 2` when `s ≥ 0`, and the truncated quotient
`(s - 1) / 2` of C++ when `s < 0`, which is `⌊(s - 1) / 2⌋` for odd `s` only. -/
theorem lessThanTarget_floor (s : Int) :
    lessThanTarget s = ⌊(s : ℚ) / 2⌋ ∧
    (0 ≤ s → lessThanTarget s = s.tdiv 2) ∧
    (s < 0 → lessThanTarget s = (s - 1).tdiv 2) ∧
    (s < 0 → (lessThanTarget s = ⌊((s : ℚ) - 1) / 2⌋ ↔ s % 2 = 1)) ∧
    ∀ (f : ArithmeticFormula) (label : Int) (j : Nat), s = label + f.countOnes j →
      (lessThanRule f label j).map Prod.fst = some ⌊(s : ℚ) / 2⌋ := by
  have hfloor : ∀ t : Int, ⌊(t : ℚ) / 2⌋ = t / 2 := by
    intro t
    have := Rat.floor_intCast_div_natCast t 2
    simpa using this
  have h1 : lessThanTarget s = ⌊(s : ℚ) / 2⌋ := by rw [hfloor, lessThanTarget_eq]
  refine ⟨h1, ?_, ?_, ?_, ?_⟩
  · intro h
    unfold lessThanTarget
    rw [if_pos h]
  · intro h
    unfold lessThanTarget
    rw [if_neg (by omega)]
  · intro h
    have h2 : ((s : ℚ) - 1) / 2 = ((s - 1 : Int) : ℚ) / 2 := by push_cast; ring
    rw [h2, hfloor, lessThanTarget_eq]
    omega
  · intro f label j hs
    rw [← h1, hs]
    rfl

/-- Claim C30: for every label and every weighted count of ones the
re-normalization loop of `makeLessThan` ends: from some number of rounds on
the loop is left with `label1 = label2`, and more rounds change nothing.  The
bit it leaves in `write1` is `0` or `1`, and it is `1` iff the label is below
the count; the transition goes into the flavour `current` in exactly that
case. -/
theorem renormalize_terminates (label num_of_ones : Int) :
    (∃ rounds : Nat, ∀ n : Nat, rounds ≤ n →
      (renormalize num_of_ones n
        (label, lessThanTarget (label + num_of_ones), (label + num_of_ones) % 2)).1
      = (renormalize num_of_ones n
        (label, lessThanTarget (label + num_of_ones), (label + num_of_ones) % 2)).2.1 ∧
      (renormalize num_of_ones n
        (label, lessThanTarget (label + num_of_ones), (label + num_of_ones) % 2)).2.2
      = lessThanWrite1 label num_of_ones) ∧
    (lessThanWrite1 label num_of_ones = 0 ∨ lessThanWrite1 label num_of_ones = 1) ∧
    (lessThanWrite1 label num_of_ones = 1 ↔ label < num_of_ones) ∧
    ∀ (f : ArithmeticFormula) (j : Nat), num_of_ones = f.countOnes j →
      (lessThanRule f label j).map Prod.snd = some (decide (label < num_of_ones)) := by
  have hspec := fun n hn => renormalize_spec num_of_ones n label
    (lessThanTarget (label + num_of_ones)) ((label + num_of_ones) % 2) (lessThanTarget_eq _) rfl hn
  have hrange : lessThanWrite1 label num_of_ones = 0 ∨ lessThanWrite1 label num_of_ones = 1 :=
    renormalize_write1_range num_of_ones _ label _ _ (by omega)
  have hw := lessThanWrite1_spec label num_of_ones
  have hone : lessThanWrite1 label num_of_ones = 1 ↔ label < num_of_ones := by
    constructor
    · intro h
      exact hw.1 (by omega)
    · intro h
      have := hw.2 h
      omega
  refine ⟨⟨(label - num_of_ones).natAbs + 1, ?_⟩, hrange, hone, ?_⟩
  · intro n hn
    obtain ⟨h1, h2⟩ := hspec n hn
    refine ⟨h2, ?_⟩
    have h3 := renormalize_write1_range num_of_ones n label
      (lessThanTarget (label + num_of_ones)) ((label + num_of_ones) % 2) (by omega)
    by_cases hlt : label < num_of_ones
    · have := h1.2 hlt
      have := hone.2 hlt
      omega
    · have h4 : ¬ (renormalize num_of_ones n (label, lessThanTarget (label + num_of_ones),
          (label + num_of_ones) % 2)).2.2 ≠ 0 := fun h => hlt (h1.1 h)
      have h5 : ¬ lessThanWrite1 label num_of_ones = 1 := fun h => hlt (hone.1 h)
      omega
  · intro f j hj
    unfold lessThanRule
    rw [← hj]
    simp only [Option.map_some', Option.some.injEq, decide_eq_decide]
    exact hw

/-! ## The range of the labels and the exceptions of a state -/

/-- A carry map that is a numbering holds nothing for the labels outside the
range. -/
theorem Numbering.outside {lo hi : Int} {cm : CarryMap} {ni : Int}
    (hw : Numbering lo hi cm ni) (l : Int) (hl : l < lo ∨ hi < l) : cm l = ⟨0, 0, -1, -1⟩ := by
  have hi1 : ix cm (l, true) = -1 := by
    by_contra h
    have := hw.in_range (l, true) h
    simp only at this
    omega
  have hi2 : ix cm (l, false) = -1 := by
    by_contra h
    have := hw.in_range (l, false) h
    simp only at this
    omega
  have hs1 := (hw.status_zero (l, true)).2 hi1
  have hs2 := (hw.status_zero (l, false)).2 hi2
  simp only [ix, status, if_true, Bool.false_eq_true, if_false] at hi1 hi2 hs1 hs2
  cases h : cm l with
  | mk s sr i ir =>
    rw [h] at hi1 hi2 hs1 hs2
    simp only at hi1 hi2 hs1 hs2
    rw [hi1, hi2, hs1, hs2]

/-- What the invariant of the loop says about the labels and the indices. -/
theorem LoopInv.within_range {rule : Int → Nat → Option CarryState} {V T : Nat}
    {dflt : Int → Int} {lo hi c0 : Int} {st : LoopState}
    (h : LoopInv rule V T dflt lo hi c0 st) :
    (st.next_label < hi + 1 → lo ≤ st.next_label) ∧
    (∀ l : Int, l < lo ∨ hi < l → st.carry_map l = ⟨0, 0, -1, -1⟩) ∧
    ∀ l : Int, (st.carry_map l).i < 2 * (hi - lo + 1) ∧ (st.carry_map l).ir < 2 * (hi - lo + 1) := by
  refine ⟨?_, fun l hl => h.num.outside l hl, ?_⟩
  · intro hlt
    obtain ⟨c, hc⟩ := h.next_some (by omega)
    have := h.num.in_range (st.next_label, c) (by have := h.count_nonneg; omega)
    exact this.1
  · intro l
    have hb := h.num.bound
    have hn := h.num.nonneg
    have h1 := h.num.idx_range (l, true)
    have h2 := h.num.idx_range (l, false)
    simp only [ix, if_true, Bool.false_eq_true, if_false] at h1 h2
    constructor <;> omega

/-- Claim C31: in `makeEquality` and in `makeLessThan` the constant lies between
`min` and `max` after the widening, and from a label in `[min, max]` every mask
leads to a label in `[min, max]`.  After any number of rounds of the `while`
loop the label to expand next lies in `[min, max]` when the loop goes on, the
carry map holds nothing for the labels outside `[min, max]`, and every state
index in it is below `2 (max - min + 1)`, which is at most the number of states
passed to `dfaSetup` (`2 max - 2 min + 3` in `makeEquality`,
`2 (max - min + 1)` in `makeLessThan`). -/
theorem carry_labels_within_range (f : ArithmeticFormula) (rounds : Nat) :
    (minLabel f ≤ f.constant ∧ f.constant ≤ maxLabel f) ∧
    (∀ (label : Int) (j : Nat), minLabel f ≤ label → label ≤ maxLabel f →
      (∀ p, equalityRule f label j = some p → minLabel f ≤ p.1 ∧ p.1 ≤ maxLabel f) ∧
      (∀ p, lessThanRule f label j = some p → minLabel f ≤ p.1 ∧ p.1 ≤ maxLabel f)) ∧
    (BodyOf (equalityRule f) f.getCoefficients.length
        (equalityBody f f.getCoefficients.length) ∧
      BodyOf (lessThanRule f) f.getCoefficients.length
        (lessThanBody f f.getCoefficients.length)) ∧
    (∀ st : LoopState,
      st = expandLoop (equalityBody f f.getCoefficients.length)
          (fun _ => 2 * maxLabel f - 2 * minLabel f + 3 - 1) (2 ^ f.getCoefficients.length)
          (minLabel f) (maxLabel f) rounds (initLoopState f.constant) ∨
      st = expandLoop (lessThanBody f f.getCoefficients.length) (fun k => k)
          (2 ^ f.getCoefficients.length) (minLabel f) (maxLabel f) rounds
          (initLoopState f.constant) →
      (st.next_label < maxLabel f + 1 → minLabel f ≤ st.next_label) ∧
      (∀ l : Int, l < minLabel f ∨ maxLabel f < l → st.carry_map l = ⟨0, 0, -1, -1⟩) ∧
      ∀ l : Int, (st.carry_map l).i < 2 * (maxLabel f - minLabel f + 1) ∧
        (st.carry_map l).ir < 2 * (maxLabel f - minLabel f + 1)) ∧
    2 * (maxLabel f - minLabel f + 1) ≤ 2 * maxLabel f - 2 * minLabel f + 3 := by
  have hr := label_range f 0
  refine ⟨⟨hr.1, hr.2.1⟩, ?_, ⟨equalityBody_bodyOf f _, lessThanBody_bodyOf f _⟩, ?_, by omega⟩
  · intro label j h1 h2
    exact ⟨fun p hp => equalityRule_closed f label j p h1 h2 hp,
      fun p hp => lessThanRule_closed f label j p h1 h2 hp⟩
  · rintro st (rfl | rfl)
    · have hinv : LoopInv (equalityRule f) f.getCoefficients.length
          (2 ^ f.getCoefficients.length) (fun _ => 2 * maxLabel f - 2 * minLabel f + 3 - 1)
          (minLabel f) (maxLabel f) f.constant _ :=
        expandLoop_inv (equalityBody_bodyOf f _) (equalityRule_closed f) rounds _
          (initLoopState_inv _ _ _ _ hr.1 hr.2.1)
      exact hinv.within_range
    · have hinv : LoopInv (lessThanRule f) f.getCoefficients.length
          (2 ^ f.getCoefficients.length) (fun k => k) (minLabel f) (maxLabel f) f.constant _ :=
        expandLoop_inv (lessThanBody_bodyOf f _) (lessThanRule_closed f) rounds _
          (initLoopState_inv _ _ _ _ hr.1 hr.2.1)
      exact hinv.within_range

/-- Claim C34: for a single-track automaton, `trimLeadingZeros` returns an
automaton that accepts a word `w` iff the automaton accepts `w` or `w` followed
by one letter `0`, and `w` is the one-letter word `0` or the last letter of `w`
is `1`. -/
theorem trimLeadingZeros_accepts_iff {σ : Type} (A : BinaryIntAutomaton σ)
    (h1 : A.num_of_variables = 1) (w : List Letter) :
    ∃ T, A.trimLeadingZeros = some T ∧
      (T.accepts w = true ↔
        (A.accepts w = true ∨ A.accepts (w ++ [[false]]) = true) ∧
        ((∃ a, w = [a] ∧ bitAt a 0 = false) ∨
          (∃ a, w.getLast? = some a ∧ bitAt a 0 = true))) := by
  obtain ⟨T, hT, hacc⟩ := trimLeadingZeros_accepts A h1
  exact ⟨T, hT, hacc w⟩

theorem trimLeadingZeros_accepts_iff_witness :
    (makeEquality formula_x_eq_1).num_of_variables = 1 ∧
    ∃ T, (makeEquality formula_x_eq_1).trimLeadingZeros = some T ∧
      (T.accepts [[true]] = true ↔
        ((makeEquality formula_x_eq_1).accepts [[true]] = true ∨
          (makeEquality formula_x_eq_1).accepts ([[true]] ++ [[false]]) = true) ∧
        ((∃ a, ([[true]] : List Letter) = [a] ∧ bitAt a 0 = false) ∨
          (∃ a, ([[true]] : List Letter).getLast? = some a ∧ bitAt a 0 = true))) :=
  ⟨(makeAutomaton_shape formula_x_eq_1 _ rfl).1,
    trimLeadingZeros_accepts_iff (makeEquality formula_x_eq_1)
      (makeAutomaton_shape formula_x_eq_1 _ rfl).1 [[true]]⟩

/-- Claim C33, the failing input: the formula `0·x + 0 = 0` passes `simplify()`
unchanged, its only label is the constant `0`, and both masks give the even sum
`0`: two exceptions are stored for each of the two states that are expanded,
one more than the `transitions / 2 = 1` that are allocated.  For `2x + 1 = 0`, which passes as
well, no mask gives an even sum at the label `1`, and one exception is
allocated. -/
theorem makeEquality_stores_two_exceptions :
    formula_0x_eq_0.simplify = (true, formula_0x_eq_0) ∧
    (equalityLoop formula_0x_eq_0).rows.map (fun row => row.exceptions.length) = [2, 2] ∧
    storedExceptions formula_0x_eq_0 (2 ^ formula_0x_eq_0.getCoefficients.length)
      formula_0x_eq_0.constant = 2 ∧
    2 ^ formula_0x_eq_0.getCoefficients.length / 2 = 1 ∧
    formula_2x_plus_1_eq_0.simplify = (true, formula_2x_plus_1_eq_0) ∧
    (equalityLoop formula_2x_plus_1_eq_0).rows.map (fun row => row.exceptions.length) = [0] ∧
    storedExceptions formula_2x_plus_1_eq_0 (2 ^ formula_2x_plus_1_eq_0.getCoefficients.length)
      formula_2x_plus_1_eq_0.constant = 0 ∧
    2 ^ formula_2x_plus_1_eq_0.getCoefficients.length / 2 = 1 := by
  decide

/-! ## The word `1^k`, the cyclic part of `getSemilinearSet` and sets without constants -/

/-- Claim C32, the failing input: in the automaton with the cycle `0 → 1 → 0`
the initial state `0` is no sink and belongs to a strongly connected component
of two states, `getCycleStatus` reports a cycle and marks state `1`, and
`cycle_status` of state `0` stays `false`: the state at which the component is
found is popped after the loop that marks, and is marked only when it is its
own successor. -/
theorem getCycleStatus_two_cycle_head :
    automaton_two_cycle.dfa.s = 0 ∧
    automaton_two_cycle.isSinkState 0 = false ∧
    automaton_two_cycle.getNextState 0 [false] = 1 ∧
    automaton_two_cycle.getNextState 1 [false] = 0 ∧
    automaton_two_cycle.getCycleStatus.map
      (fun result => (result.1, result.2 0, result.2 1)) = some (true, false, true) := by
  decide

theorem onesState_succ (A : BinaryIntAutomaton Int) (k : Nat) :
    A.onesState (k + 1) = A.dfa.q (A.onesState k) [true] := by
  unfold onesState DFA.run
  rw [List.replicate_succ', List.foldl_append]
  rfl

theorem onesState_mem (A : BinaryIntAutomaton Int) (hs : A.dfa.s ∈ A.dfa.states)
    (hq : ∀ x ∈ A.dfa.states, A.dfa.q x [true] ∈ A.dfa.states) (k : Nat) :
    A.onesState k ∈ A.dfa.states := by
  induction k with
  | zero => exact hs
  | succ k ih =>
    rw [onesState_succ]
    exact hq _ ih

/-- When the state after `1^n` is the state after `1^i` for some `i < n`, every
state after `1^k` is one of the states after `1^j` with `j ≤ n`, and `j ≥ 1`
when `k ≥ 1`. -/
theorem onesState_periodic (A : BinaryIntAutomaton Int) (i n : Nat) (hi : i < n)
    (heq : A.onesState n = A.onesState i) :
    ∀ k : Nat, 1 ≤ k → ∃ j, 1 ≤ j ∧ j ≤ n ∧ A.onesState k = A.onesState j := by
  have hshift : ∀ m : Nat, A.onesState (n + m) = A.onesState (i + m) := by
    intro m
    induction m with
    | zero => exact heq
    | succ m ih =>
      rw [← Nat.add_assoc, ← Nat.add_assoc, onesState_succ, onesState_succ, ih]
  intro k
  induction k using Nat.strong_induction_on with
  | _ k ih =>
    intro hk
    by_cases hkn : k ≤ n
    · exact ⟨k, hk, hkn, rfl⟩
    · have h1 : k = n + (k - n) := by omega
      obtain ⟨j, hj1, hj2, hj3⟩ := ih (i + (k - n)) (by omega) (by omega)
      refine ⟨j, hj1, hj2, ?_⟩
      rw [h1, hshift]
      exact hj3

/-- The loop of `hasNegative1` after `n` rounds. -/
theorem hasNegative1Loop_spec (A : BinaryIntAutomaton Int) (hs : A.dfa.s ∈ A.dfa.states)
    (hq : ∀ x ∈ A.dfa.states, A.dfa.q x [true] ∈ A.dfa.states)
    (hpos : ∀ x ∈ A.dfa.states, -1 < x) :
    ∀ (fuel n : Nat) (is_visited : Int → Bool),
      (∀ y, is_visited y = true ↔ ∃ i, i < n ∧ y = A.onesState i) →
      (∀ i j, i < j → j < n → A.onesState i ≠ A.onesState j) →
      (∀ i, 1 ≤ i → i ≤ n → A.dfa.f (A.onesState i) = false) →
      A.dfa.states.length + 1 ≤ fuel + n →
      ∃ result, hasNegative1Loop A fuel is_visited (A.onesState n) = some result ∧
        (result = true ↔ ∃ k, 1 ≤ k ∧ A.dfa.f (A.onesState k) = true) := by
  intro fuel
  induction fuel with
  | zero =>
    intro n is_visited _ hdist _ hfuel
    exfalso
    have hnodup : ((List.range n).map A.onesState).Nodup := by
      apply List.Nodup.map_on _ (List.nodup_range n)
      intro x hx y hy hxy
      rw [List.mem_range] at hx hy
      by_contra hne
      rcases Nat.lt_or_gt_of_ne hne with h | h
      · exact hdist x y h hy hxy
      · exact hdist y x h hx hxy.symm
    have hsub : (List.range n).map A.onesState ⊆ A.dfa.states := by
      intro y hy
      obtain ⟨i, _, rfl⟩ := List.mem_map.1 hy
      exact onesState_mem A hs hq i
    have hlen := (hnodup.subperm hsub).length_le
    rw [List.length_map, List.length_range] at hlen
    omega
  | succ fuel ih =>
    intro n is_visited hvis hdist hrej hfuel
    unfold hasNegative1Loop
    cases hv : is_visited (A.onesState n) with
    | true =>
      simp only [Bool.not_true, Bool.false_eq_true, if_false]
      refine ⟨false, rfl, ?_⟩
      constructor
      · intro h; cases h
      · rintro ⟨k, hk, hacc⟩
        obtain ⟨i, hi, heq⟩ := (hvis _).1 hv
        obtain ⟨j, hj1, hj2, hj3⟩ := onesState_periodic A i n hi heq k hk
        rw [hj3, hrej j hj1 hj2] at hacc
        cases hacc
    | false =>
      simp only [Bool.not_false, if_true, getNextState, isAcceptingState]
      rw [← onesState_succ]
      have hnew : ∀ i, i < n → A.onesState i ≠ A.onesState n := by
        intro i hi heq
        have := (hvis (A.onesState n)).2 ⟨i, hi, heq.symm⟩
        rw [hv] at this
        cases this
      by_cases hacc : A.dfa.f (A.onesState (n + 1)) = true
      · rw [if_pos ⟨hpos _ (onesState_mem A hs hq _), hacc⟩]
        exact ⟨true, rfl, fun _ => ⟨n + 1, by omega, hacc⟩, fun _ => rfl⟩
      · rw [if_neg (fun h => hacc h.2)]
        apply ih (n + 1)
        · intro y
          rw [Function.update_apply]
          constructor
          · intro h
            split at h
            · rename_i hy
              exact ⟨n, by omega, hy⟩
            · obtain ⟨i, hi, hy⟩ := (hvis y).1 h
              exact ⟨i, by omega, hy⟩
          · rintro ⟨i, hi, hy⟩
            split
            · rfl
            · rename_i hne
              apply (hvis y).2
              refine ⟨i, ?_, hy⟩
              rcases Nat.lt_succ_iff_lt_or_eq.1 hi with h | h
              · exact h
              · subst h
                exact absurd hy hne
        · intro i j hij hj
          rcases Nat.lt_succ_iff_lt_or_eq.1 hj with h | h
          · exact hdist i j hij h
          · subst h
            exact hnew i hij
        · intro i hi1 hi2
          rcases Nat.lt_succ_iff_lt_or_eq.1 (Nat.lt_succ_of_le hi2) with h | h
          · exact hrej i hi1 (by omega)
          · subst h
            simpa using hacc
        · omega

/-- Claim C39: for a single-track automaton whose transition function is total
(the successor of a state on the letter `1` is a state, and no state is `-1`)
`hasNegative1` returns, and it returns `true` iff the automaton accepts a word
`1^k` with `k ≥ 1`. -/
theorem hasNegative1_spec (A : BinaryIntAutomaton Int) (h1 : A.num_of_variables = 1)
    (hs : A.dfa.s ∈ A.dfa.states)
    (hq : ∀ x ∈ A.dfa.states, A.dfa.q x [true] ∈ A.dfa.states)
    (hpos : ∀ x ∈ A.dfa.states, -1 < x) :
    ∃ result, A.hasNegative1 = some result ∧
      (result = true ↔ ∃ k, 1 ≤ k ∧ A.accepts (List.replicate k [true]) = true) := by
  unfold hasNegative1
  rw [if_neg (by simp [h1])]
  exact hasNegative1Loop_spec A hs hq hpos (A.dfa.states.length + 1) 0 (fun _ => false)
    (fun y => ⟨fun h => (by cases h), fun ⟨i, hi, _⟩ => (by omega)⟩)
    (fun i j _ hj => by omega) (fun i h1 h2 => by omega) (by omega)

theorem hasNegative1_spec_witness :
    (makeLessThan formula_x_lt_0).hasNegative1 = some true ∧
    ∃ result, (makeLessThan formula_x_lt_0).hasNegative1 = some result ∧
      (result = true ↔
        ∃ k, 1 ≤ k ∧ (makeLessThan formula_x_lt_0).accepts (List.replicate k [true]) = true) :=
  ⟨by decide,
    hasNegative1_spec (makeLessThan formula_x_lt_0) rfl (by decide) (by decide) (by decide)⟩

/-- The search of `getBaseConstants` returns within the recursion depth of the
model, with the array `is_stack_member` as it was: the states on the stack are
pairwise distinct states of the automaton. -/
theorem getBaseConstantsFrom_returns (A : BinaryIntAutomaton Int)
    (hq : ∀ x ∈ A.dfa.states, ∀ b : Bool, A.dfa.q x [b] ∈ A.dfa.states) :
    ∀ (fuel : Nat) (state : Int) (stack : List Int) (is_stack_member : Int → Bool)
      (path : List Bool) (constants : List Int),
      state ∈ A.dfa.states → stack.Nodup → (∀ y ∈ stack, y ∈ A.dfa.states) →
      (∀ y, is_stack_member y = true ↔ y ∈ stack) → state ∉ stack →
      A.dfa.states.length + 1 ≤ fuel + stack.length →
      ∃ constants1, getBaseConstantsFrom A fuel state is_stack_member path constants
        = some (is_stack_member, constants1) := by
  intro fuel
  induction fuel with
  | zero =>
    intro state stack _ _ _ hstate hnodup hsub _ hnot hfuel
    exfalso
    have hnd : (state :: stack).Nodup := List.nodup_cons.2 ⟨hnot, hnodup⟩
    have hss : (state :: stack) ⊆ A.dfa.states := by
      intro y hy
      rcases List.mem_cons.1 hy with rfl | h
      · exact hstate
      · exact hsub y h
    have hlen := (hnd.subperm hss).length_le
    rw [List.length_cons] at hlen
    omega
  | succ fuel ih =>
    intro state stack is_stack_member path constants hstate hnodup hsub hmem hnot hfuel
    have hfalse : is_stack_member state = false := by
      cases h : is_stack_member state with
      | false => rfl
      | true => exact absurd ((hmem state).1 h) hnot
    have hmem1 : ∀ y, Function.update is_stack_member state true y = true ↔ y ∈ state :: stack := by
      intro y
      rw [Function.update_apply, List.mem_cons]
      constructor
      · intro h
        split at h
        · rename_i hy; exact Or.inl hy
        · exact Or.inr ((hmem y).1 h)
      · rintro (h | h)
        · rw [if_pos h]
        · split
          · rfl
          · exact (hmem y).2 h
    have hnd : (state :: stack).Nodup := List.nodup_cons.2 ⟨hnot, hnodup⟩
    have hss : ∀ y ∈ state :: stack, y ∈ A.dfa.states := by
      intro y hy
      rcases List.mem_cons.1 hy with rfl | h
      · exact hstate
      · exact hsub y h
    have hsucc : ∀ (b : Bool) (constants : List Int),
        ∃ constants1, baseSuccessor A (getBaseConstantsFrom A fuel) (A.dfa.q state [b]) b
          (Function.update is_stack_member state true) path constants
          = some (Function.update is_stack_member state true, constants1) := by
      intro b constants
      unfold baseSuccessor
      split
      · rename_i hcond
        rw [Bool.and_eq_true, Bool.not_eq_true', Bool.not_eq_true'] at hcond
        apply ih _ (state :: stack) _ _ _ (hq state hstate b) hnd hss hmem1
        · intro hin
          have := (hmem1 _).2 hin
          rw [hcond.1] at this
          cases this
        · rw [List.length_cons]
          omega
      · exact ⟨constants, rfl⟩
    unfold getBaseConstantsFrom
    simp only [getNextState]
    obtain ⟨c1, h1⟩ := hsucc false constants
    rw [h1]
    simp only []
    obtain ⟨c2, h2⟩ := hsucc true c1
    rw [h2]
    simp only []
    refine ⟨c2, ?_⟩
    rw [Function.update_idem, ← hfalse, Function.update_eq_self]

theorem getBaseConstants_returns (A : BinaryIntAutomaton Int) (hs : A.dfa.s ∈ A.dfa.states)
    (hq : ∀ x ∈ A.dfa.states, ∀ b : Bool, A.dfa.q x [b] ∈ A.dfa.states) :
    ∃ bases, A.getBaseConstants = some bases := by
  unfold getBaseConstants
  split
  · obtain ⟨c, hc⟩ := getBaseConstantsFrom_returns A hq (A.dfa.states.length + 1) A.dfa.s []
      (fun _ => false) [] [] hs List.nodup_nil (fun y hy => by cases hy)
      (fun y => ⟨fun h => (by cases h), fun h => (by cases h)⟩) (fun h => by cases h)
      (by simp)
    rw [hc]
    exact ⟨c, rfl⟩
  · exact ⟨[], rfl⟩

/-- Claim C36, the counterexample: the automaton of the words `0^k` accepts the
word `0`, `getCycleStatus` reports a cycle for it, and `getBaseConstants` finds
no base, because the only accepting state is the initial state.  With an
emptiness test that tells this automaton not to be empty, the execution ends in
the fatal error that is logged inside the loop. -/
theorem getSemilinearSet_zero_star_no_base :
    automaton_zero_star.accepts [[false]] = true ∧
    automaton_zero_star.getCycleStatus.map Prod.fst = some true ∧
    automaton_zero_star.getBaseConstants = some [] ∧
    ∀ (constants_subject : BinaryIntAutomaton Int)
      (isEmptyLanguage : BinaryIntAutomaton Int → Bool),
      isEmptyLanguage automaton_zero_star = false →
      getSemilinearSetCyclic automaton_zero_star {} constants_subject isEmptyLanguage
        = some (.error .fatal_no_base) := by
  refine ⟨by decide, by decide, by decide, ?_⟩
  intro constants_subject isEmptyLanguage h
  have hb : automaton_zero_star.getBaseConstants = some [] := by decide
  unfold getSemilinearSetCyclic
  simp only [SemilinearSet.hasConstants, List.isEmpty_nil, Bool.not_true, Bool.false_eq_true,
    if_false, h, Bool.not_false, if_true, hb]
  rfl

/-- Claim C36, amended: when `getCycleStatus` reports a cycle, `getSemilinearSet`
returns no set.  The set created at the start has no constants, so the branch
of `hasConstants()` is not taken and the subject of the loop is the automaton
itself; whatever the emptiness test says, no execution of the part for cyclic
automata returns a set, and one in which the search of `getBaseConstants` ends
(it does when the successors of states are states) ends in one of four errors:
the fatal error logged inside the loop when there is no base, a division by
zero in the derivation of the periods, the use of the unset `current_set`, or
the fatal error logged after the loop. -/
theorem getSemilinearSet_cyclic_no_set (A : BinaryIntAutomaton Int)
    (h : A.getCycleStatus.map Prod.fst = some true) :
    A.getSemilinearSet = none ∧
    SemilinearSet.hasConstants {} = false ∧
    ∀ (constants_subject : BinaryIntAutomaton Int)
      (isEmptyLanguage : BinaryIntAutomaton Int → Bool),
      (∀ set, getSemilinearSetCyclic A {} constants_subject isEmptyLanguage
        ≠ some (.ok set)) ∧
      (isEmptyLanguage A = true →
        getSemilinearSetCyclic A {} constants_subject isEmptyLanguage
          = some (.error .fatal_after_loop)) ∧
      (isEmptyLanguage A = false →
        ∀ bases, A.getBaseConstants = some bases →
          getSemilinearSetCyclic A {} constants_subject isEmptyLanguage
            = some (.error
              (if (sort_and_remove_duplicate bases).length = 0 then .fatal_no_base
              else if candidatePeriods (sort_and_remove_duplicate bases) = none then
                .division_by_zero
              else .unset_current_set))) ∧
      (A.dfa.s ∈ A.dfa.states →
        (∀ x ∈ A.dfa.states, ∀ b : Bool, A.dfa.q x [b] ∈ A.dfa.states) →
        ∃ failure, getSemilinearSetCyclic A {} constants_subject isEmptyLanguage
          = some (.error failure)) := by
  have hsubject : ∀ (constants_subject : BinaryIntAutomaton Int)
      (isEmptyLanguage : BinaryIntAutomaton Int → Bool),
      getSemilinearSetCyclic A {} constants_subject isEmptyLanguage =
        if !(isEmptyLanguage A) then
          match A.getBaseConstants with
          | none => none
          | some bases =>
            if (sort_and_remove_duplicate bases).length = 0 then some (.error .fatal_no_base)
            else
              match candidatePeriods (sort_and_remove_duplicate bases) with
              | none => some (.error .division_by_zero)
              | some _ => some (.error .unset_current_set)
        else some (.error .fatal_after_loop) := fun _ _ => rfl
  have hempty : ∀ (constants_subject : BinaryIntAutomaton Int)
      (isEmptyLanguage : BinaryIntAutomaton Int → Bool), isEmptyLanguage A = true →
      getSemilinearSetCyclic A {} constants_subject isEmptyLanguage
        = some (.error .fatal_after_loop) := by
    intro cs ie he
    rw [hsubject, he]
    rfl
  have hbases : ∀ (constants_subject : BinaryIntAutomaton Int)
      (isEmptyLanguage : BinaryIntAutomaton Int → Bool), isEmptyLanguage A = false →
      ∀ bases, A.getBaseConstants = some bases →
        getSemilinearSetCyclic A {} constants_subject isEmptyLanguage
          = some (.error
            (if (sort_and_remove_duplicate bases).length = 0 then .fatal_no_base
            else if candidatePeriods (sort_and_remove_duplicate bases) = none then
              .division_by_zero
            else .unset_current_set)) := by
    intro cs ie he bases hb
    rw [hsubject, he, hb]
    simp only [Bool.not_false, if_true]
    by_cases h0 : (sort_and_remove_duplicate bases).length = 0
    · rw [if_pos h0, if_pos h0]
    · rw [if_neg h0, if_neg h0]
      cases hc : candidatePeriods (sort_and_remove_duplicate bases) with
      | none => simp
      | some periods => simp
  refine ⟨?_, rfl, fun constants_subject isEmptyLanguage => ⟨?_, hempty _ _, hbases _ _, ?_⟩⟩
  · unfold getSemilinearSet
    cases hc : A.getCycleStatus with
    | none => rfl
    | some result =>
      obtain ⟨is_cyclic, cycle_status⟩ := result
      rw [hc] at h
      simp only [Option.map_some', Option.some.injEq] at h
      subst h
      simp only []
      cases A.getConstants cycle_status <;> rfl
  · intro set hset
    cases he : isEmptyLanguage A with
    | true =>
      rw [hempty constants_subject isEmptyLanguage he] at hset
      cases hset
    | false =>
      cases hb : A.getBaseConstants with
      | none =>
        rw [hsubject, he, hb] at hset
        cases hset
      | some bases =>
        rw [hbases constants_subject isEmptyLanguage he bases hb] at hset
        cases hset
  · intro hs hq
    cases he : isEmptyLanguage A with
    | true => exact ⟨_, hempty constants_subject isEmptyLanguage he⟩
    | false =>
      obtain ⟨bases, hb⟩ := getBaseConstants_returns A hs hq
      exact ⟨_, hbases constants_subject isEmptyLanguage he bases hb⟩

theorem getSemilinearSet_cyclic_no_set_witness :
    automaton_two_cycle.getSemilinearSet = none ∧
    automaton_two_cycle.getBaseConstants = some [0] ∧
    getSemilinearSetCyclic automaton_two_cycle {} automaton_two_cycle (fun _ => false)
      = some (.error .unset_current_set) :=
  ⟨(getSemilinearSet_cyclic_no_set automaton_two_cycle (by decide)).1,
    by decide,
    ((getSemilinearSet_cyclic_no_set automaton_two_cycle (by decide)).2.2 automaton_two_cycle
        (fun _ => false)).2.2.1 rfl [0] (by decide)⟩

theorem matchesPattern_bitTransition (V vi : Nat) (c : Bool) (a : Letter) (h : vi < V) :
    matchesPattern (bitTransition V vi c) a = (c == bitAt a vi) :=
  matchesPattern_signPattern V vi c a h

/-- The successor that the row of a binary state prescribes, for any number of
tracks: only the bit of the track of the variable is looked at. -/
theorem binaryStateRow_next_track (V vi : Nat) (h : vi < V) (sink_state : Int)
    (s : BinaryState) (a : Letter) :
    (binaryStateRow V vi sink_state s).next a
      = if 0 ≤ (if bitAt a vi then s.d1 else s.d0) then (if bitAt a vi then s.d1 else s.d0)
        else sink_state := by
  unfold binaryStateRow
  by_cases h0 : s.d0 ≥ 0 <;> by_cases h1 : s.d1 ≥ 0
  · rw [if_pos ⟨h0, h1⟩]
    simp only [Row.next, List.find?, matchesPattern_bitTransition V vi _ a h]
    cases bitAt a vi <;> simp [h0, h1]
  · rw [if_neg (fun h => h1 h.2), if_pos ⟨h0, not_le.1 h1⟩]
    simp only [Row.next, List.find?, matchesPattern_bitTransition V vi _ a h]
    cases bitAt a vi <;> simp [h0, h1]
  · rw [if_neg (fun h => h0 h.1), if_neg (fun h => h0 h.1), if_pos ⟨not_le.1 h0, h1⟩]
    simp only [Row.next, List.find?, matchesPattern_bitTransition V vi _ a h]
    cases bitAt a vi <;> simp [h0, h1]
  · rw [if_neg (fun h => h0 h.1), if_neg (fun h => h0 h.1), if_neg (fun h => h1 h.2)]
    cases bitAt a vi <;> simp [Row.next, h0, h1]

theorem trieDfa_step_track (V vi : Nat) (h : vi < V) (B : List BinaryState)
    (statuses : Int → Bool) (i : Nat) (a : Letter) (hi : i < B.length) :
    (dfaBuild (B.map (binaryStateRow V vi (B.length : Int)) ++ [⟨[], (B.length : Int)⟩])
        statuses).q (i : Int) a
      = if 0 ≤ trieStep B (i : Int) (bitAt a vi) then trieStep B (i : Int) (bitAt a vi)
        else (B.length : Int) := by
  obtain ⟨s, hs⟩ := get?_of_lt hi
  rw [trieStep_get B i s _ hs]
  unfold dfaBuild
  simp only []
  rw [if_neg (by omega), Int.toNat_natCast]
  have : (B.map (binaryStateRow V vi (B.length : Int)) ++ [(⟨[], (B.length : Int)⟩ : Row)]).get? i
      = some (binaryStateRow V vi (B.length : Int) s) := by
    simp only [List.get?_eq_getElem?] at hs ⊢
    rw [List.getElem?_append_left (by simpa using hi), List.getElem?_map, hs]
    rfl
  rw [this]
  exact binaryStateRow_next_track V vi h _ s a

theorem closedDfa_run_track (V vi : Nat) (h : vi < V) (C R : Int) (B : List BinaryState)
    (statuses : Int → Bool) (hcl : ∀ j, j < B.length → ClosedAt C R B j) :
    ∀ (w : List Letter) (i : Nat) (s : BinaryState), B.get? i = some s →
      ∃ (j : Nat) (t : BinaryState),
        (dfaBuild (B.map (binaryStateRow V vi (B.length : Int)) ++ [⟨[], (B.length : Int)⟩])
          statuses).run (i : Int) w = (j : Int) ∧
        B.get? j = some t ∧ t.key = keyRun C R s.key (w.map fun a => bitAt a vi) := by
  intro w
  induction w with
  | nil =>
    intro i s hs
    exact ⟨i, s, rfl, hs, rfl⟩
  | cons a w ih =>
    intro i s hs
    have hi := get?_lt hs
    obtain ⟨k, t, h1, h2, h3⟩ := hcl i hi s hs (bitAt a vi)
    obtain ⟨j, t1, g1, g2, g3⟩ := ih k t h2
    refine ⟨j, t1, ?_, g2, ?_⟩
    · show (dfaBuild _ statuses).run ((dfaBuild _ statuses).q (i : Int) a) w = _
      rw [trieDfa_step_track V vi h B statuses i a hi, trieStep_get B i s _ hs, h1,
        if_pos (by omega)]
      exact g1
    · rw [g3, h3]
      rfl

/-- The automaton of a set with a period, for a formula with any number of
variables: the language in terms of the number spelled by the track of the
variable. -/
theorem makeAutomatonSemilinear_periodic_track (C P : List Int) (H R : Int)
    (var_name : String) (formula : ArithmeticFormula)
    (hvar : var_name ∈ formula.getVariables)
    (hH : 0 ≤ H) (hR : 0 < R) (hP : ∀ p ∈ P, 0 ≤ p ∧ p < R) :
    ∃ A, makeAutomatonSemilinear ⟨C, H, R, P⟩ var_name formula = some A ∧
      ∀ w : List Letter, w ≠ [] →
        (A.accepts w = true ↔
          (H ≤ pathValue (track formula.getNumberOfVariables
              (formula.getVariableIndex var_name) w) ∧
            (pathValue (track formula.getNumberOfVariables
              (formula.getVariableIndex var_name) w) - H) % R ∈ P) ∨
          (pathValue (track formula.getNumberOfVariables
              (formula.getVariableIndex var_name) w) ∈ C ∧
            pathValue (track formula.getNumberOfVariables
              (formula.getVariableIndex var_name) w).dropLast + 2 ^ (w.length - 1) < H)) := by
  have hlt : formula.getVariableIndex var_name < formula.getNumberOfVariables := by
    rw [getNumberOfVariables_eq_length]
    exact List.indexOf_lt_length.2 hvar
  have hvi : formula.getNumberOfVariables - formula.getVariableIndex var_name - 1
      < formula.getNumberOfVariables := by omega
  have htrack : ∀ w : List Letter,
      track formula.getNumberOfVariables (formula.getVariableIndex var_name) w
        = w.map fun a => bitAt a
          (formula.getNumberOfVariables - formula.getVariableIndex var_name - 1) := by
    intro w
    unfold track
    have : formula.getNumberOfVariables - 1 - formula.getVariableIndex var_name
        = formula.getNumberOfVariables - formula.getVariableIndex var_name - 1 := by omega
    rw [this]
  obtain ⟨B, idx, hB, _, _, _, _, ⟨r, hr, hrk⟩, hcl, hidx0⟩ :=
    add_binary_state_spec H R (H.toNat + R.toNat) hH hR (by omega)
      (3 * (H.toNat + R.toNat + 2) ^ 2 + 1) [] .VAL (-1) (-1) (by simp) (by simp)
      (by unfold InBox; simp only; omega) (by simp)
  have hi0 : idx = 0 := hidx0 (by simp)
  subst hi0
  have hcomp : compute_binary_states ⟨C, H, R, P⟩ = some B := by
    unfold compute_binary_states
    simp only [if_neg (show ¬ (R = 0) by omega), hB, Option.map_some']
  have hmk : makeAutomatonSemilinear ⟨C, H, R, P⟩ var_name formula = some
      { dfa := dfaMinimize (dfaBuild
          (B.map (binaryStateRow formula.getNumberOfVariables
            (formula.getNumberOfVariables - formula.getVariableIndex var_name - 1)
            (B.length : Int)) ++ [⟨[], (B.length : Int)⟩])
          (semilinearStatuses B ⟨C, H, R, P⟩))
        num_of_variables := formula.getNumberOfVariables
        formula := formula } := by
    unfold makeAutomatonSemilinear
    simp only [hcomp]
  refine ⟨_, hmk, ?_⟩
  intro w hw
  obtain ⟨j, t, h1, h2, h3⟩ := closedDfa_run_track formula.getNumberOfVariables
    (formula.getNumberOfVariables - formula.getVariableIndex var_name - 1) hvi H R B
    (semilinearStatuses B ⟨C, H, R, P⟩) (fun j hj => hcl j (Nat.zero_le _) hj) w 0 r hr
  rw [← htrack] at h3
  have hbits : track formula.getNumberOfVariables (formula.getVariableIndex var_name) w
      ≠ [] := by
    unfold track
    simpa using hw
  have hlen : (track formula.getNumberOfVariables (formula.getVariableIndex var_name)
      w).length = w.length := by simp [track]
  rw [hrk, keyRun_root H R hH hR _ hbits, hlen] at h3
  have hacc : accepts
      { dfa := dfaMinimize (dfaBuild
          (B.map (binaryStateRow formula.getNumberOfVariables
            (formula.getNumberOfVariables - formula.getVariableIndex var_name - 1)
            (B.length : Int)) ++ [⟨[], (B.length : Int)⟩])
          (semilinearStatuses B ⟨C, H, R, P⟩))
        num_of_variables := formula.getNumberOfVariables
        formula := formula } w = is_accepting_binary_state t ⟨C, H, R, P⟩ := by
    show semilinearStatuses B ⟨C, H, R, P⟩ ((dfaBuild _ _).run 0 w) = _
    have h1a : (dfaBuild (B.map (binaryStateRow formula.getNumberOfVariables
        (formula.getNumberOfVariables - formula.getVariableIndex var_name - 1)
        (B.length : Int)) ++
        [⟨[], (B.length : Int)⟩]) (semilinearStatuses B ⟨C, H, R, P⟩)).run 0 w = (j : Int) := h1
    rw [h1a, semilinearStatuses_eq, Int.toNat_natCast]
    unfold acceptingAt
    rw [h2]
    simp
  rw [hacc]
  have hd := pathValue_dropLast _ hbits
  rw [hlen] at hd
  have hpow : (0 : Int) < 2 ^ (w.length - 1) := by positivity
  generalize pathValue (track formula.getNumberOfVariables
    (formula.getVariableIndex var_name) w) = n at *
  generalize pathValue (track formula.getNumberOfVariables
    (formula.getVariableIndex var_name) w).dropLast = p at *
  generalize (2 : Int) ^ (w.length - 1) = W at *
  unfold is_accepting_binary_state
  unfold BinaryState.key at h3
  by_cases c1 : p + W < H
  · rw [if_pos c1] at h3
    simp only [Prod.mk.injEq] at h3
    obtain ⟨e1, e2, _⟩ := h3
    simp only [e1, e2, if_true, List.any_eq_true, beq_iff_eq]
    have : ¬ (H ≤ n) := by omega
    constructor
    · rintro ⟨x, hx, rfl⟩
      exact Or.inr ⟨hx, c1⟩
    · rintro (h | h)
      · exact absurd h.1 this
      · exact ⟨n, h.1, rfl⟩
  · rw [if_neg c1] at h3
    by_cases c2 : H ≤ n
    · rw [if_pos c2] at h3
      simp only [Prod.mk.injEq] at h3
      obtain ⟨e1, e2, _⟩ := h3
      simp only [e1, e2, if_true, reduceCtorEq, if_false]
      rw [remt_accepting P H R n hR hP hH]
      constructor
      · intro h
        exact Or.inl ⟨c2, h⟩
      · rintro (h | h)
        · exact h.2
        · exact absurd h.2 c1
    · rw [if_neg c2] at h3
      simp only [Prod.mk.injEq] at h3
      obtain ⟨e1, e2, _⟩ := h3
      simp only [e1, reduceCtorEq, if_false]
      constructor
      · intro h
        cases h
      · rintro (h | h)
        · exact absurd h.1 c2
        · exact absurd h.2 c1

/-- Claim C35: for a set without constants, with cycle head `H ≥ 0`, period
`R ≥ 1` and periodic constants in `[0, R)`, and for a variable of the formula,
the construction of the binary states ends, the automaton is built with one
track per variable of the formula, and it accepts a non-empty word iff the
number `n` spelled by the track of the variable (first letter least
significant, no sign bit) satisfies `n ≥ H` and `(n - H) mod R ∈ P`. -/
theorem makeAutomaton_periodic_without_constants (P : List Int) (H R : Int)
    (var_name : String) (formula : ArithmeticFormula)
    (hvar : var_name ∈ formula.getVariables)
    (hH : 0 ≤ H) (hR : 1 ≤ R) (hP : ∀ p ∈ P, 0 ≤ p ∧ p < R) :
    (∃ binary_states, compute_binary_states ⟨[], H, R, P⟩ = some binary_states) ∧
    ∃ A, makeAutomatonSemilinear ⟨[], H, R, P⟩ var_name formula = some A ∧
      A.num_of_variables = formula.getNumberOfVariables ∧
      ∀ w : List Letter, w ≠ [] →
        (A.accepts w = true ↔
          H ≤ pathValue (track formula.getNumberOfVariables
              (formula.getVariableIndex var_name) w) ∧
            (pathValue (track formula.getNumberOfVariables
              (formula.getVariableIndex var_name) w) - H) % R ∈ P) := by
  obtain ⟨A, hA, hacc⟩ := makeAutomatonSemilinear_periodic_track [] P H R var_name formula
    hvar hH (by omega) hP
  have hstates : ∃ binary_states, compute_binary_states ⟨[], H, R, P⟩ = some binary_states := by
    unfold makeAutomatonSemilinear at hA
    cases hc : compute_binary_states ⟨[], H, R, P⟩ with
    | none => rw [hc] at hA; cases hA
    | some B => exact ⟨B, rfl⟩
  have hnum : A.num_of_variables = formula.getNumberOfVariables := by
    unfold makeAutomatonSemilinear at hA
    obtain ⟨B, hB⟩ := hstates
    rw [hB] at hA
    simp only [Option.some.injEq] at hA
    rw [← hA]
  refine ⟨hstates, A, hA, hnum, fun w hw => ?_⟩
  rw [hacc w hw]
  constructor
  · rintro (h | h)
    · exact h
    · cases h.1
  · intro h
    exact Or.inl h

theorem makeAutomaton_periodic_without_constants_witness :
    (∃ binary_states, compute_binary_states ⟨[], 3, 2, [0]⟩ = some binary_states) ∧
    ∃ A, makeAutomatonSemilinear ⟨[], 3, 2, [0]⟩ "y" formula_x_minus_y_eq_5 = some A ∧
      A.num_of_variables = formula_x_minus_y_eq_5.getNumberOfVariables ∧
      ∀ w : List Letter, w ≠ [] →
        (A.accepts w = true ↔
          3 ≤ pathValue (track formula_x_minus_y_eq_5.getNumberOfVariables
              (formula_x_minus_y_eq_5.getVariableIndex "y") w) ∧
            (pathValue (track formula_x_minus_y_eq_5.getNumberOfVariables
              (formula_x_minus_y_eq_5.getVariableIndex "y") w) - 3) % 2 ∈ ([0] : List Int)) :=
  makeAutomaton_periodic_without_constants [0] 3 2 "y" formula_x_minus_y_eq_5 (by decide)
    (by decide) (by decide) (by decide)

/-! ## The pass of `getCycleStatus` and the search of `getConstants` -/

/-- The invariant of the pass does not look at `low`. -/
theorem PassInv.set_low {A : BinaryIntAutomaton Int} {exempt : Int → Prop} {T : CycleState}
    (h : PassInv A exempt T) (low : Int → Int) : PassInv A exempt { T with low := low } :=
  ⟨h.member, h.disc_lt, h.nodup, h.states, h.exempt_disc, h.explored, h.ranked⟩

/-- A state on the stack is discovered. -/
theorem PassInv.not_mem_of_disc_none {A : BinaryIntAutomaton Int} {exempt : Int → Prop}
    {T : CycleState} (h : PassInv A exempt T) {x : Int} (hx : T.disc x = none) : x ∉ T.st := by
  intro hin
  obtain ⟨d, hd, _⟩ := h.disc_lt x hin
  rw [hx] at hd
  cases hd

/-- The start of a call of the recursive `getCycleStatus` at an undiscovered
state. -/
theorem frameInv_enter {A : BinaryIntAutomaton Int} {exempt : Int → Prop} {T : CycleState}
    (h : PassInv A exempt T) (state : Int) (hnew : T.disc state = none)
    (hstate : state ∈ A.dfa.states) :
    FrameInv A exempt state T
      { T with
        disc := Function.update T.disc state (some T.time)
        low := Function.update T.low state T.time
        time := T.time + 1
        st := state :: T.st
        is_stack_member := Function.update T.is_stack_member state true } := by
  have hnot : state ∉ T.st := h.not_mem_of_disc_none hnew
  have hdisc : ∀ y, (T.disc y).isSome = true →
      Function.update T.disc state (some T.time) y = T.disc y := by
    intro y hy
    rw [Function.update_noteq]
    rintro rfl
    rw [hnew] at hy
    cases hy
  have hmono : ∀ y, (T.disc y).isSome = true →
      (Function.update T.disc state (some T.time) y).isSome = true := by
    intro y hy
    rw [hdisc y hy]
    exact hy
  refine ⟨⟨?_, ?_, ?_, ?_, ?_, ?_, ?_⟩, ⟨[], rfl, fun y hy => by cases hy⟩, ?_, ?_, ?_, ?_, ?_⟩
  · intro x
    show Function.update T.is_stack_member state true x = true ↔ x ∈ state :: T.st
    rw [Function.update_apply, List.mem_cons]
    constructor
    · intro hx
      split at hx
      · rename_i hxs; exact Or.inl hxs
      · exact Or.inr ((h.member x).1 hx)
    · rintro (hx | hx)
      · rw [if_pos hx]
      · split
        · rfl
        · exact (h.member x).2 hx
  · intro x hx
    show ∃ d, Function.update T.disc state (some T.time) x = some d ∧ d < T.time + 1
    rcases List.mem_cons.1 hx with rfl | hx
    · exact ⟨T.time, Function.update_same _ _ _, by omega⟩
    · obtain ⟨d, hd, hlt⟩ := h.disc_lt x hx
      refine ⟨d, ?_, by omega⟩
      rw [hdisc x (by rw [hd]; rfl), hd]
  · exact List.nodup_cons.2 ⟨hnot, h.nodup⟩
  · intro x hx
    rcases List.mem_cons.1 hx with rfl | hx
    · exact hstate
    · exact h.states x hx
  · intro x hx
    exact hmono x (h.exempt_disc x hx)
  · intro x hx hnin hex b
    have hne : x ≠ state := fun e => hnin (by rw [e]; exact List.mem_cons_self _ _)
    have hx1 : (T.disc x).isSome = true := by
      have : Function.update T.disc state (some T.time) x = T.disc x :=
        Function.update_noteq hne _ _
      rw [← this]
      exact hx
    exact hmono _ (h.explored x hx1 (fun hin => hnin (List.mem_cons_of_mem _ hin)) hex b)
  · obtain ⟨rank, hrank⟩ := h.ranked
    refine ⟨rank, ?_⟩
    intro x hx hnin hcs b
    have hne : x ≠ state := fun e => hnin (by rw [e]; exact List.mem_cons_self _ _)
    have hx1 : (T.disc x).isSome = true := by
      have : Function.update T.disc state (some T.time) x = T.disc x :=
        Function.update_noteq hne _ _
      rw [← this]
      exact hx
    obtain ⟨h1, h2, h3⟩ := hrank x hx1 (fun hin => hnin (List.mem_cons_of_mem _ hin)) hcs b
    refine ⟨hmono _ h1, ?_, h3⟩
    intro hin
    rcases List.mem_cons.1 hin with e | hin
    · rw [e, hnew] at h1
      cases h1
    · exact h2 hin
  · intro y hy
    refine ⟨hdisc y hy, ?_⟩
    show Function.update T.low state T.time y = T.low y
    rw [Function.update_noteq]
    rintro rfl
    rw [hnew] at hy
    cases hy
  · exact Function.update_same _ _ _
  · show T.time < T.time + 1
    omega
  · show Function.update T.low state T.time state ≤ T.time
    rw [Function.update_same]
  · left
    exact Function.update_same _ _ _

/-- One round of the loop over the successors, given what the recursive calls
do. -/
theorem visitSuccessor_frame {A : BinaryIntAutomaton Int} {exempt : Int → Prop} (fuel : Nat)
    (ih : ∀ (x : Int) (T : CycleState), PassInv A exempt T → T.disc x = none →
      x ∈ A.dfa.states → A.dfa.states.length + 1 ≤ fuel + T.st.length →
      ∃ T1, getCycleStatusFrom A fuel x T = some T1 ∧ PassInv A exempt T1 ∧
        PassPost A x T T1)
    {state : Int} {T Tc : CycleState} (hbase : PassInv A exempt T)
    (hnew : T.disc state = none) (hf : FrameInv A exempt state T Tc)
    (z : Int) (hz : z ∈ A.dfa.states)
    (hfuel : A.dfa.states.length + 1 ≤ fuel + Tc.st.length) :
    ∃ Tc1, visitSuccessor (getCycleStatusFrom A fuel) state z Tc = some Tc1 ∧
      FrameInv A exempt state T Tc1 ∧ (Tc1.disc z).isSome = true ∧
      (z ∈ T.st → Tc1.low state < T.time) ∧ Tc1.low state ≤ Tc.low state ∧
      ∀ y, (Tc.disc y).isSome = true → (Tc1.disc y).isSome = true := by
  obtain ⟨ext, hst, hext⟩ := hf.stack
  have hne : ∀ y, (T.disc y).isSome = true → y ≠ state := by
    rintro y hy rfl
    rw [hnew] at hy
    cases hy
  unfold visitSuccessor
  by_cases hd : (Tc.disc z).isNone = true
  · rw [if_pos hd]
    have hznone : Tc.disc z = none := Option.isNone_iff_eq_none.1 hd
    obtain ⟨T1, h1, hinv1, hpost⟩ := ih z Tc hf.inv hznone hz hfuel
    obtain ⟨ext1, hst1, hext1⟩ := hpost.stack
    rw [h1]
    simp only []
    have hstate1 : T1.disc state = some T.time ∧ T1.low state = Tc.low state := by
      have := hpost.frame state (by rw [hf.disc]; rfl)
      rw [hf.disc] at this
      exact this
    refine ⟨_, rfl, ⟨hinv1.set_low _, ⟨ext1 ++ ext, ?_, ?_⟩, ?_, hstate1.1, ?_, ?_, ?_⟩,
      ?_, ?_, ?_, ?_⟩
    · show T1.st = ext1 ++ ext ++ state :: T.st
      rw [hst1, hst, List.append_assoc]
    · intro y hy
      show T.disc y = none ∧ (∃ d, T1.disc y = some d ∧ T.time < d) ∧
        ∀ b : Bool, (T1.disc (A.dfa.q y [b])).isSome = true
      rcases List.mem_append.1 hy with hy | hy
      · obtain ⟨g1, ⟨d, g2, g3⟩, g4⟩ := hext1 y hy
        refine ⟨?_, ⟨d, g2, by have := hf.time; omega⟩, g4⟩
        cases hTy : T.disc y with
        | none => rfl
        | some v =>
          have := (hf.frame y (by rw [hTy]; rfl)).1
          rw [hTy, g1] at this
          cases this
      · obtain ⟨g1, ⟨d, g2, g3⟩, g4⟩ := hext y hy
        refine ⟨g1, ⟨d, ?_, g3⟩, ?_⟩
        · rw [(hpost.frame y (by rw [g2]; rfl)).1, g2]
        · intro b
          rw [(hpost.frame _ (g4 b)).1]
          exact g4 b
    · intro y hy
      have g1 := hf.frame y hy
      have g2 := hpost.frame y (by rw [g1.1]; exact hy)
      refine ⟨by rw [g2.1, g1.1], ?_⟩
      show Function.update T1.low state _ y = T.low y
      rw [Function.update_noteq (hne y hy), g2.2, g1.2]
    · show T.time < T1.time
      have := hf.time
      have := hpost.time
      omega
    · show Function.update T1.low state _ state ≤ T.time
      rw [Function.update_same, hstate1.2]
      have := hf.low_le
      exact le_trans (min_le_left _ _) this
    · show Function.update T1.low state _ state = T.time ∨
        ∃ z1 ∈ T.st, T1.disc z1 = some (Function.update T1.low state _ state)
      rw [Function.update_same, hstate1.2]
      by_cases hle : Tc.low state ≤ T1.low z
      · rw [min_eq_left hle]
        rcases hf.low_char with g | ⟨z1, hz1, g⟩
        · exact Or.inl g
        · exact Or.inr ⟨z1, hz1, by rw [(hpost.frame z1 (by rw [g]; rfl)).1, g]⟩
      · rw [min_eq_right (le_of_lt (not_le.1 hle))]
        have hlow := hf.low_le
        have htime := hf.time
        rcases hpost.low_char with g | ⟨w, hw, g⟩
        · omega
        · rw [hst] at hw
          rcases List.mem_append.1 hw with hw | hw
          · obtain ⟨_, ⟨d, g2, g3⟩, _⟩ := hext w hw
            rw [(hpost.frame w (by rw [g2]; rfl)).1, g2] at g
            simp only [Option.some.injEq] at g
            omega
          · rcases List.mem_cons.1 hw with rfl | hw
            · rw [hstate1.1] at g
              simp only [Option.some.injEq] at g
              omega
            · exact Or.inr ⟨w, hw, g⟩
    · show (T1.disc z).isSome = true
      rw [hpost.disc]
      rfl
    · intro hzin
      obtain ⟨d, hd1, _⟩ := hbase.disc_lt z hzin
      have := (hf.frame z (by rw [hd1]; rfl)).1
      rw [hznone, hd1] at this
      cases this
    · show Function.update T1.low state _ state ≤ Tc.low state
      rw [Function.update_same, hstate1.2]
      exact min_le_left _ _
    · intro y hy
      show (T1.disc y).isSome = true
      rw [(hpost.frame y hy).1]
      exact hy
  · rw [if_neg hd]
    have hzsome : (Tc.disc z).isSome = true := by
      cases h : Tc.disc z with
      | none => rw [h] at hd; exact absurd rfl hd
      | some v => rfl
    by_cases hm : Tc.is_stack_member z = true
    · rw [if_pos hm]
      have hzin : z ∈ Tc.st := (hf.inv.member z).1 hm
      obtain ⟨dz, hdz, hdzlt⟩ := hf.inv.disc_lt z hzin
      have hget : (Tc.disc z).getD 0 = dz := by rw [hdz]; rfl
      refine ⟨_, rfl, ⟨hf.inv.set_low _, ⟨ext, hst, hext⟩, ?_, hf.disc, hf.time, ?_, ?_⟩,
        hzsome, ?_, ?_, fun y hy => hy⟩
      · intro y hy
        refine ⟨(hf.frame y hy).1, ?_⟩
        show Function.update Tc.low state _ y = T.low y
        rw [Function.update_noteq (hne y hy), (hf.frame y hy).2]
      · show Function.update Tc.low state _ state ≤ T.time
        rw [Function.update_same]
        exact le_trans (min_le_left _ _) hf.low_le
      · show Function.update Tc.low state _ state = T.time ∨
          ∃ z1 ∈ T.st, Tc.disc z1 = some (Function.update Tc.low state _ state)
        rw [Function.update_same, hget]
        by_cases hle : Tc.low state ≤ dz
        · rw [min_eq_left hle]
          exact hf.low_char
        · rw [min_eq_right (le_of_lt (not_le.1 hle))]
          have hlow := hf.low_le
          rw [hst] at hzin
          rcases List.mem_append.1 hzin with hw | hw
          · obtain ⟨_, ⟨d, g2, g3⟩, _⟩ := hext z hw
            rw [g2] at hdz
            simp only [Option.some.injEq] at hdz
            omega
          · rcases List.mem_cons.1 hw with rfl | hw
            · rw [hf.disc] at hdz
              simp only [Option.some.injEq] at hdz
              omega
            · exact Or.inr ⟨z, hw, hdz⟩
      · intro hzT
        show Function.update Tc.low state _ state < T.time
        rw [Function.update_same, hget]
        obtain ⟨d, hd1, hd2⟩ := hbase.disc_lt z hzT
        have := (hf.frame z (by rw [hd1]; rfl)).1
        rw [hdz, hd1] at this
        simp only [Option.some.injEq] at this
        have := min_le_right (Tc.low state) dz
        omega
      · show Function.update Tc.low state _ state ≤ Tc.low state
        rw [Function.update_same]
        exact min_le_left _ _
    · rw [if_neg hm]
      refine ⟨Tc, rfl, hf, hzsome, ?_, le_refl _, fun y hy => hy⟩
      intro hzT
      exfalso
      apply hm
      apply (hf.inv.member z).2
      rw [hst]
      exact List.mem_append_right _ (List.mem_cons_of_mem _ hzT)

/-- The loop at the head of a component pops the states above `state` and marks
them. -/
theorem popComponent_spec (state : Int) (rest : List Int) :
    ∀ (ext : List Int) (T : CycleState), state ∉ ext →
      (popComponent state (ext ++ state :: rest) T).st = state :: rest ∧
      (popComponent state (ext ++ state :: rest) T).disc = T.disc ∧
      (popComponent state (ext ++ state :: rest) T).low = T.low ∧
      (popComponent state (ext ++ state :: rest) T).time = T.time ∧
      (∀ y, (popComponent state (ext ++ state :: rest) T).is_stack_member y
        = if y ∈ ext then false else T.is_stack_member y) ∧
      (∀ y ∈ ext, (popComponent state (ext ++ state :: rest) T).cycle_status y = true) ∧
      ∀ y, T.cycle_status y = true →
        (popComponent state (ext ++ state :: rest) T).cycle_status y = true := by
  intro ext
  induction ext with
  | nil =>
    intro T _
    have hstep : popComponent state ([] ++ state :: rest) T = { T with st := state :: rest } := by
      rw [List.nil_append, popComponent, if_neg (by simp)]
    rw [hstep]
    exact ⟨rfl, rfl, rfl, rfl, fun y => (by simp), fun y hy => (by cases hy), fun y hy => hy⟩
  | cons c ext ih =>
    intro T hnot
    have hc : c ≠ state := fun e => hnot (by rw [e]; exact List.mem_cons_self _ _)
    have hnot1 : state ∉ ext := fun h => hnot (List.mem_cons_of_mem _ h)
    have hstep : popComponent state ((c :: ext) ++ state :: rest) T
        = popComponent state (ext ++ state :: rest)
          { T with
            st := ext ++ state :: rest
            is_stack_member := Function.update T.is_stack_member c false
            cycle_status :=
              Function.update (Function.update T.cycle_status c true) (-2) true } := by
      rw [List.cons_append, popComponent, if_pos hc]
    rw [hstep]
    obtain ⟨h1, h2, h3, h4, h5, h6, h7⟩ := ih
      { T with
        st := ext ++ state :: rest
        is_stack_member := Function.update T.is_stack_member c false
        cycle_status :=
          Function.update (Function.update T.cycle_status c true) (-2) true } hnot1
    have hmark : ∀ y, T.cycle_status y = true ∨ y = c →
        Function.update (Function.update T.cycle_status c true) (-2) true y = true := by
      intro y hy
      rw [Function.update_apply]
      split
      · rfl
      · rw [Function.update_apply]
        split
        · rfl
        · rename_i hne
          rcases hy with hy | hy
          · exact hy
          · exact absurd hy hne
    refine ⟨h1, h2, h3, h4, ?_, ?_, ?_⟩
    · intro y
      rw [h5 y]
      by_cases hy : y ∈ ext
      · rw [if_pos hy, if_pos (List.mem_cons_of_mem _ hy)]
      · rw [if_neg hy]
        show Function.update T.is_stack_member c false y = _
        by_cases hyc : y = c
        · rw [hyc, Function.update_same, if_pos (List.mem_cons_self _ _)]
        · rw [Function.update_noteq hyc, if_neg]
          intro hin
          rcases List.mem_cons.1 hin with h | h
          · exact hyc h
          · exact hy h
    · intro y hy
      rcases List.mem_cons.1 hy with rfl | hy
      · exact h7 _ (hmark _ (Or.inr rfl))
      · exact h6 y hy
    · intro y hy
      exact h7 y (hmark y (Or.inl hy))

/-- The end of a call at the head of a component: the states above `state` and
`state` itself have left the stack, the states above it are marked, and `state`
is marked when it is its own successor. -/
theorem pass_finish_head {A : BinaryIntAutomaton Int} {exempt : Int → Prop} {state : Int}
    {T T2 T4 : CycleState} (hT : PassInv A exempt T) (hf : FrameInv A exempt state T T2)
    (hl : (T2.disc (A.dfa.q state [false])).isSome = true)
    (hr : (T2.disc (A.dfa.q state [true])).isSome = true)
    (hlst : A.dfa.q state [false] ∈ T.st → T2.low state < T.time)
    (hrst : A.dfa.q state [true] ∈ T.st → T2.low state < T.time)
    (hhead : T2.low state = T.time)
    (ext : List Int) (hst2 : T2.st = ext ++ state :: T.st)
    (hext : ∀ y ∈ ext, ∀ b : Bool, (T2.disc (A.dfa.q y [b])).isSome = true)
    (h_st : T4.st = T.st) (h_disc : T4.disc = T2.disc) (h_low : T4.low = T2.low)
    (h_time : T4.time = T2.time)
    (h_mem : ∀ y, T4.is_stack_member y = true ↔ y ∈ T.st)
    (h_ext : ∀ y ∈ ext, T4.cycle_status y = true)
    (h_mono : ∀ y, T2.cycle_status y = true → T4.cycle_status y = true)
    (h_self : state = A.dfa.q state [false] ∨ state = A.dfa.q state [true] →
      T4.cycle_status state = true) :
    PassInv A exempt T4 ∧ PassPost A state T T4 := by
  have hsucc : ∀ b : Bool, (T2.disc (A.dfa.q state [b])).isSome = true := by
    intro b
    cases b
    · exact hl
    · exact hr
  have hsuccst : ∀ b : Bool, A.dfa.q state [b] ∉ T.st := by
    intro b hin
    cases b
    · have := hlst hin; omega
    · have := hrst hin; omega
  have hsub : ∀ y, y ∈ T.st → y ∈ T2.st := by
    intro y hy
    rw [hst2]
    exact List.mem_append_right _ (List.mem_cons_of_mem _ hy)
  have hstate2 : state ∈ T2.st := by
    rw [hst2]
    exact List.mem_append_right _ (List.mem_cons_self _ _)
  constructor
  · refine ⟨?_, ?_, ?_, ?_, ?_, ?_, ?_⟩
    · rw [h_st]
      exact h_mem
    · intro y hy
      rw [h_st] at hy
      obtain ⟨d, hd, hlt⟩ := hT.disc_lt y hy
      refine ⟨d, ?_, ?_⟩
      · rw [h_disc, (hf.frame y (by rw [hd]; rfl)).1, hd]
      · rw [h_time]
        have := hf.time
        omega
    · rw [h_st]
      exact hT.nodup
    · rw [h_st]
      exact hT.states
    · intro y hy
      rw [h_disc]
      exact hf.inv.exempt_disc y hy
    · intro y hy hnin hex b
      rw [h_disc] at hy ⊢
      rw [h_st] at hnin
      by_cases hy2 : y ∈ T2.st
      · rw [hst2] at hy2
        rcases List.mem_append.1 hy2 with h | h
        · exact hext y h b
        · rcases List.mem_cons.1 h with rfl | h
          · exact hsucc b
          · exact absurd h hnin
      · exact hf.inv.explored y hy hy2 hex b
    · obtain ⟨rank2, hrank⟩ := hf.inv.ranked
      refine ⟨Function.update rank2 state
        (max (rank2 (A.dfa.q state [false])) (rank2 (A.dfa.q state [true])) + 1), ?_⟩
      intro y hy hnin hcs b
      rw [h_disc] at hy ⊢
      rw [h_st] at hnin ⊢
      by_cases hy2 : y ∈ T2.st
      · rw [hst2] at hy2
        rcases List.mem_append.1 hy2 with h | h
        · rw [h_ext y h] at hcs
          cases hcs
        · rcases List.mem_cons.1 h with rfl | h
          · have hns : ¬ (y = A.dfa.q y [false] ∨ y = A.dfa.q y [true]) := by
              intro hs
              rw [h_self hs] at hcs
              cases hcs
            have hne : A.dfa.q y [b] ≠ y := by
              intro e
              apply hns
              cases b
              · exact Or.inl e.symm
              · exact Or.inr e.symm
            refine ⟨hsucc b, hsuccst b, fun _ => ?_⟩
            rw [Function.update_noteq hne, Function.update_same]
            cases b
            · have := le_max_left (rank2 (A.dfa.q y [false])) (rank2 (A.dfa.q y [true]))
              omega
            · have := le_max_right (rank2 (A.dfa.q y [false])) (rank2 (A.dfa.q y [true]))
              omega
          · exact absurd h hnin
      · have hcs2 : T2.cycle_status y = false := by
          cases h : T2.cycle_status y with
          | false => rfl
          | true =>
            rw [h_mono y h] at hcs
            cases hcs
        obtain ⟨g1, g2, g3⟩ := hrank y hy hy2 hcs2 b
        have hyne : y ≠ state := fun e => hy2 (by rw [e]; exact hstate2)
        have hzne : A.dfa.q y [b] ≠ state := fun e => g2 (by rw [e]; exact hstate2)
        refine ⟨g1, fun hin => g2 (hsub _ hin), fun hz => ?_⟩
        rw [Function.update_noteq hzne, Function.update_noteq hyne]
        apply g3
        cases h : T2.cycle_status (A.dfa.q y [b]) with
        | false => rfl
        | true =>
          rw [h_mono _ h] at hz
          cases hz
  · refine ⟨⟨[], by rw [h_st]; rfl, fun y hy => by cases hy⟩, ?_, ?_, ?_, ?_, ?_, fun _ => h_st⟩
    · intro y hy
      rw [h_disc, h_low]
      exact hf.frame y hy
    · rw [h_disc]
      exact hf.disc
    · rw [h_time]
      exact hf.time
    · rw [h_low]
      exact hf.low_le
    · rw [h_low, h_disc]
      exact hf.low_char

/-- The end of a call at a state that is not the head of a component: the state
stays on the stack. -/
theorem pass_finish_inner {A : BinaryIntAutomaton Int} {exempt : Int → Prop} {state : Int}
    {T T2 : CycleState} (hnew : T.disc state = none) (hf : FrameInv A exempt state T T2)
    (hl : (T2.disc (A.dfa.q state [false])).isSome = true)
    (hr : (T2.disc (A.dfa.q state [true])).isSome = true)
    (hhead : T2.low state ≠ T.time) :
    PassPost A state T T2 := by
  obtain ⟨ext, hst, hext⟩ := hf.stack
  refine ⟨⟨ext ++ [state], ?_, ?_⟩, hf.frame, hf.disc, hf.time, hf.low_le, hf.low_char,
    fun h => absurd h hhead⟩
  · rw [hst, List.append_assoc]
    rfl
  · intro y hy
    rcases List.mem_append.1 hy with h | h
    · obtain ⟨g1, ⟨d, g2, g3⟩, g4⟩ := hext y h
      exact ⟨g1, ⟨d, g2, by omega⟩, g4⟩
    · rcases List.mem_singleton.1 h with rfl
      refine ⟨hnew, ⟨T.time, hf.disc, le_refl _⟩, ?_⟩
      intro b
      cases b
      · exact hl
      · exact hr

/-- A call of the recursive `getCycleStatus` at an undiscovered state returns
within the recursion depth of the model, keeps the invariant of the pass and
leaves behind what `PassPost` says. -/
theorem getCycleStatusFrom_spec (A : BinaryIntAutomaton Int) (exempt : Int → Prop)
    (hq : ∀ x ∈ A.dfa.states, ∀ b : Bool, A.dfa.q x [b] ∈ A.dfa.states) :
    ∀ (fuel : Nat) (state : Int) (T : CycleState), PassInv A exempt T →
      T.disc state = none → state ∈ A.dfa.states →
      A.dfa.states.length + 1 ≤ fuel + T.st.length →
      ∃ T1, getCycleStatusFrom A fuel state T = some T1 ∧ PassInv A exempt T1 ∧
        PassPost A state T T1 := by
  intro fuel
  induction fuel with
  | zero =>
    intro state T hT hnew hstate hfuel
    exfalso
    have hnd : (state :: T.st).Nodup :=
      List.nodup_cons.2 ⟨hT.not_mem_of_disc_none hnew, hT.nodup⟩
    have hss : (state :: T.st) ⊆ A.dfa.states := by
      intro y hy
      rcases List.mem_cons.1 hy with rfl | h
      · exact hstate
      · exact hT.states y h
    have hlen := (hnd.subperm hss).length_le
    rw [List.length_cons] at hlen
    omega
  | succ fuel ih =>
    intro state T hT hnew hstate hfuel
    have hf0 := frameInv_enter hT state hnew hstate
    obtain ⟨T1, h1, hf1, hl1, hlst1, -, hmono1⟩ := visitSuccessor_frame fuel ih hT hnew hf0
      (A.dfa.q state [false]) (hq state hstate false)
      (by show A.dfa.states.length + 1 ≤ fuel + (state :: T.st).length
          rw [List.length_cons]; omega)
    obtain ⟨ext1, hst1, -⟩ := hf1.stack
    obtain ⟨T2, h2, hf2, hr2, hrst2, hlow2, hmono2⟩ := visitSuccessor_frame fuel ih hT hnew hf1
      (A.dfa.q state [true]) (hq state hstate true)
      (by rw [hst1, List.length_append, List.length_cons]; omega)
    have hl2 : (T2.disc (A.dfa.q state [false])).isSome = true := hmono2 _ hl1
    have hlst2 : A.dfa.q state [false] ∈ T.st → T2.low state < T.time :=
      fun h => lt_of_le_of_lt hlow2 (hlst1 h)
    obtain ⟨ext, hst, hext⟩ := hf2.stack
    have hnotext : state ∉ ext := by
      intro hin
      have := hf2.inv.nodup
      rw [hst] at this
      exact (List.nodup_append.1 this).2.2 hin (List.mem_cons_self _ _)
    have hdisj : ∀ y ∈ ext, y ∉ T.st := by
      intro y hy hin
      have := hf2.inv.nodup
      rw [hst] at this
      exact (List.nodup_append.1 this).2.2 hy (List.mem_cons_of_mem _ hin)
    have hstateT : state ∉ T.st := hT.not_mem_of_disc_none hnew
    have hmem2 : ∀ y, T2.is_stack_member y = true ↔ y ∈ ext ++ state :: T.st := by
      intro y
      rw [← hst]
      exact hf2.inv.member y
    have hgetD : (T2.disc state).getD 0 = T.time := by
      rw [hf2.disc]
      rfl
    unfold getCycleStatusFrom
    simp only [getNextState]
    rw [h1]
    simp only []
    rw [h2]
    simp only []
    rw [hgetD, hst]
    obtain ⟨p1, p2, p3, p4, p5, p6, p7⟩ := popComponent_spec state T.st ext T2 hnotext
    have hmem4 : ∀ y,
        Function.update (popComponent state (ext ++ state :: T.st) T2).is_stack_member
          state false y = true ↔ y ∈ T.st := by
      intro y
      rw [Function.update_apply]
      by_cases hy : y = state
      · rw [if_pos hy, hy]
        exact ⟨fun h => (by cases h), fun h => absurd h hstateT⟩
      · rw [if_neg hy, p5 y]
        by_cases hye : y ∈ ext
        · rw [if_pos hye]
          exact ⟨fun h => (by cases h), fun h => absurd h (hdisj y hye)⟩
        · rw [if_neg hye, hmem2 y, List.mem_append, List.mem_cons]
          constructor
          · rintro (h | h | h)
            · exact absurd h hye
            · exact absurd h hy
            · exact h
          · intro h
            exact Or.inr (Or.inr h)
    by_cases hhead : T2.low state = T.time
    · rw [if_pos hhead, p1]
      simp only [List.headD_cons, List.tail_cons]
      by_cases hself : state = A.dfa.q state [false] ∨ state = A.dfa.q state [true]
      · rw [if_pos hself]
        refine ⟨_, rfl, pass_finish_head hT hf2 hl2 hr2 hlst2 hrst2 hhead ext hst
          (fun y hy => (hext y hy).2.2) rfl p2 p3 p4 hmem4 ?_ ?_ ?_⟩
        · intro y hy
          dsimp only
          rw [Function.update_apply]
          split
          · rfl
          · rw [Function.update_apply]
            split
            · rfl
            · exact p6 y hy
        · intro y hy
          dsimp only
          rw [Function.update_apply]
          split
          · rfl
          · rw [Function.update_apply]
            split
            · rfl
            · exact p7 y hy
        · intro _
          dsimp only
          rw [Function.update_apply]
          split
          · rfl
          · rw [Function.update_same]
      · rw [if_neg hself]
        exact ⟨_, rfl, pass_finish_head hT hf2 hl2 hr2 hlst2 hrst2 hhead ext hst
          (fun y hy => (hext y hy).2.2) rfl p2 p3 p4 hmem4 p6 p7 (fun h => absurd h hself)⟩
    · rw [if_neg hhead]
      exact ⟨T2, rfl, hf2.inv, pass_finish_inner hnew hf2 hl2 hr2 hhead⟩

/-- The sink that `getCycleStatus` skips is a sink, or `-1` when there is
none. -/
theorem getSinkState_spec (A : BinaryIntAutomaton Int) :
    A.isSinkState A.getSinkState = true ∨ A.getSinkState = -1 := by
  unfold getSinkState
  cases h : A.dfa.states.find? (fun i => A.isSinkState i) with
  | none => exact Or.inr rfl
  | some i => exact Or.inl (List.find?_some h)

theorem isSinkState_next (A : BinaryIntAutomaton Int) (x : Int) (h : A.isSinkState x = true)
    (b : Bool) : A.dfa.q x [b] = x := by
  unfold isSinkState at h
  rw [Bool.and_eq_true, Bool.and_eq_true, beq_iff_eq, beq_iff_eq] at h
  cases b
  · exact h.1.2
  · exact h.2

/-- The first call of the recursive `getCycleStatus` overwrites the entry of the
initial state in `disc`. -/
theorem getCycleStatusFrom_disc (A : BinaryIntAutomaton Int) (fuel : Nat) (state : Int)
    (T : CycleState) (d : Option Int) :
    getCycleStatusFrom A (fuel + 1) state { T with disc := Function.update T.disc state d }
      = getCycleStatusFrom A (fuel + 1) state T := by
  unfold getCycleStatusFrom
  simp only [Function.update_idem]

/-- The pass of `getCycleStatus` returns with the empty stack; the invariant
holds for what it leaves behind, and the initial state is discovered. -/
theorem getCycleStatus_pass (A : BinaryIntAutomaton Int) (hs : A.dfa.s ∈ A.dfa.states)
    (hq : ∀ x ∈ A.dfa.states, ∀ b : Bool, A.dfa.q x [b] ∈ A.dfa.states) :
    ∃ (T1 : CycleState) (exempt : Int → Prop),
      A.getCycleStatus = some (T1.cycle_status (-2), T1.cycle_status) ∧
      PassInv A exempt T1 ∧ T1.st = [] ∧ (T1.disc A.dfa.s).isSome = true ∧
      ∀ x, exempt x → x = A.getSinkState := by
  have hroot : ∀ (exempt : Int → Prop) (T : CycleState), PassInv A exempt T →
      T.disc A.dfa.s = none → T.st = [] →
      (∀ x, exempt x → x = A.getSinkState) →
      ∃ (T1 : CycleState) (exempt : Int → Prop),
        (match getCycleStatusFrom A (A.dfa.states.length + 1) A.dfa.s T with
          | none => none
          | some T => some (T.cycle_status (-2), T.cycle_status))
          = some (T1.cycle_status (-2), T1.cycle_status) ∧
        PassInv A exempt T1 ∧ T1.st = [] ∧ (T1.disc A.dfa.s).isSome = true ∧
        ∀ x, exempt x → x = A.getSinkState := by
    intro exempt T hT hnew hst hex
    obtain ⟨T1, h1, hinv1, hpost⟩ := getCycleStatusFrom_spec A exempt hq
      (A.dfa.states.length + 1) A.dfa.s T hT hnew hs (by omega)
    refine ⟨T1, exempt, ?_, hinv1, ?_, ?_, hex⟩
    · rw [h1]
    · have hlow : T1.low A.dfa.s = T.time := by
        rcases hpost.low_char with h | ⟨z, hz, _⟩
        · exact h
        · rw [hst] at hz
          cases hz
      rw [hpost.popped hlow, hst]
    · rw [hpost.disc]
      rfl
  unfold getCycleStatus
  simp only []
  by_cases hsk : A.dfa.s = A.getSinkState
  · have hcongr := getCycleStatusFrom_disc A A.dfa.states.length A.dfa.s
      { disc := fun _ => none
        low := fun _ => 0
        st := []
        is_stack_member := fun _ => false
        cycle_status := Function.update (fun _ => false) A.dfa.s true
        time := 0 } (some 0)
    simp only [] at hcongr
    obtain ⟨T1, exempt, h1, h2, h3, h4, h5⟩ := hroot (fun _ => False)
      { disc := fun _ => none
        low := fun _ => 0
        st := []
        is_stack_member := fun _ => false
        cycle_status := Function.update (fun _ => false) A.dfa.s true
        time := 0 }
      ⟨fun x => ⟨fun h => (by cases h), fun h => (by cases h)⟩, fun x hx => (by cases hx),
        List.nodup_nil, fun x hx => (by cases hx), fun x hx => hx.elim,
        fun x hx => (by cases hx), ⟨fun _ => 0, fun x hx => (by cases hx)⟩⟩
      rfl rfl (fun x hx => hx.elim)
    refine ⟨T1, exempt, ?_, h2, h3, h4, h5⟩
    rw [← hsk, hcongr]
    exact h1
  · apply hroot (fun x => x = A.getSinkState)
    · refine ⟨fun x => ⟨fun h => (by cases h), fun h => (by cases h)⟩, fun x hx => (by cases hx),
        List.nodup_nil, fun x hx => (by cases hx), ?_, ?_, ⟨fun _ => 0, ?_⟩⟩
      · intro x hx
        show (Function.update (fun _ => none) A.getSinkState (some (0 : Int)) x).isSome = true
        rw [hx, Function.update_same]
        rfl
      · intro x hx _ hne
        exfalso
        apply hne
        by_contra hxk
        have : Function.update (fun _ => none) A.getSinkState (some (0 : Int)) x = none :=
          Function.update_noteq hxk _ _
        change (Function.update (fun _ => none) A.getSinkState (some (0 : Int)) x).isSome
          = true at hx
        rw [this] at hx
        cases hx
      · intro x hx _ hcs
        exfalso
        have hxk : x = A.getSinkState := by
          by_contra hxk
          have : Function.update (fun _ => none) A.getSinkState (some (0 : Int)) x = none :=
            Function.update_noteq hxk _ _
          change (Function.update (fun _ => none) A.getSinkState (some (0 : Int)) x).isSome
            = true at hx
          rw [this] at hx
          cases hx
        change Function.update (fun _ => false) A.getSinkState true x = false at hcs
        rw [hxk, Function.update_same] at hcs
        cases hcs
    · show Function.update (fun _ => none) A.getSinkState (some (0 : Int)) A.dfa.s = none
      exact Function.update_noteq hsk _ _
    · rfl
    · intro x hx
      exact hx

/-- The recursive `getConstants` returns within the recursion depth of the
model when the states that are not marked are ranked: the states on the path of
the recursion have increasing ranks, so they are pairwise distinct. -/
theorem getConstantsFrom_returns (A : BinaryIntAutomaton Int) (cycle_status : Int → Bool)
    (D : Int → Prop) (rank : Int → Nat)
    (hq : ∀ x ∈ A.dfa.states, ∀ b : Bool, A.dfa.q x [b] ∈ A.dfa.states)
    (hrank : ∀ x, D x → cycle_status x = false →
      ∀ b : Bool, D (A.dfa.q x [b]) ∧
        (cycle_status (A.dfa.q x [b]) = false → rank (A.dfa.q x [b]) < rank x)) :
    ∀ (fuel : Nat) (state : Int) (anc : List Int) (path : List Bool) (constants : List Int),
      D state → cycle_status state = false → state ∈ A.dfa.states →
      (∀ y ∈ anc, y ∈ A.dfa.states) →
      (state :: anc).Pairwise (fun a b => rank a < rank b) →
      A.dfa.states.length + 1 ≤ fuel + (state :: anc).length →
      ∃ constants1, getConstantsFrom A cycle_status fuel state path constants
        = some constants1 := by
  intro fuel
  induction fuel with
  | zero =>
    intro state anc _ _ _ _ hstate hanc hpw hfuel
    exfalso
    have hnd : (state :: anc).Nodup := hpw.imp (fun h => by intro e; rw [e] at h; omega)
    have hss : (state :: anc) ⊆ A.dfa.states := by
      intro y hy
      rcases List.mem_cons.1 hy with rfl | h
      · exact hstate
      · exact hanc y h
    have hlen := (hnd.subperm hss).length_le
    omega
  | succ fuel ih =>
    intro state anc path constants hD hcs hstate hanc hpw hfuel
    have hsucc : ∀ (b : Bool) (constants : List Int),
        ∃ constants1, collectSuccessor A cycle_status (getConstantsFrom A cycle_status fuel)
          (A.dfa.q state [b]) b path constants = some constants1 := by
      intro b constants
      unfold collectSuccessor
      split
      · simp only []
        split
        · rename_i hnext
          rw [Bool.not_eq_true'] at hnext
          obtain ⟨g1, g2⟩ := hrank state hD hcs b
          apply ih _ (state :: anc) _ _ g1 hnext (hq state hstate b)
          · intro y hy
            rcases List.mem_cons.1 hy with rfl | h
            · exact hstate
            · exact hanc y h
          · rw [List.pairwise_cons]
            refine ⟨?_, hpw⟩
            intro a ha
            rcases List.mem_cons.1 ha with rfl | h
            · exact g2 hnext
            · exact lt_trans (g2 hnext) ((List.pairwise_cons.1 hpw).1 a h)
          · rw [List.length_cons] at hfuel ⊢
            rw [List.length_cons]
            omega
        · exact ⟨_, rfl⟩
      · exact ⟨_, rfl⟩
    unfold getConstantsFrom
    simp only [getNextState]
    obtain ⟨c1, h1⟩ := hsucc false constants
    rw [h1]
    exact hsucc true c1

/-- Along a path of states that are not marked the rank goes down with every
step. -/
theorem rank_along_path (A : BinaryIntAutomaton Int) (cycle_status : Int → Bool)
    (D : Int → Prop) (rank : Int → Nat)
    (hrank : ∀ x, D x → cycle_status x = false →
      ∀ b : Bool, D (A.dfa.q x [b]) ∧
        (cycle_status (A.dfa.q x [b]) = false → rank (A.dfa.q x [b]) < rank x)) :
    ∀ (w : List Bool) (x : Int), D x →
      (∀ v, v <+: w → cycle_status (A.dfa.run x (v.map fun b => [b])) = false) →
      rank (A.dfa.run x (w.map fun b => [b])) + w.length ≤ rank x := by
  intro w
  induction w with
  | nil =>
    intro x _ _
    exact le_refl _
  | cons b w ih =>
    intro x hD hv
    have hx : cycle_status x = false := hv [] List.nil_prefix
    obtain ⟨g1, g2⟩ := hrank x hD hx b
    have hnext : cycle_status (A.dfa.q x [b]) = false :=
      hv [b] (by rw [List.prefix_cons_inj]; exact List.nil_prefix)
    have := ih (A.dfa.q x [b]) g1 (fun v hvw => hv (b :: v) ((List.prefix_cons_inj b).2 hvw))
    have hlt := g2 hnext
    show rank (A.dfa.run (A.dfa.q x [b]) (w.map fun b => [b])) + (w.length + 1) ≤ rank x
    omega

/-- Claim C37: for a single-track automaton whose transition function is total
(the initial state and the successors of states are states, and no state is
`-1`), `getCycleStatus` returns, and `getConstants`, run on the `cycle_status`
it computes, returns as well: every cycle through states that can be reached
from the initial state contains a state that is marked, so the recursion never
follows a cycle. -/
theorem getConstants_terminates (A : BinaryIntAutomaton Int) (hs : A.dfa.s ∈ A.dfa.states)
    (hq : ∀ x ∈ A.dfa.states, ∀ b : Bool, A.dfa.q x [b] ∈ A.dfa.states)
    (hneg : (-1 : Int) ∉ A.dfa.states) :
    ∃ (is_cyclic : Bool) (cycle_status : Int → Bool),
      A.getCycleStatus = some (is_cyclic, cycle_status) ∧
      (∃ constants, A.getConstants cycle_status = some constants) ∧
      ∀ u w : List Bool, w ≠ [] →
        A.dfa.run (A.dfa.run A.dfa.s (u.map fun b => [b])) (w.map fun b => [b])
          = A.dfa.run A.dfa.s (u.map fun b => [b]) →
        ∃ v, v <+: w ∧
          cycle_status (A.dfa.run (A.dfa.run A.dfa.s (u.map fun b => [b]))
            (v.map fun b => [b])) = true := by
  obtain ⟨T1, exempt, h1, hinv, hst, hsd, hex⟩ := getCycleStatus_pass A hs hq
  obtain ⟨rank, hrank0⟩ := hinv.ranked
  have hnin : ∀ x : Int, x ∉ T1.st := by
    intro x hx
    rw [hst] at hx
    cases hx
  have hrank : ∀ x, (T1.disc x).isSome = true → T1.cycle_status x = false →
      ∀ b : Bool, (T1.disc (A.dfa.q x [b])).isSome = true ∧
        (T1.cycle_status (A.dfa.q x [b]) = false → rank (A.dfa.q x [b]) < rank x) := by
    intro x hx hcs b
    obtain ⟨g1, _, g3⟩ := hrank0 x hx (hnin x) hcs b
    exact ⟨g1, g3⟩
  refine ⟨_, _, h1, ?_, ?_⟩
  · unfold getConstants
    split
    · rename_i hcond
      rw [Bool.and_eq_true, Bool.not_eq_true', Bool.not_eq_true'] at hcond
      exact getConstantsFrom_returns A T1.cycle_status (fun x => (T1.disc x).isSome = true) rank
        hq hrank (A.dfa.states.length + 1) A.dfa.s [] [] [] hsd hcond.2 hs
        (fun y hy => by cases hy) (List.pairwise_singleton _ _) (by simp)
    · exact ⟨[], rfl⟩
  · have hstep : ∀ x, (T1.disc x).isSome = true → x ∈ A.dfa.states →
        ∀ b : Bool, (T1.disc (A.dfa.q x [b])).isSome = true := by
      intro x hx hxs b
      by_cases hE : exempt x
      · have hk := hex x hE
        rcases getSinkState_spec A with hsink | hnone
        · rw [hk, isSinkState_next A _ hsink b, ← hk]
          exact hx
        · rw [hk, hnone] at hxs
          exact absurd hxs hneg
      · exact hinv.explored x hx (hnin x) hE b
    have hreach : ∀ (u : List Bool) (x : Int), (T1.disc x).isSome = true → x ∈ A.dfa.states →
        (T1.disc (A.dfa.run x (u.map fun b => [b]))).isSome = true := by
      intro u
      induction u with
      | nil => intro x hx _; exact hx
      | cons b u ih =>
        intro x hx hxs
        exact ih (A.dfa.q x [b]) (hstep x hx hxs b) (hq x hxs b)
    intro u w hw hcyc
    by_contra hno
    have hall : ∀ v, v <+: w →
        T1.cycle_status (A.dfa.run (A.dfa.run A.dfa.s (u.map fun b => [b]))
          (v.map fun b => [b])) = false := by
      intro v hv
      cases h : T1.cycle_status (A.dfa.run (A.dfa.run A.dfa.s (u.map fun b => [b]))
          (v.map fun b => [b])) with
      | false => rfl
      | true => exact absurd ⟨v, hv, h⟩ hno
    have := rank_along_path A T1.cycle_status (fun x => (T1.disc x).isSome = true) rank hrank
      w _ (hreach u A.dfa.s hsd hs) hall
    rw [hcyc] at this
    have hlen : w.length = 0 := by omega
    exact hw (List.length_eq_zero.1 hlen)

theorem getConstants_terminates_witness :
    ∃ (is_cyclic : Bool) (cycle_status : Int → Bool),
      automaton_two_cycle.getCycleStatus = some (is_cyclic, cycle_status) ∧
      (∃ constants, automaton_two_cycle.getConstants cycle_status = some constants) ∧
      ∀ u w : List Bool, w ≠ [] →
        automaton_two_cycle.dfa.run
            (automaton_two_cycle.dfa.run automaton_two_cycle.dfa.s (u.map fun b => [b]))
            (w.map fun b => [b])
          = automaton_two_cycle.dfa.run automaton_two_cycle.dfa.s (u.map fun b => [b]) →
        ∃ v, v <+: w ∧
          cycle_status (automaton_two_cycle.dfa.run
            (automaton_two_cycle.dfa.run automaton_two_cycle.dfa.s (u.map fun b => [b]))
            (v.map fun b => [b])) = true :=
  getConstants_terminates automaton_two_cycle (by decide) (by decide) (by decide)

end BinaryIntAutomaton

end Theory

namespace Solver

open SMT Theory

namespace StringRelationGenerator

/-! ## The string-relation extractor -/

/-! ### Track maps -/

theorem insertVariable_same (table : TrackmapTable) (name : String) (term : Term_ptr) :
    insertVariable table name term term
      = some (trackmapStep ((table term).getD []) name) := by
  unfold insertVariable trackmapStep
  cases h : table term with
  | none =>
    simp only [Function.update_same, Option.getD_none, List.lookup, List.length_nil,
      List.nil_append, Function.update_idem]
  | some m =>
    simp only [h, Option.getD_some]
    cases hl : m.lookup name with
    | none => simp only [Function.update_same]
    | some i => simp only [h]

theorem insertVariable_other (table : TrackmapTable) (name : String) (term key : Term_ptr)
    (h : key ≠ term) : insertVariable table name term key = table key := by
  unfold insertVariable
  cases ht : table term with
  | none =>
    simp only [Function.update_same, List.lookup, Function.update_idem,
      Function.update_noteq h]
  | some m =>
    simp only [ht]
    cases hl : m.lookup name with
    | none => simp only [Function.update_noteq h]
    | some i => rfl

theorem insertAll_append (table : TrackmapTable) (c1 c2 : List (String × Term_ptr)) :
    insertAll table (c1 ++ c2) = insertAll (insertAll table c1) c2 := by
  simp [insertAll, List.foldl_append]

theorem insertAll_other (calls : List (String × Term_ptr)) (key : Term_ptr)
    (h : ∀ c ∈ calls, c.2 ≠ key) :
    ∀ table : TrackmapTable, insertAll table calls key = table key := by
  induction calls with
  | nil => intro table; rfl
  | cons c cs ih =>
    intro table
    show insertAll (insertVariable table c.1 c.2) cs key = _
    rw [ih (fun c1 h1 => h c1 (List.mem_cons_of_mem _ h1)),
      insertVariable_other _ _ _ _ (Ne.symm (h c (List.mem_cons_self _ _)))]

theorem lookup_eq_none_iff (m : VariableTrackMap) (x : String) :
    m.lookup x = none ↔ x ∉ m.map Prod.fst := by
  induction m with
  | nil => simp [List.lookup]
  | cons p m ih =>
    obtain ⟨y, i⟩ := p
    by_cases h : x = y
    · subst h
      simp [List.lookup]
    · have h1 : (x == y) = false := by simpa using h
      simp only [List.lookup, h1, ih, List.map_cons, List.mem_cons, h, false_or]

theorem lookup_append_of_mem (m l : VariableTrackMap) (x : String)
    (h : x ∈ m.map Prod.fst) : (m ++ l).lookup x = m.lookup x := by
  induction m with
  | nil => simp at h
  | cons p m ih =>
    obtain ⟨y, i⟩ := p
    by_cases hxy : x = y
    · subst hxy
      simp [List.lookup]
    · have h1 : (x == y) = false := by simpa using hxy
      simp only [List.cons_append, List.lookup, h1]
      apply ih
      simpa [hxy] using h

theorem lookup_append_new (m : VariableTrackMap) (x : String) (i : Nat)
    (h : x ∉ m.map Prod.fst) : (m ++ [(x, i)]).lookup x = some i := by
  induction m with
  | nil => simp [List.lookup]
  | cons p m ih =>
    obtain ⟨y, j⟩ := p
    have hxy : x ≠ y := by
      intro e
      apply h
      simp [e]
    have h1 : (x == y) = false := by simpa using hxy
    simp only [List.cons_append, List.lookup, h1]
    apply ih
    intro hm
    apply h
    simp [hm]

theorem trackmapStep_of_mem (m : VariableTrackMap) (x : String) (h : x ∈ m.map Prod.fst) :
    trackmapStep m x = m := by
  unfold trackmapStep
  cases hl : m.lookup x with
  | none => exact absurd h ((lookup_eq_none_iff m x).1 hl)
  | some i => rfl

theorem trackmapStep_of_not_mem (m : VariableTrackMap) (x : String)
    (h : x ∉ m.map Prod.fst) : trackmapStep m x = m ++ [(x, m.length)] := by
  unfold trackmapStep
  rw [(lookup_eq_none_iff m x).2 h]

theorem trackmapStep_keys (m : VariableTrackMap) (x y : String) :
    y ∈ (trackmapStep m x).map Prod.fst ↔ y ∈ m.map Prod.fst ∨ y = x := by
  by_cases h : x ∈ m.map Prod.fst
  · rw [trackmapStep_of_mem m x h]
    constructor
    · exact Or.inl
    · rintro (h1 | rfl)
      · exact h1
      · exact h
  · rw [trackmapStep_of_not_mem m x h]
    simp

/-- The indices of a track map are `0, ..., n - 1` in the order of the entries,
and no name occurs twice. -/
theorem trackmapStep_dense (m : VariableTrackMap) (x : String)
    (h1 : m.map Prod.snd = List.range m.length) (h2 : (m.map Prod.fst).Nodup) :
    (trackmapStep m x).map Prod.snd = List.range (trackmapStep m x).length ∧
      ((trackmapStep m x).map Prod.fst).Nodup := by
  by_cases h : x ∈ m.map Prod.fst
  · rw [trackmapStep_of_mem m x h]
    exact ⟨h1, h2⟩
  · rw [trackmapStep_of_not_mem m x h]
    constructor
    · rw [List.map_append, h1, List.length_append, List.length_singleton, List.range_succ]
      rfl
    · rw [List.map_append, List.nodup_append]
      refine ⟨h2, by simp, ?_⟩
      intro a ha hb
      simp only [List.map_cons, List.map_nil, List.mem_singleton] at hb
      exact h (hb ▸ ha)

theorem foldl_trackmapStep_dense (names : List String) :
    ∀ m : VariableTrackMap, m.map Prod.snd = List.range m.length → (m.map Prod.fst).Nodup →
      ((names.foldl trackmapStep m).map Prod.snd
          = List.range (names.foldl trackmapStep m).length ∧
        ((names.foldl trackmapStep m).map Prod.fst).Nodup) ∧
      ∀ y, y ∈ (names.foldl trackmapStep m).map Prod.fst ↔ y ∈ m.map Prod.fst ∨ y ∈ names := by
  induction names with
  | nil => intro m h1 h2; exact ⟨⟨h1, h2⟩, fun y => by simp⟩
  | cons x xs ih =>
    intro m h1 h2
    obtain ⟨d1, d2⟩ := trackmapStep_dense m x h1 h2
    obtain ⟨hd, hk⟩ := ih (trackmapStep m x) d1 d2
    refine ⟨hd, fun y => ?_⟩
    rw [List.foldl_cons, hk, trackmapStep_keys, List.mem_cons]
    tauto

theorem foldl_trackmapStep_lookup_of_mem (names : List String) :
    ∀ (m : VariableTrackMap) (x : String), x ∈ m.map Prod.fst →
      (names.foldl trackmapStep m).lookup x = m.lookup x := by
  induction names with
  | nil => intro m x _; rfl
  | cons y ys ih =>
    intro m x hx
    rw [List.foldl_cons, ih _ x ((trackmapStep_keys m y x).2 (Or.inl hx))]
    by_cases hy : y ∈ m.map Prod.fst
    · rw [trackmapStep_of_mem m y hy]
    · rw [trackmapStep_of_not_mem m y hy, lookup_append_of_mem _ _ _ hx]

theorem trackmapOf_spec (names : List String) :
    (trackmapOf names).map Prod.snd = List.range (trackmapOf names).length ∧
    ((trackmapOf names).map Prod.fst).Nodup ∧
    (∀ y, y ∈ (trackmapOf names).map Prod.fst ↔ y ∈ names) ∧
    (trackmapOf names).length = names.dedup.length := by
  obtain ⟨⟨h1, h2⟩, h3⟩ := foldl_trackmapStep_dense names [] rfl List.nodup_nil
  have h3a : ∀ y, y ∈ (trackmapOf names).map Prod.fst ↔ y ∈ names := by
    intro y
    have := h3 y
    simpa using this
  refine ⟨h1, h2, h3a, ?_⟩
  have hperm : ((trackmapOf names).map Prod.fst).Perm names.dedup := by
    apply (List.perm_ext_iff_of_nodup h2 (List.nodup_dedup names)).2
    intro a
    rw [List.mem_dedup]
    exact h3a a
  rw [← hperm.length_eq, List.length_map]

/-- The index of a name is the number of the distinct names before its first
registration. -/
theorem trackmapOf_lookup (pre post : List String) (x : String) (hx : x ∉ pre) :
    (trackmapOf (pre ++ x :: post)).lookup x = some pre.dedup.length := by
  unfold trackmapOf
  rw [List.foldl_append, List.foldl_cons]
  obtain ⟨_, _, h3, h4⟩ := trackmapOf_spec pre
  have hnot : x ∉ (trackmapOf pre).map Prod.fst := fun h => hx ((h3 x).1 h)
  change (post.foldl trackmapStep (trackmapStep (trackmapOf pre) x)).lookup x = _
  rw [foldl_trackmapStep_lookup_of_mem post _ x
    ((trackmapStep_keys _ x x).2 (Or.inr rfl)), trackmapStep_of_not_mem _ x hnot,
    lookup_append_new _ _ _ hnot, h4]

/-- The map of a term after a sequence of registrations. -/
theorem insertAll_key (calls : List (String × Term_ptr)) (key : Term_ptr) :
    ∀ table : TrackmapTable,
      insertAll table calls key =
        if ((calls.filter fun c => c.2 = key).map Prod.fst) = [] then table key
        else some (((calls.filter fun c => c.2 = key).map Prod.fst).foldl trackmapStep
          ((table key).getD [])) := by
  induction calls with
  | nil => intro table; rfl
  | cons c cs ih =>
    intro table
    show insertAll (insertVariable table c.1 c.2) cs key = _
    rw [ih]
    by_cases hc : c.2 = key
    · have hf : (List.filter (fun c => decide (c.2 = key)) (c :: cs))
          = c :: List.filter (fun c => decide (c.2 = key)) cs := by
        simp [List.filter, hc]
      rw [hf, hc, insertVariable_same]
      simp only [List.map_cons, List.foldl_cons, Option.getD_some, reduceCtorEq, if_false]
      split
      · rename_i h
        rw [h]
        rfl
      · rfl
    · have hf : (List.filter (fun c => decide (c.2 = key)) (c :: cs))
          = List.filter (fun c => decide (c.2 = key)) cs := by
        simp [List.filter, hc]
      rw [hf, insertVariable_other _ _ _ _ (Ne.symm hc)]

theorem foldl_add_string_variable_table (calls : List (Variable × Term_ptr)) :
    ∀ g : StringRelationGenerator,
      (calls.foldl (fun g c => g.add_string_variable c.1 c.2) g).term_trackmap_table_
        = insertAll g.term_trackmap_table_ (calls.map fun c => (c.1.name, c.2)) := by
  induction calls with
  | nil => intro g; rfl
  | cons c cs ih =>
    intro g
    rw [List.foldl_cons, ih]
    rfl

theorem insertVariable_idem (table : TrackmapTable) (name : String) (term : Term_ptr) :
    insertVariable (insertVariable table name term) name term = insertVariable table name term := by
  funext key
  by_cases h : key = term
  · subst h
    rw [insertVariable_same, insertVariable_same, Option.getD_some,
      trackmapStep_of_mem _ name ((trackmapStep_keys _ name name).2 (Or.inr rfl))]
  · rw [insertVariable_other _ _ _ _ h]

theorem add_string_variable_idem (g : StringRelationGenerator) (var : Variable)
    (term : Term_ptr) :
    (g.add_string_variable var term).add_string_variable var term
      = g.add_string_variable var term := by
  unfold add_string_variable
  simp only [insertVariable_idem]

/-- The map of a term in a table that grew from the empty table. -/
theorem insertAll_empty_key (calls : List (String × Term_ptr)) (key : Term_ptr)
    (trackmap : VariableTrackMap)
    (h : insertAll (fun _ => none) calls key = some trackmap) :
    trackmap = trackmapOf ((calls.filter fun c => c.2 = key).map Prod.fst) := by
  rw [insertAll_key] at h
  split at h
  · cases h
  · simp only [Option.getD_none, Option.some.injEq] at h
    exact h.symm

theorem filter_map_names (calls : List (Variable × Term_ptr)) (term : Term_ptr) :
    ((calls.map fun c => (c.1.name, c.2)).filter fun c => c.2 = term).map Prod.fst
      = (calls.filter fun c => c.2 = term).map fun c => c.1.name := by
  induction calls with
  | nil => rfl
  | cons c cs ih =>
    by_cases h : c.2 = term
    · simp [List.filter, h, ih]
    · simp [List.filter, h, ih]

/-- The variables of a table that grew from the empty table by registrations:
registering one of them again changes nothing. -/
theorem insertAll_insertVariable_of_mem (calls : List (String × Term_ptr)) (name : String)
    (term : Term_ptr) (h : (name, term) ∈ calls) :
    insertVariable (insertAll (fun _ => none) calls) name term
      = insertAll (fun _ => none) calls := by
  have hmem : name ∈ (calls.filter fun c => c.2 = term).map Prod.fst :=
    List.mem_map.2 ⟨(name, term), List.mem_filter.2 ⟨h, by simp⟩, rfl⟩
  have hne : (calls.filter fun c => c.2 = term).map Prod.fst ≠ [] :=
    List.ne_nil_of_mem hmem
  funext key
  by_cases hk : key = term
  · subst hk
    rw [insertVariable_same, insertAll_key, if_neg hne, Option.getD_some]
    congr 1
    apply trackmapStep_of_mem
    exact ((foldl_trackmapStep_dense _ [] rfl List.nodup_nil).2 name).2 (Or.inr hmem)
  · exact insertVariable_other _ _ _ _ hk

/-! ### The registrations of a walk -/

theorem walk_refl (keys : List Term_ptr) (g : StringRelationGenerator) : Walk keys g g :=
  ⟨Or.inl rfl, [], rfl, fun _ h => by cases h⟩

theorem walk_of_same (keys : List Term_ptr) (g g1 : StringRelationGenerator)
    (h1 : g1.term_trackmap_table_ = g.term_trackmap_table_)
    (h2 : g1.current_term_ = g.current_term_) : Walk keys g g1 :=
  ⟨Or.inl h2, [], h1, fun _ h => by cases h⟩

theorem walk_trans {k1 k2 : List Term_ptr} {g g1 g2 : StringRelationGenerator}
    (h1 : Walk k1 g g1) (h2 : Walk k2 g1 g2) : Walk (k1 ++ k2) g g2 := by
  obtain ⟨c1, calls1, t1, a1⟩ := h1
  obtain ⟨c2, calls2, t2, a2⟩ := h2
  refine ⟨?_, calls1 ++ calls2, ?_, ?_⟩
  · rcases c2 with c2 | c2
    · rw [c2]
      rcases c1 with c1 | c1
      · exact Or.inl c1
      · exact Or.inr (List.mem_append_left _ c1)
    · exact Or.inr (List.mem_append_right _ c2)
  · rw [t2, t1, insertAll_append]
  · intro c hc
    rcases List.mem_append.1 hc with hc | hc
    · rcases a1 c hc with h | h
      · exact Or.inl h
      · exact Or.inr (List.mem_append_left _ h)
    · rcases a2 c hc with h | h
      · rw [h]
        rcases c1 with c1 | c1
        · exact Or.inl c1
        · exact Or.inr (List.mem_append_left _ c1)
      · exact Or.inr (List.mem_append_right _ h)

theorem walk_mono {k1 k2 : List Term_ptr} {g g1 : StringRelationGenerator}
    (h : Walk k1 g g1) (hk : ∀ k ∈ k1, k ∈ k2) : Walk k2 g g1 := by
  obtain ⟨c1, calls1, t1, a1⟩ := h
  refine ⟨?_, calls1, t1, ?_⟩
  · rcases c1 with c1 | c1
    · exact Or.inl c1
    · exact Or.inr (hk _ c1)
  · intro c hc
    rcases a1 c hc with h | h
    · exact Or.inl h
    · exact Or.inr (hk _ h)

theorem walk_trans_nil {keys : List Term_ptr} {g g1 g2 : StringRelationGenerator}
    (h1 : Walk keys g g1) (h2 : Walk [] g1 g2) : Walk keys g g2 := by
  have := walk_trans h1 h2
  rwa [List.append_nil] at this

theorem walk_add_string_variable (g : StringRelationGenerator) (var : Variable) :
    Walk [] g (g.add_string_variable var g.current_term_) :=
  ⟨Or.inl rfl, [(var.name, g.current_term_)], rfl, fun c hc => by
    rw [List.mem_singleton] at hc
    rw [hc]
    exact Or.inl rfl⟩

theorem set_term_relation_spec {g g1 : StringRelationGenerator} {term : Term}
    {str_rel : Option StringRelation} (h : g.set_term_relation term str_rel = some g1) :
    g.relations_ term.id = none ∧
    g1 = { g with relations_ := Function.update g.relations_ term.id (some str_rel) } := by
  unfold set_term_relation at h
  cases hr : g.relations_ term.id with
  | none =>
    rw [hr] at h
    simp only [Option.some.injEq] at h
    exact ⟨rfl, h.symm⟩
  | some r =>
    rw [hr] at h
    cases h

theorem walk_set_term_relation {g g1 : StringRelationGenerator} {term : Term}
    {str_rel : Option StringRelation} (h : g.set_term_relation term str_rel = some g1) :
    Walk [] g g1 := by
  rw [(set_term_relation_spec h).2]
  exact walk_of_same _ _ _ rfl rfl

theorem walk_delete_term_relation (g : StringRelationGenerator) (term : Term) :
    Walk [] g (g.delete_term_relation term) := by
  unfold delete_term_relation
  cases g.get_term_relation term with
  | none => exact walk_refl _ _
  | some r => exact walk_of_same _ _ _ rfl rfl

theorem walk_reject_relation {g g1 : StringRelationGenerator} {term left_term right_term : Term}
    (h : g.reject_relation term left_term right_term = some g1) : Walk [] g g1 := by
  unfold reject_relation at h
  exact walk_trans_nil (walk_trans_nil (walk_delete_term_relation _ _)
    (walk_delete_term_relation _ _)) (walk_set_term_relation h)

theorem walk_add_relation_variable {g g1 : StringRelationGenerator}
    {relation : StringRelation} (h : g.add_relation_variable relation = some g1) :
    Walk [] g g1 := by
  unfold add_relation_variable at h
  split at h
  · split at h
    · cases h
    · simp only [Option.some.injEq] at h
      rw [← h]
      exact walk_add_string_variable _ _
  · split at h
    · split at h
      · cases h
      · split at h
        · cases h
        · simp only [Option.some.injEq] at h
          rw [← h]
          exact walk_add_string_variable _ _
    · simp only [Option.some.injEq] at h
      rw [← h]
      exact walk_refl _ _

theorem walk_accept_relation {g g1 : StringRelationGenerator} {term left_term right_term : Term}
    {type : StringRelationType} {left_relation right_relation : StringRelation}
    (h : g.accept_relation term left_term right_term type left_relation right_relation
      = some g1) : Walk [] g g1 := by
  unfold accept_relation at h
  simp only [] at h
  cases h1 : g.add_relation_variable left_relation with
  | none => rw [h1] at h; cases h
  | some ga =>
    rw [h1] at h
    simp only [] at h
    cases h2 : ga.add_relation_variable right_relation with
    | none => rw [h2] at h; cases h
    | some gb =>
      rw [h2] at h
      simp only [] at h
      exact walk_trans_nil (walk_trans_nil (walk_trans_nil (walk_trans_nil
        (walk_add_relation_variable h1) (walk_add_relation_variable h2))
        (walk_delete_term_relation _ _)) (walk_delete_term_relation _ _))
        (walk_set_term_relation h)

theorem walk_accept_begins {g g1 : StringRelationGenerator}
    {term subject_term search_term : Term}
    {type : StringRelationType} {left_relation right_relation : StringRelation}
    (h : g.accept_begins term subject_term search_term type left_relation right_relation
      = some g1) : Walk [] g g1 := by
  unfold accept_begins at h
  simp only [] at h
  cases h1 : g.symbol_table_.getVariable left_relation.get_data with
  | none => rw [h1] at h; cases h
  | some v1 =>
    rw [h1] at h
    simp only [] at h
    have hs : (g.add_string_variable v1 g.current_term_).symbol_table_ = g.symbol_table_ := rfl
    cases h2 : g.symbol_table_.getVariable right_relation.get_data with
    | none => rw [hs, h2] at h; cases h
    | some v2 =>
      rw [hs, h2] at h
      simp only [] at h
      exact walk_trans_nil (walk_trans_nil (walk_trans_nil (walk_trans_nil
        (walk_add_string_variable g v1) (walk_add_string_variable _ v2))
        (walk_delete_term_relation _ _)) (walk_delete_term_relation _ _))
        (walk_set_term_relation h)

theorem walk_visitEq {g g1 : StringRelationGenerator}
    {vc : StringRelationGenerator → Option StringRelationGenerator} {id : Nat}
    {left_term right_term : Term} (h : visitEq g vc id left_term right_term = some g1) :
    ∃ g2, vc g = some g2 ∧ Walk [] g2 g1 := by
  unfold visitEq at h
  cases hvc : vc g with
  | none => rw [hvc] at h; cases h
  | some g2 =>
    rw [hvc] at h
    refine ⟨g2, rfl, ?_⟩
    simp only [] at h
    split at h
    · split_ifs at h
      · exact walk_reject_relation h
      · exact walk_reject_relation h
      · exact walk_reject_relation h
      · exact walk_accept_relation h
    · exact walk_reject_relation h

theorem walk_visitNotEq {g g1 : StringRelationGenerator}
    {vc : StringRelationGenerator → Option StringRelationGenerator} {id : Nat}
    {left_term right_term : Term} (h : visitNotEq g vc id left_term right_term = some g1) :
    ∃ g2, vc g = some g2 ∧ Walk [] g2 g1 := by
  unfold visitNotEq at h
  cases hvc : vc g with
  | none => rw [hvc] at h; cases h
  | some g2 =>
    rw [hvc] at h
    refine ⟨g2, rfl, ?_⟩
    simp only [] at h
    split at h
    · split_ifs at h
      · exact walk_reject_relation h
      · exact walk_trans_nil (walk_delete_term_relation _ _) (walk_set_term_relation h)
      · exact walk_trans_nil (walk_delete_term_relation _ _) (walk_set_term_relation h)
      · exact walk_accept_relation h
    · exact walk_reject_relation h

theorem walk_visitGt {g g1 : StringRelationGenerator}
    {vc : StringRelationGenerator → Option StringRelationGenerator} {id : Nat}
    {left_term right_term : Term} (h : visitGt g vc id left_term right_term = some g1) :
    ∃ g2, vc g = some g2 ∧ Walk [] g2 g1 := by
  unfold visitGt at h
  cases hvc : vc g with
  | none => rw [hvc] at h; cases h
  | some g2 =>
    rw [hvc] at h
    refine ⟨g2, rfl, ?_⟩
    simp only [] at h
    split at h
    · split_ifs at h
      · exact walk_reject_relation h
      · exact walk_accept_relation h
    · exact walk_reject_relation h

theorem walk_visitGe {g g1 : StringRelationGenerator}
    {vc : StringRelationGenerator → Option StringRelationGenerator} {id : Nat}
    {left_term right_term : Term} (h : visitGe g vc id left_term right_term = some g1) :
    ∃ g2, vc g = some g2 ∧ Walk [] g2 g1 := by
  unfold visitGe at h
  cases hvc : vc g with
  | none => rw [hvc] at h; cases h
  | some g2 =>
    rw [hvc] at h
    refine ⟨g2, rfl, ?_⟩
    simp only [] at h
    split at h
    · split_ifs at h
      · exact walk_reject_relation h
      · exact walk_accept_relation h
    · exact walk_reject_relation h

theorem walk_visitLt {g g1 : StringRelationGenerator}
    {vc : StringRelationGenerator → Option StringRelationGenerator} {id : Nat}
    {left_term right_term : Term} (h : visitLt g vc id left_term right_term = some g1) :
    ∃ g2, vc g = some g2 ∧ Walk [] g2 g1 := by
  unfold visitLt at h
  cases hvc : vc g with
  | none => rw [hvc] at h; cases h
  | some g2 =>
    rw [hvc] at h
    refine ⟨g2, rfl, ?_⟩
    simp only [] at h
    split at h
    · split_ifs at h
      · exact walk_reject_relation h
      · exact walk_accept_relation h
    · exact walk_reject_relation h

theorem walk_visitLe {g g1 : StringRelationGenerator}
    {vc : StringRelationGenerator → Option StringRelationGenerator} {id : Nat}
    {left_term right_term : Term} (h : visitLe g vc id left_term right_term = some g1) :
    ∃ g2, vc g = some g2 ∧ Walk [] g2 g1 := by
  unfold visitLe at h
  cases hvc : vc g with
  | none => rw [hvc] at h; cases h
  | some g2 =>
    rw [hvc] at h
    refine ⟨g2, rfl, ?_⟩
    simp only [] at h
    split at h
    · split_ifs at h
      · exact walk_reject_relation h
      · exact walk_accept_relation h
    · exact walk_reject_relation h

theorem walk_visitBegins {g g1 : StringRelationGenerator}
    {vc : StringRelationGenerator → Option StringRelationGenerator} {id : Nat}
    {subject_term search_term : Term}
    (h : visitBegins g vc id subject_term search_term = some g1) :
    ∃ g2, vc g = some g2 ∧ Walk [] g2 g1 := by
  unfold visitBegins at h
  cases hvc : vc g with
  | none => rw [hvc] at h; cases h
  | some g2 =>
    rw [hvc] at h
    refine ⟨g2, rfl, ?_⟩
    simp only [] at h
    split at h
    · split_ifs at h
      · exact walk_reject_relation h
      · exact walk_accept_begins h
    · exact walk_reject_relation h

theorem walk_visitNotBegins {g g1 : StringRelationGenerator}
    {vc : StringRelationGenerator → Option StringRelationGenerator} {id : Nat}
    {subject_term search_term : Term}
    (h : visitNotBegins g vc id subject_term search_term = some g1) :
    ∃ g2, vc g = some g2 ∧ Walk [] g2 g1 := by
  unfold visitNotBegins at h
  cases hvc : vc g with
  | none => rw [hvc] at h; cases h
  | some g2 =>
    rw [hvc] at h
    refine ⟨g2, rfl, ?_⟩
    simp only [] at h
    split at h
    · split_ifs at h
      · exact walk_reject_relation h
      · exact walk_accept_begins h
    · exact walk_reject_relation h

theorem walk_visitQualIdentifier {g g1 : StringRelationGenerator} {id : Nat}
    {var_name : String} (h : visitQualIdentifier g id var_name = some g1) : Walk [] g g1 := by
  unfold visitQualIdentifier at h
  split at h
  · cases h
  · split at h
    · exact walk_trans_nil (walk_of_same [] g (g.set_parent_term _ g.current_term_) rfl rfl)
        (walk_set_term_relation h)
    · exact walk_set_term_relation h

theorem walk_visitTermConstant {g g1 : StringRelationGenerator} {id : Nat} {value : String}
    {value_type : PrimitiveType} (h : visitTermConstant g id value value_type = some g1) :
    Walk [] g g1 := by
  unfold visitTermConstant at h
  simp only [] at h
  split at h
  · simp only [Option.some.injEq] at h
    rw [← h]
    exact walk_refl _ _
  · split at h
    · exact walk_set_term_relation h
    · exact walk_set_term_relation h
    · exact walk_set_term_relation h

/-- The loop of `visitAnd` over the terms of the list changes `relations_`
only. -/
theorem visitAnd_loop_same (current_trackmap : Option Term_ptr) (term_list : List Term) :
    ∀ g : StringRelationGenerator,
      (term_list.foldl
        (fun (g : StringRelationGenerator) term =>
          match g.get_term_relation term with
          | some term_relation =>
            { g with
              relations_ :=
                Function.update g.relations_ term.id
                  (some (some (term_relation.set_variable_trackmap current_trackmap))) }
          | none => g) g).term_trackmap_table_ = g.term_trackmap_table_ ∧
      (term_list.foldl
        (fun (g : StringRelationGenerator) term =>
          match g.get_term_relation term with
          | some term_relation =>
            { g with
              relations_ :=
                Function.update g.relations_ term.id
                  (some (some (term_relation.set_variable_trackmap current_trackmap))) }
          | none => g) g).current_term_ = g.current_term_ := by
  induction term_list with
  | nil => intro g; exact ⟨rfl, rfl⟩
  | cons t ts ih =>
    intro g
    rw [List.foldl_cons]
    obtain ⟨h1, h2⟩ := ih (match g.get_term_relation t with
      | some term_relation =>
        { g with
          relations_ :=
            Function.update g.relations_ t.id
              (some (some (term_relation.set_variable_trackmap current_trackmap))) }
      | none => g)
    rw [h1, h2]
    cases g.get_term_relation t <;> exact ⟨rfl, rfl⟩

theorem walk_visitAnd {g g1 : StringRelationGenerator}
    {vc : StringRelationGenerator → Option StringRelationGenerator} {id : Nat}
    {term_list : List Term} (h : visitAnd g vc id term_list = some g1) :
    ∃ g2, vc { g with current_term_ := some id } = some g2 ∧
      g1.term_trackmap_table_ = g2.term_trackmap_table_ ∧
      g1.current_term_ = g2.current_term_ := by
  unfold visitAnd at h
  simp only [] at h
  cases hvc : vc { g with current_term_ := some id } with
  | none => rw [hvc] at h; cases h
  | some g2 =>
    rw [hvc] at h
    refine ⟨g2, rfl, ?_⟩
    simp only [] at h
    split_ifs at h
    · simp only [Option.some.injEq] at h
      rw [← h]
      exact ⟨rfl, rfl⟩
    · simp only [Option.some.injEq] at h
      rw [← h]
      exact visitAnd_loop_same _ term_list g2

/-- A part of the walk that starts with a new current term `key`: all its
registrations go to `key` and to the terms of `keys`. -/
theorem walk_enter {keys : List Term_ptr} {g g2 : StringRelationGenerator} {key : Term_ptr}
    (h : Walk keys { g with current_term_ := key } g2) :
    (g2.current_term_ ∈ key :: keys) ∧
    ∃ calls : List (String × Term_ptr),
      g2.term_trackmap_table_ = insertAll g.term_trackmap_table_ calls ∧
      ∀ c ∈ calls, c.2 ∈ key :: keys := by
  obtain ⟨c1, calls, t1, a1⟩ := h
  refine ⟨?_, calls, t1, ?_⟩
  · rcases c1 with c1 | c1
    · rw [c1]; exact List.mem_cons_self _ _
    · exact List.mem_cons_of_mem _ c1
  · intro c hc
    rcases a1 c hc with h | h
    · rw [h]; exact List.mem_cons_self _ _
    · exact List.mem_cons_of_mem _ h

theorem walk_of_enter {keys : List Term_ptr} {g g2 : StringRelationGenerator}
    (h : (g2.current_term_ ∈ keys) ∧
      ∃ calls : List (String × Term_ptr),
        g2.term_trackmap_table_ = insertAll g.term_trackmap_table_ calls ∧
        ∀ c ∈ calls, c.2 ∈ keys) : Walk keys g g2 := by
  obtain ⟨c1, calls, t1, a1⟩ := h
  exact ⟨Or.inr c1, calls, t1, fun c hc => Or.inr (a1 c hc)⟩

/-- The walk over a term is a sequence of registrations, each under the term
that was current before the walk or under an and- or or-term of the term. -/
theorem visit_walk (term : Term) :
    ∀ g g1 : StringRelationGenerator, visit g term = some g1 →
      Walk (componentKeys term) g g1 := by
  refine @Term.rec
    (fun term => ∀ g g1 : StringRelationGenerator, visit g term = some g1 →
      Walk (componentKeys term) g g1)
    (fun term_list => ∀ g g1 : StringRelationGenerator,
      visitList g term_list = some g1 → Walk (componentKeysList term_list) g g1)
    ?_ ?_ ?_ ?_ ?_ ?_ ?_ ?_ ?_ ?_ ?_ ?_ ?_ ?_ ?_ ?_ ?_ term
  · intro id term_list ih
    intro g g1 h
    rw [visit] at h
    obtain ⟨g2, h2, ht, hc⟩ := walk_visitAnd h
    obtain ⟨e1, calls, e2, e3⟩ := walk_enter (ih _ _ h2)
    rw [componentKeys]
    exact walk_of_enter ⟨hc ▸ e1, calls, ht ▸ e2, e3⟩
  · intro id term_list ih
    intro g g1 h
    rw [visit] at h
    rw [componentKeys]
    exact walk_of_enter (walk_enter (ih _ _ h))
  · intro id term ih
    intro g g1 h
    rw [visit] at h
    rw [componentKeys]
    exact ih _ _ h
  · intro id left_term right_term ihl ihr
    intro g g1 h
    rw [visit] at h
    obtain ⟨g2, h2, hw⟩ := walk_visitEq h
    obtain ⟨ga, ha, hb⟩ := Option.bind_eq_some.1 h2
    rw [componentKeys]
    exact walk_trans_nil (walk_trans (ihl _ _ ha) (ihr _ _ hb)) hw
  · intro id left_term right_term ihl ihr
    intro g g1 h
    rw [visit] at h
    obtain ⟨g2, h2, hw⟩ := walk_visitNotEq h
    obtain ⟨ga, ha, hb⟩ := Option.bind_eq_some.1 h2
    rw [componentKeys]
    exact walk_trans_nil (walk_trans (ihl _ _ ha) (ihr _ _ hb)) hw
  · intro id left_term right_term ihl ihr
    intro g g1 h
    rw [visit] at h
    obtain ⟨g2, h2, hw⟩ := walk_visitGt h
    obtain ⟨ga, ha, hb⟩ := Option.bind_eq_some.1 h2
    rw [componentKeys]
    exact walk_trans_nil (walk_trans (ihl _ _ ha) (ihr _ _ hb)) hw
  · intro id left_term right_term ihl ihr
    intro g g1 h
    rw [visit] at h
    obtain ⟨g2, h2, hw⟩ := walk_visitGe h
    obtain ⟨ga, ha, hb⟩ := Option.bind_eq_some.1 h2
    rw [componentKeys]
    exact walk_trans_nil (walk_trans (ihl _ _ ha) (ihr _ _ hb)) hw
  · intro id left_term right_term ihl ihr
    intro g g1 h
    rw [visit] at h
    obtain ⟨g2, h2, hw⟩ := walk_visitLt h
    obtain ⟨ga, ha, hb⟩ := Option.bind_eq_some.1 h2
    rw [componentKeys]
    exact walk_trans_nil (walk_trans (ihl _ _ ha) (ihr _ _ hb)) hw
  · intro id left_term right_term ihl ihr
    intro g g1 h
    rw [visit] at h
    obtain ⟨g2, h2, hw⟩ := walk_visitLe h
    obtain ⟨ga, ha, hb⟩ := Option.bind_eq_some.1 h2
    rw [componentKeys]
    exact walk_trans_nil (walk_trans (ihl _ _ ha) (ihr _ _ hb)) hw
  · intro id term_list _
    intro g g1 h
    rw [visit, visitConcat] at h
    simp only [Option.some.injEq] at h
    rw [← h]
    exact walk_refl _ _
  · intro id subject_term search_term ihl ihr
    intro g g1 h
    rw [visit] at h
    obtain ⟨g2, h2, hw⟩ := walk_visitBegins h
    obtain ⟨ga, ha, hb⟩ := Option.bind_eq_some.1 h2
    rw [componentKeys]
    exact walk_trans_nil (walk_trans (ihl _ _ ha) (ihr _ _ hb)) hw
  · intro id subject_term search_term ihl ihr
    intro g g1 h
    rw [visit] at h
    obtain ⟨g2, h2, hw⟩ := walk_visitNotBegins h
    obtain ⟨ga, ha, hb⟩ := Option.bind_eq_some.1 h2
    rw [componentKeys]
    exact walk_trans_nil (walk_trans (ihl _ _ ha) (ihr _ _ hb)) hw
  · intro id var_name
    intro g g1 h
    rw [visit] at h
    rw [componentKeys]
    exact walk_visitQualIdentifier h
  · intro id value value_type
    intro g g1 h
    rw [visit] at h
    rw [componentKeys]
    exact walk_visitTermConstant h
  · intro id children _
    intro g g1 h
    rw [visit] at h
    simp only [Option.some.injEq] at h
    rw [← h]
    exact walk_refl _ _
  · intro g g1 h
    rw [visitList] at h
    simp only [Option.some.injEq] at h
    rw [← h]
    exact walk_refl _ _
  · intro term rest ih1 ih2 g g1 h
    rw [visitList] at h
    obtain ⟨ga, ha, hb⟩ := Option.bind_eq_some.1 h
    rw [componentKeysList]
    exact walk_trans (ih1 _ _ ha) (ih2 _ _ hb)

theorem visitList_walk (term_list : List Term) :
    ∀ g g1 : StringRelationGenerator, visitList g term_list = some g1 →
      Walk (componentKeysList term_list) g g1 := by
  induction term_list with
  | nil =>
    intro g g1 h
    rw [visitList] at h
    simp only [Option.some.injEq] at h
    rw [← h]
    exact walk_refl _ _
  | cons term rest ih =>
    intro g g1 h
    rw [visitList] at h
    obtain ⟨ga, ha, hb⟩ := Option.bind_eq_some.1 h
    rw [componentKeysList]
    exact walk_trans (visit_walk term _ _ ha) (ih _ _ hb)

/-- The registrations of the walk over an and-term or an or-term all go to
and-terms and or-terms of the term itself. -/
theorem visit_component_walk {g g1 : StringRelationGenerator} {term : Term}
    (hterm : term.type = .AND ∨ term.type = .OR) (h : visit g term = some g1) :
    ∃ calls : List (String × Term_ptr),
      g1.term_trackmap_table_ = insertAll g.term_trackmap_table_ calls ∧
      ∀ c ∈ calls, c.2 ∈ componentKeys term := by
  cases term <;> simp [Term.type] at hterm
  · rename_i id term_list
    rw [visit] at h
    obtain ⟨g2, h2, ht, -⟩ := walk_visitAnd h
    obtain ⟨-, calls, e2, e3⟩ := walk_enter (visitList_walk _ _ _ h2)
    rw [componentKeys]
    exact ⟨calls, ht ▸ e2, e3⟩
  · rename_i id term_list
    rw [visit, visitOr] at h
    obtain ⟨-, calls, e2, e3⟩ := walk_enter (visitList_walk _ _ _ h)
    rw [componentKeys]
    exact ⟨calls, e2, e3⟩

/-- The walk over a list of and-terms and or-terms: the registrations come in
one batch for every term of the list, and a batch goes to and-terms and
or-terms of its term. -/
theorem visitList_component_batches (term_list : List Term)
    (hterms : ∀ term ∈ term_list, term.type = .AND ∨ term.type = .OR) :
    ∀ g g1 : StringRelationGenerator, visitList g term_list = some g1 →
      ∃ batches : List (List (String × Term_ptr)),
        g1.term_trackmap_table_ = insertAll g.term_trackmap_table_ batches.flatten ∧
        List.Forall₂ (fun term calls => ∀ c ∈ calls, c.2 ∈ componentKeys term)
          term_list batches := by
  induction term_list with
  | nil =>
    intro g g1 h
    rw [visitList] at h
    simp only [Option.some.injEq] at h
    rw [← h]
    exact ⟨[], rfl, List.Forall₂.nil⟩
  | cons term rest ih =>
    intro g g1 h
    rw [visitList] at h
    obtain ⟨ga, ha, hb⟩ := Option.bind_eq_some.1 h
    obtain ⟨calls, hc1, hc2⟩ := visit_component_walk (hterms term (List.mem_cons_self _ _)) ha
    obtain ⟨batches, hb1, hb2⟩ :=
      ih (fun t ht => hterms t (List.mem_cons_of_mem _ ht)) _ _ hb
    refine ⟨calls :: batches, ?_, List.Forall₂.cons hc2 hb2⟩
    rw [List.flatten_cons, insertAll_append, ← hc1, hb1]

/-- Batches of registrations that go to the keys of their terms go to different
terms when the keys of the terms of the list are pairwise distinct. -/
theorem batches_pairwise_disjoint (term_list : List Term)
    (batches : List (List (String × Term_ptr)))
    (h : List.Forall₂ (fun term calls => ∀ c ∈ calls, c.2 ∈ componentKeys term)
      term_list batches)
    (hkeys : (componentKeysList term_list).Nodup) :
    (∀ calls ∈ batches, ∀ c ∈ calls, c.2 ∈ componentKeysList term_list) ∧
    List.Pairwise (fun calls1 calls2 => ∀ c1 ∈ calls1, ∀ c2 ∈ calls2, c1.2 ≠ c2.2) batches := by
  induction h with
  | nil => exact ⟨fun _ h => (by cases h), List.Pairwise.nil⟩
  | cons hhead _ ih =>
    rename_i term calls rest batches
    rw [componentKeysList] at hkeys
    obtain ⟨ih1, ih2⟩ := ih (List.Nodup.of_append_right hkeys)
    constructor
    · intro calls1 h1 c hc
      rw [componentKeysList]
      rcases List.mem_cons.1 h1 with rfl | h1
      · exact List.mem_append_left _ (hhead c hc)
      · exact List.mem_append_right _ (ih1 calls1 h1 c hc)
    · refine List.Pairwise.cons ?_ ih2
      intro calls2 h2 c1 hc1 c2 hc2 heq
      exact List.disjoint_of_nodup_append hkeys (hhead c1 hc1) (heq ▸ ih1 calls2 h2 c2 hc2)

/-! ### Terms without an entry in `relations_` -/

theorem delete_term_relation_relations (g : StringRelationGenerator) (term : Term) (k : Nat)
    (h : g.relations_ k = none) : (g.delete_term_relation term).relations_ k = none := by
  unfold delete_term_relation
  cases g.get_term_relation term with
  | none => exact h
  | some r =>
    show Function.update g.relations_ term.id none k = none
    by_cases hk : k = term.id
    · rw [hk, Function.update_same]
    · rw [Function.update_noteq hk, h]

theorem delete_term_relation_table (g : StringRelationGenerator) (term : Term) :
    (g.delete_term_relation term).term_trackmap_table_ = g.term_trackmap_table_ := by
  unfold delete_term_relation
  cases g.get_term_relation term <;> rfl

/-- A term without an entry in `relations_` gets the relation that is set for
it; the track maps stay as they are. -/
theorem set_term_relation_fresh (g : StringRelationGenerator) (term : Term)
    (str_rel : Option StringRelation) (h : g.relations_ term.id = none) :
    ∃ g1, g.set_term_relation term str_rel = some g1 ∧
      g1.relations_ term.id = some str_rel ∧
      g1.term_trackmap_table_ = g.term_trackmap_table_ := by
  unfold set_term_relation
  rw [h]
  exact ⟨_, rfl, Function.update_same _ _ _, rfl⟩

/-- The rejection of a term without an entry in `relations_` records `nullptr`
for it and leaves the track maps as they are. -/
theorem reject_relation_fresh (g : StringRelationGenerator) (term left_term right_term : Term)
    (h : g.relations_ term.id = none) :
    ∃ g1, g.reject_relation term left_term right_term = some g1 ∧
      g1.relations_ term.id = some none ∧
      g1.term_trackmap_table_ = g.term_trackmap_table_ := by
  unfold reject_relation
  obtain ⟨g1, h1, h2, h3⟩ := set_term_relation_fresh
    ((g.delete_term_relation left_term).delete_term_relation right_term) term none
    (delete_term_relation_relations _ _ _ (delete_term_relation_relations _ _ _ h))
  exact ⟨g1, h1, h2, by rw [h3, delete_term_relation_table, delete_term_relation_table]⟩

/-- The visit of a variable or of a constant leaves the track maps as they
are. -/
theorem visit_leaf_table {g g1 : StringRelationGenerator} {term : Term}
    (hleaf : term.type = .QUALIDENTIFIER ∨ term.type = .TERMCONSTANT)
    (h : visit g term = some g1) : g1.term_trackmap_table_ = g.term_trackmap_table_ := by
  cases term <;> simp [Term.type] at hleaf
  · rw [visit, visitQualIdentifier] at h
    split at h
    · cases h
    · split at h
      · unfold set_term_relation at h
        split at h
        · cases h
        · simp only [Option.some.injEq] at h
          rw [← h]
          rfl
      · unfold set_term_relation at h
        split at h
        · cases h
        · simp only [Option.some.injEq] at h
          rw [← h]
  · rw [visit] at h
    unfold visitTermConstant at h
    simp only [] at h
    split at h
    · simp only [Option.some.injEq] at h
      rw [h]
    · split at h <;>
      · unfold set_term_relation at h
        split at h
        · cases h
        · simp only [Option.some.injEq] at h
          rw [← h]

/-! ### The walk over a flat component -/

theorem flatStep_refl (ids : List Nat) (g : StringRelationGenerator) : FlatStep ids [] g g :=
  ⟨rfl, rfl, fun _ _ => rfl, rfl⟩

theorem flatStep_trans (ids : List Nat) {ids1 ids2 : List Nat} {names1 names2 : List String}
    {g g1 g2 : StringRelationGenerator} (h1 : FlatStep ids1 names1 g g1)
    (h2 : FlatStep ids2 names2 g1 g2) (hs1 : ∀ k ∈ ids1, k ∈ ids) (hs2 : ∀ k ∈ ids2, k ∈ ids) :
    FlatStep ids (names1 ++ names2) g g2 := by
  obtain ⟨a1, b1, c1, d1⟩ := h1
  obtain ⟨a2, b2, c2, d2⟩ := h2
  refine ⟨a2.trans a1, b2.trans b1, ?_, ?_⟩
  · intro k hk
    rw [c2 k (fun h => hk (hs2 k h)), c1 k (fun h => hk (hs1 k h))]
  · rw [d2, d1, b1, List.map_append, insertAll_append]

theorem getVariable_name {symbol_table : SymbolTable} {name : String} {var : Variable}
    (h : symbol_table.getVariable name = some var) : var.name = name := by
  unfold SymbolTable.getVariable at h
  have := List.find?_some h
  simpa using this

theorem get_term_relation_of_relations (g : StringRelationGenerator) (term : Term)
    (h : g.relations_ term.id = none) : g.get_term_relation term = none := by
  unfold get_term_relation
  rw [h]

theorem get_term_relation_congr (g g1 : StringRelationGenerator) (term : Term)
    (h : g1.relations_ term.id = g.relations_ term.id) :
    g1.get_term_relation term = g.get_term_relation term := by
  unfold get_term_relation
  rw [h]

/-- The storing of a relation for a term without an entry. -/
theorem set_term_relation_flat (g : StringRelationGenerator) (term : Term)
    (str_rel : Option StringRelation) (h : g.relations_ term.id = none) :
    ∃ g1, g.set_term_relation term str_rel = some g1 ∧ FlatStep [term.id] [] g g1 ∧
      g1.get_term_relation term = str_rel := by
  unfold set_term_relation
  rw [h]
  refine ⟨_, rfl, ⟨rfl, rfl, ?_, rfl⟩, ?_⟩
  · intro k hk
    exact Function.update_noteq (fun e => hk (by rw [e]; exact List.mem_singleton_self _)) _ _
  · unfold get_term_relation
    simp only [Function.update_same]

theorem delete_term_relation_flat (g : StringRelationGenerator) (term : Term) :
    FlatStep [term.id] [] g (g.delete_term_relation term) := by
  unfold delete_term_relation
  cases g.get_term_relation term with
  | none => exact flatStep_refl _ _
  | some r =>
    refine ⟨rfl, rfl, ?_, rfl⟩
    intro k hk
    exact Function.update_noteq (fun e => hk (by rw [e]; exact List.mem_singleton_self _)) _ _

/-- The visit of a flat operand without an entry in `relations_`. -/
theorem visit_flat_operand (symbol_table : SymbolTable) (g : StringRelationGenerator)
    (term : Term) (hflat : isFlatOperand symbol_table term = true)
    (hst : g.symbol_table_ = symbol_table) (hfresh : g.relations_ term.id = none) :
    ∃ g1, visit g term = some g1 ∧ FlatStep [term.id] [] g g1 ∧
      g1.get_term_relation term = leafRelation symbol_table term := by
  cases term <;> simp only [isFlatOperand, Bool.false_eq_true] at hflat
  · rw [visit, visitConcat]
    exact ⟨g, rfl, flatStep_refl _ _, get_term_relation_of_relations _ _ hfresh⟩
  · rename_i id var_name
    obtain ⟨var, hvar⟩ := Option.isSome_iff_exists.1 hflat
    rw [visit, visitQualIdentifier, hst, hvar]
    simp only [leafRelation, hvar]
    cases hty : var.type
    · exact set_term_relation_flat g _ none hfresh
    · exact set_term_relation_flat g _ none hfresh
    · obtain ⟨g1, h1, h2, h3⟩ := set_term_relation_flat
        (g.set_parent_term var g.current_term_) (.QualIdentifier id var_name)
        (some (StringRelation.leaf .STRING_VAR var.name)) hfresh
      exact ⟨g1, h1, h2, h3⟩
  · rename_i id value value_type
    rw [visit]
    unfold visitTermConstant
    simp only [get_term_relation_of_relations _ _ hfresh, leafRelation]
    cases value_type
    · exact set_term_relation_flat g _ _ hfresh
    · exact set_term_relation_flat g _ _ hfresh
    · exact set_term_relation_flat g _ _ hfresh
  · rw [visit]
    exact ⟨g, rfl, flatStep_refl _ _, get_term_relation_of_relations _ _ hfresh⟩

/-- The visits of the two flat operands of a constraint. -/
theorem visit_flat_operands (symbol_table : SymbolTable) (g : StringRelationGenerator)
    (id : Nat) (left_term right_term : Term)
    (hleft : isFlatOperand symbol_table left_term = true)
    (hright : isFlatOperand symbol_table right_term = true)
    (hst : g.symbol_table_ = symbol_table)
    (hfresh : ∀ k ∈ [id, left_term.id, right_term.id], g.relations_ k = none)
    (hids : [id, left_term.id, right_term.id].Nodup) :
    ∃ g2, (visit g left_term).bind (fun g => visit g right_term) = some g2 ∧
      FlatStep [id, left_term.id, right_term.id] [] g g2 ∧
      g2.get_term_relation left_term = leafRelation symbol_table left_term ∧
      g2.get_term_relation right_term = leafRelation symbol_table right_term ∧
      g2.relations_ id = none := by
  have hne1 : id ≠ left_term.id := by
    intro e; rw [e] at hids; simp at hids
  have hne2 : id ≠ right_term.id := by
    intro e; rw [e] at hids; simp at hids
  have hne3 : left_term.id ≠ right_term.id := by
    intro e; rw [e] at hids; simp at hids
  obtain ⟨ga, ha1, ha2, ha3⟩ := visit_flat_operand symbol_table g left_term hleft hst
    (hfresh _ (by simp))
  have hga : ga.relations_ right_term.id = none := by
    rw [ha2.2.2.1 _ (by simpa using hne3.symm)]
    exact hfresh _ (by simp)
  obtain ⟨gb, hb1, hb2, hb3⟩ := visit_flat_operand symbol_table ga right_term hright
    (ha2.1.trans hst) hga
  refine ⟨gb, ?_, ?_, ?_, hb3, ?_⟩
  · rw [ha1]
    exact hb1
  · exact flatStep_trans _ ha2 hb2 (by simp) (by simp)
  · rw [get_term_relation_congr ga gb left_term (hb2.2.2.1 _ (by simpa using hne3)), ha3]
  · rw [hb2.2.2.1 _ (by simpa using hne2), ha2.2.2.1 _ (by simpa using hne1)]
    exact hfresh _ (by simp)

theorem reject_relation_flat (g : StringRelationGenerator) (term left_term right_term : Term)
    (h : g.relations_ term.id = none) :
    ∃ g1, g.reject_relation term left_term right_term = some g1 ∧
      FlatStep [term.id, left_term.id, right_term.id] [] g g1 ∧
      g1.get_term_relation term = none := by
  unfold reject_relation
  obtain ⟨g1, h1, h2, h3⟩ := set_term_relation_flat
    ((g.delete_term_relation left_term).delete_term_relation right_term) term none
    (delete_term_relation_relations _ _ _ (delete_term_relation_relations _ _ _ h))
  refine ⟨g1, h1, ?_, h3⟩
  exact flatStep_trans _ (flatStep_trans [term.id, left_term.id, right_term.id]
    (delete_term_relation_flat g left_term) (delete_term_relation_flat _ right_term)
    (by simp) (by simp)) h2 (by simp) (by simp)

theorem delete_set_flat (g : StringRelationGenerator) (term operand left_term right_term : Term)
    (h : g.relations_ term.id = none) (hop : operand.id = left_term.id ∨ operand.id = right_term.id) :
    ∃ g1, (g.delete_term_relation operand).set_term_relation term none = some g1 ∧
      FlatStep [term.id, left_term.id, right_term.id] [] g g1 ∧
      g1.get_term_relation term = none := by
  obtain ⟨g1, h1, h2, h3⟩ := set_term_relation_flat (g.delete_term_relation operand) term none
    (delete_term_relation_relations _ _ _ h)
  refine ⟨g1, h1, ?_, h3⟩
  refine flatStep_trans [term.id, left_term.id, right_term.id]
    (delete_term_relation_flat g operand) h2 ?_ (by simp)
  intro k hk
  rw [List.mem_singleton] at hk
  rcases hop with e | e
  · rw [hk, e]; simp
  · rw [hk, e]; simp

/-- The block that adds the variable of an operand, for the relation of a flat
operand: a string variable is registered under the current term. -/
theorem add_relation_variable_flat (symbol_table : SymbolTable) (g : StringRelationGenerator)
    (term : Term) (relation : StringRelation)
    (hflat : isFlatOperand symbol_table term = true) (hst : g.symbol_table_ = symbol_table)
    (hrel : leafRelation symbol_table term = some relation) :
    ∃ g1, g.add_relation_variable relation = some g1 ∧
      FlatStep [] (stringVariableOf symbol_table term).toList g g1 := by
  cases term <;> simp only [isFlatOperand, Bool.false_eq_true] at hflat
  · simp [leafRelation] at hrel
  · rename_i id var_name
    obtain ⟨var, hvar⟩ := Option.isSome_iff_exists.1 hflat
    simp only [leafRelation, hvar] at hrel
    have hname := getVariable_name hvar
    cases hty : var.type <;> rw [hty] at hrel <;> simp only [Option.some.injEq] at hrel
    · cases hrel
    · cases hrel
    · subst hrel
      refine ⟨g.add_string_variable var g.current_term_, ?_, ?_⟩
      · unfold add_relation_variable
        simp only [StringRelation.leaf, StringRelation.get_type, StringRelation.get_data,
          if_true, hst, hname, hvar]
      · refine ⟨rfl, rfl, fun _ _ => rfl, ?_⟩
        simp only [stringVariableOf, hvar, hty, if_true, Option.toList, List.map_cons,
          List.map_nil]
        rfl
  · rename_i id value value_type
    refine ⟨g, ?_, flatStep_refl _ _⟩
    cases value_type <;> simp only [leafRelation, Option.some.injEq] at hrel
    · subst hrel
      unfold add_relation_variable
      simp [StringRelation.leaf, StringRelation.get_type]
    · subst hrel
      unfold add_relation_variable
      simp [StringRelation.leaf, StringRelation.get_type]
    · cases hrel
  · simp [leafRelation] at hrel

theorem accept_relation_flat (symbol_table : SymbolTable) (g : StringRelationGenerator)
    (term left_term right_term : Term) (type : StringRelationType)
    (left_relation right_relation : StringRelation)
    (hleft : isFlatOperand symbol_table left_term = true)
    (hright : isFlatOperand symbol_table right_term = true)
    (hst : g.symbol_table_ = symbol_table)
    (hl : leafRelation symbol_table left_term = some left_relation)
    (hr : leafRelation symbol_table right_term = some right_relation)
    (h : g.relations_ term.id = none) :
    ∃ g1, g.accept_relation term left_term right_term type left_relation right_relation
        = some g1 ∧
      FlatStep [term.id, left_term.id, right_term.id]
        ((stringVariableOf symbol_table left_term).toList
          ++ (stringVariableOf symbol_table right_term).toList) g g1 ∧
      (g1.get_term_relation term).isSome = true := by
  obtain ⟨ga, ha1, ha2⟩ := add_relation_variable_flat symbol_table g left_term left_relation
    hleft hst hl
  obtain ⟨gb, hb1, hb2⟩ := add_relation_variable_flat symbol_table ga right_term right_relation
    hright (ha2.1.trans hst) hr
  have hgb : gb.relations_ term.id = none := by
    rw [hb2.2.2.1 _ (List.not_mem_nil _), ha2.2.2.1 _ (List.not_mem_nil _)]
    exact h
  obtain ⟨g1, h1, h2, h3⟩ := set_term_relation_flat
    ((gb.delete_term_relation left_term).delete_term_relation right_term) term
    (some (.mk type (some left_relation) (some right_relation) "" none))
    (delete_term_relation_relations _ _ _ (delete_term_relation_relations _ _ _ hgb))
  refine ⟨g1, ?_, ?_, ?_⟩
  · unfold accept_relation
    simp only [ha1, hb1]
    exact h1
  · have hab := flatStep_trans [term.id, left_term.id, right_term.id] ha2 hb2
      (by simp) (by simp)
    have hdel := flatStep_trans [term.id, left_term.id, right_term.id]
      (delete_term_relation_flat gb left_term) (delete_term_relation_flat _ right_term)
      (by simp) (by simp)
    have := flatStep_trans [term.id, left_term.id, right_term.id]
      (flatStep_trans _ hab hdel (fun _ h => h) (fun _ h => h)) h2 (fun _ h => h) (by simp)
    simpa using this
  · rw [h3]
    rfl

theorem isFlatOperand_of_declared {symbol_table : SymbolTable} {term : Term}
    (h : isDeclaredVariable symbol_table term = true) :
    isFlatOperand symbol_table term = true ∧ term.type = .QUALIDENTIFIER := by
  cases term <;> simp only [isDeclaredVariable, Bool.false_eq_true] at h
  exact ⟨h, rfl⟩

/-- The relation of a declared variable is the leaf of a string variable, and
its payload is the name under which the variable is found. -/
theorem leafRelation_of_declared {symbol_table : SymbolTable} {term : Term}
    {relation : StringRelation} (h : isDeclaredVariable symbol_table term = true)
    (hrel : leafRelation symbol_table term = some relation) :
    ∃ var, symbol_table.getVariable relation.get_data = some var ∧
      stringVariableOf symbol_table term = some var.name := by
  cases term <;> simp only [isDeclaredVariable, Bool.false_eq_true] at h
  rename_i id var_name
  obtain ⟨var, hvar⟩ := Option.isSome_iff_exists.1 h
  simp only [leafRelation, hvar] at hrel
  have hname := getVariable_name hvar
  cases hty : var.type <;> rw [hty] at hrel <;> simp only [Option.some.injEq] at hrel
  · cases hrel
  · cases hrel
  · subst hrel
    refine ⟨var, ?_, ?_⟩
    · simp only [StringRelation.leaf, StringRelation.get_data, hname, hvar]
    · simp only [stringVariableOf, hvar, hty, if_true]

theorem accept_begins_flat (symbol_table : SymbolTable) (g : StringRelationGenerator)
    (term subject_term search_term : Term) (type : StringRelationType)
    (left_relation right_relation : StringRelation)
    (hleft : isDeclaredVariable symbol_table subject_term = true)
    (hright : isDeclaredVariable symbol_table search_term = true)
    (hst : g.symbol_table_ = symbol_table)
    (hl : leafRelation symbol_table subject_term = some left_relation)
    (hr : leafRelation symbol_table search_term = some right_relation)
    (h : g.relations_ term.id = none) :
    ∃ g1, g.accept_begins term subject_term search_term type left_relation right_relation
        = some g1 ∧
      FlatStep [term.id, subject_term.id, search_term.id]
        ((stringVariableOf symbol_table subject_term).toList
          ++ (stringVariableOf symbol_table search_term).toList) g g1 ∧
      (g1.get_term_relation term).isSome = true := by
  obtain ⟨v1, hv1, hn1⟩ := leafRelation_of_declared hleft hl
  obtain ⟨v2, hv2, hn2⟩ := leafRelation_of_declared hright hr
  have ha2 : FlatStep [] [v1.name] g (g.add_string_variable v1 g.current_term_) :=
    ⟨rfl, rfl, fun _ _ => rfl, rfl⟩
  have hb2 : FlatStep [] [v2.name] (g.add_string_variable v1 g.current_term_)
      ((g.add_string_variable v1 g.current_term_).add_string_variable v2 g.current_term_) :=
    ⟨rfl, rfl, fun _ _ => rfl, rfl⟩
  obtain ⟨g1, h1, h2, h3⟩ := set_term_relation_flat
    ((((g.add_string_variable v1 g.current_term_).add_string_variable v2
      g.current_term_).delete_term_relation subject_term).delete_term_relation search_term) term
    (some (.mk type (some left_relation) (some right_relation) "" none))
    (delete_term_relation_relations _ _ _ (delete_term_relation_relations _ _ _ h))
  refine ⟨g1, ?_, ?_, ?_⟩
  · unfold accept_begins
    have hst2 : (g.add_string_variable v1 g.current_term_).symbol_table_ = symbol_table := hst
    simp only [hst, hv1, hst2, hv2]
    exact h1
  · have hab := flatStep_trans [term.id, subject_term.id, search_term.id] ha2 hb2
      (by simp) (by simp)
    have hdel := flatStep_trans [term.id, subject_term.id, search_term.id]
      (delete_term_relation_flat
        ((g.add_string_variable v1 g.current_term_).add_string_variable v2 g.current_term_)
        subject_term)
      (delete_term_relation_flat _ search_term) (by simp) (by simp)
    have := flatStep_trans [term.id, subject_term.id, search_term.id]
      (flatStep_trans _ hab hdel (fun _ h => h) (fun _ h => h)) h2 (fun _ h => h) (by simp)
    rw [hn1, hn2]
    simpa using this
  · rw [h3]
    rfl

/-- The end of the visit of a flat constraint, from the state `g2` that the
visits of the operands leave: the result of the visitor is a step that
registers the string variables of the operands when the constraint gets a
relation and registers nothing when it gets `nullptr`. -/
theorem flat_constraint_result (symbol_table : SymbolTable)
    (g g2 : StringRelationGenerator) (constraint left_term right_term : Term)
    (result : Option StringRelationGenerator)
    (hops : operands constraint = [left_term, right_term])
    (hchildren : FlatStep [constraint.id, left_term.id, right_term.id] [] g g2)
    (hresult : (∃ g1, result = some g1 ∧
        FlatStep [constraint.id, left_term.id, right_term.id] [] g2 g1 ∧
        g1.get_term_relation constraint = none) ∨
      (∃ g1, result = some g1 ∧
        FlatStep [constraint.id, left_term.id, right_term.id]
          ((stringVariableOf symbol_table left_term).toList
            ++ (stringVariableOf symbol_table right_term).toList) g2 g1 ∧
        (g1.get_term_relation constraint).isSome = true)) :
    ∃ g1, result = some g1 ∧
      FlatStep (visitedIds constraint)
        (if (g1.get_term_relation constraint).isSome then
          operandVariables symbol_table constraint else []) g g1 := by
  have hids : visitedIds constraint = [constraint.id, left_term.id, right_term.id] := by
    simp only [visitedIds, hops, List.map_cons, List.map_nil]
  have hvars : operandVariables symbol_table constraint
      = (stringVariableOf symbol_table left_term).toList
        ++ (stringVariableOf symbol_table right_term).toList := by
    simp only [operandVariables, hops]
    cases hl : stringVariableOf symbol_table left_term <;>
      cases hr : stringVariableOf symbol_table right_term <;>
      simp [List.filterMap_cons, hl, hr]
  rw [hids, hvars]
  rcases hresult with ⟨g1, h1, h2, h3⟩ | ⟨g1, h1, h2, h3⟩
  · refine ⟨g1, h1, ?_⟩
    rw [h3]
    exact flatStep_trans _ hchildren h2 (fun _ h => h) (fun _ h => h)
  · refine ⟨g1, h1, ?_⟩
    rw [h3, if_pos rfl]
    have := flatStep_trans [constraint.id, left_term.id, right_term.id] hchildren h2
      (fun _ h => h) (fun _ h => h)
    rwa [List.nil_append] at this

/-- The visit of a flat constraint whose terms have no entries in `relations_`
returns; the string variables of the operands are registered under the current
term when the constraint gets a relation, and nothing is registered when it
gets `nullptr`. -/
theorem visit_flat_constraint (symbol_table : SymbolTable) (g : StringRelationGenerator)
    (constraint : Term) (hflat : isFlatConstraint symbol_table constraint = true)
    (hst : g.symbol_table_ = symbol_table)
    (hfresh : ∀ k ∈ visitedIds constraint, g.relations_ k = none)
    (hids : (visitedIds constraint).Nodup) :
    ∃ g1, visit g constraint = some g1 ∧
      FlatStep (visitedIds constraint)
        (if (g1.get_term_relation constraint).isSome then
          operandVariables symbol_table constraint else []) g g1 := by
  cases constraint <;>
    simp only [isFlatConstraint, Bool.false_eq_true, Bool.and_eq_true] at hflat
  · rename_i id left_term right_term
    obtain ⟨hleft, hright⟩ := hflat
    obtain ⟨g2, hc, hstep, hl, hr, hid⟩ := visit_flat_operands symbol_table g id left_term
      right_term hleft hright hst hfresh hids
    apply flat_constraint_result symbol_table g g2 (.Eq id left_term right_term) left_term
      right_term _ rfl hstep
    rw [visit, visitEq, hc]
    have hrej := reject_relation_flat g2 (.Eq id left_term right_term) left_term right_term
      hid
    cases hL : leafRelation symbol_table left_term with
    | none =>
      simp only [hl, hr, hL]
      exact Or.inl hrej
    | some left_relation =>
      cases hR : leafRelation symbol_table right_term with
      | none =>
        simp only [hl, hr, hL, hR]
        exact Or.inl hrej
      | some right_relation =>
        simp only [hl, hr, hL, hR]
        split_ifs
        · exact Or.inl hrej
        · exact Or.inl hrej
        · exact Or.inl hrej
        · exact Or.inr (accept_relation_flat symbol_table g2 _ left_term right_term .EQ
            left_relation right_relation hleft hright (hstep.1.trans hst) hL hR hid)
  · rename_i id left_term right_term
    obtain ⟨hleft, hright⟩ := hflat
    obtain ⟨g2, hc, hstep, hl, hr, hid⟩ := visit_flat_operands symbol_table g id left_term
      right_term hleft hright hst hfresh hids
    apply flat_constraint_result symbol_table g g2 (.NotEq id left_term right_term) left_term
      right_term _ rfl hstep
    rw [visit, visitNotEq, hc]
    have hrej := reject_relation_flat g2 (.NotEq id left_term right_term) left_term right_term
      hid
    cases hL : leafRelation symbol_table left_term with
    | none =>
      simp only [hl, hr, hL]
      exact Or.inl hrej
    | some left_relation =>
      cases hR : leafRelation symbol_table right_term with
      | none =>
        simp only [hl, hr, hL, hR]
        exact Or.inl hrej
      | some right_relation =>
        simp only [hl, hr, hL, hR]
        split_ifs
        · exact Or.inl hrej
        · exact Or.inl (delete_set_flat g2 (.NotEq id left_term right_term) left_term left_term
            right_term hid (Or.inl rfl))
        · exact Or.inl (delete_set_flat g2 (.NotEq id left_term right_term) right_term left_term
            right_term hid (Or.inr rfl))
        · exact Or.inr (accept_relation_flat symbol_table g2 _ left_term right_term .NOTEQ
            left_relation right_relation hleft hright (hstep.1.trans hst) hL hR hid)
  · rename_i id left_term right_term
    obtain ⟨hleft, hright⟩ := hflat
    obtain ⟨g2, hc, hstep, hl, hr, hid⟩ := visit_flat_operands symbol_table g id left_term
      right_term hleft hright hst hfresh hids
    apply flat_constraint_result symbol_table g g2 (.Gt id left_term right_term) left_term
      right_term _ rfl hstep
    rw [visit, visitGt, hc]
    have hrej := reject_relation_flat g2 (.Gt id left_term right_term) left_term right_term
      hid
    cases hL : leafRelation symbol_table left_term with
    | none =>
      simp only [hl, hr, hL]
      exact Or.inl hrej
    | some left_relation =>
      cases hR : leafRelation symbol_table right_term with
      | none =>
        simp only [hl, hr, hL, hR]
        exact Or.inl hrej
      | some right_relation =>
        simp only [hl, hr, hL, hR]
        split_ifs
        · exact Or.inl hrej
        · exact Or.inr (accept_relation_flat symbol_table g2 _ left_term right_term .GT
            left_relation right_relation hleft hright (hstep.1.trans hst) hL hR hid)
  · rename_i id left_term right_term
    obtain ⟨hleft, hright⟩ := hflat
    obtain ⟨g2, hc, hstep, hl, hr, hid⟩ := visit_flat_operands symbol_table g id left_term
      right_term hleft hright hst hfresh hids
    apply flat_constraint_result symbol_table g g2 (.Ge id left_term right_term) left_term
      right_term _ rfl hstep
    rw [visit, visitGe, hc]
    have hrej := reject_relation_flat g2 (.Ge id left_term right_term) left_term right_term
      hid
    cases hL : leafRelation symbol_table left_term with
    | none =>
      simp only [hl, hr, hL]
      exact Or.inl hrej
    | some left_relation =>
      cases hR : leafRelation symbol_table right_term with
      | none =>
        simp only [hl, hr, hL, hR]
        exact Or.inl hrej
      | some right_relation =>
        simp only [hl, hr, hL, hR]
        split_ifs
        · exact Or.inl hrej
        · exact Or.inr (accept_relation_flat symbol_table g2 _ left_term right_term .GE
            left_relation right_relation hleft hright (hstep.1.trans hst) hL hR hid)
  · rename_i id left_term right_term
    obtain ⟨hleft, hright⟩ := hflat
    obtain ⟨g2, hc, hstep, hl, hr, hid⟩ := visit_flat_operands symbol_table g id left_term
      right_term hleft hright hst hfresh hids
    apply flat_constraint_result symbol_table g g2 (.Lt id left_term right_term) left_term
      right_term _ rfl hstep
    rw [visit, visitLt, hc]
    have hrej := reject_relation_flat g2 (.Lt id left_term right_term) left_term right_term
      hid
    cases hL : leafRelation symbol_table left_term with
    | none =>
      simp only [hl, hr, hL]
      exact Or.inl hrej
    | some left_relation =>
      cases hR : leafRelation symbol_table right_term with
      | none =>
        simp only [hl, hr, hL, hR]
        exact Or.inl hrej
      | some right_relation =>
        simp only [hl, hr, hL, hR]
        split_ifs
        · exact Or.inl hrej
        · exact Or.inr (accept_relation_flat symbol_table g2 _ left_term right_term .LT
            left_relation right_relation hleft hright (hstep.1.trans hst) hL hR hid)
  · rename_i id left_term right_term
    obtain ⟨hleft, hright⟩ := hflat
    obtain ⟨g2, hc, hstep, hl, hr, hid⟩ := visit_flat_operands symbol_table g id left_term
      right_term hleft hright hst hfresh hids
    apply flat_constraint_result symbol_table g g2 (.Le id left_term right_term) left_term
      right_term _ rfl hstep
    rw [visit, visitLe, hc]
    have hrej := reject_relation_flat g2 (.Le id left_term right_term) left_term right_term
      hid
    cases hL : leafRelation symbol_table left_term with
    | none =>
      simp only [hl, hr, hL]
      exact Or.inl hrej
    | some left_relation =>
      cases hR : leafRelation symbol_table right_term with
      | none =>
        simp only [hl, hr, hL, hR]
        exact Or.inl hrej
      | some right_relation =>
        simp only [hl, hr, hL, hR]
        split_ifs
        · exact Or.inl hrej
        · exact Or.inr (accept_relation_flat symbol_table g2 _ left_term right_term .LE
            left_relation right_relation hleft hright (hstep.1.trans hst) hL hR hid)
  · rename_i id left_term right_term
    obtain ⟨hleft, hright⟩ := hflat
    have hleft1 := (isFlatOperand_of_declared hleft).1
    have hright1 := (isFlatOperand_of_declared hright).1
    have hqi := (isFlatOperand_of_declared hleft).2
    obtain ⟨g2, hc, hstep, hl, hr, hid⟩ := visit_flat_operands symbol_table g id left_term
      right_term hleft1 hright1 hst hfresh hids
    apply flat_constraint_result symbol_table g g2 (.Begins id left_term right_term) left_term
      right_term _ rfl hstep
    rw [visit, visitBegins, hc]
    have hrej := reject_relation_flat g2 (.Begins id left_term right_term) left_term right_term
      hid
    cases hL : leafRelation symbol_table left_term with
    | none =>
      simp only [hl, hr, hL]
      exact Or.inl hrej
    | some left_relation =>
      cases hR : leafRelation symbol_table right_term with
      | none =>
        simp only [hl, hr, hL, hR]
        exact Or.inl hrej
      | some right_relation =>
        simp only [hl, hr, hL, hR]
        rw [if_neg (fun h => h.1 hqi)]
        exact Or.inr (accept_begins_flat symbol_table g2 _ left_term right_term .BEGINS
          left_relation right_relation hleft hright (hstep.1.trans hst) hL hR hid)
  · rename_i id left_term right_term
    obtain ⟨hleft, hright⟩ := hflat
    have hleft1 := (isFlatOperand_of_declared hleft).1
    have hright1 := (isFlatOperand_of_declared hright).1
    have hqi := (isFlatOperand_of_declared hleft).2
    obtain ⟨g2, hc, hstep, hl, hr, hid⟩ := visit_flat_operands symbol_table g id left_term
      right_term hleft1 hright1 hst hfresh hids
    apply flat_constraint_result symbol_table g g2 (.NotBegins id left_term right_term) left_term
      right_term _ rfl hstep
    rw [visit, visitNotBegins, hc]
    have hrej := reject_relation_flat g2 (.NotBegins id left_term right_term) left_term right_term
      hid
    cases hL : leafRelation symbol_table left_term with
    | none =>
      simp only [hl, hr, hL]
      exact Or.inl hrej
    | some left_relation =>
      cases hR : leafRelation symbol_table right_term with
      | none =>
        simp only [hl, hr, hL, hR]
        exact Or.inl hrej
      | some right_relation =>
        simp only [hl, hr, hL, hR]
        rw [if_neg (fun h => h.1 hqi)]
        exact Or.inr (accept_begins_flat symbol_table g2 _ left_term right_term .NOTBEGINS
          left_relation right_relation hleft hright (hstep.1.trans hst) hL hR hid)

theorem relationalVariables_cons (symbol_table : SymbolTable) (g : StringRelationGenerator)
    (term : Term) (rest : List Term) :
    relationalVariables symbol_table g (term :: rest)
      = (if (g.get_term_relation term).isSome then operandVariables symbol_table term else [])
        ++ relationalVariables symbol_table g rest := by
  unfold relationalVariables
  cases h : (g.get_term_relation term).isSome
  · rw [List.filter_cons_of_neg (by simp [h])]
    simp
  · rw [List.filter_cons_of_pos (by simp [h])]
    simp

theorem relationalVariables_congr (symbol_table : SymbolTable) (g g1 : StringRelationGenerator)
    (term_list : List Term)
    (h : ∀ term ∈ term_list,
      (g1.get_term_relation term).isSome = (g.get_term_relation term).isSome) :
    relationalVariables symbol_table g1 term_list
      = relationalVariables symbol_table g term_list := by
  induction term_list with
  | nil => rfl
  | cons term rest ih =>
    rw [relationalVariables_cons, relationalVariables_cons, h term (List.mem_cons_self _ _),
      ih (fun t ht => h t (List.mem_cons_of_mem _ ht))]

/-- The walk over a list of flat constraints whose terms have pairwise distinct
identities and no entries in `relations_`. -/
theorem visitList_flat (symbol_table : SymbolTable) (term_list : List Term)
    (hflat : ∀ term ∈ term_list, isFlatConstraint symbol_table term = true)
    (hids : (term_list.flatMap visitedIds).Nodup) :
    ∀ g : StringRelationGenerator, g.symbol_table_ = symbol_table →
      (∀ k ∈ term_list.flatMap visitedIds, g.relations_ k = none) →
      ∃ g1, visitList g term_list = some g1 ∧
        FlatStep (term_list.flatMap visitedIds)
          (relationalVariables symbol_table g1 term_list) g g1 := by
  induction term_list with
  | nil =>
    intro g _ _
    exact ⟨g, by rw [visitList], flatStep_refl _ _⟩
  | cons term rest ih =>
    intro g hst hfresh
    rw [List.flatMap_cons] at hids hfresh
    obtain ⟨ga, ha1, ha2⟩ := visit_flat_constraint symbol_table g term
      (hflat term (List.mem_cons_self _ _)) hst
      (fun k hk => hfresh k (List.mem_append_left _ hk)) (List.Nodup.of_append_left hids)
    have hga : ∀ k ∈ rest.flatMap visitedIds, ga.relations_ k = none := by
      intro k hk
      rw [ha2.2.2.1 k (fun h => List.disjoint_of_nodup_append hids h hk)]
      exact hfresh k (List.mem_append_right _ hk)
    obtain ⟨g1, hb1, hb2⟩ := ih (fun t ht => hflat t (List.mem_cons_of_mem _ ht))
      (List.Nodup.of_append_right hids) ga (ha2.1.trans hst) hga
    refine ⟨g1, ?_, ?_⟩
    · rw [visitList, ha1]
      exact hb1
    · have hsame : g1.get_term_relation term = ga.get_term_relation term := by
        apply get_term_relation_congr
        apply hb2.2.2.1
        intro h
        exact List.disjoint_of_nodup_append hids (List.mem_cons_self _ _) h
      rw [List.flatMap_cons, relationalVariables_cons, hsame]
      exact flatStep_trans _ ha2 hb2 (fun k hk => List.mem_append_left _ hk)
        (fun k hk => List.mem_append_right _ hk)

/-- The loop of `visitAnd` keeps, for every term, whether it has a relation. -/
theorem visitAnd_loop_isSome (current_trackmap : Option Term_ptr) (term_list : List Term)
    (t : Term) :
    ∀ g : StringRelationGenerator,
      ((term_list.foldl
        (fun (g : StringRelationGenerator) term =>
          match g.get_term_relation term with
          | some term_relation =>
            { g with
              relations_ :=
                Function.update g.relations_ term.id
                  (some (some (term_relation.set_variable_trackmap current_trackmap))) }
          | none => g) g).get_term_relation t).isSome = (g.get_term_relation t).isSome := by
  induction term_list with
  | nil => intro g; rfl
  | cons term rest ih =>
    intro g
    rw [List.foldl_cons, ih]
    cases hrel : g.get_term_relation term with
    | none => rfl
    | some term_relation =>
      simp only []
      unfold get_term_relation at hrel ⊢
      by_cases hk : t.id = term.id
      · rw [hk]
        simp only [Function.update_same]
        cases hr : g.relations_ term.id with
        | none => rw [hr] at hrel; cases hrel
        | some r =>
          rw [hr] at hrel
          simp only [] at hrel
          rw [hrel]
          rfl
      · simp only [Function.update_noteq hk]

theorem filter_map_pair (names : List String) (key : Term_ptr) :
    ((names.map fun name => (name, key)).filter fun c => c.2 = key).map Prod.fst = names := by
  induction names with
  | nil => rfl
  | cons name rest ih =>
    rw [List.map_cons, List.filter_cons_of_pos (by simp), List.map_cons, ih]

theorem mem_of_lookup (m : VariableTrackMap) (x : String) (i : Nat)
    (h : m.lookup x = some i) : (x, i) ∈ m := by
  induction m with
  | nil => simp [List.lookup] at h
  | cons p m ih =>
    obtain ⟨y, k⟩ := p
    by_cases hxy : x = y
    · subst hxy
      simp only [List.lookup, beq_self_eq_true, Option.some.injEq] at h
      rw [h]
      exact List.mem_cons_self _ _
    · have h1 : (x == y) = false := by simpa using hxy
      simp only [List.lookup, h1] at h
      exact List.mem_cons_of_mem _ (ih h)

/-- The table after a sequence of calls on the empty table: a term without a
call has no track map, a term with a call has the track map of the names
registered for it. -/
theorem insertAll_empty_table (calls : List (String × Term_ptr)) (key : Term_ptr) :
    insertAll (fun _ => none) calls key =
      if ((calls.filter fun c => c.2 = key).map Prod.fst) = [] then none
      else some (trackmapOf ((calls.filter fun c => c.2 = key).map Prod.fst)) := by
  rw [insertAll_key]
  rfl

/-- A track map with dense indices holds every name at an index below its
size. -/
theorem lookup_of_mem_dense (m : VariableTrackMap) (x : String)
    (hrange : m.map Prod.snd = List.range m.length) (hx : x ∈ m.map Prod.fst) :
    ∃ i, m.lookup x = some i ∧ i < m.length := by
  cases h : m.lookup x with
  | none => exact absurd hx ((lookup_eq_none_iff m x).1 h)
  | some i =>
    refine ⟨i, rfl, ?_⟩
    have hmem : i ∈ m.map Prod.snd := List.mem_map.2 ⟨(x, i), mem_of_lookup m x i h, rfl⟩
    rw [hrange] at hmem
    exact List.mem_range.1 hmem

theorem visitList_append (l1 : List Term) :
    ∀ (g : StringRelationGenerator) (l2 : List Term),
      visitList g (l1 ++ l2) = (visitList g l1).bind fun g => visitList g l2 := by
  induction l1 with
  | nil =>
    intro g l2
    rw [List.nil_append, visitList]
    rfl
  | cons term rest ih =>
    intro g l2
    rw [List.cons_append, visitList, visitList]
    cases visit g term with
    | none => rfl
    | some g2 => exact ih g2 l2

/-- The walk over a list that returns has returned after every prefix of the
list. -/
theorem visitList_take (term_list : List Term) (g g1 : StringRelationGenerator)
    (h : visitList g term_list = some g1) (i : Nat) :
    ∃ gi, visitList g (term_list.take i) = some gi ∧
      visitList gi (term_list.drop i) = some g1 := by
  rw [← List.take_append_drop i term_list, visitList_append] at h
  cases hi : visitList g (term_list.take i) with
  | none =>
    rw [hi] at h
    cases h
  | some gi =>
    rw [hi] at h
    exact ⟨gi, rfl, h⟩

/-- The state after the first `i + 1` terms is the state after the visit of
term `i` from the state after the first `i` terms. -/
theorem visitList_take_succ (term_list : List Term) (g gi gi1 : StringRelationGenerator)
    (i : Nat) (term : Term) (hterm : term_list.get? i = some term)
    (hi : visitList g (term_list.take i) = some gi)
    (hi1 : visitList g (term_list.take (i + 1)) = some gi1) :
    visit gi term = some gi1 := by
  have htake : term_list.take (i + 1) = term_list.take i ++ [term] := by
    rw [List.take_succ]
    simp only [List.get?_eq_getElem?] at hterm
    rw [hterm]
    rfl
  rw [htake, visitList_append, hi] at hi1
  simp only [Option.bind, visitList] at hi1
  cases hv : visit gi term with
  | none => rw [hv] at hi1; cases hi1
  | some g2 =>
    rw [hv] at hi1
    exact hi1

theorem componentKeys_subset_list (term_list : List Term) :
    ∀ (i : Nat) (term : Term), term_list.get? i = some term →
      ∀ key ∈ componentKeys term, key ∈ componentKeysList term_list := by
  induction term_list with
  | nil =>
    intro i term h
    simp at h
  | cons t rest ih =>
    intro i term h key hkey
    rw [componentKeysList]
    cases i with
    | zero =>
      simp only [List.get?_cons_zero, Option.some.injEq] at h
      rw [h]
      exact List.mem_append_left _ hkey
    | succ i =>
      exact List.mem_append_right _ (ih i term (by simpa using h) key hkey)

/-- When the and-terms and or-terms of the terms of a list are pairwise
distinct, two terms at different positions share none. -/
theorem componentKeys_disjoint (term_list : List Term) :
    (componentKeysList term_list).Nodup →
    ∀ (i j : Nat) (term_i term_j : Term), term_list.get? i = some term_i →
      term_list.get? j = some term_j → i ≠ j →
      ∀ key ∈ componentKeys term_i, key ∉ componentKeys term_j := by
  induction term_list with
  | nil =>
    intro _ i j term_i term_j h
    simp at h
  | cons t rest ih =>
    intro hnodup i j term_i term_j hi hj hij key hkey1 hkey2
    rw [componentKeysList] at hnodup
    obtain ⟨-, hrest, hdisj⟩ := List.nodup_append.1 hnodup
    cases i with
    | zero =>
      cases j with
      | zero => exact hij rfl
      | succ j =>
        simp only [List.get?_cons_zero, Option.some.injEq] at hi
        rw [← hi] at hkey1
        exact hdisj hkey1
          (componentKeys_subset_list rest j term_j (by simpa using hj) key hkey2)
    | succ i =>
      cases j with
      | zero =>
        simp only [List.get?_cons_zero, Option.some.injEq] at hj
        rw [← hj] at hkey2
        exact hdisj hkey2
          (componentKeys_subset_list rest i term_i (by simpa using hi) key hkey1)
      | succ j =>
        exact ih hrest i j term_i term_j (by simpa using hi) (by simpa using hj)
          (fun e => hij (by rw [e])) key hkey1 hkey2

theorem componentKeysList_append (l1 l2 : List Term) :
    componentKeysList (l1 ++ l2) = componentKeysList l1 ++ componentKeysList l2 := by
  induction l1 with
  | nil => rfl
  | cons term rest ih =>
    rw [List.cons_append, componentKeysList, componentKeysList, ih, List.append_assoc]

theorem eq_take_append_cons_drop (term_list : List Term) :
    ∀ (i : Nat) (term : Term), term_list.get? i = some term →
      term_list = term_list.take i ++ term :: term_list.drop (i + 1) := by
  induction term_list with
  | nil =>
    intro i term h
    simp at h
  | cons t rest ih =>
    intro i term h
    cases i with
    | zero =>
      simp only [List.get?_cons_zero, Option.some.injEq] at h
      rw [h]
      rfl
    | succ i =>
      rw [List.take_succ_cons, List.drop_succ_cons, List.cons_append,
        ← ih i term (by simpa using h)]

/-- The walk over a list of and-terms and or-terms leaves the track map of
every term that is not an and-term or or-term of the list as it was. -/
theorem visitList_component_other (term_list : List Term)
    (hterms : ∀ term ∈ term_list, term.type = .AND ∨ term.type = .OR) :
    ∀ g g1 : StringRelationGenerator, visitList g term_list = some g1 →
      ∀ key : Term_ptr, key ∉ componentKeysList term_list →
        g1.term_trackmap_table_ key = g.term_trackmap_table_ key := by
  induction term_list with
  | nil =>
    intro g g1 h key _
    rw [visitList] at h
    simp only [Option.some.injEq] at h
    rw [← h]
  | cons term rest ih =>
    intro g g1 h key hkey
    rw [visitList] at h
    obtain ⟨ga, ha, hb⟩ := Option.bind_eq_some.1 h
    rw [componentKeysList] at hkey
    obtain ⟨calls, hc1, hc2⟩ := visit_component_walk (hterms term (List.mem_cons_self _ _)) ha
    rw [ih (fun t ht => hterms t (List.mem_cons_of_mem _ ht)) _ _ hb key
      (fun hk => hkey (List.mem_append_right _ hk)), hc1]
    exact insertAll_other calls key
      (fun c hc e => hkey (List.mem_append_left _ (by rw [← e]; exact hc2 c hc))) _

/-! ## The claims about the string-relation extractor -/

/-- Claim C14: after any sequence of `add_string_variable` calls on a new
generator, a term for which a variable was registered has a track map, and the
variable has an index in it.  The map holds pairwise distinct names with the
indices `0, …, n - 1` in the order of the entries, where `n` is the number of
distinct names registered for the term; its names are the ones registered for
the term, and the index of a name is the number of distinct names registered
for the term before its first registration.  Registering the variable again
leaves the generator as it is, and a term for which nothing was registered has
no track map.  The table after the walk over any term is the table of such a
sequence of calls, and each of its track maps is not empty and has pairwise
distinct names with the indices `0, …, n - 1`. -/
theorem add_string_variable_dense (symbol_table : SymbolTable)
    (constraint_information : ConstraintInformation)
    (calls : List (Variable × Term_ptr)) (var : Variable) (term : Term_ptr)
    (hcall : (var, term) ∈ calls) :
    (∃ (trackmap : VariableTrackMap) (index : Nat),
      (calls.foldl (fun g c => g.add_string_variable c.1 c.2)
        (new symbol_table constraint_information)).term_trackmap_table_ term = some trackmap ∧
      trackmap.lookup var.name = some index ∧ index < trackmap.length ∧
      trackmap.map Prod.snd = List.range trackmap.length ∧
      (trackmap.map Prod.fst).Nodup ∧
      trackmap.length
        = ((calls.filter fun c => c.2 = term).map fun c => c.1.name).dedup.length ∧
      (∀ name, name ∈ trackmap.map Prod.fst ↔ ∃ c ∈ calls, c.2 = term ∧ c.1.name = name) ∧
      (∀ pre var1 post, calls = pre ++ (var1, term) :: post →
        (∀ c ∈ pre, c.2 = term → c.1.name ≠ var1.name) →
        trackmap.lookup var1.name
          = some ((pre.filter fun c => c.2 = term).map fun c => c.1.name).dedup.length)) ∧
    (calls.foldl (fun g c => g.add_string_variable c.1 c.2)
        (new symbol_table constraint_information)).add_string_variable var term
      = calls.foldl (fun g c => g.add_string_variable c.1 c.2)
        (new symbol_table constraint_information) ∧
    (∀ term1 : Term_ptr, (∀ c ∈ calls, c.2 ≠ term1) →
      (calls.foldl (fun g c => g.add_string_variable c.1 c.2)
        (new symbol_table constraint_information)).term_trackmap_table_ term1 = none) ∧
    (∀ (walked : Term) (g1 : StringRelationGenerator),
      visit (new symbol_table constraint_information) walked = some g1 →
      (∃ calls1 : List (Variable × Term_ptr),
        g1.term_trackmap_table_
          = (calls1.foldl (fun g c => g.add_string_variable c.1 c.2)
              (new symbol_table constraint_information)).term_trackmap_table_) ∧
      ∀ (key : Term_ptr) (trackmap : VariableTrackMap),
        g1.term_trackmap_table_ key = some trackmap →
        trackmap ≠ [] ∧ trackmap.map Prod.snd = List.range trackmap.length ∧
          (trackmap.map Prod.fst).Nodup) := by
  have htable : ∀ key : Term_ptr,
      (calls.foldl (fun g c => g.add_string_variable c.1 c.2)
        (new symbol_table constraint_information)).term_trackmap_table_ key =
      if ((calls.filter fun c => c.2 = key).map fun c => c.1.name) = [] then none
      else some (trackmapOf ((calls.filter fun c => c.2 = key).map fun c => c.1.name)) := by
    intro key
    rw [foldl_add_string_variable_table]
    show insertAll (fun _ => none) _ key = _
    rw [insertAll_empty_table, filter_map_names]
  have hname : var.name ∈ (calls.filter fun c => c.2 = term).map fun c => c.1.name :=
    List.mem_map.2 ⟨(var, term), List.mem_filter.2 ⟨hcall, by simp⟩, rfl⟩
  have hne : ((calls.filter fun c => c.2 = term).map fun c => c.1.name) ≠ [] :=
    List.ne_nil_of_mem hname
  obtain ⟨h1, h2, h3, h4⟩ :=
    trackmapOf_spec ((calls.filter fun c => c.2 = term).map fun c => c.1.name)
  obtain ⟨index, hindex, hlt⟩ := lookup_of_mem_dense _ var.name h1 ((h3 _).2 hname)
  refine ⟨⟨_, index, ?_, hindex, hlt, h1, h2, h4, ?_, ?_⟩, ?_, ?_, ?_⟩
  · rw [htable term, if_neg hne]
  · intro name
    rw [h3, List.mem_map]
    constructor
    · rintro ⟨c, hc, rfl⟩
      obtain ⟨hc1, hc2⟩ := List.mem_filter.1 hc
      exact ⟨c, hc1, by simpa using hc2, rfl⟩
    · rintro ⟨c, hc, hct, rfl⟩
      exact ⟨c, List.mem_filter.2 ⟨hc, by simpa using hct⟩, rfl⟩
  · intro pre var1 post hcalls hpre
    rw [hcalls, List.filter_append, List.map_append, List.filter_cons_of_pos (by simp),
      List.map_cons]
    apply trackmapOf_lookup
    intro hmem
    obtain ⟨c, hc, hcname⟩ := List.mem_map.1 hmem
    obtain ⟨hc1, hc2⟩ := List.mem_filter.1 hc
    exact hpre c hc1 (by simpa using hc2) hcname
  · have htab := foldl_add_string_variable_table calls
      (new symbol_table constraint_information)
    have hnew : (new symbol_table constraint_information).term_trackmap_table_
        = fun _ => none := rfl
    rw [hnew] at htab
    have hstep := insertAll_insertVariable_of_mem (calls.map fun c => (c.1.name, c.2))
      var.name term (List.mem_map.2 ⟨(var, term), hcall, rfl⟩)
    generalize calls.foldl (fun g c => g.add_string_variable c.1 c.2)
      (new symbol_table constraint_information) = g at htab
    cases g
    simp only [add_string_variable] at htab ⊢
    rw [htab, hstep]
  · intro term1 hnone
    rw [htable term1, if_pos]
    rw [List.map_eq_nil_iff, List.filter_eq_nil_iff]
    intro c hc
    simpa using hnone c hc
  · intro walked g1 hwalk
    obtain ⟨-, calls1, hc1, -⟩ := visit_walk walked _ _ hwalk
    have hnew : (new symbol_table constraint_information).term_trackmap_table_
        = fun _ => none := rfl
    rw [hnew] at hc1
    constructor
    · refine ⟨calls1.map fun c => (⟨c.1, .STRING⟩, c.2), ?_⟩
      rw [foldl_add_string_variable_table, hc1, hnew, List.map_map]
      symm
      have hid : ((fun c : Variable × Term_ptr => (c.1.name, c.2)) ∘
          fun c : String × Term_ptr => ((⟨c.1, .STRING⟩ : Variable), c.2)) = id := rfl
      rw [hid, List.map_id]
    · intro key trackmap hkey
      rw [hc1, insertAll_empty_table] at hkey
      split at hkey
      · cases hkey
      · rename_i hnames
        simp only [Option.some.injEq] at hkey
        obtain ⟨g1a, g2a, -, g4a⟩ :=
          trackmapOf_spec ((calls1.filter fun c => c.2 = key).map Prod.fst)
        rw [hkey] at g1a g2a g4a
        refine ⟨?_, g1a, g2a⟩
        intro hnil
        rw [hnil, List.length_nil] at g4a
        have := List.length_eq_zero.1 g4a.symm
        obtain ⟨x, hx⟩ := List.exists_mem_of_ne_nil _ hnames
        have hx1 : x ∈ ((calls1.filter fun c => c.2 = key).map Prod.fst).dedup :=
          List.mem_dedup.2 hx
        rw [this] at hx1
        cases hx1

theorem add_string_variable_dense_witness :
    (∃ g1, visit (new (stringVariables ["a", "b", "c", "d"]) everyTermIsComponent)
        term_flat_component = some g1 ∧
      g1.term_trackmap_table_ (some 0) = some [("a", 0), ("b", 1), ("d", 2)]) ∧
    (calls_a_b_a_c.foldl (fun g c => g.add_string_variable c.1 c.2)
      (new (stringVariables ["a", "b", "c"]) everyTermIsComponent)).term_trackmap_table_
        (some 0) = some [("a", 0), ("b", 1)] ∧
    ∃ (trackmap : VariableTrackMap) (index : Nat),
      (calls_a_b_a_c.foldl (fun g c => g.add_string_variable c.1 c.2)
        (new (stringVariables ["a", "b", "c"]) everyTermIsComponent)).term_trackmap_table_
          (some 0) = some trackmap ∧
      trackmap.lookup (Variable.mk "b" .STRING).name = some index ∧ index < trackmap.length ∧
      trackmap.map Prod.snd = List.range trackmap.length ∧
      (trackmap.map Prod.fst).Nodup ∧
      trackmap.length
        = ((calls_a_b_a_c.filter fun c => c.2 = some 0).map fun c => c.1.name).dedup.length :=
  ⟨⟨_, rfl, by decide⟩, by decide,
    let ⟨trackmap, index, h1, h2, h3, h4, h5, h6, _⟩ :=
      (add_string_variable_dense (stringVariables ["a", "b", "c"]) everyTermIsComponent
        calls_a_b_a_c ⟨"b", .STRING⟩ (some 0) (by decide)).1
    ⟨trackmap, index, h1, h2, h3, h4, h5, h6⟩⟩

/-- Claim C15, the counterexample: after the walk over
`(and (or (= a b)) (= c d))` the constraint `(= c d)` has an `EQ` relation over
the string variables `c` and `d`, but the and-term has no track map; the
variables are in the track map of the or-term. -/
theorem visitAnd_nested_or_trackmap :
    ∃ g1, visit (new (stringVariables ["a", "b", "c", "d"]) everyTermIsComponent)
        term_and_with_or = some g1 ∧
      (g1.relations_ 5).map (Option.map StringRelation.get_type) = some (some .EQ) ∧
      g1.term_trackmap_table_ (some 0) = none ∧
      g1.term_trackmap_table_ (some 1) = some [("a", 0), ("b", 1), ("c", 2), ("d", 3)] := by
  refine ⟨_, rfl, ?_, ?_, ?_⟩ <;> decide

/-- Claim C15, amended: the walk of a new generator over an and-term whose
constraints are flat (comparisons of variables, constants, concat terms and
terms with empty visitors; begins terms over two variables; every variable
declared) and whose terms have pairwise distinct identities returns. With `n`
the number of distinct string variables that occur as operands of the
constraints holding a relation, the and-term has no track map when `n = 0`, and
otherwise its track map holds exactly these variables, with the indices
`0, …, n - 1` in the order of their first occurrence. -/
theorem visitAnd_flat_component_trackmap (symbol_table : SymbolTable)
    (constraint_information : ConstraintInformation) (id : Nat) (term_list : List Term)
    (hflat : ∀ term ∈ term_list, isFlatConstraint symbol_table term = true)
    (hids : (term_list.flatMap visitedIds).Nodup) :
    ∃ g1, visit (new symbol_table constraint_information) (.And id term_list) = some g1 ∧
      (g1.term_trackmap_table_ (some id)
        = if relationalVariables symbol_table g1 term_list = [] then none
          else some (trackmapOf (relationalVariables symbol_table g1 term_list))) ∧
      ∀ trackmap, g1.term_trackmap_table_ (some id) = some trackmap →
        trackmap.length = (relationalVariables symbol_table g1 term_list).dedup.length ∧
        trackmap.map Prod.snd
          = List.range (relationalVariables symbol_table g1 term_list).dedup.length ∧
        (trackmap.map Prod.fst).Nodup ∧
        ∀ name, name ∈ trackmap.map Prod.fst
          ↔ name ∈ relationalVariables symbol_table g1 term_list := by
  obtain ⟨g2, h1, h2⟩ := visitList_flat symbol_table term_list hflat hids
    { new symbol_table constraint_information with current_term_ := some id } rfl
    (fun _ _ => rfl)
  have htable : ∀ g1 : StringRelationGenerator,
      g1.term_trackmap_table_ = g2.term_trackmap_table_ →
      (∀ term, (g1.get_term_relation term).isSome = (g2.get_term_relation term).isSome) →
      (g1.term_trackmap_table_ (some id)
        = if relationalVariables symbol_table g1 term_list = [] then none
          else some (trackmapOf (relationalVariables symbol_table g1 term_list))) ∧
      ∀ trackmap, g1.term_trackmap_table_ (some id) = some trackmap →
        trackmap.length = (relationalVariables symbol_table g1 term_list).dedup.length ∧
        trackmap.map Prod.snd
          = List.range (relationalVariables symbol_table g1 term_list).dedup.length ∧
        (trackmap.map Prod.fst).Nodup ∧
        ∀ name, name ∈ trackmap.map Prod.fst
          ↔ name ∈ relationalVariables symbol_table g1 term_list := by
    intro g1 ht hrel
    rw [relationalVariables_congr symbol_table g2 g1 term_list (fun t _ => hrel t)]
    have hkey : g1.term_trackmap_table_ (some id)
        = if relationalVariables symbol_table g2 term_list = [] then none
          else some (trackmapOf (relationalVariables symbol_table g2 term_list)) := by
      rw [ht, h2.2.2.2, insertAll_key, filter_map_pair]
      rfl
    refine ⟨hkey, ?_⟩
    intro trackmap hmap
    rw [hkey] at hmap
    split_ifs at hmap
    simp only [Option.some.injEq] at hmap
    obtain ⟨s1, s2, s3, s4⟩ := trackmapOf_spec (relationalVariables symbol_table g2 term_list)
    rw [hmap] at s1 s2 s3 s4
    exact ⟨s4, by rw [s1, s4], s2, s3⟩
  rw [visit, visitAnd]
  simp only [h1]
  split_ifs
  · exact ⟨g2, rfl, htable g2 rfl (fun _ => rfl)⟩
  · exact ⟨_, rfl, htable _ (visitAnd_loop_same _ term_list g2).1
      (fun t => visitAnd_loop_isSome _ term_list t g2)⟩

theorem visitAnd_flat_component_trackmap_witness :
    ∃ g1, visit (new (stringVariables ["a", "b", "c", "d"]) everyTermIsComponent)
        term_flat_component = some g1 ∧
      relationalVariables (stringVariables ["a", "b", "c", "d"]) g1
        [.Eq 1 (.QualIdentifier 2 "a") (.QualIdentifier 3 "b"),
         .Lt 4 (.QualIdentifier 5 "a") (.TermConstant 6 "s" .STRING),
         .Eq 7 (.QualIdentifier 8 "a")
           (.Concat 9 [.QualIdentifier 10 "c", .TermConstant 11 "y" .STRING]),
         .Begins 12 (.QualIdentifier 13 "b") (.QualIdentifier 14 "d")]
        = ["a", "b", "a", "b", "d"] ∧
      g1.term_trackmap_table_ (some 0) = some [("a", 0), ("b", 1), ("d", 2)] := by
  obtain ⟨g1, h1, -, -⟩ := visitAnd_flat_component_trackmap
    (stringVariables ["a", "b", "c", "d"]) everyTermIsComponent 0
    [.Eq 1 (.QualIdentifier 2 "a") (.QualIdentifier 3 "b"),
     .Lt 4 (.QualIdentifier 5 "a") (.TermConstant 6 "s" .STRING),
     .Eq 7 (.QualIdentifier 8 "a")
       (.Concat 9 [.QualIdentifier 10 "c", .TermConstant 11 "y" .STRING]),
     .Begins 12 (.QualIdentifier 13 "b") (.QualIdentifier 14 "d")]
    (by decide) (by decide)
  have hg : g1 = _ := Option.some.inj (h1.symm.trans rfl)
  subst hg
  exact ⟨_, rfl, by decide, by decide⟩

/-- Claim C16, the counterexample: on
`(and (= a b) (begins a "x") (= a (concat c "y")))` with the string variables
`a`, `b`, `c` the walk ends in the fatal error of `visitBegins`, which looks the
constant `x` up as a variable. With a variable `x` declared as well the walk
returns: the track map of the and-term is `a ↦ 0, b ↦ 1, x ↦ 2`, the first two
constraints get an `EQ` and a `BEGINS` relation, the concat term gets no
relation and the third constraint gets `nullptr`. -/
theorem visit_eq_begins_concat :
    visit (new (stringVariables ["a", "b", "c"]) everyTermIsComponent) term_eq_begins_concat
      = none ∧
    ∃ g1, visit (new (stringVariables ["a", "b", "c", "x"]) everyTermIsComponent)
        term_eq_begins_concat = some g1 ∧
      g1.term_trackmap_table_ (some 0) = some [("a", 0), ("b", 1), ("x", 2)] ∧
      (g1.relations_ 1).map (Option.map StringRelation.get_type) = some (some .EQ) ∧
      (g1.relations_ 4).map (Option.map StringRelation.get_type) = some (some .BEGINS) ∧
      (g1.relations_ 9).map (Option.map StringRelation.get_type) = none ∧
      (g1.relations_ 7).map (Option.map StringRelation.get_type) = some none := by
  refine ⟨rfl, _, rfl, ?_, ?_, ?_, ?_, ?_⟩ <;> decide

/-- Claim C16, amended: on `(and (= a b) (= a (concat c "y")))` with the string
variables `a`, `b`, `c` the walk returns; the track map of the and-term is
`a ↦ 0, b ↦ 1`, the first constraint gets an `EQ` relation over the `STRING_VAR`
leaves of `a` and `b` that refers to the track map of the and-term, the concat
term gets no relation and the second constraint gets `nullptr`. -/
theorem visit_eq_concat_component :
    ∃ g1, visit (new (stringVariables ["a", "b", "c"]) everyTermIsComponent)
        term_eq_concat = some g1 ∧
      g1.term_trackmap_table_ (some 0) = some [("a", 0), ("b", 1)] ∧
      g1.relations_ 1
        = some (some (.mk .EQ (some (StringRelation.leaf .STRING_VAR "a"))
            (some (StringRelation.leaf .STRING_VAR "b")) "" (some (some 0)))) ∧
      (g1.relations_ 9).isNone = true ∧
      g1.relations_ 7 = some none := by
  exact ⟨_, rfl, by decide, rfl, rfl, rfl⟩

/-- Claim C17: an equality or a disequality with a `TERMCONSTANT` operand,
visited when the term has no entry in `relations_` after the visits of its
operands, gets the relation `nullptr`, and the visitor leaves every track map as
the visits of the operands left it; when both operands are variables or
constants the track maps are the ones from before the visit of the term. -/
theorem visitEq_visitNotEq_term_constant (g g2 : StringRelationGenerator) (id : Nat)
    (left_term right_term : Term)
    (hchildren : (visit g left_term).bind (fun g => visit g right_term) = some g2)
    (hfresh : g2.relations_ id = none)
    (hconstant : left_term.type = .TERMCONSTANT ∨ right_term.type = .TERMCONSTANT) :
    (∃ g1, visit g (.Eq id left_term right_term) = some g1 ∧
      g1.relations_ id = some none ∧
      g1.get_term_relation (.Eq id left_term right_term) = none ∧
      g1.term_trackmap_table_ = g2.term_trackmap_table_) ∧
    (∃ g1, visit g (.NotEq id left_term right_term) = some g1 ∧
      g1.relations_ id = some none ∧
      g1.get_term_relation (.NotEq id left_term right_term) = none ∧
      g1.term_trackmap_table_ = g2.term_trackmap_table_) ∧
    ((left_term.type = .QUALIDENTIFIER ∨ left_term.type = .TERMCONSTANT) →
      (right_term.type = .QUALIDENTIFIER ∨ right_term.type = .TERMCONSTANT) →
      g2.term_trackmap_table_ = g.term_trackmap_table_) := by
  have hnil : ∀ (term : Term) (g1 : StringRelationGenerator), term.id = id →
      g1.relations_ id = some none → g1.get_term_relation term = none := by
    intro term g1 hid h1
    unfold get_term_relation
    rw [hid, h1]
  refine ⟨?_, ?_, ?_⟩
  · have hrej := reject_relation_fresh g2 (.Eq id left_term right_term) left_term right_term
      hfresh
    obtain ⟨g1, h1, h2, h3⟩ := hrej
    refine ⟨g1, ?_, h2, hnil _ _ rfl h2, h3⟩
    rw [visit, visitEq, hchildren]
    simp only []
    split
    · split_ifs with c1 c2 c3
      · exact h1
      · exact h1
      · exact h1
      · rcases hconstant with hc | hc
        · exact absurd hc c2
        · exact absurd hc c3
    · exact h1
  · have hrej := reject_relation_fresh g2 (.NotEq id left_term right_term) left_term
      right_term hfresh
    obtain ⟨g1, h1, h2, h3⟩ := hrej
    obtain ⟨ga, ha1, ha2, ha3⟩ := set_term_relation_fresh
      (g2.delete_term_relation left_term) (.NotEq id left_term right_term) none
      (delete_term_relation_relations _ _ _ hfresh)
    obtain ⟨gb, hb1, hb2, hb3⟩ := set_term_relation_fresh
      (g2.delete_term_relation right_term) (.NotEq id left_term right_term) none
      (delete_term_relation_relations _ _ _ hfresh)
    rw [delete_term_relation_table] at ha3 hb3
    rw [visit, visitNotEq, hchildren]
    simp only []
    split
    · split_ifs with c1 c2 c3
      · exact ⟨g1, h1, h2, hnil _ _ rfl h2, h3⟩
      · exact ⟨ga, ha1, ha2, hnil _ _ rfl ha2, ha3⟩
      · exact ⟨gb, hb1, hb2, hnil _ _ rfl hb2, hb3⟩
      · rcases hconstant with hc | hc
        · exact absurd hc c2
        · exact absurd hc c3
    · exact ⟨g1, h1, h2, hnil _ _ rfl h2, h3⟩
  · intro hl hr
    obtain ⟨ga, ha, hb⟩ := Option.bind_eq_some.1 hchildren
    rw [visit_leaf_table hr hb, visit_leaf_table hl ha]

theorem visitEq_visitNotEq_term_constant_witness :
    ∃ g2, (visit (new (stringVariables ["a"]) everyTermIsComponent)
        (.QualIdentifier 1 "a")).bind (fun g => visit g (.TermConstant 2 "literal" .STRING))
        = some g2 ∧
      g2.relations_ 0 = none ∧
      ((∃ g1, visit (new (stringVariables ["a"]) everyTermIsComponent) term_a_eq_literal
          = some g1 ∧
        g1.relations_ 0 = some none ∧
        g1.get_term_relation term_a_eq_literal = none ∧
        g1.term_trackmap_table_ = g2.term_trackmap_table_) ∧
      (∃ g1, visit (new (stringVariables ["a"]) everyTermIsComponent)
          (.NotEq 0 (.QualIdentifier 1 "a") (.TermConstant 2 "literal" .STRING)) = some g1 ∧
        g1.relations_ 0 = some none ∧
        g1.get_term_relation
          (.NotEq 0 (.QualIdentifier 1 "a") (.TermConstant 2 "literal" .STRING)) = none ∧
        g1.term_trackmap_table_ = g2.term_trackmap_table_) ∧
      (((Term.QualIdentifier 1 "a").type = .QUALIDENTIFIER ∨
          (Term.QualIdentifier 1 "a").type = .TERMCONSTANT) →
        ((Term.TermConstant 2 "literal" .STRING).type = .QUALIDENTIFIER ∨
          (Term.TermConstant 2 "literal" .STRING).type = .TERMCONSTANT) →
        g2.term_trackmap_table_
          = (new (stringVariables ["a"]) everyTermIsComponent).term_trackmap_table_)) :=
  ⟨_, rfl, rfl,
    visitEq_visitNotEq_term_constant (new (stringVariables ["a"]) everyTermIsComponent) _ 0
      (.QualIdentifier 1 "a") (.TermConstant 2 "literal" .STRING) rfl rfl (Or.inr rfl)⟩

/-- Claim C19, the counterexample: on `(and (begins "x" a) (notbegins "x" a))`,
where the subject of both terms is a constant, no `nullptr` is recorded: with
the string variable `a` alone the walk ends in the fatal error of `visitBegins`,
and with a variable `x` declared as well both terms get a relation and `x` and
`a` are registered. -/
theorem visit_begins_constant_subject :
    visit (new (stringVariables ["a"]) everyTermIsComponent) term_begins_constant_subject
      = none ∧
    ∃ g1, visit (new (stringVariables ["x", "a"]) everyTermIsComponent)
        term_begins_constant_subject = some g1 ∧
      (g1.relations_ 1).map (Option.map StringRelation.get_type) = some (some .BEGINS) ∧
      (g1.relations_ 4).map (Option.map StringRelation.get_type) = some (some .NOTBEGINS) ∧
      g1.term_trackmap_table_ (some 0) = some [("x", 0), ("a", 1)] := by
  refine ⟨rfl, _, rfl, ?_, ?_, ?_⟩ <;> decide

/-- Claim C19, amended: when neither the subject nor the search term of a begins
or a not-begins term is a `QUALIDENTIFIER` term, and the term has no entry in
`relations_` after the visits of its operands, the visitor records `nullptr` for
the term.  A term for which the walk records a relation has a subject or a
search term that is a `QUALIDENTIFIER` term, and both operands had relations. -/
theorem visitBegins_without_variable_operand (g g2 : StringRelationGenerator) (id : Nat)
    (subject_term search_term : Term)
    (hchildren : (visit g subject_term).bind (fun g => visit g search_term) = some g2)
    (hfresh : g2.relations_ id = none) :
    ((subject_term.type ≠ .QUALIDENTIFIER ∧ search_term.type ≠ .QUALIDENTIFIER) →
      (∃ g1, visit g (.Begins id subject_term search_term) = some g1 ∧
        g1.get_term_relation (.Begins id subject_term search_term) = none ∧
        g1.relations_ id = some none) ∧
      (∃ g1, visit g (.NotBegins id subject_term search_term) = some g1 ∧
        g1.get_term_relation (.NotBegins id subject_term search_term) = none ∧
        g1.relations_ id = some none)) ∧
    (∀ g1, visit g (.Begins id subject_term search_term) = some g1 →
      g1.get_term_relation (.Begins id subject_term search_term) ≠ none →
      (subject_term.type = .QUALIDENTIFIER ∨ search_term.type = .QUALIDENTIFIER) ∧
      g2.get_term_relation subject_term ≠ none ∧ g2.get_term_relation search_term ≠ none) ∧
    (∀ g1, visit g (.NotBegins id subject_term search_term) = some g1 →
      g1.get_term_relation (.NotBegins id subject_term search_term) ≠ none →
      (subject_term.type = .QUALIDENTIFIER ∨ search_term.type = .QUALIDENTIFIER) ∧
      g2.get_term_relation subject_term ≠ none ∧ g2.get_term_relation search_term ≠ none) := by
  have hnil : ∀ (term : Term) (g1 : StringRelationGenerator), term.id = id →
      g1.relations_ id = some none → g1.get_term_relation term = none := by
    intro term g1 hid h1
    unfold get_term_relation
    rw [hid, h1]
  have hrej : ∀ term : Term, term.id = id →
      ∃ g1, g2.reject_relation term subject_term search_term = some g1 ∧
        g1.get_term_relation term = none ∧ g1.relations_ id = some none := by
    intro term hid
    obtain ⟨g1, h1, h2, -⟩ := reject_relation_fresh g2 term subject_term search_term
      (by rw [hid]; exact hfresh)
    rw [hid] at h2
    exact ⟨g1, h1, hnil term g1 hid h2, h2⟩
  have hrej1 : ∀ (term : Term) (g1 : StringRelationGenerator), term.id = id →
      g2.reject_relation term subject_term search_term = some g1 →
      g1.get_term_relation term = none := by
    intro term g1 hid h1
    obtain ⟨g3, h3, h4, -⟩ := hrej term hid
    rw [h1] at h3
    cases h3
    exact h4
  refine ⟨?_, ?_, ?_⟩
  · intro hneither
    constructor
    · rw [visit, visitBegins, hchildren]
      simp only []
      split
      · rw [if_pos hneither]
        exact hrej _ rfl
      · exact hrej _ rfl
    · rw [visit, visitNotBegins, hchildren]
      simp only []
      split
      · rw [if_pos hneither]
        exact hrej _ rfl
      · exact hrej _ rfl
  · intro g1 hvisit hrel
    rw [visit, visitBegins, hchildren] at hvisit
    simp only [] at hvisit
    split at hvisit
    · rename_i left_relation right_relation hl hr
      split_ifs at hvisit with hguard
      · exact absurd (hrej1 (.Begins id subject_term search_term) g1 rfl hvisit) hrel
      · refine ⟨?_, by rw [hl]; simp, by rw [hr]; simp⟩
        by_contra hcon
        simp only [not_or] at hcon
        exact hguard hcon
    · exact absurd (hrej1 (.Begins id subject_term search_term) g1 rfl hvisit) hrel
  · intro g1 hvisit hrel
    rw [visit, visitNotBegins, hchildren] at hvisit
    simp only [] at hvisit
    split at hvisit
    · rename_i left_relation right_relation hl hr
      split_ifs at hvisit with hguard
      · exact absurd (hrej1 (.NotBegins id subject_term search_term) g1 rfl hvisit) hrel
      · refine ⟨?_, by rw [hl]; simp, by rw [hr]; simp⟩
        by_contra hcon
        simp only [not_or] at hcon
        exact hguard hcon
    · exact absurd (hrej1 (.NotBegins id subject_term search_term) g1 rfl hvisit) hrel

theorem visitBegins_without_variable_operand_witness :
    (∃ g1, visit (new (stringVariables []) everyTermIsComponent)
        (.Begins 0 (.TermConstant 1 "x" .STRING) (.TermConstant 2 "y" .STRING)) = some g1 ∧
      g1.get_term_relation
        (.Begins 0 (.TermConstant 1 "x" .STRING) (.TermConstant 2 "y" .STRING)) = none ∧
      g1.relations_ 0 = some none) ∧
    (∃ g1, visit (new (stringVariables []) everyTermIsComponent)
        (.NotBegins 0 (.TermConstant 1 "x" .STRING) (.TermConstant 2 "y" .STRING)) = some g1 ∧
      g1.get_term_relation
        (.NotBegins 0 (.TermConstant 1 "x" .STRING) (.TermConstant 2 "y" .STRING)) = none ∧
      g1.relations_ 0 = some none) :=
  (visitBegins_without_variable_operand (new (stringVariables []) everyTermIsComponent) _ 0
    (.TermConstant 1 "x" .STRING) (.TermConstant 2 "y" .STRING) rfl rfl).1
    ⟨by decide, by decide⟩

/-- Claim C20, the counterexample: after the walk over `(or (= a b) (= c d))`
the track map of the or-term holds the variables of both disjuncts. -/
theorem visitOr_joint_trackmap :
    ∃ g1, visit (new (stringVariables ["a", "b", "c", "d"]) everyTermIsComponent)
        term_or_of_equations = some g1 ∧
      g1.term_trackmap_table_ (some 0) = some [("a", 0), ("b", 1), ("c", 2), ("d", 3)] := by
  refine ⟨_, rfl, ?_⟩
  decide

/-- Claim C20, amended: when every disjunct of an or-term is an and-term or an
or-term, and the and-terms and or-terms of the disjuncts are pairwise distinct,
the walk over the or-term visits the disjuncts one after the other from the
state in which the or-term is current, and a track map that is not the same
after the visit of a disjunct as before it is keyed by an and-term or or-term
of that disjunct and is the same after the visit of any other disjunct as
before it: no track map is written during the visits of two disjuncts. The
track maps of the and-terms and or-terms of a disjunct are, before its visit,
those of the state in which the walk starts and, after its visit, those of
the state in which the walk ends. The registrations of the walk come in one
batch for every disjunct, each to and-terms and or-terms of its disjunct, and
no two batches go to the same track map. -/
theorem visitOr_disjunct_trackmaps (g g1 : StringRelationGenerator) (id : Nat)
    (term_list : List Term)
    (hterms : ∀ term ∈ term_list, term.type = .AND ∨ term.type = .OR)
    (hkeys : (componentKeysList term_list).Nodup)
    (h : visit g (.Or id term_list) = some g1) :
    visitList { g with current_term_ := some id } term_list = some g1 ∧
    (∀ i : Nat, ∃ gi,
      visitList { g with current_term_ := some id } (term_list.take i) = some gi) ∧
    (∀ (i : Nat) (term_i : Term) (gi gi1 : StringRelationGenerator),
      term_list.get? i = some term_i →
      visitList { g with current_term_ := some id } (term_list.take i) = some gi →
      visitList { g with current_term_ := some id } (term_list.take (i + 1)) = some gi1 →
      ∀ key ∈ componentKeys term_i,
        gi.term_trackmap_table_ key = g.term_trackmap_table_ key ∧
        g1.term_trackmap_table_ key = gi1.term_trackmap_table_ key) ∧
    (∀ (i j : Nat) (term_i term_j : Term) (gi gi1 gj gj1 : StringRelationGenerator),
      term_list.get? i = some term_i → term_list.get? j = some term_j → i ≠ j →
      visitList { g with current_term_ := some id } (term_list.take i) = some gi →
      visitList { g with current_term_ := some id } (term_list.take (i + 1)) = some gi1 →
      visitList { g with current_term_ := some id } (term_list.take j) = some gj →
      visitList { g with current_term_ := some id } (term_list.take (j + 1)) = some gj1 →
      visit gi term_i = some gi1 ∧ visit gj term_j = some gj1 ∧
      ∀ key : Term_ptr, gi1.term_trackmap_table_ key ≠ gi.term_trackmap_table_ key →
        key ∈ componentKeys term_i ∧
        gj1.term_trackmap_table_ key = gj.term_trackmap_table_ key) ∧
    ∃ batches : List (List (String × Term_ptr)),
      g1.term_trackmap_table_ = insertAll g.term_trackmap_table_ batches.flatten ∧
      List.Forall₂ (fun term calls => ∀ c ∈ calls, c.2 ∈ componentKeys term)
        term_list batches ∧
      List.Pairwise (fun calls1 calls2 => ∀ c1 ∈ calls1, ∀ c2 ∈ calls2, c1.2 ≠ c2.2)
        batches := by
  have hlist : visitList { g with current_term_ := some id } term_list = some g1 := by
    rw [visit, visitOr] at h
    exact h
  have hstep : ∀ (i : Nat) (term : Term) (gi gi1 : StringRelationGenerator),
      term_list.get? i = some term → visit gi term = some gi1 →
      ∀ key : Term_ptr, key ∉ componentKeys term →
        gi1.term_trackmap_table_ key = gi.term_trackmap_table_ key := by
    intro i term gi gi1 hterm hvisit key hkey
    have hmem : term ∈ term_list := List.get?_mem hterm
    obtain ⟨calls, hc1, hc2⟩ := visit_component_walk (hterms term hmem) hvisit
    rw [hc1]
    exact insertAll_other calls key (fun c hc e => hkey (by rw [← e]; exact hc2 c hc)) _
  refine ⟨hlist, fun i => ?_, ?_, ?_, ?_⟩
  · obtain ⟨gi, hgi, -⟩ := visitList_take term_list _ _ hlist i
    exact ⟨gi, hgi⟩
  · intro i term_i gi gi1 hi hgi hgi1 key hkey
    have hsplit := eq_take_append_cons_drop term_list i term_i hi
    have hk2 : (componentKeysList (term_list.take i)
        ++ (componentKeys term_i ++ componentKeysList (term_list.drop (i + 1)))).Nodup := by
      rw [← componentKeysList, ← componentKeysList_append, ← hsplit]
      exact hkeys
    obtain ⟨-, hright, hdisj1⟩ := List.nodup_append.1 hk2
    obtain ⟨-, -, hdisj2⟩ := List.nodup_append.1 hright
    obtain ⟨gi2, hgi2, hrest⟩ := visitList_take term_list _ _ hlist (i + 1)
    rw [hgi1] at hgi2
    simp only [Option.some.injEq] at hgi2
    rw [← hgi2] at hrest
    constructor
    · exact visitList_component_other (term_list.take i)
        (fun t ht => hterms t (List.mem_of_mem_take ht)) _ _ hgi key
        (fun hk => hdisj1 hk (List.mem_append_left _ hkey))
    · exact visitList_component_other (term_list.drop (i + 1))
        (fun t ht => hterms t (List.mem_of_mem_drop ht)) _ _ hrest key
        (fun hk => hdisj2 hkey hk)
  · intro i j term_i term_j gi gi1 gj gj1 hi hj hij hgi hgi1 hgj hgj1
    have hvi := visitList_take_succ term_list _ gi gi1 i term_i hi hgi hgi1
    have hvj := visitList_take_succ term_list _ gj gj1 j term_j hj hgj hgj1
    refine ⟨hvi, hvj, ?_⟩
    intro key hchange
    have hkey : key ∈ componentKeys term_i := by
      by_contra hnot
      exact hchange (hstep i term_i gi gi1 hi hvi key hnot)
    exact ⟨hkey, hstep j term_j gj gj1 hj hvj key
      (componentKeys_disjoint term_list hkeys i j term_i term_j hi hj hij key hkey)⟩
  · obtain ⟨batches, h1, h2⟩ := visitList_component_batches term_list hterms _ _ hlist
    exact ⟨batches, h1, h2, (batches_pairwise_disjoint term_list batches h2 hkeys).2⟩

theorem visitOr_disjunct_trackmaps_witness :
    ∃ g1 gi1, visit (new (stringVariables ["a", "b", "c", "d"]) everyTermIsComponent)
        term_or_of_components = some g1 ∧
      visit { new (stringVariables ["a", "b", "c", "d"]) everyTermIsComponent with
          current_term_ := some 0 }
        (.And 1 [.Eq 2 (.QualIdentifier 3 "a") (.QualIdentifier 4 "b")]) = some gi1 ∧
      visit gi1 (.And 5 [.Eq 6 (.QualIdentifier 7 "c") (.QualIdentifier 8 "d")]) = some g1 ∧
      gi1.term_trackmap_table_ (some 1) = some [("a", 0), ("b", 1)] ∧
      gi1.term_trackmap_table_ (some 5) = none ∧
      g1.term_trackmap_table_ (some 0) = none ∧
      g1.term_trackmap_table_ (some 1) = some [("a", 0), ("b", 1)] ∧
      g1.term_trackmap_table_ (some 5) = some [("c", 0), ("d", 1)] ∧
      ∀ key : Term_ptr,
        gi1.term_trackmap_table_ key
          ≠ (new (stringVariables ["a", "b", "c", "d"])
            everyTermIsComponent).term_trackmap_table_ key →
        key ∈ componentKeys (.And 1 [.Eq 2 (.QualIdentifier 3 "a") (.QualIdentifier 4 "b")]) ∧
        g1.term_trackmap_table_ key = gi1.term_trackmap_table_ key :=
  ⟨_, _, rfl, rfl, rfl, by decide, by decide, by decide, by decide, by decide,
    ((visitOr_disjunct_trackmaps (new (stringVariables ["a", "b", "c", "d"])
        everyTermIsComponent) _ 0
      [.And 1 [.Eq 2 (.QualIdentifier 3 "a") (.QualIdentifier 4 "b")],
       .And 5 [.Eq 6 (.QualIdentifier 7 "c") (.QualIdentifier 8 "d")]]
      (by simp [Term.type]) (by decide) rfl).2.2.2.1 0 1 _ _ _ _ _ _ rfl rfl (by decide)
      rfl rfl rfl rfl).2.2⟩

/-! ## The current term and the parent terms of a walk -/

theorem keeps_refl (g : StringRelationGenerator) : Keeps g g :=
  ⟨rfl, rfl, rfl, rfl⟩

theorem keeps_trans {g g1 g2 : StringRelationGenerator} (h1 : Keeps g g1) (h2 : Keeps g1 g2) :
    Keeps g g2 :=
  ⟨h2.1.trans h1.1, h2.2.1.trans h1.2.1, h2.2.2.1.trans h1.2.2.1, h2.2.2.2.trans h1.2.2.2⟩

theorem keeps_add_string_variable (g : StringRelationGenerator) (var : Variable)
    (term : Term_ptr) : Keeps g (g.add_string_variable var term) :=
  ⟨rfl, rfl, rfl, rfl⟩

theorem keeps_set_term_relation {g g1 : StringRelationGenerator} {term : Term}
    {str_rel : Option StringRelation} (h : g.set_term_relation term str_rel = some g1) :
    Keeps g g1 := by
  obtain ⟨-, h1⟩ := set_term_relation_spec h
  rw [h1]
  exact ⟨rfl, rfl, rfl, rfl⟩

theorem keeps_delete_term_relation (g : StringRelationGenerator) (term : Term) :
    Keeps g (g.delete_term_relation term) := by
  unfold delete_term_relation
  cases g.get_term_relation term with
  | none => exact keeps_refl _
  | some r => exact ⟨rfl, rfl, rfl, rfl⟩

theorem keeps_reject_relation {g g1 : StringRelationGenerator} {term left_term right_term : Term}
    (h : g.reject_relation term left_term right_term = some g1) : Keeps g g1 := by
  unfold reject_relation at h
  exact keeps_trans (keeps_trans (keeps_delete_term_relation _ _)
    (keeps_delete_term_relation _ _)) (keeps_set_term_relation h)

theorem keeps_add_relation_variable {g g1 : StringRelationGenerator}
    {relation : StringRelation} (h : g.add_relation_variable relation = some g1) :
    Keeps g g1 := by
  unfold add_relation_variable at h
  split at h
  · split at h
    · cases h
    · simp only [Option.some.injEq] at h
      rw [← h]
      exact keeps_add_string_variable _ _ _
  · split at h
    · split at h
      · cases h
      · split at h
        · cases h
        · simp only [Option.some.injEq] at h
          rw [← h]
          exact keeps_add_string_variable _ _ _
    · simp only [Option.some.injEq] at h
      rw [← h]
      exact keeps_refl _

theorem keeps_accept_relation {g g1 : StringRelationGenerator} {term left_term right_term : Term}
    {type : StringRelationType} {left_relation right_relation : StringRelation}
    (h : g.accept_relation term left_term right_term type left_relation right_relation
      = some g1) : Keeps g g1 := by
  unfold accept_relation at h
  simp only [] at h
  cases h1 : g.add_relation_variable left_relation with
  | none => rw [h1] at h; cases h
  | some ga =>
    rw [h1] at h
    simp only [] at h
    cases h2 : ga.add_relation_variable right_relation with
    | none => rw [h2] at h; cases h
    | some gb =>
      rw [h2] at h
      simp only [] at h
      exact keeps_trans (keeps_trans (keeps_trans (keeps_trans
        (keeps_add_relation_variable h1) (keeps_add_relation_variable h2))
        (keeps_delete_term_relation _ _)) (keeps_delete_term_relation _ _))
        (keeps_set_term_relation h)

theorem keeps_accept_begins {g g1 : StringRelationGenerator}
    {term subject_term search_term : Term}
    {type : StringRelationType} {left_relation right_relation : StringRelation}
    (h : g.accept_begins term subject_term search_term type left_relation right_relation
      = some g1) : Keeps g g1 := by
  unfold accept_begins at h
  simp only [] at h
  cases h1 : g.symbol_table_.getVariable left_relation.get_data with
  | none => rw [h1] at h; cases h
  | some v1 =>
    rw [h1] at h
    simp only [] at h
    have hs : (g.add_string_variable v1 g.current_term_).symbol_table_ = g.symbol_table_ := rfl
    cases h2 : g.symbol_table_.getVariable right_relation.get_data with
    | none => rw [hs, h2] at h; cases h
    | some v2 =>
      rw [hs, h2] at h
      simp only [] at h
      exact keeps_trans (keeps_trans (keeps_trans (keeps_trans
        (keeps_add_string_variable g v1 _) (keeps_add_string_variable _ v2 _))
        (keeps_delete_term_relation _ _)) (keeps_delete_term_relation _ _))
        (keeps_set_term_relation h)

theorem keeps_visitEq {g g1 : StringRelationGenerator}
    {vc : StringRelationGenerator → Option StringRelationGenerator} {id : Nat}
    {left_term right_term : Term} (h : visitEq g vc id left_term right_term = some g1) :
    ∃ g2, vc g = some g2 ∧ Keeps g2 g1 := by
  unfold visitEq at h
  cases hvc : vc g with
  | none => rw [hvc] at h; cases h
  | some g2 =>
    rw [hvc] at h
    refine ⟨g2, rfl, ?_⟩
    simp only [] at h
    split at h
    · split_ifs at h
      · exact keeps_reject_relation h
      · exact keeps_reject_relation h
      · exact keeps_reject_relation h
      · exact keeps_accept_relation h
    · exact keeps_reject_relation h

theorem keeps_visitNotEq {g g1 : StringRelationGenerator}
    {vc : StringRelationGenerator → Option StringRelationGenerator} {id : Nat}
    {left_term right_term : Term} (h : visitNotEq g vc id left_term right_term = some g1) :
    ∃ g2, vc g = some g2 ∧ Keeps g2 g1 := by
  unfold visitNotEq at h
  cases hvc : vc g with
  | none => rw [hvc] at h; cases h
  | some g2 =>
    rw [hvc] at h
    refine ⟨g2, rfl, ?_⟩
    simp only [] at h
    split at h
    · split_ifs at h
      · exact keeps_reject_relation h
      · exact keeps_trans (keeps_delete_term_relation _ _) (keeps_set_term_relation h)
      · exact keeps_trans (keeps_delete_term_relation _ _) (keeps_set_term_relation h)
      · exact keeps_accept_relation h
    · exact keeps_reject_relation h

theorem keeps_visitGt {g g1 : StringRelationGenerator}
    {vc : StringRelationGenerator → Option StringRelationGenerator} {id : Nat}
    {left_term right_term : Term} (h : visitGt g vc id left_term right_term = some g1) :
    ∃ g2, vc g = some g2 ∧ Keeps g2 g1 := by
  unfold visitGt at h
  cases hvc : vc g with
  | none => rw [hvc] at h; cases h
  | some g2 =>
    rw [hvc] at h
    refine ⟨g2, rfl, ?_⟩
    simp only [] at h
    split at h
    · split_ifs at h
      · exact keeps_reject_relation h
      · exact keeps_accept_relation h
    · exact keeps_reject_relation h

theorem keeps_visitGe {g g1 : StringRelationGenerator}
    {vc : StringRelationGenerator → Option StringRelationGenerator} {id : Nat}
    {left_term right_term : Term} (h : visitGe g vc id left_term right_term = some g1) :
    ∃ g2, vc g = some g2 ∧ Keeps g2 g1 := by
  unfold visitGe at h
  cases hvc : vc g with
  | none => rw [hvc] at h; cases h
  | some g2 =>
    rw [hvc] at h
    refine ⟨g2, rfl, ?_⟩
    simp only [] at h
    split at h
    · split_ifs at h
      · exact keeps_reject_relation h
      · exact keeps_accept_relation h
    · exact keeps_reject_relation h

theorem keeps_visitLt {g g1 : StringRelationGenerator}
    {vc : StringRelationGenerator → Option StringRelationGenerator} {id : Nat}
    {left_term right_term : Term} (h : visitLt g vc id left_term right_term = some g1) :
    ∃ g2, vc g = some g2 ∧ Keeps g2 g1 := by
  unfold visitLt at h
  cases hvc : vc g with
  | none => rw [hvc] at h; cases h
  | some g2 =>
    rw [hvc] at h
    refine ⟨g2, rfl, ?_⟩
    simp only [] at h
    split at h
    · split_ifs at h
      · exact keeps_reject_relation h
      · exact keeps_accept_relation h
    · exact keeps_reject_relation h

theorem keeps_visitLe {g g1 : StringRelationGenerator}
    {vc : StringRelationGenerator → Option StringRelationGenerator} {id : Nat}
    {left_term right_term : Term} (h : visitLe g vc id left_term right_term = some g1) :
    ∃ g2, vc g = some g2 ∧ Keeps g2 g1 := by
  unfold visitLe at h
  cases hvc : vc g with
  | none => rw [hvc] at h; cases h
  | some g2 =>
    rw [hvc] at h
    refine ⟨g2, rfl, ?_⟩
    simp only [] at h
    split at h
    · split_ifs at h
      · exact keeps_reject_relation h
      · exact keeps_accept_relation h
    · exact keeps_reject_relation h

theorem keeps_visitBegins {g g1 : StringRelationGenerator}
    {vc : StringRelationGenerator → Option StringRelationGenerator} {id : Nat}
    {subject_term search_term : Term}
    (h : visitBegins g vc id subject_term search_term = some g1) :
    ∃ g2, vc g = some g2 ∧ Keeps g2 g1 := by
  unfold visitBegins at h
  cases hvc : vc g with
  | none => rw [hvc] at h; cases h
  | some g2 =>
    rw [hvc] at h
    refine ⟨g2, rfl, ?_⟩
    simp only [] at h
    split at h
    · split_ifs at h
      · exact keeps_reject_relation h
      · exact keeps_accept_begins h
    · exact keeps_reject_relation h

theorem keeps_visitNotBegins {g g1 : StringRelationGenerator}
    {vc : StringRelationGenerator → Option StringRelationGenerator} {id : Nat}
    {subject_term search_term : Term}
    (h : visitNotBegins g vc id subject_term search_term = some g1) :
    ∃ g2, vc g = some g2 ∧ Keeps g2 g1 := by
  unfold visitNotBegins at h
  cases hvc : vc g with
  | none => rw [hvc] at h; cases h
  | some g2 =>
    rw [hvc] at h
    refine ⟨g2, rfl, ?_⟩
    simp only [] at h
    split at h
    · split_ifs at h
      · exact keeps_reject_relation h
      · exact keeps_accept_begins h
    · exact keeps_reject_relation h


theorem keeps_visitTermConstant {g g1 : StringRelationGenerator} {id : Nat} {value : String}
    {value_type : PrimitiveType} (h : visitTermConstant g id value value_type = some g1) :
    Keeps g g1 := by
  unfold visitTermConstant at h
  simp only [] at h
  split at h
  · simp only [Option.some.injEq] at h
    rw [← h]
    exact keeps_refl _
  · split at h
    · exact keeps_set_term_relation h
    · exact keeps_set_term_relation h
    · exact keeps_set_term_relation h

theorem visitAnd_loop_keeps (current_trackmap : Option Term_ptr) (term_list : List Term) :
    ∀ g : StringRelationGenerator,
      Keeps g (term_list.foldl
        (fun (g : StringRelationGenerator) term =>
          match g.get_term_relation term with
          | some term_relation =>
            { g with
              relations_ :=
                Function.update g.relations_ term.id
                  (some (some (term_relation.set_variable_trackmap current_trackmap))) }
          | none => g) g) := by
  induction term_list with
  | nil => intro g; exact keeps_refl g
  | cons t ts ih =>
    intro g
    rw [List.foldl_cons]
    refine keeps_trans ?_ (ih _)
    cases g.get_term_relation t <;> exact ⟨rfl, rfl, rfl, rfl⟩

theorem keeps_visitAnd {g g1 : StringRelationGenerator}
    {vc : StringRelationGenerator → Option StringRelationGenerator} {id : Nat}
    {term_list : List Term} (h : visitAnd g vc id term_list = some g1) :
    ∃ g2, vc { g with current_term_ := some id } = some g2 ∧ Keeps g2 g1 := by
  unfold visitAnd at h
  simp only [] at h
  cases hvc : vc { g with current_term_ := some id } with
  | none => rw [hvc] at h; cases h
  | some g2 =>
    rw [hvc] at h
    refine ⟨g2, rfl, ?_⟩
    simp only [] at h
    split_ifs at h
    · simp only [Option.some.injEq] at h
      rw [← h]
      exact keeps_refl _
    · simp only [Option.some.injEq] at h
      rw [← h]
      exact visitAnd_loop_keeps _ term_list g2

theorem walkSpec_refl (g : StringRelationGenerator) :
    WalkSpec g.current_term_ (fun _ => none) g g :=
  ⟨rfl, rfl, rfl, fun _ => rfl⟩

theorem walkSpec_trans {c1 c2 : Term_ptr} {p1 p2 : String → Option Term_ptr}
    {g g1 g2 : StringRelationGenerator} (h1 : WalkSpec c1 p1 g g1) (h2 : WalkSpec c2 p2 g1 g2) :
    WalkSpec c2 (fun name => laterParent (p2 name) (p1 name)) g g2 := by
  refine ⟨h2.1.trans h1.1, h2.2.1.trans h1.2.1, h2.2.2.1, ?_⟩
  intro name
  rw [h2.2.2.2 name, h1.2.2.2 name]
  show _ = laterParent (laterParent (p2 name) (p1 name)) _
  cases p2 name <;> rfl

theorem walkSpec_keeps {c : Term_ptr} {p : String → Option Term_ptr}
    {g g1 g2 : StringRelationGenerator} (h1 : WalkSpec c p g g1) (h2 : Keeps g1 g2) :
    WalkSpec c p g g2 := by
  refine ⟨h2.1.trans h1.1, h2.2.1.trans h1.2.1, h2.2.2.1.trans h1.2.2.1, ?_⟩
  intro name
  rw [h2.2.2.2, h1.2.2.2 name]

theorem walkSpec_of_keeps {g g1 : StringRelationGenerator} (h : Keeps g g1) :
    WalkSpec g.current_term_ (fun _ => none) g g1 :=
  walkSpec_keeps (walkSpec_refl g) h

/-- The visits of two operands in a row, followed by the rest of a visitor that
leaves current term and parent terms as they are. -/
theorem walkSpec_binary {g g2 g1 : StringRelationGenerator} {left_term right_term : Term}
    (ihl : ∀ g ga : StringRelationGenerator, visit g left_term = some ga →
      WalkSpec (currentAfter g.current_term_ left_term)
        (fun name => lastParent g.symbol_table_ name g.current_term_ left_term) g ga)
    (ihr : ∀ g ga : StringRelationGenerator, visit g right_term = some ga →
      WalkSpec (currentAfter g.current_term_ right_term)
        (fun name => lastParent g.symbol_table_ name g.current_term_ right_term) g ga)
    (hc : (visit g left_term).bind (fun g => visit g right_term) = some g2)
    (hk : Keeps g2 g1) :
    WalkSpec (currentAfter (currentAfter g.current_term_ left_term) right_term)
      (fun name =>
        laterParent
          (lastParent g.symbol_table_ name (currentAfter g.current_term_ left_term) right_term)
          (lastParent g.symbol_table_ name g.current_term_ left_term)) g g1 := by
  obtain ⟨ga, ha, hb⟩ := Option.bind_eq_some.1 hc
  have h1 := ihl g ga ha
  have h2 := ihr ga g2 hb
  rw [h1.1, h1.2.2.1] at h2
  exact walkSpec_keeps (walkSpec_trans h1 h2) hk

theorem walkSpec_visitQualIdentifier {g g1 : StringRelationGenerator} {id : Nat}
    {var_name : String} (h : visitQualIdentifier g id var_name = some g1) :
    WalkSpec g.current_term_
      (fun name => lastParent g.symbol_table_ name g.current_term_ (.QualIdentifier id var_name))
      g g1 := by
  unfold visitQualIdentifier at h
  simp only [lastParent]
  cases hv : g.symbol_table_.getVariable var_name with
  | none => rw [hv] at h; cases h
  | some var =>
    rw [hv] at h
    simp only [] at h ⊢
    cases hty : var.type <;> rw [hty] at h <;> simp only [] at h
    · have hk := keeps_set_term_relation h
      refine walkSpec_keeps ⟨rfl, rfl, rfl, ?_⟩ hk
      intro name
      simp [laterParent]
    · have hk := keeps_set_term_relation h
      refine walkSpec_keeps ⟨rfl, rfl, rfl, ?_⟩ hk
      intro name
      simp [laterParent]
    · obtain ⟨-, h1⟩ := set_term_relation_spec h
      rw [h1]
      refine ⟨rfl, rfl, rfl, ?_⟩
      intro name
      show Function.update g.variable_term_map_ var.name (some g.current_term_) name = _
      by_cases hn : var.name = name
      · subst hn
        simp [laterParent]
      · rw [Function.update_noteq (Ne.symm hn)]
        simp [laterParent, hn]

/-- The walk over a term, as to the current term and the parent terms: the
current term after the walk is `currentAfter`, and a variable has the term of
`lastParent` as its parent term, or its old parent term if the walk has not
visited it. -/
theorem visit_walkSpec (term : Term) :
    ∀ g g1 : StringRelationGenerator, visit g term = some g1 →
      WalkSpec (currentAfter g.current_term_ term)
        (fun name => lastParent g.symbol_table_ name g.current_term_ term) g g1 := by
  refine @Term.rec
    (fun term => ∀ g g1 : StringRelationGenerator, visit g term = some g1 →
      WalkSpec (currentAfter g.current_term_ term)
        (fun name => lastParent g.symbol_table_ name g.current_term_ term) g g1)
    (fun term_list => ∀ g g1 : StringRelationGenerator, visitList g term_list = some g1 →
      WalkSpec (currentAfterList g.current_term_ term_list)
        (fun name => lastParentList g.symbol_table_ name g.current_term_ term_list) g g1)
    ?_ ?_ ?_ ?_ ?_ ?_ ?_ ?_ ?_ ?_ ?_ ?_ ?_ ?_ ?_ ?_ ?_ term
  · intro id term_list ih g g1 h
    rw [visit] at h
    obtain ⟨g2, h2, hk⟩ := keeps_visitAnd h
    have h3 := walkSpec_keeps (ih _ _ h2) hk
    simp only [currentAfter, lastParent]
    exact ⟨h3.1, h3.2.1, h3.2.2.1, h3.2.2.2⟩
  · intro id term_list ih g g1 h
    rw [visit, visitOr] at h
    have h3 := ih _ _ h
    simp only [currentAfter, lastParent]
    exact ⟨h3.1, h3.2.1, h3.2.2.1, h3.2.2.2⟩
  · intro id term ih g g1 h
    rw [visit, visitNot] at h
    simp only [currentAfter, lastParent]
    exact ih _ _ h
  · intro id left_term right_term ihl ihr g g1 h
    rw [visit] at h
    obtain ⟨g2, h2, hk⟩ := keeps_visitEq h
    simp only [currentAfter, lastParent]
    exact walkSpec_binary ihl ihr h2 hk
  · intro id left_term right_term ihl ihr g g1 h
    rw [visit] at h
    obtain ⟨g2, h2, hk⟩ := keeps_visitNotEq h
    simp only [currentAfter, lastParent]
    exact walkSpec_binary ihl ihr h2 hk
  · intro id left_term right_term ihl ihr g g1 h
    rw [visit] at h
    obtain ⟨g2, h2, hk⟩ := keeps_visitGt h
    simp only [currentAfter, lastParent]
    exact walkSpec_binary ihl ihr h2 hk
  · intro id left_term right_term ihl ihr g g1 h
    rw [visit] at h
    obtain ⟨g2, h2, hk⟩ := keeps_visitGe h
    simp only [currentAfter, lastParent]
    exact walkSpec_binary ihl ihr h2 hk
  · intro id left_term right_term ihl ihr g g1 h
    rw [visit] at h
    obtain ⟨g2, h2, hk⟩ := keeps_visitLt h
    simp only [currentAfter, lastParent]
    exact walkSpec_binary ihl ihr h2 hk
  · intro id left_term right_term ihl ihr g g1 h
    rw [visit] at h
    obtain ⟨g2, h2, hk⟩ := keeps_visitLe h
    simp only [currentAfter, lastParent]
    exact walkSpec_binary ihl ihr h2 hk
  · intro id term_list _ g g1 h
    rw [visit, visitConcat] at h
    simp only [Option.some.injEq] at h
    rw [← h]
    simp only [currentAfter, lastParent]
    exact walkSpec_refl g
  · intro id subject_term search_term ihl ihr g g1 h
    rw [visit] at h
    obtain ⟨g2, h2, hk⟩ := keeps_visitBegins h
    simp only [currentAfter, lastParent]
    exact walkSpec_binary ihl ihr h2 hk
  · intro id subject_term search_term ihl ihr g g1 h
    rw [visit] at h
    obtain ⟨g2, h2, hk⟩ := keeps_visitNotBegins h
    simp only [currentAfter, lastParent]
    exact walkSpec_binary ihl ihr h2 hk
  · intro id var_name g g1 h
    rw [visit] at h
    rw [currentAfter]
    exact walkSpec_visitQualIdentifier h
  · intro id value value_type g g1 h
    rw [visit] at h
    simp only [currentAfter, lastParent]
    exact walkSpec_of_keeps (keeps_visitTermConstant h)
  · intro id children _ g g1 h
    rw [visit] at h
    simp only [Option.some.injEq] at h
    rw [← h]
    simp only [currentAfter, lastParent]
    exact walkSpec_refl g
  · intro g g1 h
    rw [visitList] at h
    simp only [Option.some.injEq] at h
    rw [← h]
    simp only [currentAfterList, lastParentList]
    exact walkSpec_refl g
  · intro term rest ih1 ih2 g g1 h
    rw [visitList] at h
    obtain ⟨ga, ha, hb⟩ := Option.bind_eq_some.1 h
    have h1 := ih1 g ga ha
    have h2 := ih2 ga g1 hb
    rw [h1.1, h1.2.2.1] at h2
    simp only [currentAfterList, lastParentList]
    exact walkSpec_trans h1 h2

theorem visitList_walkSpec (term_list : List Term) :
    ∀ g g1 : StringRelationGenerator, visitList g term_list = some g1 →
      WalkSpec (currentAfterList g.current_term_ term_list)
        (fun name => lastParentList g.symbol_table_ name g.current_term_ term_list) g g1 := by
  induction term_list with
  | nil =>
    intro g g1 h
    rw [visitList] at h
    simp only [Option.some.injEq] at h
    rw [← h]
    simp only [currentAfterList, lastParentList]
    exact walkSpec_refl g
  | cons term rest ih =>
    intro g g1 h
    rw [visitList] at h
    obtain ⟨ga, ha, hb⟩ := Option.bind_eq_some.1 h
    have h1 := visit_walkSpec term g ga ha
    have h2 := ih ga g1 hb
    rw [h1.1, h1.2.2.1] at h2
    simp only [currentAfterList, lastParentList]
    exact walkSpec_trans h1 h2

/-! ## The claims about the references of the relations -/

theorem get_set_variable_trackmap (relation : StringRelation) (trackmap : Option Term_ptr) :
    (relation.set_variable_trackmap trackmap).get_variable_trackmap = trackmap := by
  cases relation
  rfl

/-- One round of the loop of `visitAnd` gives the relation of its term the
reference to the track map. -/
theorem visitAnd_round_marks (current_trackmap : Option Term_ptr) (g : StringRelationGenerator)
    (term : Term) (relation : StringRelation)
    (h : (match g.get_term_relation term with
        | some term_relation =>
          { g with
            relations_ :=
              Function.update g.relations_ term.id
                (some (some (term_relation.set_variable_trackmap current_trackmap))) }
        | none => g).get_term_relation term = some relation) :
    relation.get_variable_trackmap = current_trackmap := by
  cases hrel : g.get_term_relation term with
  | none =>
    rw [hrel] at h
    simp only [] at h
    rw [hrel] at h
    cases h
  | some r =>
    rw [hrel] at h
    simp only [get_term_relation, Function.update_same, Option.some.injEq] at h
    rw [← h]
    exact get_set_variable_trackmap r current_trackmap

/-- One round of the loop of `visitAnd` keeps the references that are set. -/
theorem visitAnd_round_keeps (current_trackmap : Option Term_ptr) (g : StringRelationGenerator)
    (term t : Term)
    (ht : ∀ relation, g.get_term_relation t = some relation →
      relation.get_variable_trackmap = current_trackmap)
    (relation : StringRelation)
    (h : (match g.get_term_relation term with
        | some term_relation =>
          { g with
            relations_ :=
              Function.update g.relations_ term.id
                (some (some (term_relation.set_variable_trackmap current_trackmap))) }
        | none => g).get_term_relation t = some relation) :
    relation.get_variable_trackmap = current_trackmap := by
  cases hrel : g.get_term_relation term with
  | none =>
    rw [hrel] at h
    exact ht relation h
  | some r =>
    rw [hrel] at h
    by_cases hid : t.id = term.id
    · unfold get_term_relation at h
      rw [hid] at h
      simp only [Function.update_same, Option.some.injEq] at h
      rw [← h]
      exact get_set_variable_trackmap r current_trackmap
    · apply ht relation
      simp only [get_term_relation, Function.update_noteq hid] at h
      exact h

/-- After the loop of `visitAnd` every term of the list that has a relation
refers to the track map. -/
theorem visitAnd_loop_trackmap (current_trackmap : Option Term_ptr) (term_list : List Term) :
    ∀ g : StringRelationGenerator,
      (∀ t : Term,
        (∀ relation, g.get_term_relation t = some relation →
          relation.get_variable_trackmap = current_trackmap) →
        ∀ relation,
          (term_list.foldl
            (fun (g : StringRelationGenerator) term =>
              match g.get_term_relation term with
              | some term_relation =>
                { g with
                  relations_ :=
                    Function.update g.relations_ term.id
                      (some (some (term_relation.set_variable_trackmap current_trackmap))) }
              | none => g) g).get_term_relation t = some relation →
          relation.get_variable_trackmap = current_trackmap) ∧
      ∀ t ∈ term_list, ∀ relation,
        (term_list.foldl
          (fun (g : StringRelationGenerator) term =>
            match g.get_term_relation term with
            | some term_relation =>
              { g with
                relations_ :=
                  Function.update g.relations_ term.id
                    (some (some (term_relation.set_variable_trackmap current_trackmap))) }
            | none => g) g).get_term_relation t = some relation →
        relation.get_variable_trackmap = current_trackmap := by
  induction term_list with
  | nil =>
    intro g
    exact ⟨fun t ht relation h => ht relation h, fun t ht => by cases ht⟩
  | cons term rest ih =>
    intro g
    simp only [List.foldl_cons]
    obtain ⟨ih1, ih2⟩ := ih (match g.get_term_relation term with
      | some term_relation =>
        { g with
          relations_ :=
            Function.update g.relations_ term.id
              (some (some (term_relation.set_variable_trackmap current_trackmap))) }
      | none => g)
    constructor
    · intro t ht relation h
      exact ih1 t (fun r hr => visitAnd_round_keeps current_trackmap g term t ht r hr) relation h
    · intro t ht relation h
      rcases List.mem_cons.1 ht with rfl | hmem
      · exact ih1 t (fun r hr => visitAnd_round_marks current_trackmap g t r hr) relation h
      · exact ih2 t hmem relation h

/-- Claim C21, the counterexample: after the walk over
`(and (or (= a b)) (= c d))`, with the and-term a component, the relation of the
child `(= c d)` refers to the track map of the or-term, not to one of the
and-term, which has no track map. -/
theorem visitAnd_child_refers_to_or_term :
    everyTermIsComponent.is_component 0 = true ∧
    ∃ g1, visit (new (stringVariables ["a", "b", "c", "d"]) everyTermIsComponent)
        term_and_with_or = some g1 ∧
      (g1.get_term_relation
          (.Eq 5 (.QualIdentifier 6 "c") (.QualIdentifier 7 "d"))).map
        StringRelation.get_variable_trackmap = some (some (some 1)) ∧
      g1.get_term_trackmap (some 0) = none := by
  refine ⟨rfl, _, rfl, ?_, ?_⟩ <;> decide

/-- Claim C21, amended: after `visitAnd` of a component, every child term with a
relation refers to the track map of the term that is current when the children
have been visited (to no track map if that term has none).  That term is the
and-term itself when no child contains an and-term or an or-term; else it is
the and-term or or-term that the walk over the children entered last. -/
theorem visitAnd_children_trackmap (g g1 : StringRelationGenerator) (id : Nat)
    (term_list : List Term)
    (hcomponent : g.constraint_information_.is_component id = true)
    (h : visit g (.And id term_list) = some g1) :
    (∀ term ∈ term_list, ∀ relation, g1.get_term_relation term = some relation →
      relation.get_variable_trackmap
        = g1.get_term_trackmap (currentAfterList (some id) term_list)) ∧
    (componentKeysList term_list = [] → currentAfterList (some id) term_list = some id) := by
  rw [visit] at h
  unfold visitAnd at h
  simp only [] at h
  cases hc : visitList { g with current_term_ := some id } term_list with
  | none => rw [hc] at h; cases h
  | some g2 =>
    rw [hc] at h
    simp only [] at h
    have hspec := visitList_walkSpec term_list _ _ hc
    have hcur : g2.current_term_ = currentAfterList (some id) term_list := hspec.2.2.1
    have hci : g2.constraint_information_ = g.constraint_information_ := hspec.2.1
    constructor
    · rw [hci, hcomponent] at h
      simp only [Bool.not_true, Bool.false_eq_true, if_false, Option.some.injEq] at h
      intro term hterm relation hrel
      rw [← h] at hrel ⊢
      have h1 := (visitAnd_loop_trackmap (g2.get_term_trackmap g2.current_term_) term_list
        g2).2 term hterm relation hrel
      rw [h1, ← hcur]
      unfold get_term_trackmap
      rw [(visitAnd_loop_same _ term_list g2).1]
    · intro hkeys
      have hw := visitList_walk term_list _ _ hc
      rw [hkeys] at hw
      rcases hw.1 with h1 | h1
      · rw [← hcur, h1]
      · cases h1

theorem visitAnd_children_trackmap_witness :
    ∃ g1, visit (new (stringVariables ["a", "b", "c", "d"]) everyTermIsComponent)
        term_flat_component = some g1 ∧
      g1.get_term_trackmap (some 0) = some (some 0) ∧
      (∀ term ∈ [Term.Eq 1 (.QualIdentifier 2 "a") (.QualIdentifier 3 "b"),
          .Lt 4 (.QualIdentifier 5 "a") (.TermConstant 6 "s" .STRING),
          .Eq 7 (.QualIdentifier 8 "a")
            (.Concat 9 [.QualIdentifier 10 "c", .TermConstant 11 "y" .STRING]),
          .Begins 12 (.QualIdentifier 13 "b") (.QualIdentifier 14 "d")],
        ∀ relation, g1.get_term_relation term = some relation →
          relation.get_variable_trackmap = g1.get_term_trackmap (some 0)) :=
  ⟨_, rfl, by decide,
    (visitAnd_children_trackmap (new (stringVariables ["a", "b", "c", "d"]) everyTermIsComponent)
      _ 0
      [.Eq 1 (.QualIdentifier 2 "a") (.QualIdentifier 3 "b"),
        .Lt 4 (.QualIdentifier 5 "a") (.TermConstant 6 "s" .STRING),
        .Eq 7 (.QualIdentifier 8 "a")
          (.Concat 9 [.QualIdentifier 10 "c", .TermConstant 11 "y" .STRING]),
        .Begins 12 (.QualIdentifier 13 "b") (.QualIdentifier 14 "d")] rfl rfl).1⟩

/-- Claim C22, the failing input: on `(!= a "s")` and on `(!= "s" a)` `visitNotEq`
records `nullptr` for the term and deletes the relation of the constant only:
the variable `a` keeps its `STRING_VAR` relation.  On `(= a "literal")` `visitEq`
deletes the relations of both operands. -/
theorem visitNotEq_keeps_operand_relation :
    (∃ g1, visit (new (stringVariables ["a"]) everyTermIsComponent) term_a_neq_constant
        = some g1 ∧
      g1.relations_ 0 = some none ∧
      g1.get_term_relation (.QualIdentifier 1 "a")
        = some (StringRelation.leaf .STRING_VAR "a") ∧
      g1.relations_ 2 = none) ∧
    (∃ g1, visit (new (stringVariables ["a"]) everyTermIsComponent) term_constant_neq_a
        = some g1 ∧
      g1.relations_ 0 = some none ∧
      g1.relations_ 1 = none ∧
      g1.get_term_relation (.QualIdentifier 2 "a")
        = some (StringRelation.leaf .STRING_VAR "a")) ∧
    ∃ g1, visit (new (stringVariables ["a"]) everyTermIsComponent) term_a_eq_literal
        = some g1 ∧
      g1.relations_ 0 = some none ∧
      g1.relations_ 1 = none ∧
      g1.relations_ 2 = none :=
  ⟨⟨_, rfl, rfl, rfl, rfl⟩, ⟨_, rfl, rfl, rfl, rfl⟩, ⟨_, rfl, rfl, rfl, rfl⟩⟩

/-- Claim C23, the counterexample: in `(or (and (= a b)) (and (= a c)))` the
variable `a` is met first under the first and-term, which is its parent term
after the walk over that and-term alone; after the walk over the whole term
its parent term is the second and-term. -/
theorem get_parent_term_of_shared_variable :
    (visit (new (stringVariables ["a", "b", "c"]) everyTermIsComponent)
        (.And 1 [.Eq 2 (.QualIdentifier 3 "a") (.QualIdentifier 4 "b")])).map
      (fun g => g.get_parent_term ⟨"a", .STRING⟩) = some (some 1) ∧
    (visit (new (stringVariables ["a", "b", "c"]) everyTermIsComponent)
        term_or_with_shared_variable).map
      (fun g => g.get_parent_term ⟨"a", .STRING⟩) = some (some 5) := by
  constructor <;> decide

/-- Claim C23, amended: after the walk over a term, `get_parent_term` of a
variable is the term that was current when a qual-identifier term of the
variable was visited last; a variable that the walk has not visited as a
string variable keeps its parent term. -/
theorem visit_parent_term (term : Term) (g g1 : StringRelationGenerator)
    (h : visit g term = some g1) (var : Variable) :
    g1.get_parent_term var =
      match lastParent g.symbol_table_ var.name g.current_term_ term with
      | some parent => parent
      | none => g.get_parent_term var := by
  have hspec : g1.variable_term_map_ var.name
      = laterParent (lastParent g.symbol_table_ var.name g.current_term_ term)
        (g.variable_term_map_ var.name) := (visit_walkSpec term g g1 h).2.2.2 var.name
  unfold get_parent_term
  rw [hspec]
  cases lastParent g.symbol_table_ var.name g.current_term_ term <;> rfl

theorem visit_parent_term_witness :
    ∃ g1, visit (new (stringVariables ["a", "b", "c"]) everyTermIsComponent)
        term_or_with_shared_variable = some g1 ∧
      lastParent (stringVariables ["a", "b", "c"]) "a" none term_or_with_shared_variable
        = some (some 5) ∧
      g1.get_parent_term ⟨"a", .STRING⟩ =
        match lastParent (new (stringVariables ["a", "b", "c"])
            everyTermIsComponent).symbol_table_ (Variable.mk "a" .STRING).name
          (new (stringVariables ["a", "b", "c"]) everyTermIsComponent).current_term_
          term_or_with_shared_variable with
        | some parent => parent
        | none => (new (stringVariables ["a", "b", "c"])
            everyTermIsComponent).get_parent_term ⟨"a", .STRING⟩ :=
  ⟨_, rfl, by decide,
    visit_parent_term term_or_with_shared_variable
      (new (stringVariables ["a", "b", "c"]) everyTermIsComponent) _ rfl ⟨"a", .STRING⟩⟩

/-- Claim C24, the failing input: the second visit of a term constant whose
primitive type is neither string nor regex ends in the fatal error of
`set_term_relation`, because the first visit has stored `nullptr` for it and the
test at the start of `visitTermConstant` takes `nullptr` for a missing entry.
For a string and for a regex constant the second visit returns and changes
nothing. -/
theorem visitTermConstant_revisit :
    (∀ (g g1 : StringRelationGenerator) (id : Nat) (value : String)
        (value_type : PrimitiveType), value_type ≠ .OTHER →
      visitTermConstant g id value value_type = some g1 →
      visitTermConstant g1 id value value_type = some g1) ∧
    (∀ (g : StringRelationGenerator) (id : Nat) (value : String), g.relations_ id = none →
      ∃ g1, visitTermConstant g id value .OTHER = some g1 ∧
        g1.relations_ id = some none ∧
        visitTermConstant g1 id value .OTHER = none) ∧
    (visit (new (stringVariables []) everyTermIsComponent)
        (.TermConstant 0 "5" .OTHER)).isSome = true ∧
    (visitList (new (stringVariables []) everyTermIsComponent)
        [.TermConstant 0 "5" .OTHER, .TermConstant 0 "5" .OTHER]).isNone = true := by
  refine ⟨?_, ?_, by decide, by decide⟩
  · intro g g1 id value value_type hty h
    have hsome : ∃ r, g1.get_term_relation (.TermConstant id value value_type) = some r := by
      unfold visitTermConstant at h
      simp only [] at h
      cases hrel : g.get_term_relation (.TermConstant id value value_type) with
      | some r =>
        rw [hrel] at h
        simp only [Option.some.injEq] at h
        rw [← h]
        exact ⟨r, hrel⟩
      | none =>
        rw [hrel] at h
        cases value_type with
        | STRING =>
          simp only [] at h
          obtain ⟨g2, h2, -, h3⟩ := set_term_relation_flat g _ _
            (by
              unfold set_term_relation at h
              cases hk : g.relations_ (Term.TermConstant id value .STRING).id with
              | none => rfl
              | some x => rw [hk] at h; cases h)
          rw [h] at h2
          cases h2
          exact ⟨_, h3⟩
        | REGEX =>
          simp only [] at h
          obtain ⟨g2, h2, -, h3⟩ := set_term_relation_flat g _ _
            (by
              unfold set_term_relation at h
              cases hk : g.relations_ (Term.TermConstant id value .REGEX).id with
              | none => rfl
              | some x => rw [hk] at h; cases h)
          rw [h] at h2
          cases h2
          exact ⟨_, h3⟩
        | OTHER => exact absurd rfl hty
    obtain ⟨r, hr⟩ := hsome
    unfold visitTermConstant
    simp only [hr]
  · intro g id value hfresh
    obtain ⟨g1, h1, h2, -⟩ := set_term_relation_fresh g (.TermConstant id value .OTHER) none
      hfresh
    have hnone : g.get_term_relation (.TermConstant id value .OTHER) = none :=
      get_term_relation_of_relations g _ hfresh
    have hnone1 : g1.get_term_relation (.TermConstant id value .OTHER) = none := by
      unfold get_term_relation
      rw [h2]
    refine ⟨g1, ?_, h2, ?_⟩
    · unfold visitTermConstant
      simp only [hnone]
      exact h1
    · unfold visitTermConstant
      simp only [hnone1]
      unfold set_term_relation
      rw [h2]

/-! ## The literal operand of a begins term -/

/-- Claim C38, the failing input: on `(and (begins a "b") (notbegins c "d"))` with
the string variables `a`, `b`, `c`, `d` declared, both terms get a relation whose
search operand is the constant, and the walk registers `b` and `d` in the track
map although no operand is the variable `b` or `d`: `visitBegins` and
`visitNotBegins` look up the text of the literal as the name of a variable.  The
comparison visitors look up an operand only when its relation is a `STRING_VAR`:
on `(and (< a "b"))` only `a` is registered. -/
theorem visitBegins_registers_literal :
    (∃ g1, visit (new (stringVariables ["a", "b", "c", "d"]) everyTermIsComponent)
        term_begins_literal = some g1 ∧
      (g1.relations_ 1).map (Option.map fun relation =>
          (relation.get_type, relation.get_right.map StringRelation.get_type))
        = some (some (.BEGINS, some .STRING_CONSTANT)) ∧
      (g1.relations_ 4).map (Option.map fun relation =>
          (relation.get_type, relation.get_right.map StringRelation.get_type))
        = some (some (.NOTBEGINS, some .STRING_CONSTANT)) ∧
      g1.term_trackmap_table_ (some 0) = some [("a", 0), ("b", 1), ("c", 2), ("d", 3)]) ∧
    ∃ g1, visit (new (stringVariables ["a", "b", "c", "d"]) everyTermIsComponent)
        term_lt_literal = some g1 ∧
      (g1.relations_ 1).map (Option.map StringRelation.get_type) = some (some .LT) ∧
      g1.term_trackmap_table_ (some 0) = some [("a", 0)] := by
  refine ⟨⟨_, rfl, ?_, ?_, ?_⟩, ⟨_, rfl, ?_, ?_⟩⟩ <;> decide

end StringRelationGenerator

end Solver

end Vlab
